import Mathlib

/-!
Voxel: a shallow embedding of the spatial index, the chunk octree, the thread pool, the mesh
codec and the orchestrator's scheduling.

Sources embedded here:

* `Source/Voxel/Private/Octree.cpp` (`FOctree`): ids, sizes, containment.
* `Source/Voxel/Private/VoxelRender/Private/ChunkOctree.cpp` (`FChunkOctree`): the LOD state
  machine and the point lookup.
* `Source/Voxel/Private/VoxelThreadPool.h`, `VoxelThreadPool.cpp` (`FVoxelThreadPool`,
  `FSlotData`): the per-slot task reserve and the slot counters.
* `Source/Voxel/Private/VoxelRender/Private/VoxelMeshEncoder.cpp` (`FVoxelMeshEncoder`): the
  mesh handed to the draco encoder and the rebuild loop of the decoder.
* `Source/Voxel/Private/VoxelRender/Private/VoxelMeshBuilder.cpp`,
  `Source/Voxel/Classes/VoxelProceduralMeshTypes.h`: mesh sections, LOD groups, `ApplySection`.
* `Source/Voxel/Private/VoxelRender/Private/VoxelRender.cpp` (`FVoxelRender`): the mode flags,
  `ApplyMeshSection`, and the update queues of the live generation.
* `Source/Voxel/Private/VoxelRender/Private/VoxelThread.cpp`, `VoxelChunkNode.cpp`: a chunk's
  mesh job and its cancellation.

Conventions: `uint64` values are naturals reduced modulo `2 ^ 64` after every arithmetic
operation, `int32` values are integers wrapped into `[-2 ^ 31, 2 ^ 31)` after every addition or
subtraction, `uint8` depths are naturals. A failed `check(...)` is the error `checkFailed`.
-/

namespace Voxel

/-! ## Machine integers -/

/-- Two's complement wrap of an integer into the `int32` range. -/
def wrapInt32 (x : Int) : Int := (x + 2 ^ 31) % 2 ^ 32 - 2 ^ 31

/-! ## `FOctree` ids (Octree.cpp) -/

/-- Modelled from the spec: the helper `IntPow9` is declared in `Octree.h`, which is not among
the sources. The spec describes it as `9^level` in unsigned 64-bit arithmetic. -/
def IntPow9 (Power : Nat) : Nat := 9 ^ Power % 2 ^ 64

namespace FOctree

/-- `FOctree::GetTopIdFromDepth`. -/
def GetTopIdFromDepth (Depth : Nat) : Nat := IntPow9 Depth

/-- `FOctree::GetIDsAt(uint64 ID, uint8 LOD, uint64 IDs[8])`: the eight child ids, written to a
fixed array. -/
def GetIDsAtFixed (ID LOD : Nat) : List Nat :=
  let Pow := IntPow9 LOD
  [ (ID + (1 * Pow) % 2 ^ 64) % 2 ^ 64
  , (ID + (2 * Pow) % 2 ^ 64) % 2 ^ 64
  , (ID + (3 * Pow) % 2 ^ 64) % 2 ^ 64
  , (ID + (4 * Pow) % 2 ^ 64) % 2 ^ 64
  , (ID + (5 * Pow) % 2 ^ 64) % 2 ^ 64
  , (ID + (6 * Pow) % 2 ^ 64) % 2 ^ 64
  , (ID + (7 * Pow) % 2 ^ 64) % 2 ^ 64
  , (ID + (8 * Pow) % 2 ^ 64) % 2 ^ 64 ]

/-- `FOctree::GetIDsAt(uint64 ID, uint8 LOD, TArray<uint64>& IDs)`: the eight child ids, each
appended (`Emplace`) to the array. -/
def GetIDsAtEmplace (ID LOD : Nat) (IDs : List Nat) : List Nat :=
  IDs ++ GetIDsAtFixed ID LOD

/-- `FOctree::GetIDsAt(uint64 ID, uint8 Depth, uint8 EndDepth, TArray<uint64>& OutIDs)`.
The recursion is on `Depth`: the branch `Depth > EndDepth` calls itself with `LOD = Depth - 1`.
For `Depth = 0` the test `Depth > EndDepth` is false, which is the first equation. -/
def GetIDsAt : Nat → Nat → Nat → List Nat → List Nat
  | ID, 0, _, OutIDs => OutIDs ++ [ID]
  | ID, LOD + 1, EndDepth, OutIDs =>
    if LOD + 1 > EndDepth then
      if LOD = EndDepth then
        GetIDsAtEmplace ID LOD OutIDs
      else
        let IDs := GetIDsAtFixed ID LOD
        let o0 := GetIDsAt (IDs.getD 0 0) LOD EndDepth OutIDs
        let o1 := GetIDsAt (IDs.getD 1 0) LOD EndDepth o0
        let o2 := GetIDsAt (IDs.getD 2 0) LOD EndDepth o1
        let o3 := GetIDsAt (IDs.getD 3 0) LOD EndDepth o2
        let o4 := GetIDsAt (IDs.getD 4 0) LOD EndDepth o3
        let o5 := GetIDsAt (IDs.getD 5 0) LOD EndDepth o4
        let o6 := GetIDsAt (IDs.getD 6 0) LOD EndDepth o5
        GetIDsAt (IDs.getD 7 0) LOD EndDepth o6
    else
      OutIDs ++ [ID]

/-- The same three functions over unbounded naturals: what the id scheme computes when no
operation is reduced modulo `2 ^ 64`. Used to state that the 64-bit results are exact. -/
def GetIDsAtFixedExact (ID LOD : Nat) : List Nat :=
  (List.range 8).map (fun k => ID + (k + 1) * 9 ^ LOD)

/-- Unbounded counterpart of `GetIDsAt`. -/
def GetIDsAtExact : Nat → Nat → Nat → List Nat → List Nat
  | ID, 0, _, OutIDs => OutIDs ++ [ID]
  | ID, LOD + 1, EndDepth, OutIDs =>
    if LOD + 1 > EndDepth then
      if LOD = EndDepth then
        OutIDs ++ GetIDsAtFixedExact ID LOD
      else
        (GetIDsAtFixedExact ID LOD).foldl (fun out c => GetIDsAtExact c LOD EndDepth out) OutIDs
    else
      OutIDs ++ [ID]

end FOctree

/-- The `k`-th child id (`k` from 0) of `ID` at level `LOD`, as `GetIDsAtFixed` computes it. -/
def childId (ID LOD k : Nat) : Nat := (ID + ((k + 1) * IntPow9 LOD) % 2 ^ 64) % 2 ^ 64

/-- The recursive enumeration started on an empty array. -/
def ids (ID Depth EndDepth : Nat) : List Nat := FOctree.GetIDsAt ID Depth EndDepth []

/-! ## `FOctree` geometry (Octree.cpp) -/

/-- The engine's `FIntVector`: three `int32` components. -/
structure FIntVector where
  X : Int
  Y : Int
  Z : Int
deriving DecidableEq, Repr

/-- `FIntVector::operator+`: componentwise `int32` addition. -/
def FIntVector.add (a b : FIntVector) : FIntVector :=
  ⟨wrapInt32 (a.X + b.X), wrapInt32 (a.Y + b.Y), wrapInt32 (a.Z + b.Z)⟩

/-- `FIntVector::operator-`: componentwise `int32` subtraction. -/
def FIntVector.sub (a b : FIntVector) : FIntVector :=
  ⟨wrapInt32 (a.X - b.X), wrapInt32 (a.Y - b.Y), wrapInt32 (a.Z - b.Z)⟩

/-- An integer that an `int32` can hold. -/
def isInt32 (x : Int) : Prop := -2 ^ 31 ≤ x ∧ x < 2 ^ 31

instance (x : Int) : Decidable (isInt32 x) := by unfold isInt32; infer_instance

/-- A vector whose three components are `int32` values. -/
def FIntVector.isInt32 (v : FIntVector) : Prop :=
  Voxel.isInt32 v.X ∧ Voxel.isInt32 v.Y ∧ Voxel.isInt32 v.Z

instance (v : FIntVector) : Decidable v.isInt32 := by unfold FIntVector.isInt32; infer_instance

/-- How an operation ends when it does not return: a failed `check(...)`, the model's recursion
budget being used up, the dereference of a null pointer, an array access past the end of the
array, or a read past the end of an archive (after which the values read are indeterminate). -/
inductive Err where
  | checkFailed
  | outOfFuel
  | nullDereference
  | indexOutOfRange
  | archiveError
deriving DecidableEq, Repr

/-- The engine's `check(Condition)`. -/
def check (b : Bool) : Except Err Unit :=
  if b then pure () else throw Err.checkFailed

/-- What a node reads from its `FVoxelRender* Render` during one call: the world's `GetLOD()` and
the answers of `HasMesh`. `Render->UpdateChunk` enqueues the chunk and counts a task on the
render's thread slot; it leaves the octree untouched and has no counterpart here. -/
structure FVoxelRender where
  LOD : Int
  HasMesh : Nat → Bool

/-- The part of `FVoxelChunkNode` fixed by its constructor (VoxelChunkNode.cpp): mesh id, depth
and offset of the owning node. -/
structure FVoxelChunkNode where
  MeshId : Nat
  Depth : Nat
  Offset : FIntVector
deriving DecidableEq, Repr

/-- `FChunkOctree` together with its base `FOctree`: `Position`, `Depth`, `Id`, `bHasChilds`
(base class), then `Childs`, `bHasChunk`, `MeshId`, `VoxelChunk`. -/
inductive FChunkOctree where
  | mk (Position : FIntVector) (Depth : Nat) (Id : Nat) (bHasChilds : Bool)
      (Childs : List FChunkOctree) (bHasChunk : Bool) (MeshId : Nat)
      (VoxelChunk : Option FVoxelChunkNode) : FChunkOctree

namespace FChunkOctree

def Position : FChunkOctree → FIntVector
  | mk p _ _ _ _ _ _ _ => p

def Depth : FChunkOctree → Nat
  | mk _ d _ _ _ _ _ _ => d

def Id : FChunkOctree → Nat
  | mk _ _ i _ _ _ _ _ => i

def bHasChilds : FChunkOctree → Bool
  | mk _ _ _ b _ _ _ _ => b

def Childs : FChunkOctree → List FChunkOctree
  | mk _ _ _ _ c _ _ _ => c

def bHasChunk : FChunkOctree → Bool
  | mk _ _ _ _ _ b _ _ => b

def MeshId : FChunkOctree → Nat
  | mk _ _ _ _ _ _ m _ => m

def VoxelChunk : FChunkOctree → Option FVoxelChunkNode
  | mk _ _ _ _ _ _ _ v => v

/-- `FOctree::Size`: `16 << Depth`, an `int`. The constructor's `check(Depth <= 19)` keeps the
shift below `2 ^ 23`, so no wrap is applied. -/
def SizeAt (Depth : Nat) : Int := ((16 <<< Depth : Nat) : Int)

/-- `FOctree::Size` of a node. -/
def Size (t : FChunkOctree) : Int := SizeAt t.Depth

/-- `FOctree::GetMinimalCornerPosition`. -/
def GetMinimalCornerPosition (t : FChunkOctree) : FIntVector :=
  t.Position.sub ⟨t.Size / 2, t.Size / 2, t.Size / 2⟩

/-- `FOctree::GetMaximalCornerPosition`. -/
def GetMaximalCornerPosition (t : FChunkOctree) : FIntVector :=
  t.Position.add ⟨t.Size / 2, t.Size / 2, t.Size / 2⟩

/-- `FOctree::IsLeaf`. -/
def IsLeaf (t : FChunkOctree) : Bool := !t.bHasChilds

/-- The test of `FOctree::IsInOctree` on centre `Position` and size `Size`. -/
def inBox (Position : FIntVector) (Size : Int) (p : FIntVector) : Bool :=
  decide (wrapInt32 (Position.X - Size / 2) ≤ p.X) && decide (p.X < wrapInt32 (Position.X + Size / 2))
    && decide (wrapInt32 (Position.Y - Size / 2) ≤ p.Y) && decide (p.Y < wrapInt32 (Position.Y + Size / 2))
    && decide (wrapInt32 (Position.Z - Size / 2) ≤ p.Z) && decide (p.Z < wrapInt32 (Position.Z + Size / 2))

/-- `FOctree::IsInOctree(X, Y, Z)`. -/
def IsInOctree (t : FChunkOctree) (p : FIntVector) : Bool :=
  inBox t.Position t.Size p

/-- `FOctree::operator==`: the `check` compares id equality with equality of position and depth;
the result is id equality. -/
def opEq (a b : FChunkOctree) : Except Err Bool := do
  check (decide (a.Id = b.Id) == (decide (a.Position = b.Position) && decide (a.Depth = b.Depth)))
  pure (decide (a.Id = b.Id))

/-- The constructors `FOctree::FOctree` and `FChunkOctree::FChunkOctree`: `check(Depth <= 19)`;
the new node has no children and no chunk. The `Render` pointer is taken to be non-null. -/
def new (Position : FIntVector) (Depth : Nat) (Id : Nat) (MeshId : Nat) :
    Except Err FChunkOctree := do
  check (decide (Depth ≤ 19))
  pure (mk Position Depth Id false [] false MeshId none)

/-- `FChunkOctree::AssignMeshId`, as the new value of `MeshId`. -/
def AssignMeshId (R : FVoxelRender) (Id MeshId : Nat) : Nat :=
  if MeshId = 0 then (if R.HasMesh Id then Id else 0) else MeshId

/-- `FChunkOctree::Load`. -/
def Load (R : FVoxelRender) : FChunkOctree → Except Err FChunkOctree
  | mk Position Depth Id bHasChilds Childs bHasChunk MeshId VoxelChunk => do
    check (!VoxelChunk.isSome)
    check (!bHasChunk)
    check (!bHasChilds)
    let MeshId := AssignMeshId R Id MeshId
    let Offset := Position.sub ⟨SizeAt Depth / 2, SizeAt Depth / 2, SizeAt Depth / 2⟩
    let VoxelChunk := some (FVoxelChunkNode.mk MeshId Depth Offset)
    pure (mk Position Depth Id bHasChilds Childs true MeshId VoxelChunk)

/-- `FChunkOctree::Unload`. -/
def Unload : FChunkOctree → Except Err FChunkOctree
  | mk Position Depth Id bHasChilds Childs bHasChunk MeshId VoxelChunk => do
    check VoxelChunk.isSome
    check bHasChunk
    check (!bHasChilds)
    pure (mk Position Depth Id bHasChilds Childs false MeshId none)

/-- `Childs.Add(...)` on `TArray<FChunkOctree*, TFixedAllocator<8>>` (ChunkOctree.h): the fixed
allocator holds at most 8 elements and asserts beyond that. -/
def addChild (Childs : List FChunkOctree) (c : FChunkOctree) : Except Err (List FChunkOctree) := do
  check (decide (Childs.length < 8))
  pure (Childs ++ [c])

/-- `FChunkOctree::CreateChilds`. -/
def CreateChilds (R : FVoxelRender) : FChunkOctree → Except Err FChunkOctree
  | mk Position Depth Id bHasChilds Childs bHasChunk MeshId VoxelChunk => do
    check (!bHasChilds)
    check (!bHasChunk)
    check (Depth != 0)
    let d : Int := SizeAt Depth / 4
    let LOD := Depth - 1
    let MeshId := AssignMeshId R Id MeshId
    let IDs := FOctree.GetIDsAtFixed Id LOD
    let Childs ← addChild Childs (← new (Position.add ⟨-d, -d, -d⟩) LOD (IDs.getD 0 0) MeshId)
    let Childs ← addChild Childs (← new (Position.add ⟨d, -d, -d⟩) LOD (IDs.getD 1 0) MeshId)
    let Childs ← addChild Childs (← new (Position.add ⟨-d, d, -d⟩) LOD (IDs.getD 2 0) MeshId)
    let Childs ← addChild Childs (← new (Position.add ⟨d, d, -d⟩) LOD (IDs.getD 3 0) MeshId)
    let Childs ← addChild Childs (← new (Position.add ⟨-d, -d, d⟩) LOD (IDs.getD 4 0) MeshId)
    let Childs ← addChild Childs (← new (Position.add ⟨d, -d, d⟩) LOD (IDs.getD 5 0) MeshId)
    let Childs ← addChild Childs (← new (Position.add ⟨-d, d, d⟩) LOD (IDs.getD 6 0) MeshId)
    let Childs ← addChild Childs (← new (Position.add ⟨d, d, d⟩) LOD (IDs.getD 7 0) MeshId)
    pure (mk Position Depth Id true Childs bHasChunk MeshId VoxelChunk)

mutual
/-- `FChunkOctree::Destroy`, run by the destructor: `Unload` when a chunk is held, `DestroyChilds`
when there are children, each with its checks. Nothing of the node survives. -/
def Destroy : FChunkOctree → Except Err Unit
  | mk _ _ _ bHasChilds Childs bHasChunk _ VoxelChunk => do
    if bHasChunk then
      check VoxelChunk.isSome
      check bHasChunk
      check (!bHasChilds)
    if bHasChilds then
      check (!false)
      check bHasChilds
      check (decide (Childs.length = 8))
      destroyAll Childs
/-- The loop `for (Child : Childs) delete Child;` of `DestroyChilds`. -/
def destroyAll : List FChunkOctree → Except Err Unit
  | [] => pure ()
  | c :: cs => do
    Destroy c
    destroyAll cs
end

/-- `FChunkOctree::DestroyChilds`. -/
def DestroyChilds : FChunkOctree → Except Err FChunkOctree
  | mk Position Depth Id bHasChilds Childs bHasChunk MeshId VoxelChunk => do
    check (!bHasChunk)
    check bHasChilds
    check (decide (Childs.length = 8))
    destroyAll Childs
    pure (mk Position Depth Id false [] bHasChunk MeshId VoxelChunk)

/-- Replace the children of a node. -/
def setChilds (t : FChunkOctree) (cs : List FChunkOctree) : FChunkOctree :=
  mk t.Position t.Depth t.Id t.bHasChilds cs t.bHasChunk t.MeshId t.VoxelChunk

/-- `FChunkOctree::UpdateLOD`. The first argument bounds the depth of the recursion; a node of
depth `d` needs `d + 1`. The loops `for (i < 8) Childs[i]->UpdateLOD()` run on a node whose
`Childs` holds exactly 8 elements (by the entry check, or because `CreateChilds` has just filled
the fixed array), so they visit every element of `Childs` in order. -/
def UpdateLOD (R : FVoxelRender) : Nat → FChunkOctree → Except Err FChunkOctree
  | 0, _ => throw Err.outOfFuel
  | fuel + 1, t => do
    check (t.bHasChunk == t.VoxelChunk.isSome)
    check (t.bHasChilds == decide (t.Childs.length = 8))
    check (!(t.bHasChilds && t.bHasChunk))
    if t.Depth = 0 then
      if !t.bHasChunk then Load R t else pure t
    else
      let MinLOD : Int := R.LOD
      let MaxLOD : Int := MinLOD
      if MinLOD < (t.Depth : Int) ∧ (t.Depth : Int) < MaxLOD then
        if t.bHasChilds then
          let cs ← t.Childs.mapM (UpdateLOD R fuel)
          pure (t.setChilds cs)
        else if !t.bHasChunk then Load R t
        else pure t
      else if MaxLOD < (t.Depth : Int) then
        let t ← if t.bHasChunk then Unload t else pure t
        let t ← if !t.bHasChilds then CreateChilds R t else pure t
        if t.bHasChilds then
          let cs ← t.Childs.mapM (UpdateLOD R fuel)
          pure (t.setChilds cs)
        else pure t
      else
        let t ← if t.bHasChilds then DestroyChilds t else pure t
        if !t.bHasChunk then Load R t else pure t

/-- `FChunkOctree::GetChild`. `Childs[i]` is a checked array access. -/
def GetChild (t : FChunkOctree) (PointPosition : FIntVector) : Except Err FChunkOctree := do
  check t.bHasChilds
  check (t.IsInOctree PointPosition)
  let i := (if PointPosition.X ≥ t.Position.X then 1 else 0)
    + (if PointPosition.Y ≥ t.Position.Y then 2 else 0)
    + (if PointPosition.Z ≥ t.Position.Z then 4 else 0)
  match t.Childs.get? i with
  | some c => pure c
  | none => throw Err.checkFailed

/-- The loop `while (!Current->bHasChunk) Current = Current->GetChild(PointPosition);` of
`GetLeaf`. The first argument bounds the number of times the loop test is evaluated. -/
def GetLeafLoop (PointPosition : FIntVector) : Nat → FChunkOctree → Except Err FChunkOctree
  | 0, _ => throw Err.outOfFuel
  | fuel + 1, Current =>
    if !Current.bHasChunk then do
      let c ← Current.GetChild PointPosition
      GetLeafLoop PointPosition fuel c
    else pure Current

/-- `FChunkOctree::GetLeaf`. With `fuel = n + 1` the loop may descend at most `n` times. -/
def GetLeaf (t : FChunkOctree) (PointPosition : FIntVector) (fuel : Nat) :
    Except Err FChunkOctree := do
  check (t.bHasChunk == t.VoxelChunk.isSome)
  check (t.bHasChilds == decide (t.Childs.length = 8))
  let Current ← GetLeafLoop PointPosition fuel t
  check Current.bHasChunk
  pure Current

mutual
/-- Every node of a tree, the root first. -/
def nodes : FChunkOctree → List FChunkOctree
  | mk p d i hc cs hk m v => mk p d i hc cs hk m v :: nodesAll cs
/-- Every node of a list of trees. -/
def nodesAll : List FChunkOctree → List FChunkOctree
  | [] => []
  | c :: cs => nodes c ++ nodesAll cs
end

/-- The number of leaves of a tree: nodes holding a loaded chunk. -/
def leafCount (t : FChunkOctree) : Nat := (t.nodes.filter (fun n => n.bHasChunk)).length

end FChunkOctree

/-! ## Vocabulary for the properties of the chunk octree -/

namespace FChunkOctree

/-- A sequence of `UpdateLOD` calls on the root, one per element of `Rs` (the render state read
by each call), each with the same recursion budget. -/
def UpdateLODs (fuel : Nat) : List FVoxelRender → FChunkOctree → Except Err FChunkOctree
  | [], t => pure t
  | R :: Rs, t => do
    let t ← UpdateLOD R fuel t
    UpdateLODs fuel Rs t

/-- The sign of octant `k` on the axis numbered `bit` (0 for X, 1 for Y, 2 for Z): `+1` when that
bit of `k` is set, `-1` otherwise. -/
def octantSign (k bit : Nat) : Int := if k.testBit bit then 1 else -1

/-- The fields of a node that are fixed at construction: position, depth and id. -/
def key (t : FChunkOctree) : FIntVector × Nat × Nat := (t.Position, t.Depth, t.Id)

/-- Position, depth and id that `CreateChilds` gives the child of octant `k` of a node with the
given position, depth and id. -/
def childKey (K : FIntVector × Nat × Nat) (k : Nat) : FIntVector × Nat × Nat :=
  (K.1.add ⟨octantSign k 0 * (SizeAt K.2.1 / 4), octantSign k 1 * (SizeAt K.2.1 / 4),
      octantSign k 2 * (SizeAt K.2.1 / 4)⟩,
    K.2.1 - 1, childId K.2.2 (K.2.1 - 1) k)

/-- The node that `new FChunkOctree(Render, ..., LOD, IDs[k], MeshId)` builds for octant `k`. -/
def freshChild (K : FIntVector × Nat × Nat) (MeshId : Nat) (k : Nat) : FChunkOctree :=
  mk (childKey K k).1 (childKey K k).2.1 (childKey K k).2.2 false [] false MeshId none

/-- The node that `Load` leaves behind on a node without children: the chunk is present and
records the mesh id, the depth and the minimal corner of the node. -/
def loadedNode (R : FVoxelRender) (P : FIntVector) (D I M : Nat) : FChunkOctree :=
  mk P D I false [] true (AssignMeshId R I M)
    (some (FVoxelChunkNode.mk (AssignMeshId R I M) D
      (P.sub ⟨SizeAt D / 2, SizeAt D / 2, SizeAt D / 2⟩)))

/-- Position, depth and id reached from `K` by descending through the octants of `path`. -/
def descendKey (K : FIntVector × Nat × Nat) : List Nat → FIntVector × Nat × Nat
  | [] => K
  | k :: path => descendKey (childKey K k) path

/-- The three per-node conditions that `UpdateLOD` and the four transitions assert. -/
def NodeInv (n : FChunkOctree) : Prop :=
  ¬ (n.bHasChunk = true ∧ n.bHasChilds = true)
    ∧ (n.bHasChilds = true ↔ n.Childs.length = 8)
    ∧ (n.bHasChunk = true ↔ n.VoxelChunk.isSome = true)

/-- Every node without children holds a loaded chunk. -/
def AllLoaded (t : FChunkOctree) : Prop :=
  ∀ n ∈ t.nodes, n.bHasChilds = false → n.bHasChunk = true

/-- The shape of every tree that the constructor and the transitions `Load`, `Unload`,
`CreateChilds`, `DestroyChilds` can build: depth at most 19, an `int32` position, chunk and
children exclusive, the chunk flag matching the chunk handle, and children that are either absent
or the eight nodes placed by `CreateChilds`, each again of this shape. -/
inductive WellFormed : FChunkOctree → Prop
  | mk (Position : FIntVector) (Depth Id : Nat) (bHasChilds : Bool) (Childs : List FChunkOctree)
      (bHasChunk : Bool) (MeshId : Nat) (VoxelChunk : Option FVoxelChunkNode)
      (hDepth : Depth ≤ 19)
      (hPos : Position.isInt32)
      (hExcl : ¬ (bHasChunk = true ∧ bHasChilds = true))
      (hChunk : bHasChunk = VoxelChunk.isSome)
      (hChilds : bHasChilds = true →
        Depth ≠ 0 ∧ Childs.map key = (List.range 8).map (childKey (Position, Depth, Id)))
      (hNone : bHasChilds = false → Childs = [])
      (hRec : ∀ c ∈ Childs, WellFormed c) :
      WellFormed (FChunkOctree.mk Position Depth Id bHasChilds Childs bHasChunk MeshId VoxelChunk)

end FChunkOctree

namespace FChunkOctree

/-- The box of centre `Position` and size `Size` whose corners are computed without `int32`
wrap-around. -/
def boxFits (Position : FIntVector) (Size : Int) : Prop :=
  (isInt32 (Position.X - Size / 2) ∧ isInt32 (Position.X + Size / 2))
    ∧ (isInt32 (Position.Y - Size / 2) ∧ isInt32 (Position.Y + Size / 2))
    ∧ (isInt32 (Position.Z - Size / 2) ∧ isInt32 (Position.Z + Size / 2))

/-- A render state for examples: target LOD 0 and no mesh registered. -/
def sampleRender : FVoxelRender := ⟨0, fun _ => false⟩

/-- Child `k` of the example tree: the depth-0 node of octant `k`, holding a loaded chunk. -/
def sampleChild (k : Nat) : FChunkOctree :=
  loadedNode sampleRender (childKey (⟨0, 0, 0⟩, 1, 9) k).1 0 (childKey (⟨0, 0, 0⟩, 1, 9) k).2.2 0

/-- An example tree: the depth-1 root at the origin with id `9` and its eight children, each
holding a loaded chunk. It is what one `UpdateLOD` with target LOD 0 makes of a fresh root. -/
def sampleTree : FChunkOctree :=
  mk ⟨0, 0, 0⟩ 1 9 true ((List.range 8).map sampleChild) false 0 none

end FChunkOctree

/-! ## `FVoxelThreadPool` (VoxelThreadPool.h, VoxelThreadPool.cpp) -/

/-- `FVoxelThreadPool::FSlotData`: the slot id and the three `int32` task counters. -/
structure FSlotData where
  SlotID : Int
  CurrentActiveTask : Int
  RemainingTaskCount : Int
  MarkedRemainingTaskCount : Int
deriving DecidableEq, Repr

/-- The scheduling state of `FVoxelThreadPool`: the slot id counter, the set of registered slot
ids (`TSet<int32>`, kept without duplicates) and the two reserves. The engine's
`FQueuedThreadPool` behind it plays no part in the reserve. -/
structure FVoxelThreadPool where
  UNIQUE_SLOT_ID : Int
  SlotSet : List Int
  MaxTaskReserve : Int
  SlotTaskReserve : Int
deriving DecidableEq, Repr

namespace FVoxelThreadPool

/-- The constructor `FVoxelThreadPool(InThreadCount, InMaxTaskReserve)` with its two checks. -/
def new (InThreadCount InMaxTaskReserve : Int) : Except Err FVoxelThreadPool := do
  check (decide (InThreadCount > 0))
  check (decide (InMaxTaskReserve > 0))
  pure ⟨0, [], InMaxTaskReserve, InMaxTaskReserve⟩

/-- `FVoxelThreadPool::UpdateSlotTaskReserve`. The division is C++ `int32` division, which
truncates. -/
def UpdateSlotTaskReserve (p : FVoxelThreadPool) : FVoxelThreadPool :=
  let SlotCount : Int := max (p.SlotSet.length : Int) 1
  { p with SlotTaskReserve :=
      if p.MaxTaskReserve > SlotCount then p.MaxTaskReserve.tdiv SlotCount else 1 }

/-- `TSet::Emplace`: the id is added unless it is already in the set. -/
def setEmplace (s : List Int) (x : Int) : List Int :=
  if x ∈ s then s else s ++ [x]

/-- `FVoxelThreadPool::CreateThreadSlot`: the new slot data and the pool afterwards. -/
def CreateThreadSlot (p : FVoxelThreadPool) : FSlotData × FVoxelThreadPool :=
  let SlotData : FSlotData := ⟨p.UNIQUE_SLOT_ID, 0, 0, 0⟩
  let p := { p with
    UNIQUE_SLOT_ID := wrapInt32 (p.UNIQUE_SLOT_ID + 1)
    SlotSet := setEmplace p.SlotSet SlotData.SlotID }
  (SlotData, UpdateSlotTaskReserve p)

/-- `FVoxelThreadPool::DestroyThreadSlot`. -/
def DestroyThreadSlot (p : FVoxelThreadPool) (SlotData : FSlotData) : FVoxelThreadPool :=
  if SlotData.SlotID ∈ p.SlotSet then
    UpdateSlotTaskReserve { p with SlotSet := p.SlotSet.filter (fun x => x ≠ SlotData.SlotID) }
  else p

/-- One call on the pool: `CreateThreadSlot()` or `DestroyThreadSlot(SlotData)`. -/
inductive SlotCall where
  | create
  | destroy (SlotData : FSlotData)

/-- The pool after a sequence of calls. -/
def runCalls (p : FVoxelThreadPool) : List SlotCall → FVoxelThreadPool
  | [] => p
  | SlotCall.create :: cs => runCalls (CreateThreadSlot p).2 cs
  | SlotCall.destroy d :: cs => runCalls (DestroyThreadSlot p d) cs

/-- The reserve of pool `p` matches the number of its registered slots, for the total reserve
`M`: `max (M / K) 1` with `K ≥ 1` slots, `M` with none. -/
def ReserveOk (M : Int) (p : FVoxelThreadPool) : Prop :=
  p.MaxTaskReserve = M
    ∧ (1 ≤ p.SlotSet.length → p.SlotTaskReserve = max (M / (p.SlotSet.length : Int)) 1)
    ∧ (p.SlotSet.length = 0 → p.SlotTaskReserve = M)

end FVoxelThreadPool

/-! ## `FVoxelThreadPool::FSlotData` operations (VoxelThreadPool.h) -/

namespace FSlotData

/-- The constructor `FSlotData(InThreadPool, SlotID)`: it calls `Reset`. -/
def new (SlotID : Int) : FSlotData := ⟨SlotID, 0, 0, 0⟩

/-- `FSlotData::Reset`. -/
def Reset (s : FSlotData) : FSlotData :=
  { s with CurrentActiveTask := 0, RemainingTaskCount := 0, MarkedRemainingTaskCount := 0 }

/-- `FSlotData::HasRemainingTaskSlot`: it reads `SlotTaskReserve` of the slot's pool. -/
def HasRemainingTaskSlot (s : FSlotData) (ThreadPool : FVoxelThreadPool) : Bool :=
  decide (s.CurrentActiveTask < ThreadPool.SlotTaskReserve)

/-- `FSlotData::GetRemainingTaskCount`. -/
def GetRemainingTaskCount (s : FSlotData) : Int := s.RemainingTaskCount

/-- `FSlotData::HasRemainingTask`. -/
def HasRemainingTask (s : FSlotData) : Bool := decide (s.RemainingTaskCount > 0)

/-- `FSlotData::HasJustFinishedRemainingTask`. -/
def HasJustFinishedRemainingTask (s : FSlotData) : Bool :=
  decide (s.MarkedRemainingTaskCount > 0) && decide (s.RemainingTaskCount = 0)

/-- `FSlotData::MarkTaskUpdate`. -/
def MarkTaskUpdate (s : FSlotData) : FSlotData :=
  { s with MarkedRemainingTaskCount := s.RemainingTaskCount }

/-- `FSlotData::UnmarkTaskUpdate`. -/
def UnmarkTaskUpdate (s : FSlotData) : FSlotData :=
  { s with MarkedRemainingTaskCount := 0 }

/-- `FSlotData::IncrementTaskCount`. -/
def IncrementTaskCount (s : FSlotData) : Except Err FSlotData := do
  check (decide (s.MarkedRemainingTaskCount = 0))
  pure { s with RemainingTaskCount := wrapInt32 (s.RemainingTaskCount + 1) }

/-- `FSlotData::IncrementActiveTask`. -/
def IncrementActiveTask (s : FSlotData) : Except Err FSlotData := do
  check (decide (s.RemainingTaskCount > 0))
  if s.RemainingTaskCount > 0 then
    pure { s with CurrentActiveTask := wrapInt32 (s.CurrentActiveTask + 1) }
  else pure s

/-- `FSlotData::DecrementActiveTask`. -/
def DecrementActiveTask (s : FSlotData) : Except Err FSlotData := do
  check (decide (s.RemainingTaskCount > 0))
  if s.RemainingTaskCount > 0 then
    pure { s with
      CurrentActiveTask := wrapInt32 (s.CurrentActiveTask - 1)
      RemainingTaskCount := wrapInt32 (s.RemainingTaskCount - 1) }
  else pure s

/-- `d` calls of `DecrementActiveTask` in a row; the result is an error as soon as one of them
fails its check. -/
def decrements : Nat → FSlotData → Except Err FSlotData
  | 0, s => pure s
  | d + 1, s => do
    let s ← DecrementActiveTask s
    decrements d s

/-- One call on a slot. -/
inductive SlotOp where
  | Reset
  | IncrementTaskCount
  | IncrementActiveTask
  | DecrementActiveTask
  | MarkTaskUpdate
  | UnmarkTaskUpdate
deriving DecidableEq, Repr

/-- The slot after one call, or the failed check. -/
def applyOp (s : FSlotData) : SlotOp → Except Err FSlotData
  | SlotOp.Reset => pure s.Reset
  | SlotOp.IncrementTaskCount => s.IncrementTaskCount
  | SlotOp.IncrementActiveTask => s.IncrementActiveTask
  | SlotOp.DecrementActiveTask => s.DecrementActiveTask
  | SlotOp.MarkTaskUpdate => pure s.MarkTaskUpdate
  | SlotOp.UnmarkTaskUpdate => pure s.UnmarkTaskUpdate

/-- The slot after a sequence of calls, or the first failed check. -/
def runOps (s : FSlotData) : List SlotOp → Except Err FSlotData
  | [] => pure s
  | o :: os => do
    let s ← applyOp s o
    runOps s os

/-- The caller's side of the active count: a task is started only when one is counted and not
yet started, and completed only when one is started. -/
def callerKeepsActive (s : FSlotData) : SlotOp → Prop
  | SlotOp.IncrementActiveTask => s.CurrentActiveTask < s.RemainingTaskCount
  | SlotOp.DecrementActiveTask => 0 < s.CurrentActiveTask
  | _ => True

/-- Every call of the sequence is made with `callerKeepsActive` in the state it meets. -/
def disciplined (s : FSlotData) : List SlotOp → Prop
  | [] => True
  | o :: os => callerKeepsActive s o ∧
    match applyOp s o with
    | Except.ok s' => disciplined s' os
    | Except.error _ => True

end FSlotData

/-! ## A pool together with the slots handed out by it -/

/-- A pool and the slot data its clients hold, in the order the slots were created. A slot data
stays with its client after `DestroyThreadSlot`, which only unregisters its id. -/
structure PoolSystem where
  pool : FVoxelThreadPool
  slots : List FSlotData
deriving DecidableEq, Repr

/-- One step of the pool and its clients: a slot is created, the `i`-th slot is unregistered,
or a call is made on the `i`-th slot. -/
inductive SystemStep where
  | create
  | destroy (i : Nat)
  | call (i : Nat) (o : FSlotData.SlotOp)
deriving DecidableEq, Repr

/-- The system after one step. There is no result when the slot does not exist, when the call
fails its check, or when `IncrementActiveTask` is called while `HasRemainingTaskSlot` is
false. -/
def stepSystem (sys : PoolSystem) : SystemStep → Option PoolSystem
  | SystemStep.create =>
    let r := sys.pool.CreateThreadSlot
    some ⟨r.2, sys.slots ++ [r.1]⟩
  | SystemStep.destroy i =>
    match sys.slots[i]? with
    | none => none
    | some d => some ⟨sys.pool.DestroyThreadSlot d, sys.slots⟩
  | SystemStep.call i o =>
    match sys.slots[i]? with
    | none => none
    | some d =>
      if o = FSlotData.SlotOp.IncrementActiveTask ∧ d.HasRemainingTaskSlot sys.pool = false then
        none
      else
        match d.applyOp o with
        | Except.ok d' => some ⟨sys.pool, sys.slots.set i d'⟩
        | Except.error _ => none

/-- The system after a sequence of steps. -/
def runSystem (sys : PoolSystem) : List SystemStep → Option PoolSystem
  | [] => some sys
  | st :: sts =>
    match stepSystem sys st with
    | none => none
    | some sys' => runSystem sys' sts

/-- The invariant of a system reached in at most `n` steps from a fresh pool of total reserve
`M`: the slot reserve matches the slot count and lies between one and `M`, and every active
count lies between `-n` and `M`. -/
def SystemInv (M : Int) (n : Int) (sys : PoolSystem) : Prop :=
  FVoxelThreadPool.ReserveOk M sys.pool
    ∧ 1 ≤ sys.pool.SlotTaskReserve ∧ sys.pool.SlotTaskReserve ≤ M
    ∧ ∀ d ∈ sys.slots, -n ≤ d.CurrentActiveTask ∧ d.CurrentActiveTask ≤ M

/-! ## Mesh sections (VoxelProceduralMeshTypes.h)

The scalar type `F` stands for `float`. The code embedded here copies scalars and, where the
operation says so, adds or compares them; it never looks inside one. -/

/-- `FVector`: three `float` components. -/
structure FVector (F : Type) where
  X : F
  Y : F
  Z : F
deriving DecidableEq, Repr

/-- `FColor`: four `uint8` channels. -/
structure FColor where
  R : Nat
  G : Nat
  B : Nat
  A : Nat
deriving DecidableEq, Repr

/-- `FBox`: the two corners and the validity flag. -/
structure FBox (F : Type) where
  Min : FVector F
  Max : FVector F
  IsValid : Bool
deriving DecidableEq, Repr

/-- `FVoxelProcMeshVertex`. -/
structure FVoxelProcMeshVertex (F : Type) where
  Position : FVector F
  Normal : FVector F
  Color : FColor
deriving DecidableEq, Repr

/-- `FVoxelProcMeshSection`. The index buffer is a `TArray<int32>`. -/
structure FVoxelProcMeshSection (F : Type) where
  ProcVertexBuffer : List (FVoxelProcMeshVertex F)
  ProcIndexBuffer : List Int
  SectionLocalBox : FBox F
  bEnableCollision : Bool
  bSectionVisible : Bool
deriving DecidableEq, Repr

instance {F : Type} [Zero F] : Inhabited (FVector F) := ⟨⟨0, 0, 0⟩⟩

instance : Inhabited FColor := ⟨⟨0, 0, 0, 0⟩⟩

/-- `FBox(ForceInit)` and `FBox::Init`: both corners at the origin, not valid. -/
def FBox.Init {F : Type} [Zero F] : FBox F := ⟨⟨0, 0, 0⟩, ⟨0, 0, 0⟩, false⟩

namespace FVoxelProcMeshSection

/-- The default constructor `FVoxelProcMeshSection()`. -/
def new {F : Type} [Zero F] : FVoxelProcMeshSection F := ⟨[], [], FBox.Init, false, true⟩

/-- `FVoxelProcMeshSection::Reset`. -/
def Reset {F : Type} [Zero F] (_ : FVoxelProcMeshSection F) : FVoxelProcMeshSection F :=
  ⟨[], [], FBox.Init, false, true⟩

end FVoxelProcMeshSection

/-! ## The draco mesh container, as `VoxelMeshEncoder.cpp` uses it

The container is the draco library's. An attribute value of three `float`s is kept as an
`FVector`, one of four `uint8`s as an `FColor`. Indices (`PointIndex`, `AttributeValueIndex`,
`FaceIndex`) are natural numbers; a read past the end of an array gives the default value. -/

namespace draco

/-- `draco::PointAttribute` with an explicit point map (`AddAttribute(va, false, n)`): the
attribute values, and for every point the index of its value. -/
structure PointAttribute (V : Type) where
  values : List V
  indices_map : List Nat
deriving DecidableEq, Repr

/-- `PointAttribute::mapped_index`. -/
def PointAttribute.mapped_index {V : Type} (a : PointAttribute V) (point_index : Nat) : Nat :=
  a.indices_map.getD point_index 0

/-- `PointAttribute::GetValue`. -/
def PointAttribute.GetValue {V : Type} [Inhabited V] (a : PointAttribute V) (avi : Nat) : V :=
  a.values.getD avi default

/-- `Mesh::Face`: the three point indices `face[0]`, `face[1]`, `face[2]`. -/
structure Face where
  p0 : Nat
  p1 : Nat
  p2 : Nat
deriving DecidableEq, Repr

/-- The entry `face[c]`. -/
def Face.get (face : Face) (c : Nat) : Nat :=
  if c = 0 then face.p0 else if c = 1 then face.p1 else face.p2

/-- `draco::Mesh`: the faces and the three named attributes, each of which may be missing. -/
structure Mesh (F : Type) where
  faces : List Face
  POSITION : Option (PointAttribute (FVector F))
  NORMAL : Option (PointAttribute (FVector F))
  COLOR : Option (PointAttribute FColor)
deriving DecidableEq, Repr

/-- `Mesh::num_faces`. -/
def Mesh.num_faces {F : Type} (mesh : Mesh F) : Nat := mesh.faces.length

/-- `Mesh::face`. -/
def Mesh.face {F : Type} (mesh : Mesh F) (i : Nat) : Face := mesh.faces.getD i ⟨0, 0, 0⟩

end draco

/-! ## `FVoxelMeshEncoder` (VoxelMeshEncoder.cpp) -/

namespace FVoxelMeshEncoder

/-- `FIndexTuple`: the (position, normal, color) value indices of a face corner. The source
keeps each as the `int32` image of draco's `uint32` index and converts back before use; the
conversion is one to one, so the indices are kept as they are. -/
abbrev FIndexTuple := Nat × Nat × Nat

/-- `TMap::Find` on `IndexMapping`, kept as the list of its pairs. -/
def mapFind (m : List (FIndexTuple × Nat)) (k : FIndexTuple) : Option Nat :=
  (m.find? (fun e => e.1 = k)).map (fun e => e.2)

/-- `TMap::Emplace`: a pair with the same key is replaced where it stands, otherwise the pair
is added. -/
def mapEmplace (m : List (FIndexTuple × Nat)) (k : FIndexTuple) (v : Nat) :
    List (FIndexTuple × Nat) :=
  if m.any (fun e => e.1 = k) then m.map (fun e => if e.1 = k then (k, v) else e)
  else m ++ [(k, v)]

/-- `TArray::SetNumZeroed`. -/
def SetNumZeroed (a : List Int) (n : Nat) : List Int :=
  a.take n ++ List.replicate (n - a.length) 0

/-- The mesh that `EncodeMeshSection` builds from a section and hands to the draco calls
(`DeduplicateAttributeValues`, `DeduplicatePointIds`, `EncodeMeshToBuffer`): one attribute value
per vertex, point `i` mapped to value `Indices[i]` in all three attributes, and face `fi` with
`face[2 - c] = fi * 3 + c`. An `int32` index becomes draco's `uint32` index. -/
def EncodeMesh {F : Type} (Section : FVoxelProcMeshSection F) : draco.Mesh F :=
  let Vertices := Section.ProcVertexBuffer
  let Indices := Section.ProcIndexBuffer
  let iCount := Indices.length
  let tCount := iCount / 3
  let pointMap := Indices.map (fun x => (x % 2 ^ 32).toNat)
  { faces := (List.range tCount).map (fun fi => ⟨fi * 3 + 2, fi * 3 + 1, fi * 3 + 0⟩)
    POSITION := some ⟨Vertices.map (fun v => v.Position), pointMap⟩
    NORMAL := some ⟨Vertices.map (fun v => v.Normal), pointMap⟩
    COLOR := some ⟨Vertices.map (fun v => v.Color), pointMap⟩ }

/-- The state of the rebuild loop of `DecodeMeshSection`. -/
structure RebuildState (F : Type) where
  Vertices : List (FVoxelProcMeshVertex F)
  Indices : List Int
  IndexMapping : List (FIndexTuple × Nat)
deriving DecidableEq, Repr

/-- The vertex built in an `if (! k)` block for the tuple `i`: position and normal are both
read at the position index `pavi`, the color at `cavi`. -/
def makeVertex {F : Type} [Zero F] (posAtt nrmAtt : draco.PointAttribute (FVector F))
    (clrAtt : draco.PointAttribute FColor) (i : FIndexTuple) : FVoxelProcMeshVertex F :=
  let pavi := i.1
  let cavi := i.2.2
  { Position := posAtt.GetValue pavi
    Normal := nrmAtt.GetValue pavi
    Color := clrAtt.GetValue cavi }

/-- One `if (! k) { ... k = &IndexMapping.Emplace(i, Vertices.Emplace(vertex)); }` block, for
the lookup result `k` taken at the top of the loop body. -/
def emplaceCorner {F : Type} [Zero F] (posAtt nrmAtt : draco.PointAttribute (FVector F))
    (clrAtt : draco.PointAttribute FColor) (k : Option Nat) (i : FIndexTuple)
    (st : RebuildState F) : RebuildState F :=
  match k with
  | some _ => st
  | none =>
    { st with
      Vertices := st.Vertices ++ [makeVertex posAtt nrmAtt clrAtt i]
      IndexMapping := mapEmplace st.IndexMapping i st.Vertices.length }

/-- The tuple of the corner `face[c]` of face `i`. -/
def cornerTuple {F : Type} (mesh : draco.Mesh F)
    (posAtt nrmAtt : draco.PointAttribute (FVector F))
    (clrAtt : draco.PointAttribute FColor) (i c : Nat) : FIndexTuple :=
  let face := mesh.face i
  (posAtt.mapped_index (face.get c), nrmAtt.mapped_index (face.get c),
    clrAtt.mapped_index (face.get c))

/-- The value a pointer `k` into the map holds at the end of the loop body: the pointer stays
with the pair of its key, so a later `Emplace` of the same key is seen through it. -/
def deref (m : List (FIndexTuple × Nat)) (i : FIndexTuple) : Int :=
  ((mapFind m i).getD 0 : Nat)

/-- The body of the rebuild loop for face `i`: the three lookups, the three `if (! k)` blocks,
and the three writes `Indices[ti] = *k2`, `Indices[ti+1] = *k1`, `Indices[ti+2] = *k0`. -/
def rebuildFace {F : Type} [Zero F] (mesh : draco.Mesh F)
    (posAtt nrmAtt : draco.PointAttribute (FVector F))
    (clrAtt : draco.PointAttribute FColor) (st : RebuildState F) (i : Nat) : RebuildState F :=
  let i0 := cornerTuple mesh posAtt nrmAtt clrAtt i 0
  let i1 := cornerTuple mesh posAtt nrmAtt clrAtt i 1
  let i2 := cornerTuple mesh posAtt nrmAtt clrAtt i 2
  let k0 := mapFind st.IndexMapping i0
  let k1 := mapFind st.IndexMapping i1
  let k2 := mapFind st.IndexMapping i2
  let st := emplaceCorner posAtt nrmAtt clrAtt k0 i0 st
  let st := emplaceCorner posAtt nrmAtt clrAtt k1 i1 st
  let st := emplaceCorner posAtt nrmAtt clrAtt k2 i2 st
  let ti := i * 3
  { st with Indices :=
      ((st.Indices.set ti (deref st.IndexMapping i2)).set (ti + 1)
        (deref st.IndexMapping i1)).set (ti + 2) (deref st.IndexMapping i0) }

/-- The rebuild loop over the first `n` faces. -/
def rebuildLoop {F : Type} [Zero F] (mesh : draco.Mesh F)
    (posAtt nrmAtt : draco.PointAttribute (FVector F))
    (clrAtt : draco.PointAttribute FColor) (st : RebuildState F) (n : Nat) : RebuildState F :=
  (List.range n).foldl (rebuildFace mesh posAtt nrmAtt clrAtt) st

/-- `FVoxelMeshEncoder::DecodeMeshSection`, from the result of the draco parse on: `none` when
the geometry type cannot be read, is not a triangular mesh, or the buffer does not decode, in
which case the function returns at once. -/
def DecodeMeshSection {F : Type} [Zero F] (parsed : Option (draco.Mesh F))
    (Section : FVoxelProcMeshSection F) : Except Err (FVoxelProcMeshSection F) :=
  match parsed with
  | none => pure Section
  | some mesh =>
    let Indices := SetNumZeroed Section.ProcIndexBuffer (mesh.num_faces * 3)
    match mesh.POSITION, mesh.NORMAL, mesh.COLOR with
    | some posAtt, some nrmAtt, some clrAtt =>
      let st := rebuildLoop mesh posAtt nrmAtt clrAtt
        ⟨Section.ProcVertexBuffer, Indices, []⟩ mesh.num_faces
      pure { Section with ProcVertexBuffer := st.Vertices, ProcIndexBuffer := st.Indices }
    | _, _, _ => throw Err.checkFailed

/-- The distinct corner tuples of the mesh, in order of first appearance. -/
def cornerTuples {F : Type} (mesh : draco.Mesh F)
    (posAtt nrmAtt : draco.PointAttribute (FVector F))
    (clrAtt : draco.PointAttribute FColor) : List FIndexTuple :=
  ((List.range mesh.num_faces).flatMap (fun i =>
    [cornerTuple mesh posAtt nrmAtt clrAtt i 0, cornerTuple mesh posAtt nrmAtt clrAtt i 1,
      cornerTuple mesh posAtt nrmAtt clrAtt i 2])).dedup

end FVoxelMeshEncoder

/-- Every pair of the index map points at a vertex built for its key. -/
def FVoxelMeshEncoder.MapOk {F : Type} [Zero F]
    (posAtt nrmAtt : draco.PointAttribute (FVector F)) (clrAtt : draco.PointAttribute FColor)
    (st : FVoxelMeshEncoder.RebuildState F) : Prop :=
  ∀ k v, FVoxelMeshEncoder.mapFind st.IndexMapping k = some v →
    st.Vertices[v]? = some (FVoxelMeshEncoder.makeVertex posAtt nrmAtt clrAtt k)

/-- Corner `c` of every triangle `t < n` of the index buffer holds the index of a vertex built
for the tuple of the face corner `face[2 - c]` of face `t`. -/
def FVoxelMeshEncoder.CornersOk {F : Type} [Zero F] (mesh : draco.Mesh F)
    (posAtt nrmAtt : draco.PointAttribute (FVector F)) (clrAtt : draco.PointAttribute FColor)
    (n : Nat) (st : FVoxelMeshEncoder.RebuildState F) : Prop :=
  ∀ t < n, ∀ c < 3, ∃ v : Nat, st.Indices[t * 3 + c]? = some (v : Int)
    ∧ st.Vertices[v]? = some (FVoxelMeshEncoder.makeVertex posAtt nrmAtt clrAtt
        (FVoxelMeshEncoder.cornerTuple mesh posAtt nrmAtt clrAtt t (2 - c)))

/-- A quad of four vertices and two triangles, with `F = Int`. -/
def sampleSection : FVoxelProcMeshSection Int :=
  { ProcVertexBuffer :=
      [⟨⟨0, 0, 0⟩, ⟨0, 0, 1⟩, ⟨255, 255, 255, 255⟩⟩, ⟨⟨1, 0, 0⟩, ⟨0, 0, 1⟩, ⟨255, 0, 0, 255⟩⟩,
        ⟨⟨0, 1, 0⟩, ⟨0, 1, 0⟩, ⟨0, 255, 0, 255⟩⟩, ⟨⟨1, 1, 0⟩, ⟨1, 0, 0⟩, ⟨0, 0, 255, 255⟩⟩]
    ProcIndexBuffer := [0, 1, 2, 2, 1, 3]
    SectionLocalBox := ⟨⟨0, 0, 0⟩, ⟨1, 1, 0⟩, true⟩
    bEnableCollision := false
    bSectionVisible := true }

/-- A parsed mesh with a single face whose first two corners are the same point. -/
def repeatedCornerMesh : draco.Mesh Int :=
  { faces := [⟨0, 0, 1⟩]
    POSITION := some ⟨[⟨0, 0, 0⟩, ⟨1, 0, 0⟩], [0, 1]⟩
    NORMAL := some ⟨[⟨0, 0, 1⟩, ⟨0, 0, 1⟩], [0, 1]⟩
    COLOR := some ⟨[⟨255, 255, 255, 255⟩, ⟨0, 0, 0, 255⟩], [0, 1]⟩ }

/-! ## Mesh storage (VoxelProceduralMeshTypes.h, VoxelLODMeshComponent) and `ApplySection` -/

/-- `FBox::operator+=` of the engine: the union of two valid boxes, the other box when only it
is valid, no change otherwise. -/
def boxAdd {F : Type} [Min F] [Max F] (a b : FBox F) : FBox F :=
  if a.IsValid && b.IsValid then
    { a with
      Min := ⟨min a.Min.X b.Min.X, min a.Min.Y b.Min.Y, min a.Min.Z b.Min.Z⟩
      Max := ⟨max a.Max.X b.Max.X, max a.Max.Y b.Max.Y, max a.Max.Z b.Max.Z⟩ }
  else if b.IsValid then b
  else a

/-- `FVoxelMeshBuilder::ApplySection`. -/
def FVoxelMeshBuilder.ApplySection {F : Type} [Min F] [Max F]
    (SrcSection DstSection : FVoxelProcMeshSection F) : FVoxelProcMeshSection F :=
  if SrcSection.ProcVertexBuffer.length ≤ 0 ∧ SrcSection.ProcIndexBuffer.length ≤ 0 then
    DstSection
  else
    let VNum1 : Int := DstSection.ProcVertexBuffer.length
    { DstSection with
      ProcVertexBuffer := DstSection.ProcVertexBuffer ++ SrcSection.ProcVertexBuffer
      ProcIndexBuffer :=
        DstSection.ProcIndexBuffer ++ SrcSection.ProcIndexBuffer.map (fun x => wrapInt32 (x + VNum1))
      SectionLocalBox :=
        boxAdd { DstSection.SectionLocalBox with IsValid := true } SrcSection.SectionLocalBox }

/-- `FVoxelProcMeshLOD`: the sections and the map from mesh id to section index
(`TMap<uint64, int32>`, kept as the list of its pairs). -/
structure FVoxelProcMeshLOD (F : Type) where
  Sections : List (FVoxelProcMeshSection F)
  SectionMap : List (Nat × Int)
deriving DecidableEq, Repr

namespace FVoxelProcMeshLOD

/-- `FVoxelProcMeshLOD::HasSection`. -/
def HasSection {F : Type} (g : FVoxelProcMeshLOD F) (SectionIndex : Int) : Bool :=
  decide (0 ≤ SectionIndex ∧ SectionIndex < g.Sections.length)

/-- `FVoxelProcMeshLOD::HasMapped`. -/
def HasMapped {F : Type} (g : FVoxelProcMeshLOD F) (MappedIndex : Nat) : Bool :=
  match g.SectionMap.lookup MappedIndex with
  | some i => g.HasSection i
  | none => false

/-- `FVoxelProcMeshLOD::GetMappedSafe`: the pointer is the index of the section in `Sections`,
`none` for `nullptr`. -/
def GetMappedSafe {F : Type} (g : FVoxelProcMeshLOD F) (MappedIndex : Nat) : Option Nat :=
  if g.HasMapped MappedIndex then (g.SectionMap.lookup MappedIndex).map Int.toNat else none

end FVoxelProcMeshLOD

/-- `UVoxelLODMeshComponent`: its LOD groups. -/
structure UVoxelLODMeshComponent (F : Type) where
  LODGroups : List (FVoxelProcMeshLOD F)
deriving DecidableEq, Repr

namespace UVoxelLODMeshComponent

/-- `UVoxelLODMeshComponent::HasLODGroup`. -/
def HasLODGroup {F : Type} (m : UVoxelLODMeshComponent F) (LODIndex : Int) : Bool :=
  decide (0 ≤ LODIndex ∧ LODIndex < m.LODGroups.length)

/-- `UVoxelLODMeshComponent::GetMappedSection`: the pointer is the pair of the LOD group's index
and the section's index in it, `none` for `nullptr`. -/
def GetMappedSection {F : Type} (m : UVoxelLODMeshComponent F) (LODIndex : Int)
    (MappedIndex : Nat) : Option (Nat × Nat) :=
  if m.HasLODGroup LODIndex then
    match m.LODGroups[LODIndex.toNat]? with
    | some g => (g.GetMappedSafe MappedIndex).map (fun i => (LODIndex.toNat, i))
    | none => none
  else none

/-- The section a pointer refers to. -/
def sectionAt {F : Type} (m : UVoxelLODMeshComponent F) (p : Nat × Nat) :
    Option (FVoxelProcMeshSection F) :=
  match m.LODGroups[p.1]? with
  | some g => g.Sections[p.2]?
  | none => none

/-- A write through a pointer. -/
def setSectionAt {F : Type} (m : UVoxelLODMeshComponent F) (p : Nat × Nat)
    (s : FVoxelProcMeshSection F) : UVoxelLODMeshComponent F :=
  { m with LODGroups := m.LODGroups.modify (fun g => { g with Sections := g.Sections.set p.2 s }) p.1 }

end UVoxelLODMeshComponent

/-- The part of `FVoxelRender` that `ApplyMeshSection` and `HasLODSection` work on: the render
mesh (`none` for a null `RenderMesh`) and `LoadedLOD`. -/
structure FVoxelRenderMesh (F : Type) where
  RenderMesh : Option (UVoxelLODMeshComponent F)
  LoadedLOD : Int
deriving DecidableEq, Repr

namespace FVoxelRenderMesh

/-- `FVoxelRender::HasLODSection`. -/
def HasLODSection {F : Type} (r : FVoxelRenderMesh F) (MeshId : Nat) : Except Err Bool :=
  match r.RenderMesh with
  | none => throw Err.checkFailed
  | some m => pure (m.GetMappedSection r.LoadedLOD MeshId).isSome

/-- `FVoxelRender::ApplyMeshSection`: `check(RenderMesh)`, then the pointer returned by
`GetMappedSection` is dereferenced as it is and the section behind it handed to
`ApplySection`. -/
def ApplyMeshSection {F : Type} [Min F] [Max F] (r : FVoxelRenderMesh F) (MeshId : Nat)
    (InSection : FVoxelProcMeshSection F) : Except Err (FVoxelRenderMesh F) :=
  match r.RenderMesh with
  | none => throw Err.checkFailed
  | some m =>
    match m.GetMappedSection r.LoadedLOD MeshId with
    | none => throw Err.nullDereference
    | some p =>
      match m.sectionAt p with
      | none => throw Err.nullDereference
      | some Dst =>
        pure { r with
          RenderMesh := some (m.setSectionAt p (FVoxelMeshBuilder.ApplySection InSection Dst)) }

end FVoxelRenderMesh

/-- A render mesh with one LOD group whose single section is mapped from mesh id 9. -/
def sampleRenderMesh : FVoxelRenderMesh Int :=
  ⟨some ⟨[⟨[FVoxelProcMeshSection.new], [(9, 0)]⟩]⟩, 0⟩

/-! ## The mode flags of `FVoxelRender` (VoxelRender.cpp)

The part of the orchestrator that decides between live generation and cached loading: the two
mode flags, `LoadedLOD`, `bOctreeLoaded`, and whether the fetch future and the fetched data are
valid. What a step reads from the world, the cache worker and the thread slot is handed to it
as a `ModeEnv`, with no assumption on its values. Checks on state that is not kept here (the
builder containers, the render mesh) are taken to pass. -/

/-- What a step reads from outside the mode state. -/
structure ModeEnv where
  IsCachedMeshEnabled : Bool
  IsProgressiveLODEnabled : Bool
  IsAutoUpdateMesh : Bool
  /-- `World->GetLOD()` as `Load` reads it. -/
  GetLOD : Int
  /-- `World->GetLOD()` after `SetWorldLOD(GetMeshDepth())`. -/
  ProgressiveLOD : Int
  /-- Whether `FetchCacheData` leaves the future valid. -/
  FetchStarted : Bool
  /-- `MeshCacheFetchFuture.IsReady()`. -/
  FutureIsReady : Bool
  /-- Whether the fetched result is a valid pointer. -/
  FetchedDataValid : Bool
  /-- `ThreadSlot.HasJustFinishedRemainingTask()` after the queue of finished work is drained. -/
  bChunkUpdateFinished : Bool
deriving DecidableEq, Repr

/-- The site of a failed check in the mode steps. -/
inductive CheckSite where
  | LoadOctree
  | LoadCachedMesh
  | RegisterCacheLOD
deriving DecidableEq, Repr

/-- The mode state of `FVoxelRender`. -/
structure FVoxelRenderMode where
  LoadedLOD : Int
  bOctreeLoaded : Bool
  bGenerateMesh : Bool
  bLoadCachedMesh : Bool
  MeshCacheFetchFutureValid : Bool
  MeshCacheFetchDataValid : Bool
deriving DecidableEq, Repr

namespace FVoxelRenderMode

/-- The constructor `FVoxelRender(...)`. -/
def new : FVoxelRenderMode := ⟨-1, false, true, false, false, false⟩

/-- `FVoxelRender::StartProgressiveLOD`. -/
def StartProgressiveLOD (env : ModeEnv) (s : FVoxelRenderMode) : FVoxelRenderMode :=
  { s with LoadedLOD := env.ProgressiveLOD }

/-- `FVoxelRender::LoadOctree`: `check(! bLoadCachedMesh)`, then the octree is loaded. -/
def LoadOctree (s : FVoxelRenderMode) : Except CheckSite FVoxelRenderMode :=
  if s.bLoadCachedMesh then throw CheckSite.LoadOctree
  else pure { s with bOctreeLoaded := true }

/-- `FVoxelRender::UnloadOctree`. -/
def UnloadOctree (s : FVoxelRenderMode) : FVoxelRenderMode :=
  { s with bOctreeLoaded := false }

/-- `FVoxelRender::UnloadCacheBuilders`. -/
def UnloadCacheBuilders (s : FVoxelRenderMode) : FVoxelRenderMode :=
  { s with MeshCacheFetchFutureValid := false, MeshCacheFetchDataValid := false }

/-- `FVoxelRender::FetchCachedMesh`. -/
def FetchCachedMesh (env : ModeEnv) (s : FVoxelRenderMode) : FVoxelRenderMode :=
  if ! s.MeshCacheFetchFutureValid then
    let s := { s with MeshCacheFetchFutureValid := env.FetchStarted }
    let s := { s with bLoadCachedMesh := s.MeshCacheFetchFutureValid }
    { s with bGenerateMesh := ! s.bLoadCachedMesh }
  else s

/-- `FVoxelRender::Unload`. -/
def Unload (s : FVoxelRenderMode) : FVoxelRenderMode :=
  if s.LoadedLOD ≥ 0 then
    let s := { s with LoadedLOD := -1 }
    let s := UnloadOctree s
    UnloadCacheBuilders s
  else s

/-- `FVoxelRender::Load`. -/
def Load (env : ModeEnv) (s : FVoxelRenderMode) : Except CheckSite FVoxelRenderMode :=
  let s := if s.LoadedLOD ≥ 0 then Unload s else s
  let s := { s with LoadedLOD := env.GetLOD }
  let s := if env.IsCachedMeshEnabled then FetchCachedMesh env s else s
  if s.bGenerateMesh then
    let s := if env.IsProgressiveLODEnabled then StartProgressiveLOD env s else s
    LoadOctree s
  else pure s

/-- `FVoxelRender::RegisterCacheLOD`: `check(LoadedLOD >= 0)`; the builders it registers are
not part of the mode state. -/
def RegisterCacheLOD (s : FVoxelRenderMode) : Except CheckSite FVoxelRenderMode :=
  if s.LoadedLOD ≥ 0 then pure s else throw CheckSite.RegisterCacheLOD

/-- `FVoxelRender::LoadCachedMesh`. -/
def LoadCachedMesh (env : ModeEnv) (s : FVoxelRenderMode) : Except CheckSite FVoxelRenderMode :=
  if ! env.FutureIsReady then throw CheckSite.LoadCachedMesh
  else
    let s := UnloadCacheBuilders s
    let s := StartProgressiveLOD env s
    let s := { s with MeshCacheFetchDataValid := env.FetchedDataValid }
    RegisterCacheLOD s

/-- `FVoxelRender::UpdateCachedMeshLoading`. -/
def UpdateCachedMeshLoading (env : ModeEnv) (s : FVoxelRenderMode) :
    Except CheckSite FVoxelRenderMode :=
  if env.bChunkUpdateFinished then
    if s.LoadedLOD > 0 then
      RegisterCacheLOD { s with LoadedLOD := wrapInt32 (s.LoadedLOD - 1) }
    else
      let s := UnloadCacheBuilders s
      pure { s with bLoadCachedMesh := false }
  else pure s

/-- `FVoxelRender::UpdateMeshGeneration`. -/
def UpdateMeshGeneration (env : ModeEnv) (s : FVoxelRenderMode) :
    Except CheckSite FVoxelRenderMode :=
  if ! env.IsAutoUpdateMesh then
    if env.bChunkUpdateFinished then
      if env.IsProgressiveLODEnabled then
        if s.LoadedLOD > 0 then
          LoadOctree { s with LoadedLOD := wrapInt32 (s.LoadedLOD - 1) }
        else pure (UnloadOctree s)
      else pure s
    else pure s
  else pure s

/-- `FVoxelRender::Tick`. -/
def Tick (env : ModeEnv) (s : FVoxelRenderMode) : Except CheckSite FVoxelRenderMode :=
  if s.bGenerateMesh then UpdateMeshGeneration env s
  else if s.bLoadCachedMesh then
    if s.MeshCacheFetchDataValid then UpdateCachedMeshLoading env s
    else if env.FutureIsReady then LoadCachedMesh env s
    else pure s
  else pure s

/-- One step on the orchestrator. -/
inductive Step where
  | Load (env : ModeEnv)
  | Unload
  | Tick (env : ModeEnv)
  | FetchCachedMesh (env : ModeEnv)
  | LoadCachedMesh (env : ModeEnv)
deriving DecidableEq, Repr

/-- The state after one step, or the site of the check that failed. -/
def step (s : FVoxelRenderMode) : Step → Except CheckSite FVoxelRenderMode
  | Step.Load env => s.Load env
  | Step.Unload => pure s.Unload
  | Step.Tick env => s.Tick env
  | Step.FetchCachedMesh env => pure (s.FetchCachedMesh env)
  | Step.LoadCachedMesh env => s.LoadCachedMesh env

/-- The state after a sequence of steps, or the site of the first check that failed. -/
def run (s : FVoxelRenderMode) : List Step → Except CheckSite FVoxelRenderMode
  | [] => pure s
  | st :: sts =>
    match step s st with
    | Except.ok s' => run s' sts
    | Except.error e => throw e

/-- The two mode flags are not both set. -/
def Exclusive (s : FVoxelRenderMode) : Prop :=
  ¬ (s.bGenerateMesh = true ∧ s.bLoadCachedMesh = true)

end FVoxelRenderMode

/-! ## A chunk's mesh job (VoxelThread.cpp, VoxelChunkNode.cpp)

One `FVoxelChunkNode` with its `FAsyncTask<FAsyncPolygonizerTask>`, and what the job does to the
orchestrator: the calls are logged, and the chunk's entries in `ChunksToApplyMesh` are counted.
The job is run in one piece, at the point where the pool starts it. -/

/-- The calls of a chunk's job that the log records. -/
inductive JobEvent where
  | CreateSection
  | OnMeshComplete
  | EnqueueMeshChunk
  | ApplyMeshSection
deriving DecidableEq, Repr

/-- `FAsyncTask<FAsyncPolygonizerTask>`: whether the polygonizer is valid, and whether the pool
has started `DoWork`. -/
structure FAsyncPolygonizerTask where
  Polygonizer : Bool
  Started : Bool
deriving DecidableEq, Repr

/-- The chunk (`bAbandonBuilder`, `MeshBuilderTask`), the orchestrator's `bOctreeLoaded`, the
number of entries of the chunk in `ChunksToApplyMesh`, and the log. -/
structure ChunkJob where
  bAbandonBuilder : Bool
  MeshBuilderTask : Option FAsyncPolygonizerTask
  bOctreeLoaded : Bool
  ChunksToApplyMesh : Nat
  Log : List JobEvent
deriving DecidableEq, Repr

namespace ChunkJob

/-- `FVoxelChunkNode::CanCreateSection`. -/
def CanCreateSection (s : ChunkJob) : Bool := ! s.bAbandonBuilder

/-- `FVoxelRender::EnqueueMeshChunk`. -/
def EnqueueMeshChunk (s : ChunkJob) : ChunkJob :=
  let s := { s with Log := s.Log ++ [JobEvent.EnqueueMeshChunk] }
  if s.bOctreeLoaded then { s with ChunksToApplyMesh := s.ChunksToApplyMesh + 1 } else s

/-- `FVoxelChunkNode::OnMeshComplete`: `check(MeshBuilderTask)`, the section is taken over, and
the chunk is handed to `EnqueueMeshChunk`. -/
def OnMeshComplete (s : ChunkJob) : Except Err ChunkJob := do
  check s.MeshBuilderTask.isSome
  let s := { s with Log := s.Log ++ [JobEvent.OnMeshComplete] }
  pure (EnqueueMeshChunk s)

/-- `FAsyncPolygonizerTask::DoWork` for the task `t` of the chunk. -/
def DoWork (t : FAsyncPolygonizerTask) (s : ChunkJob) : Except Err ChunkJob :=
  if s.CanCreateSection && t.Polygonizer then
    let s := { s with Log := s.Log ++ [JobEvent.CreateSection] }
    let s := { s with MeshBuilderTask := some { t with Polygonizer := false } }
    OnMeshComplete s
  else pure s

/-- The pool runs the job of the chunk, if there is one that has not been started. -/
def runJob (s : ChunkJob) : Except Err ChunkJob :=
  match s.MeshBuilderTask with
  | none => pure s
  | some t =>
    if t.Started then pure s
    else DoWork { t with Started := true } { s with MeshBuilderTask := some { t with Started := true } }

/-- `FVoxelChunkNode::EnsureTaskCompletion(bCancel)`. `Retracted` is the answer of
`MeshBuilderTask->Cancel()` for a job that has not been started: the pool either takes the job
back, or runs it to its end under `EnsureCompletion(false)`. The job is done either way, so
`check(MeshBuilderTask->IsDone())` passes. -/
def EnsureTaskCompletion (bCancel : Bool) (Retracted : Bool) (s : ChunkJob) :
    Except Err ChunkJob :=
  match s.MeshBuilderTask with
  | none => pure s
  | some _ => do
    let s ←
      if bCancel then
        let s := { s with bAbandonBuilder := true }
        if Retracted then pure s else runJob s
      else runJob s
    pure { s with MeshBuilderTask := none }

/-- `FVoxelChunkNode::Update(true)`. -/
def Update (s : ChunkJob) : ChunkJob :=
  match s.MeshBuilderTask with
  | none => { s with bAbandonBuilder := false, MeshBuilderTask := some ⟨true, false⟩ }
  | some _ => s

/-- `FVoxelChunkNode::ApplyMesh`. -/
def ApplyMesh (s : ChunkJob) : Except Err ChunkJob := do
  let s ← EnsureTaskCompletion false false s
  pure { s with Log := s.Log ++ [JobEvent.ApplyMeshSection] }

/-- The share of the chunk in the loop `while (! ChunksToApplyMesh.IsEmpty())` of
`UpdateMeshGeneration`: one `ApplyMesh` for every entry of the chunk, also for an entry that an
`ApplyMesh` of the loop adds. The recursion budget is the number of entries plus one for a job
still to run. -/
def applyLoop : Nat → ChunkJob → Except Err ChunkJob
  | 0, s => if s.ChunksToApplyMesh = 0 then pure s else throw Err.outOfFuel
  | fuel + 1, s =>
    if s.ChunksToApplyMesh = 0 then pure s
    else do
      let s ← ApplyMesh { s with ChunksToApplyMesh := s.ChunksToApplyMesh - 1 }
      applyLoop fuel s

/-- The apply loop with its budget. -/
def applyAll (s : ChunkJob) : Except Err ChunkJob :=
  applyLoop (s.ChunksToApplyMesh + 1) s

/-- A chunk of a loaded octree whose job has been queued by `Update(true)` and not started. -/
def sampleChunkJob : ChunkJob :=
  Update ⟨false, none, true, 0, []⟩

end ChunkJob

/-! ## The update queues of `FVoxelRender` (VoxelRender.cpp)

The thread slot, the three chunk containers, and the mesh jobs of the chunks. A chunk is named
by a number. Its `MeshBuilderTask` is set exactly when the chunk is in `Running` (the job has
been started and `DoWork` has not finished) or in `Finished` (`DoWork` has finished); no chunk
is destroyed in this part, so `bAbandonBuilder` stays false once `Update(true)` has cleared it.
`Applied` records the calls of `ApplyMesh` in their order. -/

/-- The queue part of `FVoxelRender`. -/
structure FVoxelRenderQueue where
  ThreadPool : FVoxelThreadPool
  ThreadSlot : FSlotData
  bOctreeLoaded : Bool
  ChunksToUpdate : List Nat
  SynchronouslyUpdatingChunks : List Nat
  ChunksToApplyMesh : List Nat
  /-- The octree leaves for which `GetVoxelChunk()` is not null. -/
  VoxelChunks : List Nat
  Running : List Nat
  Finished : List Nat
  Applied : List Nat
deriving DecidableEq, Repr

namespace FVoxelRenderQueue

/-- The job of chunk `c` runs to its end: `DoWork` builds the section and `OnMeshComplete` hands
the chunk to `EnqueueMeshChunk`, which enqueues it when the octree is loaded. -/
def DoWork (c : Nat) (s : FVoxelRenderQueue) : FVoxelRenderQueue :=
  let s := { s with
    Running := s.Running.filter (fun x => x ≠ c)
    Finished := s.Finished ++ [c] }
  if s.bOctreeLoaded then { s with ChunksToApplyMesh := s.ChunksToApplyMesh ++ [c] } else s

/-- `FVoxelChunkNode::EnsureTaskCompletion()` on chunk `c`: a job that is still running is
waited for, then the task is deleted. -/
def EnsureTaskCompletion (c : Nat) (s : FVoxelRenderQueue) : FVoxelRenderQueue :=
  if c ∈ s.Running ∨ c ∈ s.Finished then
    let s := if c ∈ s.Running then DoWork c s else s
    { s with
      Running := s.Running.filter (fun x => x ≠ c)
      Finished := s.Finished.filter (fun x => x ≠ c) }
  else s

/-- `FVoxelChunkNode::ApplyMesh` on chunk `c`. -/
def ApplyMesh (c : Nat) (s : FVoxelRenderQueue) : FVoxelRenderQueue :=
  let s := EnsureTaskCompletion c s
  { s with Applied := s.Applied ++ [c] }

/-- `FVoxelChunkNode::Update(bAsync)` on chunk `c`. -/
def Update (c : Nat) (bAsync : Bool) (s : FVoxelRenderQueue) : FVoxelRenderQueue :=
  if bAsync then
    if c ∈ s.Running ∨ c ∈ s.Finished then s
    else { s with Running := s.Running ++ [c] }
  else
    let s := EnsureTaskCompletion c s
    ApplyMesh c s

/-- `FVoxelRender::UpdateChunk` for a chunk that is not null. -/
def UpdateChunk (c : Nat) (bAsync : Bool) (s : FVoxelRenderQueue) :
    Except Err FVoxelRenderQueue := do
  let s :=
    if bAsync then { s with ChunksToUpdate := s.ChunksToUpdate ++ [c] }
    else if c ∈ s.SynchronouslyUpdatingChunks then s
    else { s with SynchronouslyUpdatingChunks := s.SynchronouslyUpdatingChunks ++ [c] }
  let slot ← s.ThreadSlot.IncrementTaskCount
  pure { s with ThreadSlot := slot }

/-- The first loop of `RegisterChunkUpdates`, over the chunks that stand in `ChunksToUpdate`. -/
def dispatchLoop : List Nat → FVoxelRenderQueue → Except Err FVoxelRenderQueue
  | [], s => pure s
  | c :: rest, s =>
    if s.ThreadSlot.HasRemainingTaskSlot s.ThreadPool then do
      let s := { s with ChunksToUpdate := rest }
      let s := if c ∈ s.VoxelChunks then Update c true s else s
      let slot ← s.ThreadSlot.IncrementActiveTask
      dispatchLoop rest { s with ThreadSlot := slot }
    else pure s

/-- The second loop of `RegisterChunkUpdates`, over `SynchronouslyUpdatingChunks`. -/
def syncLoop : List Nat → FVoxelRenderQueue → FVoxelRenderQueue
  | [], s => s
  | c :: rest, s => syncLoop rest (if c ∈ s.VoxelChunks then Update c false s else s)

/-- `FVoxelRender::RegisterChunkUpdates`. -/
def RegisterChunkUpdates (s : FVoxelRenderQueue) : Except Err FVoxelRenderQueue := do
  let s ← dispatchLoop s.ChunksToUpdate s
  let s := syncLoop s.SynchronouslyUpdatingChunks s
  pure { s with SynchronouslyUpdatingChunks := [] }

/-- The loop `while (! ChunksToApplyMesh.IsEmpty())` of `UpdateMeshGeneration`. An `ApplyMesh`
that waits for a running job puts its chunk back in the queue, so the loop runs on a budget. -/
def applyLoop : Nat → FVoxelRenderQueue → Except Err FVoxelRenderQueue
  | 0, s =>
    match s.ChunksToApplyMesh with
    | [] => pure s
    | _ :: _ => throw Err.outOfFuel
  | fuel + 1, s =>
    match s.ChunksToApplyMesh with
    | [] => pure s
    | c :: rest => do
      let s := { s with ChunksToApplyMesh := rest }
      let s := ApplyMesh c s
      let slot ← s.ThreadSlot.DecrementActiveTask
      applyLoop fuel { s with ThreadSlot := slot }

/-- `FVoxelRender::UpdateMeshGeneration`. `OnFinished` is the block entered when the world does
not update its mesh by itself and the update has just finished (`UpdateMesh()` and the
progressive LOD step), which works on the meshes, the world and the octree. -/
def UpdateMeshGeneration (IsAutoUpdateMesh : Bool)
    (OnFinished : FVoxelRenderQueue → Except Err FVoxelRenderQueue) (s : FVoxelRenderQueue) :
    Except Err FVoxelRenderQueue := do
  let s := { s with ThreadSlot := s.ThreadSlot.MarkTaskUpdate }
  let s ← applyLoop (s.ChunksToApplyMesh.length + s.Running.length) s
  let bChunkUpdateFinished := s.ThreadSlot.HasJustFinishedRemainingTask
  let s := { s with ThreadSlot := s.ThreadSlot.UnmarkTaskUpdate }
  let s ←
    if ! IsAutoUpdateMesh then
      if bChunkUpdateFinished then OnFinished s else pure s
    else pure s
  RegisterChunkUpdates s

/-- One step of the live generation: a request to update a chunk, a tick of the orchestrator in
generation mode, or the pool finishing the job of a chunk. -/
inductive Step where
  | UpdateChunk (c : Nat) (bAsync : Bool)
  | Tick (IsAutoUpdateMesh : Bool)
  | JobDone (c : Nat)
deriving DecidableEq, Repr

/-- The state after one step. -/
def step (OnFinished : FVoxelRenderQueue → Except Err FVoxelRenderQueue)
    (s : FVoxelRenderQueue) : Step → Except Err FVoxelRenderQueue
  | Step.UpdateChunk c bAsync => s.UpdateChunk c bAsync
  | Step.Tick auto => s.UpdateMeshGeneration auto OnFinished
  | Step.JobDone c => pure (if c ∈ s.Running then DoWork c s else s)

/-- The state after a sequence of steps. -/
def run (OnFinished : FVoxelRenderQueue → Except Err FVoxelRenderQueue)
    (s : FVoxelRenderQueue) : List Step → Except Err FVoxelRenderQueue
  | [] => pure s
  | st :: sts => do
    let s ← step OnFinished s st
    run OnFinished s sts

/-- The queues right after `LoadOctree` has reset them, for a slot of the pool and the leaves
`leaves` of the octree. -/
def loaded (pool : FVoxelThreadPool) (SlotID : Int) (leaves : List Nat) : FVoxelRenderQueue :=
  { ThreadPool := pool
    ThreadSlot := FSlotData.new SlotID
    bOctreeLoaded := true
    ChunksToUpdate := []
    SynchronouslyUpdatingChunks := []
    ChunksToApplyMesh := []
    VoxelChunks := leaves
    Running := []
    Finished := []
    Applied := [] }

end FVoxelRenderQueue

/-- The invariant of the scheduling scenario for the chunks `chunks` and the slot reserve `K`:
every chunk is waiting in `ChunksToUpdate`, running, finished and waiting in
`ChunksToApplyMesh`, or applied, and the slot counts the chunks not yet applied and the chunks
started and not yet applied. -/
def FVoxelRenderQueue.QueueInv (chunks : List Nat) (K : Int) (s : FVoxelRenderQueue) : Prop :=
  s.ThreadPool.SlotTaskReserve = K
    ∧ s.bOctreeLoaded = true
    ∧ s.SynchronouslyUpdatingChunks = []
    ∧ s.ChunksToApplyMesh = s.Finished
    ∧ (∀ c ∈ s.ChunksToUpdate, c ∈ s.VoxelChunks)
    ∧ ((s.ChunksToUpdate : Multiset Nat) + (s.Running : Multiset Nat)
        + (s.Finished : Multiset Nat) + (s.Applied : Multiset Nat) = (chunks : Multiset Nat))
    ∧ s.ThreadSlot.MarkedRemainingTaskCount = 0
    ∧ s.ThreadSlot.RemainingTaskCount
        = (s.ChunksToUpdate.length : Int) + s.Running.length + s.Finished.length
    ∧ s.ThreadSlot.CurrentActiveTask = (s.Running.length : Int) + s.Finished.length
    ∧ s.ThreadSlot.CurrentActiveTask ≤ K

/-- The state the dispatch loop leaves: nothing waits to be applied, and either nothing waits to
be started or the slot is full. -/
def FVoxelRenderQueue.Settled (K : Int) (s : FVoxelRenderQueue) : Prop :=
  s.Finished = [] ∧ (s.ChunksToUpdate = [] ∨ s.ThreadSlot.CurrentActiveTask = K)

/-- The steps of the scheduling scenario: ticks of a world that updates its mesh by itself, and
jobs that the pool finishes. -/
def FVoxelRenderQueue.Step.inScenario : FVoxelRenderQueue.Step → Bool
  | FVoxelRenderQueue.Step.Tick true => true
  | FVoxelRenderQueue.Step.JobDone _ => true
  | _ => false

/-- A pool with one slot and a reserve of two tasks. -/
def samplePool : FVoxelThreadPool := ⟨1, [0], 2, 2⟩

/-- What the draco calls at the head of `DecodeMeshSection` give: the geometry type cannot be
read, it is not `TRIANGULAR_MESH`, the buffer does not decode, or the mesh. -/
inductive DracoParse (F : Type) where
  | noGeometryType
  | notTriangularMesh
  | decodeError
  | parsed (mesh : draco.Mesh F)

/-- The mesh of a parse that succeeded. -/
def DracoParse.mesh? {F : Type} : DracoParse F → Option (draco.Mesh F)
  | DracoParse.parsed mesh => some mesh
  | _ => none

/-- `FVoxelMeshEncoder::DecodeMeshSection` from the outcome of the draco calls on. -/
def FVoxelMeshEncoder.DecodeMeshSectionOf {F : Type} [Zero F] (p : DracoParse F)
    (Section : FVoxelProcMeshSection F) : Except Err (FVoxelProcMeshSection F) :=
  FVoxelMeshEncoder.DecodeMeshSection p.mesh? Section

/-- A parsed triangle whose first corner has position value 0 and normal value 1: the point maps
of the two attributes differ, as they do once attribute values have been deduplicated. -/
def splitNormalMesh : draco.Mesh Int :=
  { faces := [⟨0, 1, 2⟩]
    POSITION := some ⟨[⟨0, 0, 0⟩, ⟨1, 0, 0⟩, ⟨0, 1, 0⟩], [0, 1, 2]⟩
    NORMAL := some ⟨[⟨0, 0, 1⟩, ⟨1, 0, 0⟩, ⟨0, 1, 0⟩], [1, 0, 0]⟩
    COLOR := some ⟨[⟨255, 255, 255, 255⟩], [0, 0, 0]⟩ }

/-! ## The cache worker (VoxelDBCacheWorker.h, VoxelDBCacheWorker.cpp) -/

/-- `FVoxelDBCacheData`: `Depth` is a `uint8`, `MeshId` a `uint64`, `Offset` holds three
`int32` and `MeshData` is an array of bytes. -/
structure FVoxelDBCacheData where
  Depth : Nat
  MeshId : Nat
  Offset : FIntVector
  MeshData : List Nat
deriving DecidableEq, Repr

/-- A record whose fields hold values of their C++ types; the array has an `int32` length. -/
def FVoxelDBCacheData.WellTyped (d : FVoxelDBCacheData) : Prop :=
  d.Depth < 256 ∧ d.MeshId < 2 ^ 64
    ∧ (isInt32 d.Offset.X ∧ isInt32 d.Offset.Y ∧ isInt32 d.Offset.Z)
    ∧ (∀ b ∈ d.MeshData, b < 256) ∧ d.MeshData.length < 2 ^ 31

instance (d : FVoxelDBCacheData) : Decidable d.WellTyped := by
  unfold FVoxelDBCacheData.WellTyped
  infer_instance

namespace FArchive

/-- The `n` low bytes of `x`, lowest first: the bytes the engine's archive writes for an unsigned
integer of `n` bytes. -/
def toBytes : Nat → Nat → List Nat
  | 0, _ => []
  | n + 1, x => x % 256 :: toBytes n (x / 256)

/-- The unsigned integer whose bytes, lowest first, are `bs`. -/
def ofBytes : List Nat → Nat
  | [] => 0
  | b :: bs => b + 256 * ofBytes bs

/-- The bytes of an `int32`. -/
def writeInt32 (x : Int) : List Nat := toBytes 4 (x % 2 ^ 32).toNat

/-- `FMemoryReader::Serialize` of `n` bytes: the bytes read and the rest of the stream; a read
past the end sets the archive's error flag. -/
def read (n : Nat) (bs : List Nat) : Except Err (List Nat × List Nat) :=
  if n ≤ bs.length then pure (bs.take n, bs.drop n) else throw Err.archiveError

end FArchive

/-- `operator<<(FArchive&, FVoxelDBCacheData&)` on a writing archive: `Depth`, `MeshId`, `Offset`
and `MeshData` (an `int32` count, then the bytes), in this order. -/
def FVoxelDBCacheData.write (d : FVoxelDBCacheData) : List Nat :=
  FArchive.toBytes 1 d.Depth ++ (FArchive.toBytes 8 d.MeshId
    ++ (FArchive.writeInt32 d.Offset.X ++ (FArchive.writeInt32 d.Offset.Y
    ++ (FArchive.writeInt32 d.Offset.Z ++ (FArchive.writeInt32 d.MeshData.length
    ++ d.MeshData)))))

/-- `operator<<(FArchive&, FVoxelDBCacheData&)` on a reading archive: the record and the rest of
the stream. -/
def FVoxelDBCacheData.read (bs : List Nat) : Except Err (FVoxelDBCacheData × List Nat) := do
  let (b, bs) ← FArchive.read 1 bs
  let Depth := FArchive.ofBytes b
  let (b, bs) ← FArchive.read 8 bs
  let MeshId := FArchive.ofBytes b
  let (b, bs) ← FArchive.read 4 bs
  let X := wrapInt32 (FArchive.ofBytes b)
  let (b, bs) ← FArchive.read 4 bs
  let Y := wrapInt32 (FArchive.ofBytes b)
  let (b, bs) ← FArchive.read 4 bs
  let Z := wrapInt32 (FArchive.ofBytes b)
  let (b, bs) ← FArchive.read 4 bs
  let SerializeNum := wrapInt32 (FArchive.ofBytes b)
  if SerializeNum < 0 then throw Err.archiveError
  else do
    let (MeshData, bs) ← FArchive.read SerializeNum.toNat bs
    pure (⟨Depth, MeshId, ⟨X, Y, Z⟩, MeshData⟩, bs)

/-- The two calls of `FZSTDUtils` the worker makes; a result that is not valid is `none`. -/
structure FZSTDUtils where
  CompressData : List Nat → Option (List Nat)
  DecompressData : List Nat → Option (List Nat)

/-- Compression that loses nothing: every buffer compresses, and decompresses to itself. -/
def FZSTDUtils.Lossless (Z : FZSTDUtils) : Prop :=
  ∀ x, ∃ y, Z.CompressData x = some y ∧ Z.DecompressData y = some x

/-- What the worker takes from its libraries: the compression, and the order in which
`TArray::Sort` leaves an array under the comparison `v0.MeshId < v1.MeshId`. -/
structure CacheEnv where
  Z : FZSTDUtils
  SortByMeshId : List FVoxelDBCacheData → List FVoxelDBCacheData

/-- The sort returns its input rearranged, with mesh ids that never decrease. -/
def CacheEnv.SortOk (env : CacheEnv) : Prop :=
  ∀ l, (env.SortByMeshId l).Perm l ∧ (env.SortByMeshId l).Pairwise (fun v0 v1 => ¬ v1.MeshId < v0.MeshId)

/-- Compression that stores the buffer as it is, and a sort by insertion. -/
def sampleCacheEnv : CacheEnv :=
  { Z := ⟨some, some⟩
    SortByMeshId := List.insertionSort (fun v0 v1 => v0.MeshId ≤ v1.MeshId) }

/-- The row of one world id in the cache table: the columns `ChunkCount`, `LODCount`, `Data`. -/
structure FVoxelDBRow where
  ChunkCount : Int
  LODCount : Int
  Data : List Nat
deriving DecidableEq, Repr

/-- `FVoxelDBCacheMap`, a `TMap` from mesh id to an array, indexed by depth, of record groups:
the pairs in the order of insertion. -/
abbrev FVoxelDBCacheMap := List (Nat × List (List FVoxelDBCacheData))

/-- The value of the map entry with key `k`, the other entries unchanged. -/
def FVoxelDBCacheMap.update (m : FVoxelDBCacheMap) (k : Nat)
    (v : List (List FVoxelDBCacheData)) : FVoxelDBCacheMap :=
  m.map (fun kv => if kv.1 = k then (k, v) else kv)

/-- The records of the map under mesh id `k` and depth `j`. -/
def FVoxelDBCacheMap.bucket (m : FVoxelDBCacheMap) (k j : Nat) : List FVoxelDBCacheData :=
  ((m.lookup k).getD []).getD j []

/-- The tasks of the commit queue. -/
inductive ECommitTask where
  | CREATE_TABLE
  | RESET_TABLE
  | MEMCOMMIT
  | COMMIT
deriving DecidableEq, Repr

/-- `FVoxelDBCacheWorker`. `DB` tells whether the connection is open; `Table` is the row of the
worker's world id in the database of that connection and `Persistent` its row in the persistent
database. A fetch promise is a number, and `Resolved` lists the promises whose value has been
set, with the value (`none` for a null pointer). -/
structure FVoxelDBCacheWorker where
  DB : Bool
  Table : Option FVoxelDBRow
  Persistent : Option FVoxelDBRow
  CommitTaskQueue : List ECommitTask
  CacheDataQueue : List FVoxelDBCacheData
  FetchPromiseQueue : List Nat
  Resolved : List (Nat × Option FVoxelDBCacheMap)
  bCachedTransient : Bool
  bCachedPersistent : Bool
deriving Repr

namespace FVoxelDBCacheWorker

/-- The worker after `Setup` on a world id without a persistent cache: the connection is open,
nothing is stored and nothing is queued. -/
def opened : FVoxelDBCacheWorker :=
  { DB := true
    Table := none
    Persistent := none
    CommitTaskQueue := []
    CacheDataQueue := []
    FetchPromiseQueue := []
    Resolved := []
    bCachedTransient := false
    bCachedPersistent := false }

/-- `FVoxelDBCacheWorker::HasCachedData`. -/
def HasCachedData (s : FVoxelDBCacheWorker) : Bool :=
  s.bCachedTransient || s.bCachedPersistent

/-- The loop of the `MEMCOMMIT` task over the queued records: the byte buffer `ToBinary`, the
`int32` count `ChunkCount` and the `uint8` maximum `LowestLOD`. -/
def memcommitLoop : List FVoxelDBCacheData → List Nat → Int → Nat → List Nat × Int × Nat
  | [], ToBinary, ChunkCount, LowestLOD => (ToBinary, ChunkCount, LowestLOD)
  | d :: rest, ToBinary, ChunkCount, LowestLOD =>
    memcommitLoop rest (ToBinary ++ d.write) (wrapInt32 (ChunkCount + 1)) (max LowestLOD d.Depth)

/-- `FVoxelDBCacheWorker::ExecuteCommitTask`. The insert statement is taken to run as it is
written: it replaces the row of the world id. -/
def ExecuteCommitTask (env : CacheEnv) (s : FVoxelDBCacheWorker) :
    Except Err FVoxelDBCacheWorker :=
  match s.CommitTaskQueue with
  | [] => pure s
  | Task :: rest => do
    check (! s.HasCachedData)
    check s.DB
    let s := { s with CommitTaskQueue := rest }
    match Task with
    | ECommitTask.MEMCOMMIT =>
      match memcommitLoop s.CacheDataQueue [] 0 0 with
      | (ToBinary, ChunkCount, LowestLOD) =>
        match env.Z.CompressData ToBinary with
        | none => throw Err.checkFailed
        | some CompressedBinary =>
          pure { s with
            CacheDataQueue := []
            Table := some ⟨ChunkCount, (LowestLOD : Int) + 1, CompressedBinary⟩
            bCachedTransient := true }
    | _ => pure s

/-- The loop of `ExecuteFetchTask` that reads `ChunkCount` records from the stream into
`CacheArray` and emplaces, for a mesh id the map does not contain, an array of `LODCount` empty
groups. -/
def deserializeLoop (LODCount : Nat) :
    Nat → List Nat → List FVoxelDBCacheData → FVoxelDBCacheMap →
      Except Err (List FVoxelDBCacheData × FVoxelDBCacheMap × List Nat)
  | 0, bs, CacheArray, CacheMap => pure (CacheArray, CacheMap, bs)
  | n + 1, bs, CacheArray, CacheMap => do
    let (CacheData, bs) ← FVoxelDBCacheData.read bs
    let CacheMap :=
      if (CacheMap.lookup CacheData.MeshId).isSome then CacheMap
      else CacheMap ++ [(CacheData.MeshId, List.replicate LODCount [])]
    deserializeLoop LODCount n bs (CacheArray ++ [CacheData]) CacheMap

/-- The loop "Map fetch result" of `ExecuteFetchTask`. The pointer `CacheLODs` is the key of the
map entry it points to, `none` for the null pointer. -/
def groupLoop : List FVoxelDBCacheData → Nat → Option Nat → FVoxelDBCacheMap →
    Except Err FVoxelDBCacheMap
  | [], _, _, CacheMap => pure CacheMap
  | CacheData :: rest, PrevMeshId, CacheLODs, CacheMap => do
    let (PrevMeshId, CacheLODs) ←
      if PrevMeshId ≠ CacheData.MeshId then
        match CacheMap.lookup CacheData.MeshId with
        | none => throw Err.checkFailed
        | some _ => pure (CacheData.MeshId, some CacheData.MeshId)
      else pure (PrevMeshId, CacheLODs)
    match CacheLODs with
    | none => throw Err.nullDereference
    | some k =>
      match CacheMap.lookup k with
      | none => throw Err.nullDereference
      | some lods =>
        if CacheData.Depth < lods.length then
          groupLoop rest PrevMeshId CacheLODs
            (CacheMap.update k (lods.set CacheData.Depth (lods.getD CacheData.Depth []
              ++ [CacheData])))
        else throw Err.indexOutOfRange

/-- The part of `ExecuteFetchTask` between the choice of the database and the promise: the map
built from the row `row` of the world id, if there is one. An array cannot be given a negative
size. -/
def fetchMap (env : CacheEnv) (row : Option FVoxelDBRow) : Except Err FVoxelDBCacheMap := do
  let (CacheArray, CacheMap) ←
    match row with
    | none => pure (([] : List FVoxelDBCacheData), ([] : FVoxelDBCacheMap))
    | some r =>
      match env.Z.DecompressData r.Data with
      | none => throw Err.checkFailed
      | some ByteArray => do
        check (decide (0 ≤ r.ChunkCount))
        check (decide (0 ≤ r.LODCount))
        let (CacheArray, CacheMap, bs) ←
          deserializeLoop r.LODCount.toNat r.ChunkCount.toNat ByteArray [] []
        check (decide (bs = []))
        pure (env.SortByMeshId CacheArray, CacheMap)
  groupLoop CacheArray 0 none CacheMap

/-- `FVoxelDBCacheWorker::ExecuteFetchTask`. The persistent database, when it is the one read, is
taken to open and to close. -/
def ExecuteFetchTask (env : CacheEnv) (s : FVoxelDBCacheWorker) :
    Except Err FVoxelDBCacheWorker :=
  match s.FetchPromiseQueue with
  | [] => pure s
  | FetchPromise :: rest => do
    let db : Option (Option FVoxelDBRow) :=
      if s.bCachedTransient then (if s.DB then some s.Table else none)
      else if s.bCachedPersistent then some s.Persistent
      else none
    match db with
    | none => throw Err.checkFailed
    | some row => do
      let CacheMap ← fetchMap env row
      pure { s with
        FetchPromiseQueue := rest
        Resolved := s.Resolved ++ [(FetchPromise, some CacheMap)] }

/-- `FVoxelDBCacheWorker::Tick`. -/
def Tick (env : CacheEnv) (s : FVoxelDBCacheWorker) : Except Err FVoxelDBCacheWorker := do
  let s ← if s.CommitTaskQueue ≠ [] then ExecuteCommitTask env s else pure s
  if s.FetchPromiseQueue ≠ [] then ExecuteFetchTask env s else pure s

/-- `FVoxelDBCacheWorker::CommitCacheData`. -/
def CommitCacheData (s : FVoxelDBCacheWorker) : Except Err FVoxelDBCacheWorker := do
  check s.DB
  if ! s.HasCachedData && ! s.CacheDataQueue.isEmpty then
    pure { s with CommitTaskQueue := s.CommitTaskQueue ++ [ECommitTask.MEMCOMMIT] }
  else pure s

/-- `FVoxelDBCacheWorker::FetchCacheData` with the new promise `FetchPromise`: the worker, and
whether the future handed back is valid. -/
def FetchCacheData (FetchPromise : Nat) (s : FVoxelDBCacheWorker) :
    FVoxelDBCacheWorker × Bool :=
  if s.HasCachedData then
    ({ s with FetchPromiseQueue := s.FetchPromiseQueue ++ [FetchPromise] }, true)
  else (s, false)

/-- `FVoxelDBCacheWorker::EnqueueCacheData`. -/
def EnqueueCacheData (CacheData : FVoxelDBCacheData) (s : FVoxelDBCacheWorker) :
    FVoxelDBCacheWorker :=
  if ! s.HasCachedData then { s with CacheDataQueue := s.CacheDataQueue ++ [CacheData] }
  else s

/-- The loop of `Shutdown` over the fetch promises: each is dequeued and set to a null
pointer. -/
def resolveLoop : List Nat → FVoxelDBCacheWorker → FVoxelDBCacheWorker
  | [], s => s
  | FetchPromise :: rest, s =>
    resolveLoop rest { s with
      FetchPromiseQueue := rest
      Resolved := s.Resolved ++ [(FetchPromise, none)] }

/-- The value `SQLITE_OK`. -/
def SQLITE_OK : Int := 0

/-- `FVoxelDBCacheWorker::Shutdown`; `DBCloseRetVal` is what `sqlite3_close` returns when it is
called. -/
def Shutdown (DBCloseRetVal : Int) (s : FVoxelDBCacheWorker) :
    Except Err FVoxelDBCacheWorker := do
  let s ←
    if s.DB then do
      check (decide (DBCloseRetVal = SQLITE_OK))
      pure { s with DB := false }
    else pure s
  let s := { s with CommitTaskQueue := [], CacheDataQueue := [] }
  let s := resolveLoop s.FetchPromiseQueue s
  let s := { s with bCachedTransient := false, bCachedPersistent := false }
  check s.CommitTaskQueue.isEmpty
  check s.CacheDataQueue.isEmpty
  check s.FetchPromiseQueue.isEmpty
  pure s

/-- One call on the worker: a record handed over, a request to commit, a request to fetch, or a
tick of the worker's thread. -/
inductive Step where
  | EnqueueCacheData (CacheData : FVoxelDBCacheData)
  | CommitCacheData
  | FetchCacheData (FetchPromise : Nat)
  | Tick

/-- The worker after one call. -/
def step (env : CacheEnv) (s : FVoxelDBCacheWorker) : Step → Except Err FVoxelDBCacheWorker
  | Step.EnqueueCacheData CacheData => pure (s.EnqueueCacheData CacheData)
  | Step.CommitCacheData => s.CommitCacheData
  | Step.FetchCacheData FetchPromise => pure (s.FetchCacheData FetchPromise).1
  | Step.Tick => s.Tick env

/-- The worker after a sequence of calls. -/
def run (env : CacheEnv) (s : FVoxelDBCacheWorker) : List Step → Except Err FVoxelDBCacheWorker
  | [] => pure s
  | st :: sts => do
    let s ← step env s st
    run env s sts

end FVoxelDBCacheWorker

/-- A record of depth 1 in the mesh group 9. -/
def sampleCacheData : FVoxelDBCacheData := ⟨1, 9, ⟨-16, 0, 16⟩, [1, 2, 255]⟩

/-- A record whose mesh id is 0, as a chunk without a mesh group has. -/
def groupless : FVoxelDBCacheData := ⟨0, 0, ⟨0, 0, 0⟩, [7]⟩

/-- The shape that the target LOD `L` fixes for a tree: no node lies below depth `L`, the nodes
above depth `L` are internal (eight children, no chunk), and the nodes of depth `L` are leaves
(no children, a loaded chunk). -/
def FChunkOctree.ShapedAt (L : Int) (t : FChunkOctree) : Prop :=
  ∀ n ∈ t.nodes, L ≤ (n.Depth : Int)
    ∧ (L < (n.Depth : Int) →
        n.bHasChilds = true ∧ n.Childs.length = 8 ∧ n.bHasChunk = false ∧ n.VoxelChunk = none)
    ∧ ((n.Depth : Int) = L →
        n.bHasChilds = false ∧ n.Childs = [] ∧ n.bHasChunk = true
          ∧ n.VoxelChunk.isSome = true)

/-- What the octree reads from the render after `FVoxelRender::Load` for the world depth `Depth`
and the mesh depth `MeshDepth`: the target LOD, and `HasMesh` true exactly for the ids that
`GetIDsAt(TopID, Depth, MeshDepth, IDs)` lists, for which `Load` creates the mapped sections. -/
def FVoxelRender.afterLoad (LOD : Int) (Depth MeshDepth : Nat) : FVoxelRender :=
  { LOD := LOD
    HasMesh := fun MeshId =>
      decide (MeshId ∈ FOctree.GetIDsAt (FOctree.GetTopIdFromDepth Depth) Depth MeshDepth []) }

/-- A tree in which no mesh id is assigned and nothing is built at or below the mesh depth
`Md`: every node has mesh id 0, and a node of depth at most `Md` has neither chunk nor
children. The root that the constructor builds is such a tree. -/
def FChunkOctree.Unassigned (Md : Nat) (t : FChunkOctree) : Prop :=
  ∀ n ∈ t.nodes, n.MeshId = 0
    ∧ (n.Depth ≤ Md → n.bHasChunk = false ∧ n.bHasChilds = false)

/-- The mesh ids that the mapping at mesh depth `Md` fixes in a tree: a node above depth `Md`
has mesh id 0; a node at or below it lies under a node of depth `Md` whose id is mapped, and
its mesh id, and the one its chunk records, is the id of every such node. -/
def FChunkOctree.MeshIdsAt (R : FVoxelRender) (Md : Nat) (t : FChunkOctree) : Prop :=
  ∀ n ∈ t.nodes,
    (Md < n.Depth → n.MeshId = 0)
      ∧ (n.Depth ≤ Md →
        (∃ a ∈ t.nodes, a.Depth = Md ∧ n ∈ a.nodes ∧ R.HasMesh a.Id = true)
          ∧ ∀ a ∈ t.nodes, a.Depth = Md → n ∈ a.nodes →
              n.MeshId = a.Id ∧ ∀ v, n.VoxelChunk = some v → v.MeshId = a.Id)

/-! ## Facts about the id scheme -/

section Ids

open FOctree

theorem GetIDsAtFixed_eq_map (ID LOD : Nat) :
    GetIDsAtFixed ID LOD = (List.range 8).map (childId ID LOD) := by
  simp [GetIDsAtFixed, childId, List.range, List.range.loop]

theorem nine_pow_le {n : Nat} (h : n ≤ 19) : 9 ^ n ≤ 9 ^ 19 :=
  Nat.pow_le_pow_right (by norm_num) h

theorem nine_pow_pos (n : Nat) : 0 < 9 ^ n := pow_pos (by norm_num) n

theorem IntPow9_eq {n : Nat} (h : n ≤ 19) : IntPow9 n = 9 ^ n := by
  unfold IntPow9
  have := nine_pow_le h
  exact Nat.mod_eq_of_lt (lt_of_le_of_lt this (by norm_num))

theorem GetIDsAt_append (Depth : Nat) : ∀ (ID EndDepth : Nat) (out : List Nat),
    GetIDsAt ID Depth EndDepth out = out ++ ids ID Depth EndDepth := by
  induction Depth with
  | zero => intro ID E out; simp [ids, GetIDsAt]
  | succ L ih =>
    intro ID E out
    unfold ids
    rw [GetIDsAt, GetIDsAt]
    split_ifs with h1 h2
    · simp [GetIDsAtEmplace]
    · simp only []
      rw [ih _ _ (GetIDsAt _ L E _), ih _ _ (GetIDsAt _ L E _), ih _ _ (GetIDsAt _ L E _),
        ih _ _ (GetIDsAt _ L E _), ih _ _ (GetIDsAt _ L E _), ih _ _ (GetIDsAt _ L E _),
        ih _ _ (GetIDsAt _ L E _), ih _ _ out]
      conv_rhs =>
        rw [ih _ _ (GetIDsAt _ L E _), ih _ _ (GetIDsAt _ L E _), ih _ _ (GetIDsAt _ L E _),
          ih _ _ (GetIDsAt _ L E _), ih _ _ (GetIDsAt _ L E _), ih _ _ (GetIDsAt _ L E _),
          ih _ _ (GetIDsAt _ L E _), ih _ _ []]
      simp [List.append_assoc]
    · simp

theorem ids_of_le {ID Depth EndDepth : Nat} (h : Depth ≤ EndDepth) :
    ids ID Depth EndDepth = [ID] := by
  unfold ids
  cases Depth with
  | zero => simp [GetIDsAt]
  | succ L =>
    rw [GetIDsAt, if_neg (by omega)]
    simp

/-- One level of the enumeration: the ids below `ID` are those below its eight children. -/
theorem ids_succ {ID L EndDepth : Nat} (h : EndDepth ≤ L) :
    ids ID (L + 1) EndDepth = (List.range 8).flatMap (fun k => ids (childId ID L k) L EndDepth) := by
  unfold ids
  rw [GetIDsAt, if_pos (by omega)]
  by_cases h2 : L = EndDepth
  · rw [if_pos h2]
    have : ∀ k, GetIDsAt (childId ID L k) L EndDepth [] = [childId ID L k] := fun k =>
      ids_of_le (le_of_eq h2)
    simp [GetIDsAtEmplace, GetIDsAtFixed_eq_map, this, List.flatMap, List.range, List.range.loop]
  · rw [if_neg h2]
    simp only []
    rw [GetIDsAt_append L _ _ (GetIDsAt _ L EndDepth _), GetIDsAt_append L _ _ (GetIDsAt _ L EndDepth _),
      GetIDsAt_append L _ _ (GetIDsAt _ L EndDepth _), GetIDsAt_append L _ _ (GetIDsAt _ L EndDepth _),
      GetIDsAt_append L _ _ (GetIDsAt _ L EndDepth _), GetIDsAt_append L _ _ (GetIDsAt _ L EndDepth _),
      GetIDsAt_append L _ _ (GetIDsAt _ L EndDepth _)]
    simp [GetIDsAtFixed_eq_map, ids, List.flatMap, List.range, List.range.loop, List.append_assoc]

theorem childId_eq_mod {ID L k : Nat} (hL : L ≤ 19) :
    childId ID L k = (ID + (k + 1) * 9 ^ L) % 2 ^ 64 := by
  unfold childId
  rw [IntPow9_eq hL]
  omega

theorem childId_lt (ID L k : Nat) : childId ID L k < 2 ^ 64 :=
  Nat.mod_lt _ (by norm_num)

theorem mul_nine_pow_lt {L k : Nat} (hL : L ≤ 19) (hk : k < 8) : (k + 1) * 9 ^ L < 2 ^ 64 := by
  have h1 : (k + 1) * 9 ^ L ≤ 8 * 9 ^ 19 := Nat.mul_le_mul (by omega) (nine_pow_le hL)
  exact lt_of_le_of_lt h1 (by norm_num)

/-- Without wrap-around the child id is the exact sum. -/
theorem childId_exact {ID L k : Nat} (hL : L ≤ 19) (hk : k < 8) (h : ID + 9 ^ (L + 1) ≤ 2 ^ 64) :
    childId ID L k = ID + (k + 1) * 9 ^ L := by
  rw [childId_eq_mod hL]
  apply Nat.mod_eq_of_lt
  have h1 : (k + 1) * 9 ^ L ≤ 8 * 9 ^ L := Nat.mul_le_mul_right _ (by omega)
  have h2 : 9 ^ (L + 1) = 8 * 9 ^ L + 9 ^ L := by ring
  have := nine_pow_pos L
  omega

theorem ids_length (D : Nat) : ∀ (ID E : Nat), E ≤ D → (ids ID D E).length = 8 ^ (D - E) := by
  induction D with
  | zero =>
    intro ID E h
    obtain rfl : E = 0 := by omega
    rw [ids_of_le (le_refl 0)]
    simp
  | succ L ih =>
    intro ID E h
    by_cases h2 : E ≤ L
    · rw [ids_succ h2]
      have e : L + 1 - E = (L - E) + 1 := by omega
      simp [List.flatMap, List.range, List.range.loop, ih _ E h2, e, pow_succ]
      ring
    · have e : E = L + 1 := by omega
      subst e
      rw [ids_of_le (le_refl (L + 1))]
      simp

/-- Every enumerated id is the start id plus an offset below `9 ^ Depth`, modulo `2 ^ 64`. -/
theorem ids_mem_offset (D : Nat) : ∀ (ID E x : Nat), ID < 2 ^ 64 → E ≤ D → D ≤ 19 →
    x ∈ ids ID D E → ∃ off, off + 9 ^ E ≤ 9 ^ D ∧ x = (ID + off) % 2 ^ 64 := by
  induction D with
  | zero =>
    intro ID E x hID h _ hx
    obtain rfl : E = 0 := by omega
    rw [ids_of_le (le_refl 0)] at hx
    simp at hx
    exact ⟨0, by simp, by subst hx; simp; omega⟩
  | succ L ih =>
    intro ID E x hID h hD hx
    by_cases h2 : E ≤ L
    · rw [ids_succ h2, List.mem_flatMap] at hx
      obtain ⟨k, hk, hx⟩ := hx
      rw [List.mem_range] at hk
      obtain ⟨o, ho, rfl⟩ := ih _ E x (childId_lt ID L k) h2 (by omega) hx
      refine ⟨(k + 1) * 9 ^ L + o, ?_, ?_⟩
      · have h1 : (k + 1) * 9 ^ L ≤ 8 * 9 ^ L := Nat.mul_le_mul_right _ (by omega)
        have h3 : 9 ^ (L + 1) = 8 * 9 ^ L + 9 ^ L := by ring
        omega
      · rw [childId_eq_mod (by omega)]
        omega
    · have e : E = L + 1 := by omega
      subst e
      rw [ids_of_le (le_refl (L + 1))] at hx
      simp at hx
      exact ⟨0, by simp, by subst hx; simp; omega⟩

theorem offset_inj {L k k' o u : Nat} (ho : o < 9 ^ L) (ho' : u < 9 ^ L)
    (h : (k + 1) * 9 ^ L + o = (k' + 1) * 9 ^ L + u) : k = k' := by
  rcases Nat.lt_trichotomy k k' with h1 | h1 | h1
  · exfalso
    have : (k + 2) * 9 ^ L ≤ (k' + 1) * 9 ^ L := Nat.mul_le_mul_right _ (by omega)
    have e : (k + 2) * 9 ^ L = (k + 1) * 9 ^ L + 9 ^ L := by ring
    omega
  · exact h1
  · exfalso
    have : (k' + 2) * 9 ^ L ≤ (k + 1) * 9 ^ L := Nat.mul_le_mul_right _ (by omega)
    have e : (k' + 2) * 9 ^ L = (k' + 1) * 9 ^ L + 9 ^ L := by ring
    omega

/-- The subtrees below two different children share no id, whatever the start id. -/
theorem ids_children_disjoint {ID L E k k' : Nat} (hE : E ≤ L) (hL : L ≤ 18)
    (hk : k < 8) (hk' : k' < 8) (hne : k ≠ k') :
    List.Disjoint (ids (childId ID L k) L E) (ids (childId ID L k') L E) := by
  intro x hx hx'
  obtain ⟨o, ho, e1⟩ := ids_mem_offset L _ E x (childId_lt ID L k) hE (by omega) hx
  obtain ⟨o', ho', e2⟩ := ids_mem_offset L _ E x (childId_lt ID L k') hE (by omega) hx'
  rw [childId_eq_mod (by omega)] at e1
  rw [childId_eq_mod (by omega)] at e2
  have hp := nine_pow_pos E
  have b1 := mul_nine_pow_lt (show L ≤ 19 by omega) hk
  have b2 := mul_nine_pow_lt (show L ≤ 19 by omega) hk'
  have b3 : 9 ^ L < 2 ^ 63 := lt_of_le_of_lt (nine_pow_le (show L ≤ 19 by omega)) (by norm_num)
  have b4 : 9 ^ E ≤ 9 ^ L := Nat.pow_le_pow_right (by norm_num) hE
  have b5 : (k + 1) * 9 ^ L ≤ 8 * 9 ^ L := Nat.mul_le_mul_right _ (by omega)
  have b6 : (k' + 1) * 9 ^ L ≤ 8 * 9 ^ L := Nat.mul_le_mul_right _ (by omega)
  have b7 : 9 * 9 ^ L ≤ 9 ^ 19 := by
    have := nine_pow_le (show L + 1 ≤ 19 by omega)
    rwa [pow_succ, mul_comm] at this
  have b8 : (9 : Nat) ^ 19 < 2 ^ 64 := by norm_num
  apply hne
  apply offset_inj (L := L) (o := o) (u := o') (by omega) (by omega)
  omega

theorem ids_nodup (D : Nat) : ∀ (ID E : Nat), E ≤ D → D ≤ 19 →
    (ids ID D E).Nodup := by
  induction D with
  | zero =>
    intro ID E h _
    obtain rfl : E = 0 := by omega
    rw [ids_of_le (le_refl 0)]
    simp
  | succ L ih =>
    intro ID E h hD
    by_cases h2 : E ≤ L
    · rw [ids_succ h2, List.nodup_flatMap]
      refine ⟨fun k _ => ih _ E h2 (by omega), ?_⟩
      apply (List.nodup_range 8).pairwise_of_forall_ne
      intro k hk k' hk' hne
      rw [List.mem_range] at hk hk'
      exact ids_children_disjoint h2 (by omega) hk hk' hne
    · have e : E = L + 1 := by omega
      subst e
      rw [ids_of_le (le_refl (L + 1))]
      simp

/-- Without wrap-around, every enumerated id lies in the window owned by the start id. -/
theorem ids_bounds (D : Nat) : ∀ (ID E : Nat), E ≤ D → D ≤ 19 → ID + 9 ^ D ≤ 2 ^ 64 →
    ∀ x ∈ ids ID D E, ID ≤ x ∧ x + 9 ^ E ≤ ID + 9 ^ D := by
  induction D with
  | zero =>
    intro ID E h _ _ x hx
    obtain rfl : E = 0 := by omega
    rw [ids_of_le (le_refl 0)] at hx
    simp at hx
    subst hx
    simp
  | succ L ih =>
    intro ID E h hD hb x hx
    by_cases h2 : E ≤ L
    · rw [ids_succ h2, List.mem_flatMap] at hx
      obtain ⟨k, hk, hx⟩ := hx
      rw [List.mem_range] at hk
      rw [childId_exact (by omega) hk hb] at hx
      have h1 : (k + 1) * 9 ^ L ≤ 8 * 9 ^ L := Nat.mul_le_mul_right _ (by omega)
      have h3 : 9 ^ (L + 1) = 8 * 9 ^ L + 9 ^ L := by ring
      have := ih _ E h2 (by omega) (by omega) x hx
      omega
    · have e : E = L + 1 := by omega
      subst e
      rw [ids_of_le (le_refl (L + 1))] at hx
      simp at hx
      subst hx
      simp

theorem not_nine_dvd_child {ID L k : Nat} (hk : k < 8) (hd : 9 ^ (L + 1) ∣ ID) :
    ¬ 9 ^ (L + 1) ∣ ID + (k + 1) * 9 ^ L := by
  intro h
  have h1 : 9 ^ (L + 1) ∣ (k + 1) * 9 ^ L := (Nat.dvd_add_right hd).mp h
  rw [pow_succ, mul_comm (9 ^ L) 9] at h1
  have h2 : 9 ∣ k + 1 := (Nat.mul_dvd_mul_iff_right (nine_pow_pos L)).mp h1
  omega

/-- Without wrap-around, an id enumerated at depth `E` below a node of depth `D` whose own id has
base-9 valuation `D` has base-9 valuation exactly `E`. -/
theorem ids_valuation (D : Nat) : ∀ (ID E : Nat), E ≤ D → D ≤ 19 → ID + 9 ^ D ≤ 2 ^ 64 →
    9 ^ D ∣ ID → ¬ 9 ^ (D + 1) ∣ ID → ∀ x ∈ ids ID D E, 9 ^ E ∣ x ∧ ¬ 9 ^ (E + 1) ∣ x := by
  induction D with
  | zero =>
    intro ID E h _ _ hd hn x hx
    obtain rfl : E = 0 := by omega
    rw [ids_of_le (le_refl 0)] at hx
    simp at hx
    subst hx
    exact ⟨hd, hn⟩
  | succ L ih =>
    intro ID E h hD hb hd hn x hx
    by_cases h2 : E ≤ L
    · rw [ids_succ h2, List.mem_flatMap] at hx
      obtain ⟨k, hk, hx⟩ := hx
      rw [List.mem_range] at hk
      rw [childId_exact (by omega) hk hb] at hx
      have h1 : (k + 1) * 9 ^ L ≤ 8 * 9 ^ L := Nat.mul_le_mul_right _ (by omega)
      have h3 : 9 ^ (L + 1) = 8 * 9 ^ L + 9 ^ L := by ring
      have hdL : 9 ^ L ∣ ID := Dvd.dvd.trans (pow_dvd_pow 9 (Nat.le_succ L)) hd
      exact ih _ E h2 (by omega) (by omega)
        (Dvd.dvd.add hdL (Dvd.intro_left _ rfl)) (not_nine_dvd_child hk hd) x hx
    · have e : E = L + 1 := by omega
      subst e
      rw [ids_of_le (le_refl (L + 1))] at hx
      simp at hx
      subst hx
      exact ⟨hd, hn⟩

theorem top_id_valuation (D : Nat) : 9 ^ D ∣ 9 ^ D ∧ ¬ 9 ^ (D + 1) ∣ 9 ^ D := by
  refine ⟨dvd_refl _, fun h => ?_⟩
  have := Nat.le_of_dvd (nine_pow_pos D) h
  have e : 9 ^ (D + 1) = 9 * 9 ^ D := by ring
  have := nine_pow_pos D
  omega

theorem top_id_room {D : Nat} (h : D ≤ 19) : 9 ^ D + 9 ^ D ≤ 2 ^ 64 := by
  have := nine_pow_le h
  have : (9 : Nat) ^ 19 + 9 ^ 19 ≤ 2 ^ 64 := by norm_num
  omega

theorem GetTopIdFromDepth_eq {D : Nat} (h : D ≤ 19) : FOctree.GetTopIdFromDepth D = 9 ^ D :=
  IntPow9_eq h

/-- Ids enumerated at two different depths of the tree rooted at `9 ^ D` never coincide. -/
theorem ids_depths_disjoint {D d1 d2 : Nat} (hD : D ≤ 19) (h1 : d1 ≤ D) (h2 : d2 ≤ D)
    (hlt : d1 < d2) {x : Nat} (hx1 : x ∈ ids (9 ^ D) D d1) (hx2 : x ∈ ids (9 ^ D) D d2) : False := by
  obtain ⟨hd, hn⟩ := top_id_valuation D
  have v1 := ids_valuation D _ d1 h1 hD (top_id_room hD) hd hn x hx1
  have v2 := ids_valuation D _ d2 h2 hD (top_id_room hD) hd hn x hx2
  exact v1.2 (Dvd.dvd.trans (pow_dvd_pow 9 (Nat.succ_le_of_lt hlt)) v2.1)

/-- A child id never equals its parent id, for any parent id. -/
theorem childId_ne_parent {ID L k : Nat} (hL : L ≤ 19) (hk : k < 8) :
    childId ID L k ≠ ID := by
  rw [childId_eq_mod hL]
  have := mul_nine_pow_lt hL hk
  have h0 : 0 < (k + 1) * 9 ^ L := Nat.mul_pos (by omega) (nine_pow_pos L)
  omega

theorem foldl_append_flatMap {α β : Type} (g : α → List β) : ∀ (l : List α) (out : List β),
    l.foldl (fun out c => out ++ g c) out = out ++ l.flatMap g := by
  intro l
  induction l with
  | nil => intro out; simp
  | cons a l ih => intro out; simp [ih, List.append_assoc]

theorem GetIDsAtExact_append (D : Nat) : ∀ (ID E : Nat) (out : List Nat),
    FOctree.GetIDsAtExact ID D E out = out ++ FOctree.GetIDsAtExact ID D E [] := by
  induction D with
  | zero => intro ID E out; simp [GetIDsAtExact]
  | succ L ih =>
    intro ID E out
    have hf : (fun (out : List Nat) (c : Nat) => GetIDsAtExact c L E out)
        = fun out c => out ++ GetIDsAtExact c L E [] := by
      funext o c; exact ih c E o
    rw [GetIDsAtExact, GetIDsAtExact]
    split_ifs with h1 h2
    · simp
    · rw [hf, foldl_append_flatMap, foldl_append_flatMap]
      simp
    · simp

theorem GetIDsAtExact_of_le {ID D E : Nat} (h : D ≤ E) : FOctree.GetIDsAtExact ID D E [] = [ID] := by
  cases D with
  | zero => simp [GetIDsAtExact]
  | succ L =>
    rw [GetIDsAtExact, if_neg (by omega)]
    simp

theorem GetIDsAtExact_succ {ID L E : Nat} (h : E ≤ L) :
    FOctree.GetIDsAtExact ID (L + 1) E []
      = (List.range 8).flatMap (fun k => FOctree.GetIDsAtExact (ID + (k + 1) * 9 ^ L) L E []) := by
  rw [GetIDsAtExact, if_pos (by omega)]
  by_cases h2 : L = E
  · rw [if_pos h2]
    have : ∀ c, GetIDsAtExact c L E [] = [c] := fun c => GetIDsAtExact_of_le (le_of_eq h2)
    simp [GetIDsAtFixedExact, this, List.flatMap, List.range, List.range.loop]
  · rw [if_neg h2]
    have hf : (fun (out : List Nat) (c : Nat) => GetIDsAtExact c L E out)
        = fun out c => out ++ GetIDsAtExact c L E [] := by
      funext o c; exact GetIDsAtExact_append L c E o
    rw [hf, foldl_append_flatMap]
    simp [GetIDsAtFixedExact, List.flatMap, List.range, List.range.loop]

/-- Without wrap-around the 64-bit enumeration is the enumeration over unbounded naturals. -/
theorem ids_eq_exact (D : Nat) : ∀ (ID E : Nat), E ≤ D → D ≤ 19 → ID + 9 ^ D ≤ 2 ^ 64 →
    ids ID D E = FOctree.GetIDsAtExact ID D E [] := by
  induction D with
  | zero =>
    intro ID E _ _ _
    rw [ids_of_le (Nat.zero_le E), GetIDsAtExact_of_le (Nat.zero_le E)]
  | succ L ih =>
    intro ID E h hD hb
    by_cases h2 : E ≤ L
    · rw [ids_succ h2, GetIDsAtExact_succ h2]
      apply List.flatMap_congr
      intro k hk
      rw [List.mem_range] at hk
      rw [childId_exact (by omega) hk hb]
      have h1 : (k + 1) * 9 ^ L ≤ 8 * 9 ^ L := Nat.mul_le_mul_right _ (by omega)
      have h3 : 9 ^ (L + 1) = 8 * 9 ^ L + 9 ^ L := by ring
      exact ih _ E h2 (by omega) (by omega)
    · rw [ids_of_le (by omega), GetIDsAtExact_of_le (by omega)]

end Ids

/-! ## Facts about the chunk octree -/

section Tree

open FChunkOctree

theorem check_true : check true = Except.ok () := rfl

theorem check_false : check false = Except.error Err.checkFailed := rfl

theorem SizeAt_eq (D : Nat) : SizeAt D = 16 * 2 ^ D := by
  simp [SizeAt, Nat.shiftLeft_eq]

theorem new_eq {p : FIntVector} {d i m : Nat} (h : d ≤ 19) :
    FChunkOctree.new p d i m = Except.ok (FChunkOctree.mk p d i false [] false m none) := by
  simp [FChunkOctree.new, h, check, bind, Except.bind, pure, Except.pure]

theorem octantSign_cases (k bit : Nat) : octantSign k bit = 1 ∨ octantSign k bit = -1 := by
  unfold octantSign
  split <;> simp

theorem octantSign_inj : ∀ k, k < 8 → ∀ k', k' < 8 →
    octantSign k 0 = octantSign k' 0 → octantSign k 1 = octantSign k' 1 →
    octantSign k 2 = octantSign k' 2 → k = k' := by
  decide

/-- `CreateChilds` on a node without chunk and children builds the eight fresh children. -/
theorem CreateChilds_eq (R : FVoxelRender) {P : FIntVector} {D I M : Nat}
    {V : Option FVoxelChunkNode} (hD : D ≠ 0) (h19 : D ≤ 19) :
    CreateChilds R (FChunkOctree.mk P D I false [] false M V)
      = Except.ok (FChunkOctree.mk P D I true
          ((List.range 8).map (freshChild (P, D, I) (AssignMeshId R I M))) false
          (AssignMeshId R I M) V) := by
  have h1 : D - 1 ≤ 19 := by omega
  simp [CreateChilds, check, hD, bind, Except.bind, pure, Except.pure, new_eq h1, addChild,
    FOctree.GetIDsAtFixed, freshChild, childKey, childId, octantSign, List.range, List.range.loop,
    Nat.testBit]

theorem Load_eq (R : FVoxelRender) {P : FIntVector} {D I M : Nat} :
    Load R (FChunkOctree.mk P D I false [] false M none)
      = Except.ok (loadedNode R P D I M) := by
  simp [Load, loadedNode, check, bind, Except.bind, pure, Except.pure]

theorem Unload_eq {P : FIntVector} {D I M : Nat} {cs : List FChunkOctree} {v : FVoxelChunkNode} :
    Unload (FChunkOctree.mk P D I false cs true M (some v))
      = Except.ok (FChunkOctree.mk P D I false cs false M none) := by
  simp [Unload, check, bind, Except.bind, pure, Except.pure]

theorem nodes_mk (p : FIntVector) (d i : Nat) (hc : Bool) (cs : List FChunkOctree) (hk : Bool)
    (m : Nat) (v : Option FVoxelChunkNode) :
    nodes (FChunkOctree.mk p d i hc cs hk m v) = FChunkOctree.mk p d i hc cs hk m v :: nodesAll cs := by
  rw [nodes]

theorem mem_nodesAll {n : FChunkOctree} : ∀ {cs : List FChunkOctree},
    n ∈ nodesAll cs ↔ ∃ c ∈ cs, n ∈ nodes c := by
  intro cs
  induction cs with
  | nil => simp [nodesAll]
  | cons c cs ih => simp [nodesAll, ih]

theorem self_mem_nodes (t : FChunkOctree) : t ∈ nodes t := by
  cases t
  simp [nodes_mk]

theorem mem_nodes_iff {n t : FChunkOctree} :
    n ∈ nodes t ↔ n = t ∨ ∃ c ∈ t.Childs, n ∈ nodes c := by
  cases t
  simp [nodes_mk, mem_nodesAll, FChunkOctree.Childs]

theorem wf_of_mem_nodes {t : FChunkOctree} (h : WellFormed t) :
    ∀ n ∈ nodes t, WellFormed n := by
  induction h with
  | mk P D I hc cs hk M V hDepth hPos hExcl hChunk hChilds hNone hRec ih =>
    intro n hn
    rw [mem_nodes_iff] at hn
    rcases hn with rfl | ⟨c, hc1, hc2⟩
    · exact WellFormed.mk P D I hc cs hk M V hDepth hPos hExcl hChunk hChilds hNone hRec
    · exact ih c hc1 n hc2

theorem wf_nodeInv {t : FChunkOctree} (h : WellFormed t) : NodeInv t := by
  cases h with
  | mk P D I hc cs hk M V hDepth hPos hExcl hChunk hChilds hNone hRec =>
    refine ⟨hExcl, ?_, ?_⟩
    · show hc = true ↔ cs.length = 8
      constructor
      · intro h
        have := congrArg List.length (hChilds h).2
        simpa using this
      · intro h
        cases hc with
        | true => rfl
        | false => rw [hNone rfl] at h; simp at h
    · show hk = true ↔ V.isSome = true
      rw [hChunk]

theorem destroyAll_ok : ∀ (cs : List FChunkOctree),
    (∀ c ∈ cs, Destroy c = Except.ok ()) → destroyAll cs = Except.ok () := by
  intro cs
  induction cs with
  | nil => intro _; rw [destroyAll]; rfl
  | cons c cs ih =>
    intro h
    rw [destroyAll, h c (List.mem_cons_self _ _)]
    exact ih (fun c' hc' => h c' (List.mem_cons_of_mem _ hc'))

/-- Destroying a well-formed tree trips no check. -/
theorem wf_destroy_ok {t : FChunkOctree} (h : WellFormed t) : Destroy t = Except.ok () := by
  induction h with
  | mk P D I hc cs hk M V hDepth hPos hExcl hChunk hChilds hNone hRec ih =>
    have hall := destroyAll_ok cs ih
    rw [Destroy]
    cases hk with
    | true =>
      cases hc with
      | true => exact absurd ⟨rfl, rfl⟩ hExcl
      | false =>
        cases V with
        | none => simp at hChunk
        | some v => simp [check, bind, Except.bind, pure, Except.pure]
    | false =>
      cases hc with
      | true =>
        have hl : cs.length = 8 := by
          have := congrArg List.length (hChilds rfl).2
          simpa using this
        simp [check, bind, Except.bind, pure, Except.pure, hl, hall]
      | false => simp [check, bind, Except.bind, pure, Except.pure]

theorem DestroyChilds_eq {P : FIntVector} {D I M : Nat} {cs : List FChunkOctree}
    {V : Option FVoxelChunkNode}
    (h : WellFormed (FChunkOctree.mk P D I true cs false M V)) :
    DestroyChilds (FChunkOctree.mk P D I true cs false M V)
      = Except.ok (FChunkOctree.mk P D I false [] false M V) := by
  cases h with
  | mk _ _ _ _ _ _ _ _ hDepth hPos hExcl hChunk hChilds hNone hRec =>
    have hall := destroyAll_ok cs (fun c hc => wf_destroy_ok (hRec c hc))
    have hl : cs.length = 8 := by
      have := congrArg List.length (hChilds rfl).2
      simpa using this
    simp [DestroyChilds, check, bind, Except.bind, pure, Except.pure, hl, hall]

theorem mapM_ok {α β : Type} {f : α → Except Err β} {Q : α → β → Prop} : ∀ (l : List α),
    (∀ a ∈ l, ∃ b, f a = Except.ok b ∧ Q a b) →
    ∃ l', l.mapM f = Except.ok l' ∧ List.Forall₂ Q l l' := by
  intro l
  induction l with
  | nil => intro _; exact ⟨[], rfl, List.Forall₂.nil⟩
  | cons a l ih =>
    intro h
    obtain ⟨b, hb, hq⟩ := h a (List.mem_cons_self _ _)
    obtain ⟨l', hl, hq'⟩ := ih (fun a' ha' => h a' (List.mem_cons_of_mem _ ha'))
    refine ⟨b :: l', ?_, List.Forall₂.cons hq hq'⟩
    rw [List.mapM_cons, hb, hl]
    rfl

theorem wrapInt32_isInt32 (x : Int) : isInt32 (wrapInt32 x) := by
  unfold isInt32 wrapInt32
  omega

theorem add_isInt32 (a b : FIntVector) : (a.add b).isInt32 :=
  ⟨wrapInt32_isInt32 _, wrapInt32_isInt32 _, wrapInt32_isInt32 _⟩

theorem childKey_depth (K : FIntVector × Nat × Nat) (k : Nat) : (childKey K k).2.1 = K.2.1 - 1 := rfl

theorem childKey_id (K : FIntVector × Nat × Nat) (k : Nat) :
    (childKey K k).2.2 = childId K.2.2 (K.2.1 - 1) k := rfl

theorem key_freshChild (K : FIntVector × Nat × Nat) (m k : Nat) :
    key (freshChild K m k) = childKey K k := rfl

theorem wf_leaf_or_empty {P : FIntVector} {D I M : Nat} {b : Bool} {V : Option FVoxelChunkNode}
    (hD : D ≤ 19) (hP : P.isInt32) (hV : b = V.isSome) :
    WellFormed (FChunkOctree.mk P D I false [] b M V) :=
  WellFormed.mk P D I false [] b M V hD hP (by simp) hV (by simp) (fun _ => rfl)
    (fun c hc => absurd hc (List.not_mem_nil c))

theorem wf_freshChild {P : FIntVector} {D I : Nat} (m k : Nat) (hD : D ≤ 19) :
    WellFormed (freshChild (P, D, I) m k) := by
  unfold freshChild
  exact wf_leaf_or_empty (by rw [childKey_depth]; show D - 1 ≤ 19; omega) (add_isInt32 _ _) rfl

/-- The children listed under a well-formed internal node have the parent's depth minus one. -/
theorem depth_of_mem_childs {P : FIntVector} {D I : Nat} {cs : List FChunkOctree}
    (h : cs.map key = (List.range 8).map (childKey (P, D, I))) {c : FChunkOctree} (hc : c ∈ cs) :
    c.Depth = D - 1 := by
  have hm : key c ∈ cs.map key := List.mem_map_of_mem key hc
  rw [h, List.mem_map] at hm
  obtain ⟨k, _, hk⟩ := hm
  have := congrArg (fun K => K.2.1) hk
  exact this.symm

theorem forall₂_lift {W A : FChunkOctree → Prop} : ∀ {cs cs' : List FChunkOctree},
    List.Forall₂ (fun c c' => W c' ∧ key c' = key c ∧ A c') cs cs' →
    cs'.map key = cs.map key ∧ ∀ c' ∈ cs', W c' ∧ A c' := by
  intro cs cs' h
  induction h with
  | nil => simp
  | cons hq _ ih =>
    refine ⟨by simp [hq.2.1, ih.1], ?_⟩
    intro c' hc'
    rcases List.mem_cons.mp hc' with rfl | h'
    · exact ⟨hq.1, hq.2.2⟩
    · exact ih.2 c' h'

theorem allLoaded_internal {P : FIntVector} {D I M : Nat} {cs : List FChunkOctree} {hk : Bool}
    {V : Option FVoxelChunkNode} (h : ∀ c ∈ cs, AllLoaded c) :
    AllLoaded (FChunkOctree.mk P D I true cs hk M V) := by
  intro n hn hc
  rw [mem_nodes_iff] at hn
  rcases hn with rfl | ⟨c, hc1, hc2⟩
  · simp [FChunkOctree.bHasChilds] at hc
  · exact h c hc1 n hc2 hc

theorem allLoaded_leaf {P : FIntVector} {D I M : Nat} {V : Option FVoxelChunkNode} :
    AllLoaded (FChunkOctree.mk P D I false [] true M V) := by
  intro n hn _
  rw [mem_nodes_iff] at hn
  rcases hn with rfl | ⟨c, hc1, _⟩
  · rfl
  · simp [FChunkOctree.Childs] at hc1

/-- Updating the eight children of an internal node, given that each child updates well. -/
theorem update_childs (R : FVoxelRender) (fuel : Nat)
    (ih : ∀ t, WellFormed t → t.Depth < fuel →
      ∃ t', UpdateLOD R fuel t = Except.ok t' ∧ WellFormed t' ∧ key t' = key t ∧ AllLoaded t')
    {P : FIntVector} {D I M : Nat} {cs : List FChunkOctree}
    (hD : D ≤ 19) (hP : P.isInt32) (h0 : D ≠ 0) (hfuel : D < fuel + 1)
    (hkeys : cs.map key = (List.range 8).map (childKey (P, D, I)))
    (hRec : ∀ c ∈ cs, WellFormed c) :
    ∃ cs', cs.mapM (UpdateLOD R fuel) = Except.ok cs'
      ∧ WellFormed (FChunkOctree.mk P D I true cs' false M none)
      ∧ AllLoaded (FChunkOctree.mk P D I true cs' false M none) := by
  obtain ⟨cs', hm, hq⟩ := mapM_ok (f := UpdateLOD R fuel)
    (Q := fun c c' => WellFormed c' ∧ key c' = key c ∧ AllLoaded c') cs
    (fun c hc => ih c (hRec c hc) (by rw [depth_of_mem_childs hkeys hc]; omega))
  obtain ⟨hk', hall⟩ := forall₂_lift hq
  refine ⟨cs', hm, ?_, allLoaded_internal (fun c hc => (hall c hc).2)⟩
  exact WellFormed.mk P D I true cs' false M none hD hP (by simp) rfl
    (fun _ => ⟨h0, hk'.trans hkeys⟩) (by simp) (fun c hc => (hall c hc).1)

theorem length_of_keys {P : FIntVector} {D I : Nat} {cs : List FChunkOctree}
    (h : cs.map key = (List.range 8).map (childKey (P, D, I))) : cs.length = 8 := by
  have := congrArg List.length h
  simpa using this

theorem keys_fresh (K : FIntVector × Nat × Nat) (m : Nat) :
    ((List.range 8).map (freshChild K m)).map key = (List.range 8).map (childKey K) := by
  rw [List.map_map]
  rfl

/-- One `UpdateLOD` on a well-formed tree with enough recursion budget returns a well-formed tree
with the same root position, depth and id, in which every node without children is loaded. -/
theorem UpdateLOD_wf (R : FVoxelRender) : ∀ (fuel : Nat) (t : FChunkOctree),
    WellFormed t → t.Depth < fuel →
    ∃ t', UpdateLOD R fuel t = Except.ok t' ∧ WellFormed t' ∧ key t' = key t ∧ AllLoaded t' := by
  intro fuel
  induction fuel with
  | zero => intro t _ h; exact absurd h (Nat.not_lt_zero _)
  | succ fuel ih =>
    intro t hwf hfuel
    cases hwf with
    | mk P D I hc cs hk M V hDepth hPos hExcl hChunk hChilds hNone hRec =>
      simp only [FChunkOctree.Depth] at hfuel
      have hdead : ¬ (R.LOD < (D : Int) ∧ (D : Int) < R.LOD) := by omega
      have hdead' : R.LOD < (D : Int) → ¬ ((D : Int) < R.LOD) := by omega
      cases hc with
      | true =>
        have hk0 : hk = false := by
          cases hk with
          | false => rfl
          | true => exact absurd ⟨rfl, rfl⟩ hExcl
        subst hk0
        have hV : V = none := by
          cases V with
          | none => rfl
          | some v => simp at hChunk
        subst hV
        obtain ⟨h0, hkeys⟩ := hChilds rfl
        have hl := length_of_keys hkeys
        by_cases hL : R.LOD < (D : Int)
        · obtain ⟨cs', hm, hw, ha⟩ :=
            update_childs R fuel ih (M := M) hDepth hPos h0 hfuel hkeys hRec
          have hm' : List.mapM.loop (UpdateLOD R fuel) cs [] = Except.ok cs' := hm
          have hn := hdead' hL
          refine ⟨FChunkOctree.mk P D I true cs' false M none, ?_, hw, rfl, ha⟩
          simp [UpdateLOD, check, bind, Except.bind, pure, Except.pure, FChunkOctree.bHasChunk,
            FChunkOctree.bHasChilds, FChunkOctree.VoxelChunk, FChunkOctree.Childs,
            FChunkOctree.Depth, FChunkOctree.Position, FChunkOctree.Id, FChunkOctree.MeshId,
            hl, h0, hL, hn, hm', setChilds]
        · have hd := DestroyChilds_eq
            (WellFormed.mk P D I true cs false M none hDepth hPos hExcl hChunk hChilds hNone hRec)
          refine ⟨loadedNode R P D I M, ?_, wf_leaf_or_empty (b := true) (V := some _) hDepth hPos rfl,
                  rfl, allLoaded_leaf⟩
          simp [UpdateLOD, check, bind, Except.bind, pure, Except.pure, FChunkOctree.bHasChunk,
            FChunkOctree.bHasChilds, FChunkOctree.VoxelChunk, FChunkOctree.Childs,
            FChunkOctree.Depth, hl, h0, hL, hdead, hd, Load_eq]
      | false =>
        have hcs := hNone rfl
        subst hcs
        cases hk with
        | true =>
          cases V with
          | none => simp at hChunk
          | some v =>
            by_cases h0 : D = 0
            · refine ⟨_, ?_, wf_leaf_or_empty (b := true) (V := some v) hDepth hPos rfl, rfl,
                allLoaded_leaf⟩
              simp [UpdateLOD, check, bind, Except.bind, pure, Except.pure,
                FChunkOctree.bHasChunk, FChunkOctree.bHasChilds, FChunkOctree.VoxelChunk,
                FChunkOctree.Childs, FChunkOctree.Depth, h0]
            · by_cases hL : R.LOD < (D : Int)
              · obtain ⟨cs', hm, hw, ha⟩ :=
                  update_childs R fuel ih (M := AssignMeshId R I M) hDepth hPos h0 hfuel
                    (keys_fresh (P, D, I) (AssignMeshId R I M))
                    (fun c hc => by
                      rw [List.mem_map] at hc
                      obtain ⟨k, _, rfl⟩ := hc
                      exact wf_freshChild _ k hDepth)
                have hm' : List.mapM.loop (UpdateLOD R fuel)
                    ((List.range 8).map (freshChild (P, D, I) (AssignMeshId R I M))) []
                    = Except.ok cs' := hm
                have hn := hdead' hL
                refine ⟨_, ?_, hw, rfl, ha⟩
                simp [UpdateLOD, check, bind, Except.bind, pure, Except.pure,
                  FChunkOctree.bHasChunk, FChunkOctree.bHasChilds, FChunkOctree.VoxelChunk,
                  FChunkOctree.Childs, FChunkOctree.Depth, FChunkOctree.Position,
                  FChunkOctree.Id, FChunkOctree.MeshId, h0, hL, hdead, Unload_eq,
                  CreateChilds_eq R h0 hDepth, hm', hn, setChilds]
              · refine ⟨_, ?_, wf_leaf_or_empty (b := true) (V := some v) hDepth hPos rfl, rfl,
                  allLoaded_leaf⟩
                simp [UpdateLOD, check, bind, Except.bind, pure, Except.pure,
                  FChunkOctree.bHasChunk, FChunkOctree.bHasChilds, FChunkOctree.VoxelChunk,
                  FChunkOctree.Childs, FChunkOctree.Depth, h0, hL, hdead]
        | false =>
          cases V with
          | some v => simp at hChunk
          | none =>
            by_cases h0 : D = 0
            · refine ⟨loadedNode R P D I M, ?_, wf_leaf_or_empty (b := true) (V := some _) hDepth hPos rfl,
                  rfl, allLoaded_leaf⟩
              simp [UpdateLOD, check, bind, Except.bind, pure, Except.pure,
                FChunkOctree.bHasChunk, FChunkOctree.bHasChilds, FChunkOctree.VoxelChunk,
                FChunkOctree.Childs, FChunkOctree.Depth, h0, Load_eq]
            · by_cases hL : R.LOD < (D : Int)
              · obtain ⟨cs', hm, hw, ha⟩ :=
                  update_childs R fuel ih (M := AssignMeshId R I M) hDepth hPos h0 hfuel
                    (keys_fresh (P, D, I) (AssignMeshId R I M))
                    (fun c hc => by
                      rw [List.mem_map] at hc
                      obtain ⟨k, _, rfl⟩ := hc
                      exact wf_freshChild _ k hDepth)
                have hm' : List.mapM.loop (UpdateLOD R fuel)
                    ((List.range 8).map (freshChild (P, D, I) (AssignMeshId R I M))) []
                    = Except.ok cs' := hm
                have hn := hdead' hL
                refine ⟨_, ?_, hw, rfl, ha⟩
                simp [UpdateLOD, check, bind, Except.bind, pure, Except.pure,
                  FChunkOctree.bHasChunk, FChunkOctree.bHasChilds, FChunkOctree.VoxelChunk,
                  FChunkOctree.Childs, FChunkOctree.Depth, FChunkOctree.Position,
                  FChunkOctree.Id, FChunkOctree.MeshId, h0, hL, hdead,
                  CreateChilds_eq R h0 hDepth, hm', hn, setChilds]
              · refine ⟨loadedNode R P D I M, ?_, wf_leaf_or_empty (b := true) (V := some _) hDepth hPos rfl,
                  rfl, allLoaded_leaf⟩
                simp [UpdateLOD, check, bind, Except.bind, pure, Except.pure,
                  FChunkOctree.bHasChunk, FChunkOctree.bHasChilds, FChunkOctree.VoxelChunk,
                  FChunkOctree.Childs, FChunkOctree.Depth, h0, hL, hdead, Load_eq]

theorem UpdateLODs_wf (fuel : Nat) : ∀ (Rs : List FVoxelRender) (t : FChunkOctree),
    WellFormed t → t.Depth < fuel →
    ∃ t', UpdateLODs fuel Rs t = Except.ok t' ∧ WellFormed t' ∧ key t' = key t
      ∧ (Rs ≠ [] → AllLoaded t') := by
  intro Rs
  induction Rs with
  | nil => intro t hw _; exact ⟨t, rfl, hw, rfl, fun h => absurd rfl h⟩
  | cons R Rs ih =>
    intro t hw hf
    obtain ⟨t1, h1, hw1, hk1, ha1⟩ := UpdateLOD_wf R fuel t hw hf
    have hd : t1.Depth = t.Depth := congrArg (fun K => K.2.1) hk1
    obtain ⟨t2, h2, hw2, hk2, ha2⟩ := ih t1 hw1 (by rw [hd]; exact hf)
    refine ⟨t2, ?_, hw2, hk2.trans hk1, fun _ => ?_⟩
    · rw [UpdateLODs, h1]
      exact h2
    · cases Rs with
      | nil =>
        have : t2 = t1 := by
          have h3 : UpdateLODs fuel [] t1 = Except.ok t1 := rfl
          rw [h3] at h2
          injection h2 with h4
          exact h4.symm
        rw [this]
        exact ha1
      | cons R' Rs' => exact ha2 (List.cons_ne_nil _ _)

theorem childKey_eq (P : FIntVector) (D I k : Nat) :
    childKey (P, D, I) k
      = (⟨wrapInt32 (P.X + octantSign k 0 * (SizeAt D / 4)),
          wrapInt32 (P.Y + octantSign k 1 * (SizeAt D / 4)),
          wrapInt32 (P.Z + octantSign k 2 * (SizeAt D / 4))⟩, D - 1, childId I (D - 1) k) := rfl

theorem SizeAt_half {D : Nat} (h : 1 ≤ D) : SizeAt (D - 1) = SizeAt D / 2 := by
  rw [SizeAt_eq, SizeAt_eq]
  obtain ⟨n, rfl⟩ : ∃ n, D = n + 1 := ⟨D - 1, by omega⟩
  simp only [Nat.add_sub_cancel, pow_succ]
  omega

theorem wrapInt32_of_isInt32 {x : Int} (h : isInt32 x) : wrapInt32 x = x := by
  unfold isInt32 at h
  unfold wrapInt32
  omega

/-- Reading the `j`-th child of a node whose children carry the keys placed by `CreateChilds`. -/
theorem key_of_getElem? {K : FIntVector × Nat × Nat} {cs : List FChunkOctree}
    (h : cs.map key = (List.range 8).map (childKey K)) {j : Nat} {c : FChunkOctree}
    (hc : cs[j]? = some c) : j < 8 ∧ key c = childKey K j := by
  have hl : cs.length = 8 := by
    have := congrArg List.length h
    simpa using this
  have hj : j < 8 := by
    have := (List.getElem?_eq_some.mp hc).1
    omega
  refine ⟨hj, ?_⟩
  have h1 : (cs.map key)[j]? = some (key c) := by
    rw [List.getElem?_map, hc]
    rfl
  rw [h] at h1
  rw [List.getElem?_map, List.getElem?_range hj] at h1
  simpa using h1.symm

theorem axis_partition {X x d s : Int} (hX : isInt32 X) (hx : isInt32 x) (hs : s = 1 ∨ s = -1)
    (hin : wrapInt32 (X - 2 * d) ≤ x ∧ x < wrapInt32 (X + 2 * d)) :
    (wrapInt32 (wrapInt32 (X + s * d) - d) ≤ x ∧ x < wrapInt32 (wrapInt32 (X + s * d) + d))
      ↔ (s = 1 ↔ X ≤ x) := by
  unfold isInt32 at hX hx
  unfold wrapInt32 at *
  rcases hs with rfl | rfl
  · constructor
    · intro h; constructor
      · intro _; omega
      · intro _; rfl
    · intro h
      have := h.mp rfl
      omega
  · constructor
    · intro h; constructor
      · intro h1; omega
      · intro h1; omega
    · intro h
      have : ¬ X ≤ x := fun h1 => by have := h.mpr h1; omega
      omega

theorem inBox_iff (P : FIntVector) (S : Int) (p : FIntVector) :
    inBox P S p = true ↔
      (wrapInt32 (P.X - S / 2) ≤ p.X ∧ p.X < wrapInt32 (P.X + S / 2))
      ∧ (wrapInt32 (P.Y - S / 2) ≤ p.Y ∧ p.Y < wrapInt32 (P.Y + S / 2))
      ∧ (wrapInt32 (P.Z - S / 2) ≤ p.Z ∧ p.Z < wrapInt32 (P.Z + S / 2)) := by
  simp [inBox, and_assoc]

/-- Inside the parent's box, the child of octant `j` contains the point exactly when the sign
of `j` on every axis agrees with the side of the parent's centre the point lies on. -/
theorem child_inBox_iff {P p : FIntVector} {D : Nat} (hD : D ≠ 0) (hP : P.isInt32)
    (hp : p.isInt32) (hin : inBox P (SizeAt D) p = true) (j : Nat) :
    inBox (childKey (P, D, 0) j).1 (SizeAt (D - 1)) p = true ↔
      ((octantSign j 0 = 1 ↔ P.X ≤ p.X) ∧ (octantSign j 1 = 1 ↔ P.Y ≤ p.Y)
        ∧ (octantSign j 2 = 1 ↔ P.Z ≤ p.Z)) := by
  rw [inBox_iff] at hin
  rw [inBox_iff, childKey_eq]
  have h2 : SizeAt D / 2 = 2 * (SizeAt D / 4) := by rw [SizeAt_eq]; omega
  have h4 : SizeAt (D - 1) / 2 = SizeAt D / 4 := by
    rw [SizeAt_half (by omega), SizeAt_eq]; omega
  rw [h2] at hin
  rw [h4]
  obtain ⟨hX, hY, hZ⟩ := hP
  obtain ⟨hx, hy, hz⟩ := hp
  obtain ⟨iX, iY, iZ⟩ := hin
  exact and_congr (axis_partition hX hx (octantSign_cases j 0) iX)
    (and_congr (axis_partition hY hy (octantSign_cases j 1) iY)
      (axis_partition hZ hz (octantSign_cases j 2) iZ))

/-- The index that `GetChild` computes. -/
theorem octant_index_spec (a b c : Prop) [Decidable a] [Decidable b] [Decidable c] :
    (if a then 1 else 0) + (if b then 2 else 0) + (if c then 4 else 0) < 8
    ∧ (octantSign ((if a then 1 else 0) + (if b then 2 else 0) + (if c then 4 else 0)) 0 = 1 ↔ a)
    ∧ (octantSign ((if a then 1 else 0) + (if b then 2 else 0) + (if c then 4 else 0)) 1 = 1 ↔ b)
    ∧ (octantSign ((if a then 1 else 0) + (if b then 2 else 0) + (if c then 4 else 0)) 2 = 1 ↔ c) := by
  by_cases ha : a <;> by_cases hb : b <;> by_cases hc : c <;>
    simp [ha, hb, hc, octantSign, Nat.testBit]

/-- What `GetChild` returns on a well-formed internal node for a point inside it. -/
theorem GetChild_spec {t : FChunkOctree} {p : FIntVector} (hw : WellFormed t)
    (hc : t.bHasChilds = true) (hp : p.isInt32) (hin : t.IsInOctree p = true) :
    ∃ i c, i < 8 ∧ GetChild t p = Except.ok c ∧ t.Childs[i]? = some c
      ∧ c.IsInOctree p = true ∧ c.Depth = t.Depth - 1 ∧ t.Depth ≠ 0 ∧ WellFormed c
      ∧ ∀ j c', j ≠ i → t.Childs[j]? = some c' → c'.IsInOctree p = false := by
  cases hw with
  | mk P D I hcb cs hk M V hDepth hPos hExcl hChunk hChilds hNone hRec =>
    simp only [FChunkOctree.bHasChilds] at hc
    subst hc
    obtain ⟨h0, hkeys⟩ := hChilds rfl
    have hl := length_of_keys hkeys
    have hin' : inBox P (SizeAt D) p = true := hin
    obtain ⟨hi, sx, sy, sz⟩ := octant_index_spec (p.X ≥ P.X) (p.Y ≥ P.Y) (p.Z ≥ P.Z)
    generalize hidx : (if p.X ≥ P.X then 1 else 0) + (if p.Y ≥ P.Y then 2 else 0)
      + (if p.Z ≥ P.Z then 4 else 0) = i at hi sx sy sz
    have hlt : i < cs.length := by omega
    have hget : cs[i]? = some cs[i] := List.getElem?_eq_getElem hlt
    have hmem : cs[i] ∈ cs := List.getElem_mem hlt
    have inChild : ∀ j c', cs[j]? = some c' →
        (c'.IsInOctree p = true ↔ ((octantSign j 0 = 1 ↔ P.X ≤ p.X)
          ∧ (octantSign j 1 = 1 ↔ P.Y ≤ p.Y) ∧ (octantSign j 2 = 1 ↔ P.Z ≤ p.Z))) := by
      intro j c' hj
      obtain ⟨_, hkj⟩ := key_of_getElem? hkeys hj
      have hpos : c'.Position = (childKey (P, D, 0) j).1 := congrArg (fun K => K.1) hkj
      have hdep : c'.Depth = D - 1 := congrArg (fun K => K.2.1) hkj
      unfold FChunkOctree.IsInOctree FChunkOctree.Size
      rw [hpos, hdep]
      exact child_inBox_iff h0 hPos hp hin' j
    refine ⟨i, cs[i], hi, ?_, hget, ?_, depth_of_mem_childs hkeys hmem, h0, hRec _ hmem, ?_⟩
    · simp only [GetChild, FChunkOctree.bHasChilds, FChunkOctree.Position, FChunkOctree.Childs,
        hin, check_true, hidx, List.get?_eq_getElem?, hget, bind, Except.bind]
      rfl
    · exact (inChild i cs[i] hget).mpr ⟨sx, sy, sz⟩
    · intro j c' hne hj
      obtain ⟨hj8, _⟩ := key_of_getElem? hkeys hj
      cases hb : c'.IsInOctree p with
      | false => rfl
      | true =>
        exfalso
        obtain ⟨jx, jy, jz⟩ := (inChild j c' hj).mp hb
        apply hne
        have ex : octantSign j 0 = octantSign i 0 := by
          rcases octantSign_cases j 0 with h1 | h1 <;> rcases octantSign_cases i 0 with h2 | h2
          · rw [h1, h2]
          · exact absurd (sx.mpr (jx.mp h1)) (by rw [h2]; decide)
          · exact absurd (jx.mpr (sx.mp h2)) (by rw [h1]; decide)
          · rw [h1, h2]
        have ey : octantSign j 1 = octantSign i 1 := by
          rcases octantSign_cases j 1 with h1 | h1 <;> rcases octantSign_cases i 1 with h2 | h2
          · rw [h1, h2]
          · exact absurd (sy.mpr (jy.mp h1)) (by rw [h2]; decide)
          · exact absurd (jy.mpr (sy.mp h2)) (by rw [h1]; decide)
          · rw [h1, h2]
        have ez : octantSign j 2 = octantSign i 2 := by
          rcases octantSign_cases j 2 with h1 | h1 <;> rcases octantSign_cases i 2 with h2 | h2
          · rw [h1, h2]
          · exact absurd (sz.mpr (jz.mp h1)) (by rw [h2]; decide)
          · exact absurd (jz.mpr (sz.mp h2)) (by rw [h1]; decide)
          · rw [h1, h2]
        exact octantSign_inj j hj8 i hi ex ey ez

theorem allLoaded_child {t c : FChunkOctree} (h : AllLoaded t) (hc : c ∈ t.Childs) :
    AllLoaded c := by
  intro n hn
  exact h n (mem_nodes_iff.mpr (Or.inr ⟨c, hc, hn⟩))

theorem mem_nodes_of_child {t c n : FChunkOctree} (hc : c ∈ t.Childs) (hn : n ∈ nodes c) :
    n ∈ nodes t :=
  mem_nodes_iff.mpr (Or.inr ⟨c, hc, hn⟩)

/-- The loop of `GetLeaf` on a well-formed tree whose childless nodes are all loaded: it ends
within the budget `Depth + 1` on a loaded node of the tree that contains the point. -/
theorem GetLeafLoop_spec (p : FIntVector) (hp : p.isInt32) : ∀ (fuel : Nat) (t : FChunkOctree),
    WellFormed t → t.Depth < fuel → t.IsInOctree p = true → AllLoaded t →
    ∃ n, GetLeafLoop p fuel t = Except.ok n ∧ n.bHasChunk = true ∧ n.IsInOctree p = true
      ∧ n ∈ nodes t := by
  intro fuel
  induction fuel with
  | zero => intro t _ h; exact absurd h (Nat.not_lt_zero _)
  | succ fuel ih =>
    intro t hw hf hin hall
    cases hk : t.bHasChunk with
    | true =>
      refine ⟨t, ?_, hk, hin, self_mem_nodes t⟩
      simp [GetLeafLoop, hk, pure, Except.pure]
    | false =>
      have hc : t.bHasChilds = true := by
        cases hb : t.bHasChilds with
        | true => rfl
        | false =>
          have := hall t (self_mem_nodes t) hb
          rw [hk] at this
          exact absurd this (by decide)
      obtain ⟨i, c, _, hg, hci, hcin, hcd, h0, hcw, _⟩ := GetChild_spec hw hc hp hin
      have hmem : c ∈ t.Childs := List.getElem?_mem hci
      obtain ⟨n, hn, h1, h2, h3⟩ := ih c hcw (by omega) hcin (allLoaded_child hall hmem)
      refine ⟨n, ?_, h1, h2, mem_nodes_of_child hmem h3⟩
      simp [GetLeafLoop, hk, hg, hn, bind, Except.bind]

theorem filter_nodesAll_length (f : FChunkOctree → Bool) : ∀ (cs : List FChunkOctree),
    ((nodesAll cs).filter f).length = (cs.map (fun c => ((nodes c).filter f).length)).sum := by
  intro cs
  induction cs with
  | nil => simp [nodesAll]
  | cons c cs ih => simp [nodesAll, ih]

theorem leafCount_mk (P : FIntVector) (D I : Nat) (hc : Bool) (cs : List FChunkOctree) (hk : Bool)
    (M : Nat) (V : Option FVoxelChunkNode) :
    leafCount (FChunkOctree.mk P D I hc cs hk M V)
      = (if hk then 1 else 0) + (cs.map leafCount).sum := by
  have hs : (cs.map leafCount).sum
      = (cs.map (fun c => ((nodes c).filter (fun n => n.bHasChunk)).length)).sum := rfl
  have hf := filter_nodesAll_length (fun n => n.bHasChunk) cs
  rw [hs, ← hf]
  unfold leafCount
  rw [nodes_mk, List.filter_cons]
  cases hk with
  | true =>
    have h1 : (FChunkOctree.mk P D I hc cs true M V).bHasChunk = true := rfl
    rw [if_pos h1, List.length_cons]
    simp only [if_true]
    omega
  | false =>
    have h1 : ¬ ((FChunkOctree.mk P D I hc cs false M V).bHasChunk = true) := by
      simp [FChunkOctree.bHasChunk]
    rw [if_neg h1]
    simp

theorem sum_map_const {α : Type} (f : α → Nat) (N : Nat) : ∀ (l : List α),
    (∀ a ∈ l, f a = N) → (l.map f).sum = l.length * N := by
  intro l
  induction l with
  | nil => intro _; simp
  | cons a l ih =>
    intro h
    rw [List.map_cons, List.sum_cons, h a (List.mem_cons_self _ _),
      ih (fun b hb => h b (List.mem_cons_of_mem _ hb)), List.length_cons]
    ring

theorem forall₂_right {α β : Type} {Q : β → Prop} : ∀ {l : List α} {l' : List β},
    List.Forall₂ (fun _ b => Q b) l l' → l'.length = l.length ∧ ∀ b ∈ l', Q b := by
  intro l l' h
  induction h with
  | nil => simp
  | cons hq _ ih =>
    refine ⟨by simp [ih.1], ?_⟩
    intro b hb
    rcases List.mem_cons.mp hb with rfl | h'
    · exact hq
    · exact ih.2 b h'

/-- One `UpdateLOD` on a node that has neither chunk nor children: the leaves of the result
number `8 ^ (Depth - L)` and all sit at depth `min Depth L`, where `L` is the target LOD cut
off below at 0. -/
theorem UpdateLOD_fresh (R : FVoxelRender) : ∀ (fuel : Nat) (P : FIntVector) (D I M : Nat),
    D ≤ 19 → D < fuel →
    ∃ t', UpdateLOD R fuel (FChunkOctree.mk P D I false [] false M none) = Except.ok t'
      ∧ leafCount t' = 8 ^ (D - R.LOD.toNat)
      ∧ ∀ n ∈ nodes t', n.bHasChunk = true → n.Depth = min D R.LOD.toNat := by
  intro fuel
  induction fuel with
  | zero => intro P D I M _ h; exact absurd h (Nat.not_lt_zero _)
  | succ fuel ih =>
    intro P D I M hD hfuel
    have hleaf : ∀ n ∈ nodes (loadedNode R P D I M), n.bHasChunk = true → n.Depth = D := by
      intro n hn _
      rw [mem_nodes_iff] at hn
      rcases hn with rfl | ⟨c, hc, _⟩
      · rfl
      · simp [loadedNode, FChunkOctree.Childs] at hc
    have hcount : leafCount (loadedNode R P D I M) = 1 := by
      simp [loadedNode, leafCount_mk]
    by_cases h0 : D = 0
    · refine ⟨loadedNode R P D I M, ?_, ?_, ?_⟩
      · simp [UpdateLOD, check, bind, Except.bind, pure, Except.pure, FChunkOctree.bHasChunk,
          FChunkOctree.bHasChilds, FChunkOctree.VoxelChunk, FChunkOctree.Childs,
          FChunkOctree.Depth, h0, Load_eq]
      · rw [hcount, h0]; simp
      · intro n hn hb
        rw [hleaf n hn hb, h0]; simp
    · by_cases hL : R.LOD < (D : Int)
      · have hn : ¬ ((D : Int) < R.LOD) := by omega
        have hlt : R.LOD.toNat < D := by omega
        obtain ⟨cs', hm, hq⟩ := mapM_ok (f := UpdateLOD R fuel)
          (Q := fun _ c' => leafCount c' = 8 ^ (D - 1 - R.LOD.toNat)
            ∧ ∀ n ∈ nodes c', n.bHasChunk = true → n.Depth = min (D - 1) R.LOD.toNat)
          ((List.range 8).map (freshChild (P, D, I) (AssignMeshId R I M)))
          (fun c hc => by
            rw [List.mem_map] at hc
            obtain ⟨k, _, rfl⟩ := hc
            exact ih _ (D - 1) _ _ (by omega) (by omega))
        obtain ⟨hlen, hall⟩ := forall₂_right hq
        have hm' : List.mapM.loop (UpdateLOD R fuel)
            ((List.range 8).map (freshChild (P, D, I) (AssignMeshId R I M))) []
            = Except.ok cs' := hm
        refine ⟨FChunkOctree.mk P D I true cs' false (AssignMeshId R I M) none, ?_, ?_, ?_⟩
        · simp [UpdateLOD, check, bind, Except.bind, pure, Except.pure, FChunkOctree.bHasChunk,
            FChunkOctree.bHasChilds, FChunkOctree.VoxelChunk, FChunkOctree.Childs,
            FChunkOctree.Depth, FChunkOctree.Position, FChunkOctree.Id, FChunkOctree.MeshId,
            h0, hL, hn, CreateChilds_eq R h0 hD, hm', setChilds]
        · rw [leafCount_mk, sum_map_const leafCount _ cs' (fun c hc => (hall c hc).1), hlen]
          have e : D - R.LOD.toNat = (D - 1 - R.LOD.toNat) + 1 := by omega
          simp [e, pow_succ]
          ring
        · intro n hn' hb
          rw [mem_nodes_iff] at hn'
          rcases hn' with rfl | ⟨c, hc, hnc⟩
          · simp [FChunkOctree.bHasChunk] at hb
          · rw [(hall c hc).2 n hnc hb]
            omega
      · have hge : D ≤ R.LOD.toNat := by omega
        refine ⟨loadedNode R P D I M, ?_, ?_, ?_⟩
        · simp [UpdateLOD, check, bind, Except.bind, pure, Except.pure, FChunkOctree.bHasChunk,
            FChunkOctree.bHasChilds, FChunkOctree.VoxelChunk, FChunkOctree.Childs,
            FChunkOctree.Depth, h0, hL, Load_eq]
        · rw [hcount, Nat.sub_eq_zero_of_le hge]; simp
        · intro n hn hb
          rw [hleaf n hn hb]; omega

theorem wf_internal {P : FIntVector} {D I M : Nat} {cs : List FChunkOctree}
    (hD : D ≤ 19) (h0 : D ≠ 0) (hP : P.isInt32)
    (hkeys : cs.map key = (List.range 8).map (childKey (P, D, I)))
    (hRec : ∀ c ∈ cs, WellFormed c) :
    WellFormed (FChunkOctree.mk P D I true cs false M none) :=
  WellFormed.mk P D I true cs false M none hD hP (by simp) rfl (fun _ => ⟨h0, hkeys⟩) (by simp) hRec

theorem wrapInt32_id {x : Int} (h1 : -2 ^ 31 ≤ x) (h2 : x < 2 ^ 31) : wrapInt32 x = x := by
  unfold wrapInt32
  omega

theorem axis_inside {X x d s : Int} (hs : s = 1 ∨ s = -1)
    (hfit : isInt32 (X - 2 * d) ∧ isInt32 (X + 2 * d))
    (hin : wrapInt32 (wrapInt32 (X + s * d) - d) ≤ x ∧ x < wrapInt32 (wrapInt32 (X + s * d) + d)) :
    wrapInt32 (X - 2 * d) ≤ x ∧ x < wrapInt32 (X + 2 * d) := by
  unfold isInt32 at hfit
  obtain ⟨⟨f1, f2⟩, f3, f4⟩ := hfit
  rw [wrapInt32_id f1 f2, wrapInt32_id f3 f4]
  rcases hs with rfl | rfl
  · rw [wrapInt32_id (x := X + 1 * d) (by omega) (by omega),
      wrapInt32_id (x := X + 1 * d - d) (by omega) (by omega),
      wrapInt32_id (x := X + 1 * d + d) (by omega) (by omega)] at hin
    omega
  · rw [wrapInt32_id (x := X + -1 * d) (by omega) (by omega),
      wrapInt32_id (x := X + -1 * d - d) (by omega) (by omega),
      wrapInt32_id (x := X + -1 * d + d) (by omega) (by omega)] at hin
    omega

/-- When the parent's box is computed without wrap-around, each child's box lies inside it. -/
theorem child_inBox_inside {P q : FIntVector} {D : Nat} (hD : D ≠ 0)
    (hfit : boxFits P (SizeAt D)) (j : Nat)
    (hin : inBox (childKey (P, D, 0) j).1 (SizeAt (D - 1)) q = true) :
    inBox P (SizeAt D) q = true := by
  rw [inBox_iff]
  rw [inBox_iff, childKey_eq] at hin
  have h2 : SizeAt D / 2 = 2 * (SizeAt D / 4) := by rw [SizeAt_eq]; omega
  have h4 : SizeAt (D - 1) / 2 = SizeAt D / 4 := by
    rw [SizeAt_half (by omega), SizeAt_eq]; omega
  unfold boxFits at hfit
  rw [h2] at hfit
  rw [h4] at hin
  rw [h2]
  obtain ⟨fX, fY, fZ⟩ := hfit
  obtain ⟨iX, iY, iZ⟩ := hin
  exact ⟨axis_inside (octantSign_cases j 0) fX iX, axis_inside (octantSign_cases j 1) fY iY,
    axis_inside (octantSign_cases j 2) fZ iZ⟩

theorem sampleTree_wf : WellFormed sampleTree := by
  unfold sampleTree
  refine wf_internal (by decide) (by decide) (by decide) ?_ ?_
  · rw [List.map_map]
    rfl
  · intro c hc
    rw [List.mem_map] at hc
    obtain ⟨k, _, rfl⟩ := hc
    exact wf_leaf_or_empty (b := true) (V := some _) (by decide) (add_isInt32 _ _) rfl

theorem sampleTree_allLoaded : AllLoaded sampleTree := by
  unfold sampleTree
  refine allLoaded_internal ?_
  intro c hc
  rw [List.mem_map] at hc
  obtain ⟨k, _, rfl⟩ := hc
  exact allLoaded_leaf

/-- `GetLeaf` on a well-formed tree whose childless nodes are all loaded. -/
theorem GetLeaf_spec {t : FChunkOctree} {p : FIntVector} (hw : WellFormed t) (hp : p.isInt32)
    (hin : t.IsInOctree p = true) (hall : AllLoaded t) :
    ∃ n, GetLeaf t p (t.Depth + 1) = Except.ok n ∧ n.bHasChunk = true
      ∧ n.IsInOctree p = true ∧ n ∈ nodes t := by
  obtain ⟨n, hn, h1, h2, h3⟩ := GetLeafLoop_spec p hp (t.Depth + 1) t hw (by omega) hin hall
  refine ⟨n, ?_, h1, h2, h3⟩
  obtain ⟨_, i2, i3⟩ := wf_nodeInv hw
  have e1 : (t.bHasChunk == t.VoxelChunk.isSome) = true := by
    cases hb : t.bHasChunk <;> cases hv : t.VoxelChunk.isSome <;> simp_all
  have e2 : (t.bHasChilds == decide (t.Childs.length = 8)) = true := by
    cases hb : t.bHasChilds <;> simp_all
  simp [GetLeaf, e1, e2, check, hn, h1, bind, Except.bind, pure, Except.pure]

/-! ### Paths from the root: ids and positions determine the path -/

theorem descendKey_depth : ∀ (path : List Nat) (K : FIntVector × Nat × Nat),
    (descendKey K path).2.1 = K.2.1 - path.length := by
  intro path
  induction path with
  | nil => intro K; rfl
  | cons k path ih =>
    intro K
    rw [descendKey, ih, childKey_depth, List.length_cons]
    omega

/-- Every node of a well-formed tree is reached from the root by a path of octants. -/
theorem nodes_path {t : FChunkOctree} (hw : WellFormed t) : ∀ n ∈ nodes t,
    ∃ path : List Nat, (∀ k ∈ path, k < 8) ∧ path.length ≤ t.Depth
      ∧ key n = descendKey (key t) path := by
  induction hw with
  | mk P D I hc cs hk M V hDepth hPos hExcl hChunk hChilds hNone hRec ih =>
    intro n hn
    rw [mem_nodes_iff] at hn
    rcases hn with rfl | ⟨c, hc1, hc2⟩
    · exact ⟨[], by simp, Nat.zero_le _, rfl⟩
    · have hc1' : c ∈ cs := hc1
      have hcb : hc = true := by
        cases hc with
        | true => rfl
        | false => rw [hNone rfl] at hc1'; simp at hc1'
      obtain ⟨h0, hkeys⟩ := hChilds hcb
      obtain ⟨path, hv, hl, hk'⟩ := ih c hc1' n hc2
      have hm : key c ∈ cs.map key := List.mem_map_of_mem key hc1'
      rw [hkeys, List.mem_map] at hm
      obtain ⟨k, hk8, hkc⟩ := hm
      rw [List.mem_range] at hk8
      have hd : c.Depth = D - 1 := depth_of_mem_childs hkeys hc1'
      refine ⟨k :: path, ?_, ?_, ?_⟩
      · intro j hj
        rcases List.mem_cons.mp hj with rfl | h'
        · exact hk8
        · exact hv j h'
      · show (k :: path).length ≤ D
        rw [List.length_cons]
        omega
      · show key n = descendKey (childKey (P, D, I) k) path
        rw [hkc, hk']

theorem childKey_triple (P : FIntVector) (D I k : Nat) :
    childKey (P, D, I) k = ((childKey (P, D, 0) k).1, D - 1, childId I (D - 1) k) := rfl

theorem descendKey_cons (P : FIntVector) (D I k : Nat) (p : List Nat) :
    descendKey (P, D, I) (k :: p)
      = descendKey ((childKey (P, D, 0) k).1, D - 1, childId I (D - 1) k) p := rfl

theorem descendKey_nil (K : FIntVector × Nat × Nat) : descendKey K [] = K := rfl

theorem descendKey_id_bounds : ∀ (path : List Nat) (P : FIntVector) (D I : Nat),
    D ≤ 19 → I + 9 ^ D ≤ 2 ^ 64 → (∀ k ∈ path, k < 8) → path.length ≤ D →
    I ≤ (descendKey (P, D, I) path).2.2
      ∧ (descendKey (P, D, I) path).2.2 + 9 ^ (D - path.length) ≤ I + 9 ^ D := by
  intro path
  induction path with
  | nil => intro P D I _ _ _ _; exact ⟨le_refl _, le_refl _⟩
  | cons k path ih =>
    intro P D I hD hI hv hl
    rw [List.length_cons] at hl
    have hk : k < 8 := hv k (List.mem_cons_self _ _)
    obtain ⟨L, rfl⟩ : ∃ L, D = L + 1 := ⟨D - 1, by omega⟩
    have hc : childId I L k = I + (k + 1) * 9 ^ L := childId_exact (by omega) hk hI
    have h1 : (k + 1) * 9 ^ L ≤ 8 * 9 ^ L := Nat.mul_le_mul_right _ (by omega)
    have h3 : 9 ^ (L + 1) = 8 * 9 ^ L + 9 ^ L := by ring
    rw [descendKey_cons]
    simp only [Nat.add_sub_cancel, hc, List.length_cons]
    have := ih (childKey (P, L + 1, 0) k).1 L (I + (k + 1) * 9 ^ L) (by omega) (by omega)
      (fun j hj => hv j (List.mem_cons_of_mem _ hj)) (by omega)
    have e : L + 1 - (path.length + 1) = L - path.length := by omega
    rw [e]
    omega

/-- Within one tree whose ids do not wrap, the id determines the path from the root. -/
theorem descendKey_id_inj : ∀ (p : List Nat) (P : FIntVector) (D I : Nat) (q : List Nat),
    D ≤ 19 → I + 9 ^ D ≤ 2 ^ 64 → (∀ k ∈ p, k < 8) → (∀ k ∈ q, k < 8) →
    p.length ≤ D → q.length ≤ D →
    (descendKey (P, D, I) p).2.2 = (descendKey (P, D, I) q).2.2 → p = q := by
  intro p
  induction p with
  | nil =>
    intro P D I q hD hI _ hvq _ hlq h
    cases q with
    | nil => rfl
    | cons k q =>
      exfalso
      rw [List.length_cons] at hlq
      have hk : k < 8 := hvq k (List.mem_cons_self _ _)
      obtain ⟨L, rfl⟩ : ∃ L, D = L + 1 := ⟨D - 1, by omega⟩
      have hc : childId I L k = I + (k + 1) * 9 ^ L := childId_exact (by omega) hk hI
      have h1 : (k + 1) * 9 ^ L ≤ 8 * 9 ^ L := Nat.mul_le_mul_right _ (by omega)
      have h3 : 9 ^ (L + 1) = 8 * 9 ^ L + 9 ^ L := by ring
      have hpos := nine_pow_pos L
      rw [descendKey_cons, descendKey_nil] at h
      simp only [Nat.add_sub_cancel, hc] at h
      have := descendKey_id_bounds q
        (childKey (P, L + 1, 0) k).1
        L (I + (k + 1) * 9 ^ L) (by omega) (by omega)
        (fun j hj => hvq j (List.mem_cons_of_mem _ hj)) (by omega)
      have h0 : 0 < (k + 1) * 9 ^ L := Nat.mul_pos (by omega) hpos
      omega
  | cons k p ih =>
    intro P D I q hD hI hvp hvq hlp hlq h
    rw [List.length_cons] at hlp
    have hk : k < 8 := hvp k (List.mem_cons_self _ _)
    obtain ⟨L, rfl⟩ : ∃ L, D = L + 1 := ⟨D - 1, by omega⟩
    have hc : childId I L k = I + (k + 1) * 9 ^ L := childId_exact (by omega) hk hI
    have h1 : (k + 1) * 9 ^ L ≤ 8 * 9 ^ L := Nat.mul_le_mul_right _ (by omega)
    have h3 : 9 ^ (L + 1) = 8 * 9 ^ L + 9 ^ L := by ring
    have hpos := nine_pow_pos L
    have bp := descendKey_id_bounds p
      (childKey (P, L + 1, 0) k).1
      L (I + (k + 1) * 9 ^ L) (by omega) (by omega)
      (fun j hj => hvp j (List.mem_cons_of_mem _ hj)) (by omega)
    have hpp := nine_pow_pos (L - p.length)
    cases q with
    | nil =>
      exfalso
      rw [descendKey_cons, descendKey_nil] at h
      simp only [Nat.add_sub_cancel, hc] at h
      have h0 : 0 < (k + 1) * 9 ^ L := Nat.mul_pos (by omega) hpos
      omega
    | cons k' q =>
      rw [List.length_cons] at hlq
      have hk' : k' < 8 := hvq k' (List.mem_cons_self _ _)
      have hc' : childId I L k' = I + (k' + 1) * 9 ^ L := childId_exact (by omega) hk' hI
      have h1' : (k' + 1) * 9 ^ L ≤ 8 * 9 ^ L := Nat.mul_le_mul_right _ (by omega)
      have bq := descendKey_id_bounds q
        (childKey (P, L + 1, 0) k').1
        L (I + (k' + 1) * 9 ^ L) (by omega) (by omega)
        (fun j hj => hvq j (List.mem_cons_of_mem _ hj)) (by omega)
      have hqq := nine_pow_pos (L - q.length)
      rw [descendKey_cons, descendKey_cons] at h
      simp only [Nat.add_sub_cancel, hc, hc'] at h
      have hkk : k = k' := by
        rw [h] at bp
        generalize (descendKey _ q).2.2 = x at bp bq
        have e1 : (k + 1) * 9 ^ L + (x - (I + (k + 1) * 9 ^ L))
            = (k' + 1) * 9 ^ L + (x - (I + (k' + 1) * 9 ^ L)) := by omega
        exact offset_inj (L := L) (by omega) (by omega) e1
      subst hkk
      have := ih (childKey (P, L + 1, 0) k).1 L (I + (k + 1) * 9 ^ L) q (by omega) (by omega)
        (fun j hj => hvp j (List.mem_cons_of_mem _ hj))
        (fun j hj => hvq j (List.mem_cons_of_mem _ hj)) (by omega) (by omega) h
      rw [this]

theorem two_pow_le {n : Nat} (h : n ≤ 19) : (2 : Int) ^ n ≤ 2 ^ 19 :=
  pow_le_pow_right₀ (by norm_num) h

theorem two_pow_pos (n : Nat) : (0 : Int) < 2 ^ n := pow_pos (by norm_num) n

theorem wrapInt32_add_wrap (a b : Int) : wrapInt32 (wrapInt32 a + b) = wrapInt32 (a + b) := by
  unfold wrapInt32
  omega

/-- The position reached along a path is the root position plus, per axis, an offset smaller
than half the root's size, wrapped into `int32`. -/
theorem descendKey_pos_offset : ∀ (path : List Nat) (P : FIntVector) (D I : Nat),
    D ≤ 19 → P.isInt32 → path.length ≤ D →
    ∃ ox oy oz : Int,
      (-(8 * 2 ^ D - 8 * 2 ^ (D - path.length)) ≤ ox ∧ ox ≤ 8 * 2 ^ D - 8 * 2 ^ (D - path.length))
      ∧ (-(8 * 2 ^ D - 8 * 2 ^ (D - path.length)) ≤ oy ∧ oy ≤ 8 * 2 ^ D - 8 * 2 ^ (D - path.length))
      ∧ (-(8 * 2 ^ D - 8 * 2 ^ (D - path.length)) ≤ oz ∧ oz ≤ 8 * 2 ^ D - 8 * 2 ^ (D - path.length))
      ∧ (descendKey (P, D, I) path).1
          = ⟨wrapInt32 (P.X + ox), wrapInt32 (P.Y + oy), wrapInt32 (P.Z + oz)⟩ := by
  intro path
  induction path with
  | nil =>
    intro P D I _ hP _
    obtain ⟨hX, hY, hZ⟩ := hP
    refine ⟨0, 0, 0, by simp, by simp, by simp, ?_⟩
    rw [descendKey_nil]
    simp [wrapInt32_of_isInt32 hX, wrapInt32_of_isInt32 hY, wrapInt32_of_isInt32 hZ]
  | cons k path ih =>
    intro P D I hD hP hl
    rw [List.length_cons] at hl
    obtain ⟨L, rfl⟩ : ∃ L, D = L + 1 := ⟨D - 1, by omega⟩
    obtain ⟨ox, oy, oz, bx, by', bz, hpos⟩ := ih (childKey (P, L + 1, 0) k).1 L
      (childId I L k) (by omega) (add_isInt32 _ _) (by omega)
    have e2 : (2 : Int) ^ (L + 1) = 2 * 2 ^ L := by rw [pow_succ]; ring
    have hS : SizeAt (L + 1) / 4 = 4 * 2 ^ (L + 1) := by rw [SizeAt_eq]; omega
    have e : L + 1 - (path.length + 1) = L - path.length := by omega
    have hq := two_pow_pos (L - path.length)
    refine ⟨octantSign k 0 * (SizeAt (L + 1) / 4) + ox, octantSign k 1 * (SizeAt (L + 1) / 4) + oy,
      octantSign k 2 * (SizeAt (L + 1) / 4) + oz, ?_, ?_, ?_, ?_⟩
    · rw [List.length_cons, e, hS]
      rcases octantSign_cases k 0 with h | h <;> rw [h] <;> omega
    · rw [List.length_cons, e, hS]
      rcases octantSign_cases k 1 with h | h <;> rw [h] <;> omega
    · rw [List.length_cons, e, hS]
      rcases octantSign_cases k 2 with h | h <;> rw [h] <;> omega
    · rw [descendKey_cons, Nat.add_sub_cancel, hpos, childKey_eq]
      simp only [wrapInt32_add_wrap, add_assoc]

theorem axis_sign_eq {X d s s' a a' : Int} (hs : s = 1 ∨ s = -1) (hs' : s' = 1 ∨ s' = -1)
    (hd : d ≤ 2 ^ 22) (ha : -d < a ∧ a < d) (ha' : -d < a' ∧ a' < d)
    (h : wrapInt32 (X + (s * d + a)) = wrapInt32 (X + (s' * d + a'))) : s = s' := by
  unfold wrapInt32 at h
  rcases hs with rfl | rfl <;> rcases hs' with rfl | rfl
  · rfl
  · exfalso; omega
  · exfalso; omega
  · rfl

/-- Along one step and then a path, the offset on each axis has the sign of the first octant. -/
theorem descendKey_pos_step (k : Nat) (path : List Nat) (P : FIntVector) (L I : Nat)
    (hL : L + 1 ≤ 19) (hl : path.length ≤ L) :
    ∃ ox oy oz : Int,
      (-(SizeAt (L + 1) / 4) < ox ∧ ox < SizeAt (L + 1) / 4)
      ∧ (-(SizeAt (L + 1) / 4) < oy ∧ oy < SizeAt (L + 1) / 4)
      ∧ (-(SizeAt (L + 1) / 4) < oz ∧ oz < SizeAt (L + 1) / 4)
      ∧ (descendKey (P, L + 1, I) (k :: path)).1
          = ⟨wrapInt32 (P.X + (octantSign k 0 * (SizeAt (L + 1) / 4) + ox)),
              wrapInt32 (P.Y + (octantSign k 1 * (SizeAt (L + 1) / 4) + oy)),
              wrapInt32 (P.Z + (octantSign k 2 * (SizeAt (L + 1) / 4) + oz))⟩ := by
  obtain ⟨ox, oy, oz, bx, by', bz, hpos⟩ := descendKey_pos_offset path
    (childKey (P, L + 1, 0) k).1 L (childId I L k) (by omega) (add_isInt32 _ _) hl
  have e2 : (2 : Int) ^ (L + 1) = 2 * 2 ^ L := by rw [pow_succ]; ring
  have hS : SizeAt (L + 1) / 4 = 4 * 2 ^ (L + 1) := by rw [SizeAt_eq]; omega
  have hq := two_pow_pos (L - path.length)
  refine ⟨ox, oy, oz, by rw [hS]; omega, by rw [hS]; omega, by rw [hS]; omega, ?_⟩
  rw [descendKey_cons, Nat.add_sub_cancel, hpos, childKey_eq]
  simp only [wrapInt32_add_wrap, add_assoc]

/-- Within one tree, position and depth determine the path from the root. -/
theorem descendKey_pos_inj : ∀ (p : List Nat) (P : FIntVector) (D I : Nat) (q : List Nat),
    D ≤ 19 → P.isInt32 → (∀ k ∈ p, k < 8) → (∀ k ∈ q, k < 8) →
    p.length = q.length → p.length ≤ D →
    (descendKey (P, D, I) p).1 = (descendKey (P, D, I) q).1 → p = q := by
  intro p
  induction p with
  | nil =>
    intro P D I q _ _ _ _ hl _ _
    cases q with
    | nil => rfl
    | cons k q => simp at hl
  | cons k p ih =>
    intro P D I q hD hP hvp hvq hl hlp h
    cases q with
    | nil => simp at hl
    | cons k' q =>
      simp only [List.length_cons, Nat.add_right_cancel_iff] at hl
      rw [List.length_cons] at hlp
      obtain ⟨L, rfl⟩ : ∃ L, D = L + 1 := ⟨D - 1, by omega⟩
      have hk : k < 8 := hvp k (List.mem_cons_self _ _)
      have hk' : k' < 8 := hvq k' (List.mem_cons_self _ _)
      obtain ⟨ox, oy, oz, bx, by1, bz, hp1⟩ := descendKey_pos_step k p P L I hD (by omega)
      obtain ⟨ux, uy, uz, cx, cy, cz, hp2⟩ := descendKey_pos_step k' q P L I hD (by omega)
      have hS : SizeAt (L + 1) / 4 ≤ 2 ^ 22 := by
        have := two_pow_le hD
        rw [SizeAt_eq]
        omega
      have hkk : k = k' := by
        have h' := h
        rw [hp1, hp2] at h'
        injection h' with hx hy hz
        exact octantSign_inj k hk k' hk'
          (axis_sign_eq (octantSign_cases k 0) (octantSign_cases k' 0) hS bx cx hx)
          (axis_sign_eq (octantSign_cases k 1) (octantSign_cases k' 1) hS by1 cy hy)
          (axis_sign_eq (octantSign_cases k 2) (octantSign_cases k' 2) hS bz cz hz)
      subst hkk
      rw [descendKey_cons, descendKey_cons] at h
      have := ih (childKey (P, L + 1, 0) k).1 L (childId I L k) q (by omega) (add_isInt32 _ _)
        (fun j hj => hvp j (List.mem_cons_of_mem _ hj))
        (fun j hj => hvq j (List.mem_cons_of_mem _ hj)) hl (by omega) h
      rw [this]

/-- In a well-formed tree whose ids do not wrap, two nodes have the same id exactly when they
have the same position and depth. -/
theorem id_eq_iff_pos_depth {t a b : FChunkOctree} (hw : WellFormed t)
    (hid : t.Id + 9 ^ t.Depth ≤ 2 ^ 64) (ha : a ∈ nodes t) (hb : b ∈ nodes t) :
    a.Id = b.Id ↔ (a.Position = b.Position ∧ a.Depth = b.Depth) := by
  obtain ⟨pa, va, la, ka⟩ := nodes_path hw a ha
  obtain ⟨pb, vb, lb, kb⟩ := nodes_path hw b hb
  have hD : t.Depth ≤ 19 := by cases hw; assumption
  have hP : t.Position.isInt32 := by cases hw; assumption
  have ida : a.Id = (descendKey (t.Position, t.Depth, t.Id) pa).2.2 := congrArg (fun K => K.2.2) ka
  have idb : b.Id = (descendKey (t.Position, t.Depth, t.Id) pb).2.2 := congrArg (fun K => K.2.2) kb
  have pa1 : a.Position = (descendKey (t.Position, t.Depth, t.Id) pa).1 := congrArg (fun K => K.1) ka
  have pb1 : b.Position = (descendKey (t.Position, t.Depth, t.Id) pb).1 := congrArg (fun K => K.1) kb
  have da : a.Depth = t.Depth - pa.length := by
    have := congrArg (fun K => K.2.1) ka
    exact this.trans (descendKey_depth pa _)
  have db : b.Depth = t.Depth - pb.length := by
    have := congrArg (fun K => K.2.1) kb
    exact this.trans (descendKey_depth pb _)
  constructor
  · intro h
    rw [ida, idb] at h
    have := descendKey_id_inj pa _ _ _ pb hD hid va vb la lb h
    subst this
    exact ⟨pa1.trans pb1.symm, da.trans db.symm⟩
  · intro h
    obtain ⟨h1, h2⟩ := h
    rw [pa1, pb1] at h1
    have hlen : pa.length = pb.length := by omega
    have := descendKey_pos_inj pa _ _ _ pb hD hP va vb hlen la h1
    subst this
    exact ida.trans idb.symm

theorem sampleChild_mem (k : Nat) (hk : k < 8) : sampleChild k ∈ nodes sampleTree := by
  refine mem_nodes_of_child (c := sampleChild k) ?_ (self_mem_nodes _)
  have h : sampleChild k ∈ (List.range 8).map sampleChild :=
    List.mem_map.mpr ⟨k, List.mem_range.mpr hk, rfl⟩
  exact h

end Tree

/-! ## Facts about the thread pool -/

section Pool

open FVoxelThreadPool

theorem reserve_eq_max {m k : Int} (hm : 0 < m) (hk : 1 ≤ k) :
    (if m > k then m.tdiv k else 1) = max (m / k) 1 := by
  rw [Int.tdiv_eq_ediv (le_of_lt hm) (by omega)]
  split
  · have : 1 ≤ m / k := by
      rw [Int.le_ediv_iff_mul_le (by omega)]; omega
    omega
  · have : m / k ≤ 1 := by
      have h1 : m ≤ k := by omega
      have : m / k ≤ k / k := Int.ediv_le_ediv (by omega) h1
      rwa [Int.ediv_self (by omega)] at this
    omega

/-- What `UpdateSlotTaskReserve` leaves in `SlotTaskReserve`. -/
theorem UpdateSlotTaskReserve_spec (p : FVoxelThreadPool) (hm : 0 < p.MaxTaskReserve) :
    (UpdateSlotTaskReserve p).MaxTaskReserve = p.MaxTaskReserve
    ∧ (UpdateSlotTaskReserve p).SlotSet = p.SlotSet
    ∧ (1 ≤ p.SlotSet.length → (UpdateSlotTaskReserve p).SlotTaskReserve
        = max (p.MaxTaskReserve / (p.SlotSet.length : Int)) 1)
    ∧ (p.SlotSet.length = 0 → (UpdateSlotTaskReserve p).SlotTaskReserve = p.MaxTaskReserve) := by
  refine ⟨rfl, rfl, ?_, ?_⟩
  · intro h
    have hk : max (p.SlotSet.length : Int) 1 = (p.SlotSet.length : Int) := by omega
    show (if p.MaxTaskReserve > max (p.SlotSet.length : Int) 1
      then p.MaxTaskReserve.tdiv (max (p.SlotSet.length : Int) 1) else 1) = _
    rw [hk]
    exact reserve_eq_max hm (by omega)
  · intro h
    have hk : max (p.SlotSet.length : Int) 1 = 1 := by omega
    show (if p.MaxTaskReserve > max (p.SlotSet.length : Int) 1
      then p.MaxTaskReserve.tdiv (max (p.SlotSet.length : Int) 1) else 1) = _
    rw [hk, reserve_eq_max hm (le_refl 1)]
    simp
    omega

theorem ReserveOk_update {M : Int} (hM : 0 < M) (p : FVoxelThreadPool)
    (h : p.MaxTaskReserve = M) : ReserveOk M (UpdateSlotTaskReserve p) := by
  obtain ⟨h1, h2, h3, h4⟩ := UpdateSlotTaskReserve_spec p (by rw [h]; exact hM)
  refine ⟨h1.trans h, ?_, ?_⟩
  · rw [h2, ← h]; exact h3
  · rw [h2, ← h]; exact h4

theorem ReserveOk_runCalls {M : Int} (hM : 0 < M) : ∀ (calls : List SlotCall)
    (p : FVoxelThreadPool), ReserveOk M p → ReserveOk M (runCalls p calls) := by
  intro calls
  induction calls with
  | nil => intro p h; exact h
  | cons c cs ih =>
    intro p h
    cases c with
    | create =>
      rw [runCalls]
      exact ih _ (ReserveOk_update hM _ h.1)
    | destroy d =>
      rw [runCalls]
      apply ih
      unfold DestroyThreadSlot
      split
      · exact ReserveOk_update hM _ h.1
      · exact h

end Pool

/-! ## Claims on the id scheme -/

/-- C1: for every start id and all depths `endDepth ≤ startDepth ≤ 19`, the recursive
`FOctree::GetIDsAt` keeps what `out` already holds and appends exactly
`8 ^ (startDepth - endDepth)` ids, which are pairwise distinct. -/
theorem C1_GetIDsAt_count_distinct (startId startDepth endDepth : Nat) (out : List Nat)
    (h1 : endDepth ≤ startDepth) (h2 : startDepth ≤ 19) :
    ∃ appended, FOctree.GetIDsAt startId startDepth endDepth out = out ++ appended
      ∧ appended.length = 8 ^ (startDepth - endDepth) ∧ appended.Nodup :=
  ⟨ids startId startDepth endDepth, GetIDsAt_append startDepth startId endDepth out,
    ids_length startDepth startId endDepth h1, ids_nodup startDepth startId endDepth h1 h2⟩

/-- C1, at the top id of a depth-6 tree enumerated down to depth 0: `8 ^ 6` distinct leaf ids. -/
theorem C1_GetIDsAt_count_distinct_witness :
    0 ≤ 6 ∧ 6 ≤ 19 ∧
    ∃ appended, FOctree.GetIDsAt (FOctree.GetTopIdFromDepth 6) 6 0 [] = [] ++ appended
      ∧ appended.length = 8 ^ 6 ∧ appended.Nodup :=
  ⟨by decide, by decide,
    C1_GetIDsAt_count_distinct (FOctree.GetTopIdFromDepth 6) 6 0 [] (by decide) (by decide)⟩

/-- C2: in the tree rooted at `GetTopIdFromDepth D` with `D ≤ 19`, an id enumerated at depth `d1`
is never enumerated at a different depth `d2`; and each of the 8 ids that
`GetIDsAt(parentId, parentDepth - 1)` returns differs from `parentId`, for any parent id. -/
theorem C2_ids_unique_across_depths (D d1 d2 : Nat) (hD : D ≤ 19) (h1 : d1 ≤ D) (h2 : d2 ≤ D)
    (hne : d1 ≠ d2) :
    (∀ x ∈ FOctree.GetIDsAt (FOctree.GetTopIdFromDepth D) D d1 [],
        x ∉ FOctree.GetIDsAt (FOctree.GetTopIdFromDepth D) D d2 [])
    ∧ (∀ parentId parentDepth : Nat, 1 ≤ parentDepth → parentDepth ≤ 19 →
        ∀ c ∈ FOctree.GetIDsAtFixed parentId (parentDepth - 1), c ≠ parentId)
    ∧ (∀ parentId parentDepth : Nat, 1 ≤ parentDepth → parentDepth ≤ 19 →
        ∀ c ∈ FOctree.GetIDsAtEmplace parentId (parentDepth - 1) [], c ≠ parentId) := by
  have key : ∀ parentId parentDepth : Nat, 1 ≤ parentDepth → parentDepth ≤ 19 →
      ∀ c ∈ FOctree.GetIDsAtFixed parentId (parentDepth - 1), c ≠ parentId := by
    intro parentId parentDepth _ hp c hc
    rw [GetIDsAtFixed_eq_map, List.mem_map] at hc
    obtain ⟨k, hk, rfl⟩ := hc
    rw [List.mem_range] at hk
    exact childId_ne_parent (by omega) hk
  refine ⟨?_, key, ?_⟩
  · rw [GetTopIdFromDepth_eq hD]
    intro x hx1 hx2
    rcases Nat.lt_or_gt_of_ne hne with hlt | hlt
    · exact ids_depths_disjoint hD h1 h2 hlt hx1 hx2
    · exact ids_depths_disjoint hD h2 h1 hlt hx2 hx1
  · intro parentId parentDepth hp1 hp c hc
    exact key parentId parentDepth hp1 hp c (by simpa [FOctree.GetIDsAtEmplace] using hc)

/-- C2, in a depth-3 tree at the depths 2 and 0. -/
theorem C2_ids_unique_across_depths_witness :
    3 ≤ 19 ∧ 2 ≤ 3 ∧ 0 ≤ 3 ∧ 2 ≠ 0 ∧
    ((∀ x ∈ FOctree.GetIDsAt (FOctree.GetTopIdFromDepth 3) 3 2 [],
        x ∉ FOctree.GetIDsAt (FOctree.GetTopIdFromDepth 3) 3 0 [])
    ∧ (∀ parentId parentDepth : Nat, 1 ≤ parentDepth → parentDepth ≤ 19 →
        ∀ c ∈ FOctree.GetIDsAtFixed parentId (parentDepth - 1), c ≠ parentId)
    ∧ (∀ parentId parentDepth : Nat, 1 ≤ parentDepth → parentDepth ≤ 19 →
        ∀ c ∈ FOctree.GetIDsAtEmplace parentId (parentDepth - 1) [], c ≠ parentId)) :=
  ⟨by decide, by decide, by decide, by decide,
    C2_ids_unique_across_depths 3 2 0 (by decide) (by decide) (by decide) (by decide)⟩

/-- C4: for every `D ≤ 19` the root id is `9 ^ D`, every id that `GetIDsAt` enumerates below it is
at most `2 * 9 ^ 19 - 1 < 2 ^ 64`, every product `k * 9 ^ level` formed on the way fits in 64
bits, and the 64-bit enumeration equals the enumeration over unbounded integers. -/
theorem C4_ids_do_not_wrap (D endDepth : Nat) (hD : D ≤ 19) (hE : endDepth ≤ D) :
    FOctree.GetTopIdFromDepth D = 9 ^ D
    ∧ 9 ^ D ≤ 2 * 9 ^ 19 - 1
    ∧ 2 * 9 ^ 19 - 1 < 2 ^ 64
    ∧ (∀ x ∈ FOctree.GetIDsAt (FOctree.GetTopIdFromDepth D) D endDepth [], x ≤ 2 * 9 ^ 19 - 1)
    ∧ (∀ level k : Nat, level < D → k < 8 → (k + 1) * IntPow9 level = (k + 1) * 9 ^ level
        ∧ (k + 1) * 9 ^ level < 2 ^ 64)
    ∧ FOctree.GetIDsAt (FOctree.GetTopIdFromDepth D) D endDepth []
        = FOctree.GetIDsAtExact (9 ^ D) D endDepth [] := by
  have hp := nine_pow_le hD
  have hpos := nine_pow_pos D
  refine ⟨GetTopIdFromDepth_eq hD, by omega, by norm_num, ?_, ?_, ?_⟩
  · rw [GetTopIdFromDepth_eq hD]
    intro x hx
    have := ids_bounds D _ endDepth hE hD (top_id_room hD) x hx
    have := nine_pow_pos endDepth
    omega
  · intro level k hl hk
    rw [IntPow9_eq (by omega)]
    exact ⟨rfl, mul_nine_pow_lt (by omega) hk⟩
  · rw [GetTopIdFromDepth_eq hD]
    exact ids_eq_exact D _ endDepth hE hD (top_id_room hD)

/-- C4, at the deepest tree the constructor admits, enumerated to depth 0. -/
theorem C4_ids_do_not_wrap_witness :
    19 ≤ 19 ∧ 0 ≤ 19 ∧
    (FOctree.GetTopIdFromDepth 19 = 9 ^ 19
    ∧ 9 ^ 19 ≤ 2 * 9 ^ 19 - 1
    ∧ 2 * 9 ^ 19 - 1 < 2 ^ 64
    ∧ (∀ x ∈ FOctree.GetIDsAt (FOctree.GetTopIdFromDepth 19) 19 0 [], x ≤ 2 * 9 ^ 19 - 1)
    ∧ (∀ level k : Nat, level < 19 → k < 8 → (k + 1) * IntPow9 level = (k + 1) * 9 ^ level
        ∧ (k + 1) * 9 ^ level < 2 ^ 64)
    ∧ FOctree.GetIDsAt (FOctree.GetTopIdFromDepth 19) 19 0 []
        = FOctree.GetIDsAtExact (9 ^ 19) 19 0 []) :=
  ⟨by decide, by decide, C4_ids_do_not_wrap 19 0 (by decide) (by decide)⟩

/-! ## Claims on the chunk octree -/

/-- C5: on a node of depth `d` with `1 ≤ d ≤ 19` (the constructor's cap) that has neither a chunk
nor children, `CreateChilds` succeeds and leaves exactly 8 children; child `k` has depth `d - 1`,
id `parentId + (k + 1) * 9 ^ (d - 1)` in `uint64` arithmetic, position
`parent position + (sx, sy, sz) * (Size / 4)` in `int32` arithmetic with the sign of each axis
read from bits 0, 1, 2 of `k`, and half the parent's size. The sums are the exact integers
whenever they fit, as they do for ids in every tree rooted at `GetTopIdFromDepth`. -/
theorem C5_CreateChilds_children (R : FVoxelRender) (Position : FIntVector) (d Id MeshId : Nat)
    (VoxelChunk : Option FVoxelChunkNode) (hd1 : 1 ≤ d) (hd19 : d ≤ 19) :
    ∃ t', FChunkOctree.CreateChilds R
        (FChunkOctree.mk Position d Id false [] false MeshId VoxelChunk) = Except.ok t'
      ∧ t'.bHasChilds = true ∧ t'.Childs.length = 8
      ∧ ∀ k, k < 8 → ∃ c, t'.Childs[k]? = some c
          ∧ c.Depth = d - 1
          ∧ c.Id = (Id + (k + 1) * 9 ^ (d - 1)) % 2 ^ 64
          ∧ (Id + 9 ^ d ≤ 2 ^ 64 → c.Id = Id + (k + 1) * 9 ^ (d - 1))
          ∧ c.Position = ⟨
              wrapInt32 (Position.X + FChunkOctree.octantSign k 0 * (FChunkOctree.SizeAt d / 4)),
              wrapInt32 (Position.Y + FChunkOctree.octantSign k 1 * (FChunkOctree.SizeAt d / 4)),
              wrapInt32 (Position.Z + FChunkOctree.octantSign k 2 * (FChunkOctree.SizeAt d / 4))⟩
          ∧ (isInt32 (Position.X + FChunkOctree.octantSign k 0 * (FChunkOctree.SizeAt d / 4)) →
              c.Position.X = Position.X + FChunkOctree.octantSign k 0 * (FChunkOctree.SizeAt d / 4))
          ∧ (isInt32 (Position.Y + FChunkOctree.octantSign k 1 * (FChunkOctree.SizeAt d / 4)) →
              c.Position.Y = Position.Y + FChunkOctree.octantSign k 1 * (FChunkOctree.SizeAt d / 4))
          ∧ (isInt32 (Position.Z + FChunkOctree.octantSign k 2 * (FChunkOctree.SizeAt d / 4)) →
              c.Position.Z = Position.Z + FChunkOctree.octantSign k 2 * (FChunkOctree.SizeAt d / 4))
          ∧ c.Size = FChunkOctree.SizeAt d / 2
          ∧ 2 * c.Size = FChunkOctree.SizeAt d := by
  refine ⟨_, CreateChilds_eq R (by omega) hd19, rfl, by simp [FChunkOctree.Childs], ?_⟩
  intro k hk
  refine ⟨FChunkOctree.freshChild (Position, d, Id) (FChunkOctree.AssignMeshId R Id MeshId) k,
    ?_, rfl, ?_, ?_, rfl, ?_, ?_, ?_, ?_, ?_⟩
  · simp [FChunkOctree.Childs, List.getElem?_map, List.getElem?_range hk]
  · show childId Id (d - 1) k = _
    exact childId_eq_mod (by omega)
  · intro h
    have e : d - 1 + 1 = d := by omega
    show childId Id (d - 1) k = _
    exact childId_exact (L := d - 1) (by omega) hk (by rw [e]; exact h)
  · exact wrapInt32_of_isInt32
  · exact wrapInt32_of_isInt32
  · exact wrapInt32_of_isInt32
  · exact SizeAt_half hd1
  · show 2 * FChunkOctree.SizeAt (d - 1) = FChunkOctree.SizeAt d
    rw [SizeAt_half hd1, SizeAt_eq]
    have : (2 : Int) ^ d = 2 * 2 ^ (d - 1) := by
      obtain ⟨n, rfl⟩ : ∃ n, d = n + 1 := ⟨d - 1, by omega⟩
      simp [pow_succ, mul_comm]
    omega

/-- C7: from a freshly constructed root, any finite sequence of `UpdateLOD` calls with arbitrary
target LODs (and arbitrary `HasMesh` answers) runs without a failed check and without exhausting
the recursion budget, and afterwards every node has chunk and children exclusive, has the
children flag set iff it has exactly 8 children, and has the chunk flag set iff the chunk handle
is present. -/
theorem C7_UpdateLOD_keeps_node_invariants (Position : FIntVector) (Depth Id MeshId fuel : Nat)
    (Rs : List FVoxelRender) (hDepth : Depth ≤ 19) (hPos : Position.isInt32)
    (hfuel : Depth < fuel) :
    ∃ root t, FChunkOctree.new Position Depth Id MeshId = Except.ok root
      ∧ FChunkOctree.UpdateLODs fuel Rs root = Except.ok t
      ∧ ∀ n ∈ t.nodes, FChunkOctree.NodeInv n := by
  obtain ⟨t, h1, hw, _, _⟩ := UpdateLODs_wf fuel Rs
    (FChunkOctree.mk Position Depth Id false [] false MeshId none)
    (wf_leaf_or_empty hDepth hPos rfl) hfuel
  exact ⟨_, t, new_eq hDepth, h1, fun n hn => wf_nodeInv (wf_of_mem_nodes hw n hn)⟩

/-- C7, on a depth-3 root at the origin with the target LOD going 1, 0, 3, 2. -/
theorem C7_UpdateLOD_keeps_node_invariants_witness :
    3 ≤ 19 ∧ (FIntVector.mk 0 0 0).isInt32 ∧ 3 < 4 ∧
    ∃ root t, FChunkOctree.new ⟨0, 0, 0⟩ 3 (FOctree.GetTopIdFromDepth 3) 0 = Except.ok root
      ∧ FChunkOctree.UpdateLODs 4
          [⟨1, fun _ => false⟩, ⟨0, fun _ => true⟩, ⟨3, fun _ => false⟩, ⟨2, fun _ => true⟩] root
          = Except.ok t
      ∧ ∀ n ∈ t.nodes, FChunkOctree.NodeInv n :=
  ⟨by decide, by decide, by decide,
    C7_UpdateLOD_keeps_node_invariants ⟨0, 0, 0⟩ 3 (FOctree.GetTopIdFromDepth 3) 0 4 _
      (by decide) (by decide) (by decide)⟩

/-- C5, on the depth-3 root at the origin of the tree with top id `9 ^ 3`. -/
theorem C5_CreateChilds_children_witness :
    1 ≤ 3 ∧ 3 ≤ 19 ∧
    ∃ t', FChunkOctree.CreateChilds FChunkOctree.sampleRender
        (FChunkOctree.mk ⟨0, 0, 0⟩ 3 729 false [] false 0 none) = Except.ok t'
      ∧ t'.bHasChilds = true ∧ t'.Childs.length = 8
      ∧ ∀ k, k < 8 → ∃ c, t'.Childs[k]? = some c
          ∧ c.Depth = 3 - 1
          ∧ c.Id = (729 + (k + 1) * 9 ^ (3 - 1)) % 2 ^ 64
          ∧ (729 + 9 ^ 3 ≤ 2 ^ 64 → c.Id = 729 + (k + 1) * 9 ^ (3 - 1))
          ∧ c.Position = ⟨
              wrapInt32 (0 + FChunkOctree.octantSign k 0 * (FChunkOctree.SizeAt 3 / 4)),
              wrapInt32 (0 + FChunkOctree.octantSign k 1 * (FChunkOctree.SizeAt 3 / 4)),
              wrapInt32 (0 + FChunkOctree.octantSign k 2 * (FChunkOctree.SizeAt 3 / 4))⟩
          ∧ (isInt32 (0 + FChunkOctree.octantSign k 0 * (FChunkOctree.SizeAt 3 / 4)) →
              c.Position.X = 0 + FChunkOctree.octantSign k 0 * (FChunkOctree.SizeAt 3 / 4))
          ∧ (isInt32 (0 + FChunkOctree.octantSign k 1 * (FChunkOctree.SizeAt 3 / 4)) →
              c.Position.Y = 0 + FChunkOctree.octantSign k 1 * (FChunkOctree.SizeAt 3 / 4))
          ∧ (isInt32 (0 + FChunkOctree.octantSign k 2 * (FChunkOctree.SizeAt 3 / 4)) →
              c.Position.Z = 0 + FChunkOctree.octantSign k 2 * (FChunkOctree.SizeAt 3 / 4))
          ∧ c.Size = FChunkOctree.SizeAt 3 / 2
          ∧ 2 * c.Size = FChunkOctree.SizeAt 3 :=
  ⟨by decide, by decide,
    C5_CreateChilds_children FChunkOctree.sampleRender ⟨0, 0, 0⟩ 3 729 0 none
      (by decide) (by decide)⟩

/-- C6: on every internal node of a tree built by the constructor and `CreateChilds`, and for
every point `p` with `IsInOctree(p)` true, `GetChild(p)` returns a direct child that contains
`p`, and no other child contains `p`; and when the node's own box is computed without `int32`
wrap-around, every point of a child's box is a point of the node's box. -/
theorem C6_GetChild_partition (t : FChunkOctree) (p : FIntVector)
    (hw : FChunkOctree.WellFormed t) (hc : t.bHasChilds = true) (hp : p.isInt32)
    (hin : t.IsInOctree p = true) :
    (∃ i c, FChunkOctree.GetChild t p = Except.ok c ∧ t.Childs[i]? = some c
      ∧ c.IsInOctree p = true
      ∧ ∀ (j : Nat) (c' : FChunkOctree), j ≠ i → t.Childs[j]? = some c' → c'.IsInOctree p = false)
    ∧ (FChunkOctree.boxFits t.Position t.Size →
        ∀ (j : Nat) (c' : FChunkOctree) (q : FIntVector), t.Childs[j]? = some c' → c'.IsInOctree q = true → t.IsInOctree q = true) := by
  constructor
  · obtain ⟨i, c, _, h1, h2, h3, _, _, _, h4⟩ := GetChild_spec hw hc hp hin
    exact ⟨i, c, h1, h2, h3, h4⟩
  · intro hfit j c' q hj hq
    cases hw with
    | mk P D I hcb cs hk M V hDepth hPos hExcl hChunk hChilds hNone hRec =>
      obtain ⟨h0, hkeys⟩ := hChilds hc
      have hj' : cs[j]? = some c' := hj
      obtain ⟨_, hkj⟩ := key_of_getElem? hkeys hj'
      have hpos : c'.Position = (FChunkOctree.childKey (P, D, 0) j).1 :=
        congrArg (fun K => K.1) hkj
      have hdep : c'.Depth = D - 1 := congrArg (fun K => K.2.1) hkj
      unfold FChunkOctree.IsInOctree FChunkOctree.Size at hq
      rw [hpos, hdep] at hq
      exact child_inBox_inside h0 hfit j hq

/-- C6, on the depth-1 example tree at the origin and the point `(3, -5, 7)`. -/
theorem C6_GetChild_partition_witness :
    FChunkOctree.WellFormed FChunkOctree.sampleTree
    ∧ FChunkOctree.sampleTree.bHasChilds = true
    ∧ (FIntVector.mk 3 (-5) 7).isInt32
    ∧ FChunkOctree.sampleTree.IsInOctree ⟨3, -5, 7⟩ = true
    ∧ ((∃ i c, FChunkOctree.GetChild FChunkOctree.sampleTree ⟨3, -5, 7⟩ = Except.ok c
        ∧ FChunkOctree.sampleTree.Childs[i]? = some c
        ∧ c.IsInOctree ⟨3, -5, 7⟩ = true
        ∧ ∀ (j : Nat) (c' : FChunkOctree), j ≠ i → FChunkOctree.sampleTree.Childs[j]? = some c' →
            c'.IsInOctree ⟨3, -5, 7⟩ = false)
      ∧ (FChunkOctree.boxFits FChunkOctree.sampleTree.Position FChunkOctree.sampleTree.Size →
        ∀ (j : Nat) (c' : FChunkOctree) (q : FIntVector), FChunkOctree.sampleTree.Childs[j]? = some c' → c'.IsInOctree q = true →
          FChunkOctree.sampleTree.IsInOctree q = true)) :=
  ⟨sampleTree_wf, rfl, by decide, by decide,
    C6_GetChild_partition FChunkOctree.sampleTree ⟨3, -5, 7⟩ sampleTree_wf rfl (by decide)
      (by decide)⟩

/-- C8 as the code has it: a depth-3 octree that is initially empty, with the target LOD fixed
at 1, has exactly 64 leaves after one `UpdateLOD` on the root, all of them at depth 1 (so none
at depth 0), whatever the root's position, id and mesh id and whatever `HasMesh` answers. -/
theorem C8_depth3_lod1_leaves (Position : FIntVector) (Id MeshId extraFuel : Nat)
    (HasMesh : Nat → Bool) :
    ∃ root t, FChunkOctree.new Position 3 Id MeshId = Except.ok root
      ∧ FChunkOctree.UpdateLOD ⟨1, HasMesh⟩ (4 + extraFuel) root = Except.ok t
      ∧ t.leafCount = 64
      ∧ ∀ n ∈ t.nodes, n.bHasChunk = true → n.Depth = 1 := by
  obtain ⟨t, h1, h2, h3⟩ := UpdateLOD_fresh ⟨1, HasMesh⟩ (4 + extraFuel) Position 3 Id MeshId
    (by decide) (by omega)
  exact ⟨_, t, new_eq (by decide), h1, h2, h3⟩

/-- C8 fails as stated: on the depth-3 root at the origin with id `9 ^ 3`, one `UpdateLOD` with
target LOD 1 leaves 64 leaves, not 8. -/
theorem C8_depth3_lod1_not_eight_leaves :
    ∃ root t, FChunkOctree.new ⟨0, 0, 0⟩ 3 (FOctree.GetTopIdFromDepth 3) 0 = Except.ok root
      ∧ FChunkOctree.UpdateLOD ⟨1, fun _ => false⟩ 4 root = Except.ok t
      ∧ t.leafCount = 64 ∧ t.leafCount ≠ 8 := by
  obtain ⟨t, h1, h2, _⟩ := UpdateLOD_fresh ⟨1, fun _ => false⟩ 4 ⟨0, 0, 0⟩ 3
    (FOctree.GetTopIdFromDepth 3) 0 (by decide) (by decide)
  have h64 : t.leafCount = 64 := h2
  exact ⟨_, t, new_eq (by decide), h1, h64, by rw [h64]; decide⟩

/-- C9: on every tree of the shape the constructor and the transitions build, whose root
contains the point `p` and in which every node without children holds a loaded chunk,
`GetLeaf(p)` trips no check, evaluates its loop test at most `Depth + 1` times (so descends at
most root-depth times), and returns a node of the tree that holds a loaded chunk and whose
bounds contain `p`. -/
theorem C9_GetLeaf_finds_loaded_leaf (t : FChunkOctree) (p : FIntVector)
    (hw : FChunkOctree.WellFormed t) (hp : p.isInt32) (hin : t.IsInOctree p = true)
    (hall : FChunkOctree.AllLoaded t) :
    ∃ n, FChunkOctree.GetLeaf t p (t.Depth + 1) = Except.ok n ∧ n.bHasChunk = true
      ∧ n.IsInOctree p = true ∧ n ∈ t.nodes :=
  GetLeaf_spec hw hp hin hall

/-- C9, on the depth-1 example tree at the origin and the point `(3, -5, 7)`: one descent. -/
theorem C9_GetLeaf_finds_loaded_leaf_witness :
    FChunkOctree.WellFormed FChunkOctree.sampleTree
    ∧ (FIntVector.mk 3 (-5) 7).isInt32
    ∧ FChunkOctree.sampleTree.IsInOctree ⟨3, -5, 7⟩ = true
    ∧ FChunkOctree.AllLoaded FChunkOctree.sampleTree
    ∧ ∃ n, FChunkOctree.GetLeaf FChunkOctree.sampleTree ⟨3, -5, 7⟩
          (FChunkOctree.sampleTree.Depth + 1) = Except.ok n
        ∧ n.bHasChunk = true ∧ n.IsInOctree ⟨3, -5, 7⟩ = true
        ∧ n ∈ FChunkOctree.sampleTree.nodes :=
  ⟨sampleTree_wf, by decide, by decide, sampleTree_allLoaded,
    C9_GetLeaf_finds_loaded_leaf FChunkOctree.sampleTree ⟨3, -5, 7⟩ sampleTree_wf (by decide)
      (by decide) sampleTree_allLoaded⟩

/-- C3: in a tree of the shape the constructor and `CreateChilds` build, rooted at a node of
depth `D ≤ 19` with id `GetTopIdFromDepth D = 9 ^ D`, two nodes have equal ids if and only if
their positions and depths are both equal; so the assertion of `FOctree::operator==` holds and
the comparison returns the id equality. -/
theorem C3_id_eq_iff_position_and_depth (t a b : FChunkOctree)
    (hw : FChunkOctree.WellFormed t) (hroot : t.Id = FOctree.GetTopIdFromDepth t.Depth)
    (ha : a ∈ t.nodes) (hb : b ∈ t.nodes) :
    (a.Id = b.Id ↔ (a.Position = b.Position ∧ a.Depth = b.Depth))
    ∧ FChunkOctree.opEq a b = Except.ok (decide (a.Id = b.Id)) := by
  have hD : t.Depth ≤ 19 := by cases hw; assumption
  have hid : t.Id + 9 ^ t.Depth ≤ 2 ^ 64 := by
    rw [hroot, GetTopIdFromDepth_eq hD]
    exact top_id_room hD
  have key := id_eq_iff_pos_depth hw hid ha hb
  refine ⟨key, ?_⟩
  by_cases h : a.Id = b.Id
  · obtain ⟨h1, h2⟩ := key.mp h
    simp [FChunkOctree.opEq, check, h, h1, h2, bind, Except.bind, pure, Except.pure]
  · have h3 : ¬ (a.Position = b.Position ∧ a.Depth = b.Depth) := fun h' => h (key.mpr h')
    by_cases hp : a.Position = b.Position
    · have hd : ¬ a.Depth = b.Depth := fun h' => h3 ⟨hp, h'⟩
      simp [FChunkOctree.opEq, check, h, hp, hd, bind, Except.bind, pure, Except.pure]
    · simp [FChunkOctree.opEq, check, h, hp, bind, Except.bind, pure, Except.pure]

/-- C3, on the depth-1 example tree: its root against its child of octant 5. -/
theorem C3_id_eq_iff_position_and_depth_witness :
    FChunkOctree.WellFormed FChunkOctree.sampleTree
    ∧ FChunkOctree.sampleTree.Id = FOctree.GetTopIdFromDepth FChunkOctree.sampleTree.Depth
    ∧ FChunkOctree.sampleTree ∈ FChunkOctree.sampleTree.nodes
    ∧ FChunkOctree.sampleChild 5 ∈ FChunkOctree.sampleTree.nodes
    ∧ ((FChunkOctree.sampleTree.Id = (FChunkOctree.sampleChild 5).Id ↔
        (FChunkOctree.sampleTree.Position = (FChunkOctree.sampleChild 5).Position
          ∧ FChunkOctree.sampleTree.Depth = (FChunkOctree.sampleChild 5).Depth))
      ∧ FChunkOctree.opEq FChunkOctree.sampleTree (FChunkOctree.sampleChild 5)
          = Except.ok (decide (FChunkOctree.sampleTree.Id = (FChunkOctree.sampleChild 5).Id))) :=
  ⟨sampleTree_wf, by decide, self_mem_nodes _, sampleChild_mem 5 (by decide),
    C3_id_eq_iff_position_and_depth FChunkOctree.sampleTree FChunkOctree.sampleTree
      (FChunkOctree.sampleChild 5) sampleTree_wf (by decide) (self_mem_nodes _)
      (sampleChild_mem 5 (by decide))⟩

/-- C10: for a pool constructed with `MaxTaskReserve > 0` (and a positive thread count), after
any sequence of `CreateThreadSlot` and `DestroyThreadSlot` calls, `SlotTaskReserve` equals
`max (MaxTaskReserve / K) 1` with floor division when `K ≥ 1` slots are registered, and
`MaxTaskReserve` when none is. -/
theorem C10_SlotTaskReserve (InThreadCount MaxTaskReserve : Int)
    (calls : List FVoxelThreadPool.SlotCall) (hT : InThreadCount > 0)
    (hM : MaxTaskReserve > 0) :
    ∃ pool, FVoxelThreadPool.new InThreadCount MaxTaskReserve = Except.ok pool
      ∧ (1 ≤ (pool.runCalls calls).SlotSet.length →
          (pool.runCalls calls).SlotTaskReserve
            = max (MaxTaskReserve / ((pool.runCalls calls).SlotSet.length : Int)) 1)
      ∧ ((pool.runCalls calls).SlotSet.length = 0 →
          (pool.runCalls calls).SlotTaskReserve = MaxTaskReserve) := by
  refine ⟨⟨0, [], MaxTaskReserve, MaxTaskReserve⟩, ?_, ?_⟩
  · simp [FVoxelThreadPool.new, check, hT, hM, bind, Except.bind, pure, Except.pure]
  · have h0 : FVoxelThreadPool.ReserveOk MaxTaskReserve ⟨0, [], MaxTaskReserve, MaxTaskReserve⟩ :=
      ⟨rfl, fun h => absurd h (by simp), fun _ => rfl⟩
    exact (ReserveOk_runCalls hM calls _ h0).2

/-- C10, on a pool of 4 threads and total reserve 10: three slots created, the second one
destroyed, a fourth created. -/
theorem C10_SlotTaskReserve_witness :
    (4 : Int) > 0 ∧ (10 : Int) > 0 ∧
    ∃ pool, FVoxelThreadPool.new 4 10 = Except.ok pool
      ∧ (1 ≤ (pool.runCalls [FVoxelThreadPool.SlotCall.create, FVoxelThreadPool.SlotCall.create,
            FVoxelThreadPool.SlotCall.create, FVoxelThreadPool.SlotCall.destroy ⟨1, 0, 0, 0⟩,
            FVoxelThreadPool.SlotCall.create]).SlotSet.length →
          (pool.runCalls [FVoxelThreadPool.SlotCall.create, FVoxelThreadPool.SlotCall.create,
            FVoxelThreadPool.SlotCall.create, FVoxelThreadPool.SlotCall.destroy ⟨1, 0, 0, 0⟩,
            FVoxelThreadPool.SlotCall.create]).SlotTaskReserve
            = max (10 / ((pool.runCalls [FVoxelThreadPool.SlotCall.create,
                FVoxelThreadPool.SlotCall.create, FVoxelThreadPool.SlotCall.create,
                FVoxelThreadPool.SlotCall.destroy ⟨1, 0, 0, 0⟩,
                FVoxelThreadPool.SlotCall.create]).SlotSet.length : Int)) 1)
      ∧ ((pool.runCalls [FVoxelThreadPool.SlotCall.create, FVoxelThreadPool.SlotCall.create,
            FVoxelThreadPool.SlotCall.create, FVoxelThreadPool.SlotCall.destroy ⟨1, 0, 0, 0⟩,
            FVoxelThreadPool.SlotCall.create]).SlotSet.length = 0 →
          (pool.runCalls [FVoxelThreadPool.SlotCall.create, FVoxelThreadPool.SlotCall.create,
            FVoxelThreadPool.SlotCall.create, FVoxelThreadPool.SlotCall.destroy ⟨1, 0, 0, 0⟩,
            FVoxelThreadPool.SlotCall.create]).SlotTaskReserve = 10) :=
  ⟨by decide, by decide, C10_SlotTaskReserve 4 10 _ (by decide) (by decide)⟩

/-! ## Facts about the slot counters -/

section Slot

open FSlotData

theorem DecrementActiveTask_ok {s s' : FSlotData} (h : DecrementActiveTask s = Except.ok s') :
    0 < s.RemainingTaskCount
    ∧ s' = { s with
        CurrentActiveTask := wrapInt32 (s.CurrentActiveTask - 1)
        RemainingTaskCount := wrapInt32 (s.RemainingTaskCount - 1) } := by
  unfold DecrementActiveTask at h
  by_cases hr : s.RemainingTaskCount > 0
  · simp [check, hr, bind, Except.bind, pure, Except.pure] at h
    exact ⟨hr, h.symm⟩
  · simp [check, hr, bind, Except.bind, pure, Except.pure] at h

theorem DecrementActiveTask_fails {s : FSlotData} (h : s.RemainingTaskCount ≤ 0) :
    DecrementActiveTask s = Except.error Err.checkFailed := by
  have hr : ¬ s.RemainingTaskCount > 0 := by omega
  simp [DecrementActiveTask, check, hr, bind, Except.bind]

theorem IncrementActiveTask_ok {s s' : FSlotData} (h : IncrementActiveTask s = Except.ok s') :
    0 < s.RemainingTaskCount
    ∧ s' = { s with CurrentActiveTask := wrapInt32 (s.CurrentActiveTask + 1) } := by
  unfold IncrementActiveTask at h
  by_cases hr : s.RemainingTaskCount > 0
  · simp [check, hr, bind, Except.bind, pure, Except.pure] at h
    exact ⟨hr, h.symm⟩
  · simp [check, hr, bind, Except.bind, pure, Except.pure] at h

theorem IncrementActiveTask_fails {s : FSlotData} (h : s.RemainingTaskCount ≤ 0) :
    IncrementActiveTask s = Except.error Err.checkFailed := by
  have hr : ¬ s.RemainingTaskCount > 0 := by omega
  simp [IncrementActiveTask, check, hr, bind, Except.bind]

theorem IncrementTaskCount_ok {s s' : FSlotData} (h : IncrementTaskCount s = Except.ok s') :
    s.MarkedRemainingTaskCount = 0
    ∧ s' = { s with RemainingTaskCount := wrapInt32 (s.RemainingTaskCount + 1) } := by
  unfold IncrementTaskCount at h
  by_cases hr : s.MarkedRemainingTaskCount = 0
  · simp only [check, hr, decide_True, bind, Except.bind, pure, Except.pure, if_true] at h
    injection h with h
    refine ⟨hr, ?_⟩
    rw [← h, hr]
  · simp [check, hr, bind, Except.bind, pure, Except.pure] at h

/-- After `d` successful decrements the remaining count has dropped by `d` and the mark is
untouched. -/
theorem decrements_ok : ∀ (d : Nat) (s s' : FSlotData), isInt32 s.RemainingTaskCount →
    decrements d s = Except.ok s' →
    s'.RemainingTaskCount = s.RemainingTaskCount - d
      ∧ s'.MarkedRemainingTaskCount = s.MarkedRemainingTaskCount
      ∧ (0 < d → 0 ≤ s'.RemainingTaskCount) := by
  intro d
  induction d with
  | zero =>
    intro s s' _ h
    have : s' = s := by
      have h2 : decrements 0 s = Except.ok s := rfl
      rw [h2] at h
      injection h with h3
      exact h3.symm
    subst this
    simp
  | succ d ih =>
    intro s s' hs h
    rw [decrements] at h
    cases hd : DecrementActiveTask s with
    | error e => rw [hd] at h; simp [bind, Except.bind] at h
    | ok s1 =>
      rw [hd] at h
      have h' : decrements d s1 = Except.ok s' := h
      obtain ⟨hpos, hs1⟩ := DecrementActiveTask_ok hd
      have hR : s1.RemainingTaskCount = s.RemainingTaskCount - 1 := by
        rw [hs1]
        unfold isInt32 at hs
        show wrapInt32 (s.RemainingTaskCount - 1) = _
        unfold wrapInt32
        omega
      have hM : s1.MarkedRemainingTaskCount = s.MarkedRemainingTaskCount := by rw [hs1]
      have hs1' : isInt32 s1.RemainingTaskCount := by
        unfold isInt32 at hs ⊢
        omega
      obtain ⟨e1, e2, e3⟩ := ih s1 s' hs1' h'
      refine ⟨by rw [e1, hR]; push_cast; ring, by rw [e2, hM], fun _ => ?_⟩
      by_cases hd0 : d = 0
      · subst hd0
        simp at e1
        omega
      · exact e3 (by omega)

end Slot

section SlotRuns

open FSlotData

/-- One successful call moves each counter by at most one, never takes the remaining count below
zero, and keeps the active count between zero and the remaining count when the caller does. -/
theorem applyOp_bounds {s s' : FSlotData} {o : SlotOp} {n : Int} (hn : n < 2 ^ 31 - 1)
    (h : applyOp s o = Except.ok s')
    (hR : 0 ≤ s.RemainingTaskCount ∧ s.RemainingTaskCount ≤ n)
    (hA : -n ≤ s.CurrentActiveTask ∧ s.CurrentActiveTask ≤ n) :
    (0 ≤ s'.RemainingTaskCount ∧ s'.RemainingTaskCount ≤ n + 1)
      ∧ (-(n + 1) ≤ s'.CurrentActiveTask ∧ s'.CurrentActiveTask ≤ n + 1)
      ∧ (callerKeepsActive s o →
          0 ≤ s.CurrentActiveTask ∧ s.CurrentActiveTask ≤ s.RemainingTaskCount →
          0 ≤ s'.CurrentActiveTask ∧ s'.CurrentActiveTask ≤ s'.RemainingTaskCount) := by
  have h31 : (2 : Int) ^ 31 = 2147483648 := by norm_num
  rw [h31] at hn
  cases o with
  | Reset =>
    have e : s' = s.Reset := by injection h with h; exact h.symm
    subst e
    simp only [FSlotData.Reset, callerKeepsActive]
    omega
  | MarkTaskUpdate =>
    have e : s' = s.MarkTaskUpdate := by injection h with h; exact h.symm
    subst e
    simp only [FSlotData.MarkTaskUpdate, callerKeepsActive]
    omega
  | UnmarkTaskUpdate =>
    have e : s' = s.UnmarkTaskUpdate := by injection h with h; exact h.symm
    subst e
    simp only [FSlotData.UnmarkTaskUpdate, callerKeepsActive]
    omega
  | IncrementTaskCount =>
    obtain ⟨_, e⟩ := IncrementTaskCount_ok h
    subst e
    simp only [callerKeepsActive, wrapInt32]
    omega
  | IncrementActiveTask =>
    obtain ⟨_, e⟩ := IncrementActiveTask_ok h
    subst e
    simp only [callerKeepsActive, wrapInt32]
    omega
  | DecrementActiveTask =>
    obtain ⟨_, e⟩ := DecrementActiveTask_ok h
    subst e
    simp only [callerKeepsActive, wrapInt32]
    omega

/-- The bounds of `applyOp_bounds` along a whole run. -/
theorem runOps_bounds : ∀ (ops : List SlotOp) (s s' : FSlotData) (n : Int),
    n + ops.length < 2 ^ 31 → runOps s ops = Except.ok s' →
    0 ≤ s.RemainingTaskCount ∧ s.RemainingTaskCount ≤ n →
    -n ≤ s.CurrentActiveTask ∧ s.CurrentActiveTask ≤ n →
    0 ≤ s'.RemainingTaskCount
      ∧ (disciplined s ops →
          0 ≤ s.CurrentActiveTask ∧ s.CurrentActiveTask ≤ s.RemainingTaskCount →
          0 ≤ s'.CurrentActiveTask ∧ s'.CurrentActiveTask ≤ s'.RemainingTaskCount) := by
  intro ops
  induction ops with
  | nil =>
    intro s s' n _ h hR _
    have e : s' = s := by injection h with h; exact h.symm
    subst e
    exact ⟨hR.1, fun _ h => h⟩
  | cons o os ih =>
    intro s s' n hn h hR hA
    rw [runOps] at h
    cases ho : applyOp s o with
    | error e => rw [ho] at h; simp [bind, Except.bind] at h
    | ok s1 =>
      rw [ho] at h
      have h' : runOps s1 os = Except.ok s' := h
      have hlen : ((o :: os).length : Int) = (os.length : Int) + 1 := by simp
      rw [hlen] at hn
      have hn1 : n < 2 ^ 31 - 1 := by
        have : (0 : Int) ≤ (os.length : Int) := Int.natCast_nonneg _
        omega
      obtain ⟨b1, b2, b3⟩ := applyOp_bounds hn1 ho hR hA
      obtain ⟨r1, r2⟩ := ih s1 s' (n + 1) (by omega) h' b1 b2
      refine ⟨r1, fun hd hs => ?_⟩
      obtain ⟨d1, d2⟩ := hd
      rw [ho] at d2
      exact r2 d2 (b3 d1 hs)

end SlotRuns

/-! ## Claims on the slot counters -/

/-- C11: after `MarkTaskUpdate` on a slot with `r` remaining tasks, followed by `d` successful
`DecrementActiveTask` calls, `HasJustFinishedRemainingTask` is true exactly when `r > 0` and
`d = r`; it is false when `r = 0` at the mark, and false after `UnmarkTaskUpdate`. -/
theorem C11_HasJustFinishedRemainingTask (s s' : FSlotData) (d : Nat)
    (hr : isInt32 s.RemainingTaskCount)
    (hd : FSlotData.decrements d s.MarkTaskUpdate = Except.ok s') :
    (s'.HasJustFinishedRemainingTask = true ↔
        0 < s.RemainingTaskCount ∧ (d : Int) = s.RemainingTaskCount)
      ∧ (s.RemainingTaskCount = 0 → s'.HasJustFinishedRemainingTask = false)
      ∧ s'.UnmarkTaskUpdate.HasJustFinishedRemainingTask = false := by
  obtain ⟨e1, e2, _⟩ := decrements_ok d s.MarkTaskUpdate s' hr hd
  have m1 : s.MarkTaskUpdate.RemainingTaskCount = s.RemainingTaskCount := rfl
  have m2 : s.MarkTaskUpdate.MarkedRemainingTaskCount = s.RemainingTaskCount := rfl
  rw [m1] at e1
  rw [m2] at e2
  refine ⟨?_, ?_, ?_⟩
  · simp only [FSlotData.HasJustFinishedRemainingTask, Bool.and_eq_true, decide_eq_true_eq,
      e1, e2]
    omega
  · intro h0
    simp only [FSlotData.HasJustFinishedRemainingTask, e1, e2, h0]
    simp
  · simp [FSlotData.HasJustFinishedRemainingTask, FSlotData.UnmarkTaskUpdate]

/-- C11 at a slot with two remaining tasks and two decrements. -/
theorem C11_HasJustFinishedRemainingTask_witness :
    ((⟨0, 0, 0, 2⟩ : FSlotData).HasJustFinishedRemainingTask = true ↔
        0 < (⟨0, 2, 2, 0⟩ : FSlotData).RemainingTaskCount
          ∧ ((2 : Nat) : Int) = (⟨0, 2, 2, 0⟩ : FSlotData).RemainingTaskCount)
      ∧ ((⟨0, 2, 2, 0⟩ : FSlotData).RemainingTaskCount = 0 →
          (⟨0, 0, 0, 2⟩ : FSlotData).HasJustFinishedRemainingTask = false)
      ∧ (⟨0, 0, 0, 2⟩ : FSlotData).UnmarkTaskUpdate.HasJustFinishedRemainingTask = false :=
  C11_HasJustFinishedRemainingTask ⟨0, 2, 2, 0⟩ ⟨0, 0, 0, 2⟩ 2 (by decide) rfl

/-- C13 fails as stated: after one `IncrementTaskCount`, a `DecrementActiveTask` passes its
check and leaves the active count at `-1`, below zero; and two `IncrementActiveTask` calls pass
theirs and leave the active count at `2`, above the remaining count `1`. -/
theorem C13_active_count_unguarded :
    (∃ s, FSlotData.runOps (FSlotData.new 0)
          [FSlotData.SlotOp.IncrementTaskCount, FSlotData.SlotOp.DecrementActiveTask]
        = Except.ok s
      ∧ ¬ (0 ≤ s.CurrentActiveTask ∧ s.CurrentActiveTask ≤ s.RemainingTaskCount))
    ∧ (∃ s, FSlotData.runOps (FSlotData.new 0)
          [FSlotData.SlotOp.IncrementTaskCount, FSlotData.SlotOp.IncrementActiveTask,
            FSlotData.SlotOp.IncrementActiveTask]
        = Except.ok s
      ∧ ¬ (0 ≤ s.CurrentActiveTask ∧ s.CurrentActiveTask ≤ s.RemainingTaskCount)) :=
  ⟨⟨⟨0, -1, 0, 0⟩, by rfl, by decide⟩, ⟨⟨0, 2, 1, 0⟩, by rfl, by decide⟩⟩

/-- C13 (amended): along every sequence of fewer than `2 ^ 31` slot calls from a fresh slot in
which no check fails, the remaining count never drops below zero, and a call that would take it
below zero fails its check; the active count stays between zero and the remaining count when
the caller starts a task only while one is counted and not started, and completes a task only
while one is started. -/
theorem C13_slot_counters (SlotID : Int) (ops : List FSlotData.SlotOp) (s : FSlotData)
    (hlen : ops.length < 2 ^ 31)
    (hrun : FSlotData.runOps (FSlotData.new SlotID) ops = Except.ok s) :
    0 ≤ s.RemainingTaskCount
      ∧ (s.RemainingTaskCount = 0 →
          s.DecrementActiveTask = Except.error Err.checkFailed)
      ∧ (FSlotData.disciplined (FSlotData.new SlotID) ops →
          0 ≤ s.CurrentActiveTask ∧ s.CurrentActiveTask ≤ s.RemainingTaskCount) := by
  have hl : (0 : Int) + (ops.length : Int) < 2 ^ 31 := by
    have : ((ops.length : Nat) : Int) < ((2 ^ 31 : Nat) : Int) := Int.ofNat_lt.mpr hlen
    simpa using this
  obtain ⟨r1, r2⟩ := runOps_bounds ops (FSlotData.new SlotID) s 0 hl hrun
    (by simp [FSlotData.new]) (by simp [FSlotData.new])
  exact ⟨r1, fun h0 => DecrementActiveTask_fails (le_of_eq h0),
    fun hd => r2 hd (by simp [FSlotData.new])⟩

/-- C13 (amended) on two counted tasks, started and completed in turn. -/
theorem C13_slot_counters_witness :
    0 ≤ (⟨7, 0, 0, 0⟩ : FSlotData).RemainingTaskCount
      ∧ ((⟨7, 0, 0, 0⟩ : FSlotData).RemainingTaskCount = 0 →
          (⟨7, 0, 0, 0⟩ : FSlotData).DecrementActiveTask = Except.error Err.checkFailed)
      ∧ (FSlotData.disciplined (FSlotData.new 7)
            [FSlotData.SlotOp.IncrementTaskCount, FSlotData.SlotOp.IncrementTaskCount,
              FSlotData.SlotOp.IncrementActiveTask, FSlotData.SlotOp.IncrementActiveTask,
              FSlotData.SlotOp.DecrementActiveTask, FSlotData.SlotOp.DecrementActiveTask] →
          0 ≤ (⟨7, 0, 0, 0⟩ : FSlotData).CurrentActiveTask
            ∧ (⟨7, 0, 0, 0⟩ : FSlotData).CurrentActiveTask
              ≤ (⟨7, 0, 0, 0⟩ : FSlotData).RemainingTaskCount) :=
  C13_slot_counters 7
    [FSlotData.SlotOp.IncrementTaskCount, FSlotData.SlotOp.IncrementTaskCount,
      FSlotData.SlotOp.IncrementActiveTask, FSlotData.SlotOp.IncrementActiveTask,
      FSlotData.SlotOp.DecrementActiveTask, FSlotData.SlotOp.DecrementActiveTask]
    ⟨7, 0, 0, 0⟩ (by norm_num) rfl

/-! ## Facts about a pool with its slots -/

section System

open FSlotData FVoxelThreadPool

theorem reserve_bounds (p : FVoxelThreadPool) (hm : 0 < p.MaxTaskReserve) :
    1 ≤ (UpdateSlotTaskReserve p).SlotTaskReserve
      ∧ (UpdateSlotTaskReserve p).SlotTaskReserve ≤ p.MaxTaskReserve := by
  have hk : (1 : Int) ≤ max (p.SlotSet.length : Int) 1 := by omega
  have h : (UpdateSlotTaskReserve p).SlotTaskReserve
      = max (p.MaxTaskReserve / max (p.SlotSet.length : Int) 1) 1 := reserve_eq_max hm hk
  rw [h]
  have h2 : p.MaxTaskReserve / max (p.SlotSet.length : Int) 1 ≤ p.MaxTaskReserve :=
    Int.ediv_le_self _ (le_of_lt hm)
  omega

theorem ediv_antitone {m k k' : Int} (hm : 0 ≤ m) (hk' : 0 < k') (hk : k' ≤ k) :
    m / k ≤ m / k' := by
  rw [Int.le_ediv_iff_mul_le hk']
  have h0 : 0 ≤ m / k := Int.ediv_nonneg hm (by omega)
  have h1 : m / k * k' ≤ m / k * k := Int.mul_le_mul_of_nonneg_left hk h0
  have h2 : m / k * k ≤ m := Int.ediv_mul_le m (by omega)
  omega

/-- Unregistering a slot keeps the reserve in step with the slot count and never lowers it. -/
theorem DestroyThreadSlot_reserve {M : Int} (hM : 0 < M) (p : FVoxelThreadPool)
    (d : FSlotData) (h : ReserveOk M p) (h1 : 1 ≤ p.SlotTaskReserve)
    (hle : p.SlotTaskReserve ≤ M) :
    ReserveOk M (DestroyThreadSlot p d)
      ∧ 1 ≤ (DestroyThreadSlot p d).SlotTaskReserve
      ∧ (DestroyThreadSlot p d).SlotTaskReserve ≤ M
      ∧ p.SlotTaskReserve ≤ (DestroyThreadSlot p d).SlotTaskReserve := by
  unfold DestroyThreadSlot
  split
  · rename_i hmem
    let q : FVoxelThreadPool :=
      { p with SlotSet := p.SlotSet.filter (fun x => x ≠ d.SlotID) }
    have hq : q.MaxTaskReserve = M := h.1
    have hb := reserve_bounds q (by rw [hq]; exact hM)
    rw [hq] at hb
    refine ⟨ReserveOk_update hM q hq, hb.1, hb.2, ?_⟩
    obtain ⟨_, _, s3, s4⟩ := UpdateSlotTaskReserve_spec q (by rw [hq]; exact hM)
    rw [hq] at s3 s4
    have hlen : q.SlotSet.length ≤ p.SlotSet.length := List.length_filter_le _ _
    have hp : 1 ≤ p.SlotSet.length := List.length_pos_of_mem hmem
    have hold := h.2.1 hp
    by_cases hz : q.SlotSet.length = 0
    · show p.SlotTaskReserve ≤ (UpdateSlotTaskReserve q).SlotTaskReserve
      rw [s4 hz]; exact hle
    · have hq1 : 1 ≤ q.SlotSet.length := by omega
      show p.SlotTaskReserve ≤ (UpdateSlotTaskReserve q).SlotTaskReserve
      rw [s3 hq1, hold]
      have := @ediv_antitone M (p.SlotSet.length : Int) (q.SlotSet.length : Int)
        (le_of_lt hM) (by omega) (by omega)
      omega
  · exact ⟨h, h1, hle, le_refl _⟩

/-- The active count after one successful call, for a count below the bound `B` whenever the
call is `IncrementActiveTask`. -/
theorem applyOp_active {d d' : FSlotData} {o : SlotOp} {n B : Int}
    (h : applyOp d o = Except.ok d') (hn0 : 0 ≤ n) (hn : n < 2 ^ 31)
    (hB0 : 0 ≤ B) (hB : B < 2 ^ 31)
    (hlo : -n ≤ d.CurrentActiveTask) (hhi : d.CurrentActiveTask ≤ B)
    (hg : o = SlotOp.IncrementActiveTask → d.CurrentActiveTask < B) :
    -(n + 1) ≤ d'.CurrentActiveTask ∧ d'.CurrentActiveTask ≤ B := by
  have h31 : (2 : Int) ^ 31 = 2147483648 := by norm_num
  rw [h31] at hn hB
  cases o with
  | Reset =>
    have e : d' = d.Reset := by injection h with h; exact h.symm
    subst e
    simp only [FSlotData.Reset]
    omega
  | MarkTaskUpdate =>
    have e : d' = d.MarkTaskUpdate := by injection h with h; exact h.symm
    subst e
    simp only [FSlotData.MarkTaskUpdate]
    omega
  | UnmarkTaskUpdate =>
    have e : d' = d.UnmarkTaskUpdate := by injection h with h; exact h.symm
    subst e
    simp only [FSlotData.UnmarkTaskUpdate]
    omega
  | IncrementTaskCount =>
    obtain ⟨_, e⟩ := IncrementTaskCount_ok h
    subst e
    simp only
    omega
  | IncrementActiveTask =>
    obtain ⟨_, e⟩ := IncrementActiveTask_ok h
    have := hg rfl
    subst e
    simp only [wrapInt32]
    omega
  | DecrementActiveTask =>
    obtain ⟨_, e⟩ := DecrementActiveTask_ok h
    subst e
    simp only [wrapInt32]
    omega

/-- What a successful `call` step did. -/
theorem stepSystem_call {sys sys' : PoolSystem} {i : Nat} {o : SlotOp}
    (h : stepSystem sys (SystemStep.call i o) = some sys') :
    ∃ d d', sys.slots[i]? = some d ∧ applyOp d o = Except.ok d'
      ∧ (o = SlotOp.IncrementActiveTask → d.CurrentActiveTask < sys.pool.SlotTaskReserve)
      ∧ sys' = ⟨sys.pool, sys.slots.set i d'⟩ := by
  simp only [stepSystem] at h
  cases hd : sys.slots[i]? with
  | none => rw [hd] at h; simp at h
  | some d =>
    rw [hd] at h
    simp only at h
    split at h
    · simp at h
    · rename_i hg
      cases ha : applyOp d o with
      | error e => rw [ha] at h; simp at h
      | ok d' =>
        rw [ha] at h
        simp only [Option.some.injEq] at h
        refine ⟨d, d', rfl, ha, fun ho => ?_, h.symm⟩
        by_contra hlt
        apply hg
        refine ⟨ho, ?_⟩
        simp [HasRemainingTaskSlot, hlt]

/-- One step keeps `SystemInv`, with one more step counted. -/
theorem stepSystem_inv {M n : Int} (hM : 0 < M) (hM31 : M < 2 ^ 31) (hn0 : 0 ≤ n)
    (hn : n < 2 ^ 31) {sys sys' : PoolSystem} (st : SystemStep)
    (hi : SystemInv M n sys) (h : stepSystem sys st = some sys') :
    SystemInv M (n + 1) sys' := by
  obtain ⟨i1, i2, i3, i4⟩ := hi
  cases st with
  | create =>
    simp only [stepSystem, Option.some.injEq] at h
    subst h
    have hq : ({ sys.pool with
        UNIQUE_SLOT_ID := wrapInt32 (sys.pool.UNIQUE_SLOT_ID + 1)
        SlotSet := setEmplace sys.pool.SlotSet sys.pool.UNIQUE_SLOT_ID }
          : FVoxelThreadPool).MaxTaskReserve = M := i1.1
    have hb := reserve_bounds _ (by rw [hq]; exact hM)
    rw [hq] at hb
    refine ⟨ReserveOk_update hM _ hq, hb.1, hb.2, ?_⟩
    intro d hd
    rcases List.mem_append.mp hd with hd | hd
    · have := i4 d hd
      omega
    · simp only [List.mem_singleton] at hd
      subst hd
      simp only [CreateThreadSlot]
      omega
  | destroy i =>
    simp only [stepSystem] at h
    cases hd : sys.slots[i]? with
    | none => rw [hd] at h; simp at h
    | some d =>
      rw [hd] at h
      simp only [Option.some.injEq] at h
      subst h
      obtain ⟨r1, r2, r3, _⟩ := DestroyThreadSlot_reserve hM sys.pool d i1 i2 i3
      refine ⟨r1, r2, r3, fun d hd => ?_⟩
      have := i4 d hd
      omega
  | call i o =>
    obtain ⟨d, d', hd, ha, hg, e⟩ := stepSystem_call h
    subst e
    refine ⟨i1, i2, i3, fun x hx => ?_⟩
    rcases List.mem_or_eq_of_mem_set hx with hx | hx
    · have := i4 x hx
      omega
    · subst hx
      have hdm := i4 d (List.getElem?_mem hd)
      exact applyOp_active ha hn0 hn (le_of_lt hM) hM31 hdm.1 hdm.2
        (fun ho => lt_of_lt_of_le (hg ho) i3)

/-- Every run keeps `SystemInv`, with its steps counted. -/
theorem runSystem_inv {M : Int} (hM : 0 < M) (hM31 : M < 2 ^ 31) :
    ∀ (steps : List SystemStep) (sys sys' : PoolSystem) (n : Int), 0 ≤ n →
    n + steps.length ≤ 2 ^ 31 → SystemInv M n sys → runSystem sys steps = some sys' →
    SystemInv M (n + steps.length) sys' := by
  intro steps
  induction steps with
  | nil =>
    intro sys sys' n _ _ hi h
    simp only [runSystem, Option.some.injEq] at h
    subst h
    simpa using hi
  | cons st sts ih =>
    intro sys sys' n hn0 hn hi h
    rw [runSystem] at h
    have hlen : ((st :: sts).length : Int) = (sts.length : Int) + 1 := by simp
    rw [hlen] at hn ⊢
    cases hs : stepSystem sys st with
    | none => rw [hs] at h; simp at h
    | some s1 =>
      rw [hs] at h
      have hn1 : n < 2 ^ 31 := by
        have : (0 : Int) ≤ (sts.length : Int) := Int.natCast_nonneg _
        omega
      have := ih s1 sys' (n + 1) (by omega) (by omega)
        (stepSystem_inv hM hM31 hn0 hn1 st hi hs) h
      have e : n + 1 + (sts.length : Int) = n + ((sts.length : Int) + 1) := by ring
      rwa [e] at this

/-- Every step other than a slot creation keeps the active counts within the slot reserve. -/
theorem stepSystem_reserve {M n : Int} (hM : 0 < M) (hM31 : M < 2 ^ 31) (hn0 : 0 ≤ n)
    (hn : n < 2 ^ 31) {sys sys' : PoolSystem} (st : SystemStep)
    (hi : SystemInv M n sys) (hc : st ≠ SystemStep.create)
    (h : stepSystem sys st = some sys')
    (hr : ∀ d ∈ sys.slots, d.CurrentActiveTask ≤ sys.pool.SlotTaskReserve) :
    ∀ d ∈ sys'.slots, d.CurrentActiveTask ≤ sys'.pool.SlotTaskReserve := by
  obtain ⟨i1, i2, i3, i4⟩ := hi
  cases st with
  | create => exact absurd rfl hc
  | destroy i =>
    simp only [stepSystem] at h
    cases hd : sys.slots[i]? with
    | none => rw [hd] at h; simp at h
    | some d =>
      rw [hd] at h
      simp only [Option.some.injEq] at h
      subst h
      obtain ⟨_, _, _, r4⟩ := DestroyThreadSlot_reserve hM sys.pool d i1 i2 i3
      intro x hx
      exact le_trans (hr x hx) r4
  | call i o =>
    obtain ⟨d, d', hd, ha, hg, e⟩ := stepSystem_call h
    subst e
    intro x hx
    rcases List.mem_or_eq_of_mem_set hx with hx | hx
    · exact hr x hx
    · subst hx
      have hdm := i4 d (List.getElem?_mem hd)
      exact (applyOp_active ha hn0 hn (by omega) (lt_of_le_of_lt i3 hM31) hdm.1
        (hr d (List.getElem?_mem hd)) hg).2

end System

/-! ## Claims on a pool with its slots -/

/-- C12 fails as stated: in a pool of total reserve 2, the first slot has a reserve of 2 and
starts two tasks, each while `HasRemainingTaskSlot` is true; creating a second slot then lowers
the reserve to 1, below the first slot's active count of 2. -/
theorem C12_create_lowers_reserve_below_active :
    FVoxelThreadPool.new 1 2 = Except.ok ⟨0, [], 2, 2⟩
    ∧ ∃ sys, runSystem ⟨⟨0, [], 2, 2⟩, []⟩
          [SystemStep.create,
            SystemStep.call 0 FSlotData.SlotOp.IncrementTaskCount,
            SystemStep.call 0 FSlotData.SlotOp.IncrementTaskCount,
            SystemStep.call 0 FSlotData.SlotOp.IncrementActiveTask,
            SystemStep.call 0 FSlotData.SlotOp.IncrementActiveTask,
            SystemStep.create]
        = some sys
      ∧ ∃ d ∈ sys.slots, ¬ d.CurrentActiveTask ≤ sys.pool.SlotTaskReserve :=
  ⟨rfl, ⟨⟨2, [0, 1], 2, 1⟩, [⟨0, 2, 2, 0⟩, ⟨1, 0, 0, 0⟩]⟩, by decide,
    ⟨0, 2, 2, 0⟩, by decide, by decide⟩

/-- C12 (amended): in every state reached in fewer than `2 ^ 31` steps from a fresh pool of
total reserve `M`, where slots are created and unregistered at any time and
`IncrementActiveTask` is only called while `HasRemainingTaskSlot` is true, every slot has
`CurrentActiveTask ≤ MaxTaskReserve`; and `CurrentActiveTask ≤ SlotTaskReserve` for every slot
is kept by every further step other than the creation of a slot. -/
theorem C12_active_within_reserve (T M : Int) (p0 : FVoxelThreadPool)
    (steps : List SystemStep) (sys : PoolSystem)
    (hnew : FVoxelThreadPool.new T M = Except.ok p0) (hM : M < 2 ^ 31)
    (hlen : steps.length < 2 ^ 31) (hrun : runSystem ⟨p0, []⟩ steps = some sys) :
    (∀ d ∈ sys.slots, d.CurrentActiveTask ≤ sys.pool.MaxTaskReserve)
      ∧ (∀ (st : SystemStep) (sys' : PoolSystem), st ≠ SystemStep.create →
          stepSystem sys st = some sys' →
          (∀ d ∈ sys.slots, d.CurrentActiveTask ≤ sys.pool.SlotTaskReserve) →
          ∀ d ∈ sys'.slots, d.CurrentActiveTask ≤ sys'.pool.SlotTaskReserve) := by
  have hM0 : 0 < M ∧ p0 = ⟨0, [], M, M⟩ := by
    unfold FVoxelThreadPool.new at hnew
    by_cases h1 : T > 0
    · by_cases h2 : M > 0
      · simp only [check, h1, h2, decide_True, bind, Except.bind, pure, Except.pure,
          if_true] at hnew
        injection hnew with hnew
        exact ⟨h2, hnew.symm⟩
      · simp [check, h1, h2, bind, Except.bind, pure, Except.pure] at hnew
    · simp [check, h1, bind, Except.bind, pure, Except.pure] at hnew
  obtain ⟨hpos, hp0⟩ := hM0
  subst hp0
  have hl : ((steps.length : Nat) : Int) < 2 ^ 31 := by
    have : ((steps.length : Nat) : Int) < ((2 ^ 31 : Nat) : Int) := Int.ofNat_lt.mpr hlen
    simpa using this
  have h0 : SystemInv M 0 ⟨⟨0, [], M, M⟩, []⟩ := by
    refine ⟨⟨rfl, ?_, fun _ => rfl⟩, ?_, le_refl _, ?_⟩
    · intro h; simp at h
    · show 1 ≤ M
      omega
    · intro d hd; simp at hd
  have hi := runSystem_inv hpos hM steps _ sys 0 (le_refl _) (by omega) h0 hrun
  have hn0 : (0 : Int) ≤ 0 + (steps.length : Int) := by
    have : (0 : Int) ≤ (steps.length : Int) := Int.natCast_nonneg _
    omega
  refine ⟨fun d hd => ?_, fun st sys' hc hs hr => ?_⟩
  · rw [hi.1.1]
    exact (hi.2.2.2 d hd).2
  · exact stepSystem_reserve hpos hM hn0 (by omega) st hi hc hs hr

/-- C12 (amended) on a pool of total reserve 4 with one slot that starts two tasks. -/
theorem C12_active_within_reserve_witness :
    (∀ d ∈ (⟨⟨1, [0], 4, 4⟩, [⟨0, 2, 2, 0⟩]⟩ : PoolSystem).slots,
        d.CurrentActiveTask ≤ (⟨⟨1, [0], 4, 4⟩, [⟨0, 2, 2, 0⟩]⟩ : PoolSystem).pool.MaxTaskReserve)
      ∧ (∀ (st : SystemStep) (sys' : PoolSystem), st ≠ SystemStep.create →
          stepSystem ⟨⟨1, [0], 4, 4⟩, [⟨0, 2, 2, 0⟩]⟩ st = some sys' →
          (∀ d ∈ (⟨⟨1, [0], 4, 4⟩, [⟨0, 2, 2, 0⟩]⟩ : PoolSystem).slots,
            d.CurrentActiveTask
              ≤ (⟨⟨1, [0], 4, 4⟩, [⟨0, 2, 2, 0⟩]⟩ : PoolSystem).pool.SlotTaskReserve) →
          ∀ d ∈ sys'.slots, d.CurrentActiveTask ≤ sys'.pool.SlotTaskReserve) :=
  C12_active_within_reserve 1 4 ⟨0, [], 4, 4⟩
    [SystemStep.create,
      SystemStep.call 0 FSlotData.SlotOp.IncrementTaskCount,
      SystemStep.call 0 FSlotData.SlotOp.IncrementTaskCount,
      SystemStep.call 0 FSlotData.SlotOp.IncrementActiveTask,
      SystemStep.call 0 FSlotData.SlotOp.IncrementActiveTask]
    ⟨⟨1, [0], 4, 4⟩, [⟨0, 2, 2, 0⟩]⟩ rfl (by norm_num) (by norm_num) (by decide)

/-! ## Facts about the rebuild loop of `DecodeMeshSection` -/

section Codec

open FVoxelMeshEncoder

variable {F : Type} [Zero F]

theorem mapFind_nil (k : FIndexTuple) : mapFind [] k = none := rfl

theorem mapFind_cons (e : FIndexTuple × Nat) (m : List (FIndexTuple × Nat))
    (k : FIndexTuple) :
    mapFind (e :: m) k = if e.1 = k then some e.2 else mapFind m k := by
  unfold mapFind
  by_cases h : e.1 = k
  · simp [List.find?, h]
  · simp [List.find?, h]

theorem mapFind_none_of_not_any (k : FIndexTuple) :
    ∀ m : List (FIndexTuple × Nat), m.any (fun e => decide (e.1 = k)) = false →
      mapFind m k = none := by
  intro m
  induction m with
  | nil => intro _; rfl
  | cons e m ih =>
    intro h
    simp only [List.any_cons, Bool.or_eq_false_iff, decide_eq_false_iff_not] at h
    rw [mapFind_cons, if_neg h.1]
    exact ih h.2

theorem mapFind_map_replace (k : FIndexTuple) (v : Nat) (k' : FIndexTuple) :
    ∀ m : List (FIndexTuple × Nat), m.any (fun e => decide (e.1 = k)) = true →
    mapFind (m.map (fun e => if e.1 = k then (k, v) else e)) k'
      = if k' = k then some v else mapFind m k' := by
  intro m
  induction m with
  | nil => intro h; simp at h
  | cons e m ih =>
    intro h
    rw [List.map_cons, mapFind_cons, mapFind_cons]
    by_cases he : e.1 = k
    · simp only [he, if_true]
      by_cases hk : k' = k
      · simp [hk]
      · have hk2 : ¬ k = k' := fun h => hk h.symm
        simp only [hk, hk2, if_false]
        by_cases hany : m.any (fun e => decide (e.1 = k)) = true
        · rw [ih hany, if_neg hk]
        · have hnone : ∀ x ∈ m, ¬ x.1 = k := by
            intro x hx hxk
            apply hany
            simp only [List.any_eq_true, decide_eq_true_eq]
            exact ⟨x, hx, hxk⟩
          have : m.map (fun e => if e.1 = k then (k, v) else e) = m := by
            conv_rhs => rw [← List.map_id m]
            apply List.map_congr_left
            intro x hx
            simp [hnone x hx]
          rw [this]
    · simp only [he, if_false]
      have hany : m.any (fun e => decide (e.1 = k)) = true := by
        simp only [List.any_cons, Bool.or_eq_true, decide_eq_true_eq] at h
        rcases h with h | h
        · exact absurd h he
        · exact h
      rw [ih hany]
      by_cases hk : k' = k
      · subst hk
        simp [he]
      · simp [hk]

theorem mapFind_append_single (k : FIndexTuple) (v : Nat) (k' : FIndexTuple) :
    ∀ m : List (FIndexTuple × Nat),
    mapFind (m ++ [(k, v)]) k'
      = match mapFind m k' with
        | some x => some x
        | none => if k = k' then some v else none := by
  intro m
  induction m with
  | nil => simp [mapFind_cons, mapFind_nil]
  | cons e m ih =>
    rw [List.cons_append, mapFind_cons, mapFind_cons]
    by_cases he : e.1 = k'
    · simp [he]
    · simp only [he, if_false]
      exact ih

/-- `Find` after `Emplace`: the new value at the key, the old lookup elsewhere. -/
theorem mapFind_mapEmplace (m : List (FIndexTuple × Nat)) (k : FIndexTuple) (v : Nat)
    (k' : FIndexTuple) :
    mapFind (mapEmplace m k v) k' = if k' = k then some v else mapFind m k' := by
  unfold mapEmplace
  by_cases hany : m.any (fun e => decide (e.1 = k)) = true
  · rw [if_pos hany]
    exact mapFind_map_replace k v k' m hany
  · rw [if_neg hany]
    rw [mapFind_append_single]
    by_cases hk : k' = k
    · subst hk
      have := mapFind_none_of_not_any k' m (Bool.eq_false_iff.mpr hany)
      rw [this]
    · have hk2 : ¬ k = k' := fun h => hk h.symm
      simp only [hk, hk2, if_false]
      cases mapFind m k' <;> rfl

theorem getElem?_append_some {α : Type} {l ext : List α} {v : Nat} {x : α}
    (h : l[v]? = some x) : (l ++ ext)[v]? = some x := by
  have hv : v < l.length := by
    by_contra hn
    rw [List.getElem?_eq_none (by omega)] at h
    exact absurd h (by simp)
  rw [List.getElem?_append_left hv]
  exact h

/-- One `if (! k)` block keeps the map sound, leaves the index buffer alone, only appends
vertices, keeps every key, and leaves the key `i` in the map when `k` was null. -/
theorem emplaceCorner_spec (posAtt nrmAtt : draco.PointAttribute (FVector F))
    (clrAtt : draco.PointAttribute FColor) (k : Option Nat) (i : FIndexTuple)
    (st : RebuildState F) (h : MapOk posAtt nrmAtt clrAtt st) :
    MapOk posAtt nrmAtt clrAtt (emplaceCorner posAtt nrmAtt clrAtt k i st)
      ∧ (emplaceCorner posAtt nrmAtt clrAtt k i st).Indices = st.Indices
      ∧ (∃ ext, (emplaceCorner posAtt nrmAtt clrAtt k i st).Vertices = st.Vertices ++ ext)
      ∧ (∀ k', (mapFind st.IndexMapping k').isSome →
          (mapFind (emplaceCorner posAtt nrmAtt clrAtt k i st).IndexMapping k').isSome)
      ∧ (k = none →
          (mapFind (emplaceCorner posAtt nrmAtt clrAtt k i st).IndexMapping i).isSome) := by
  cases k with
  | some x =>
    refine ⟨h, rfl, ⟨[], by simp [emplaceCorner]⟩, fun _ hk => hk, fun hx => ?_⟩
    exact absurd hx (by simp)
  | none =>
    refine ⟨?_, rfl, ⟨_, rfl⟩, ?_, ?_⟩
    · intro k' v hv
      simp only [emplaceCorner] at hv ⊢
      rw [mapFind_mapEmplace] at hv
      by_cases hk : k' = i
      · subst hk
        simp only [if_true, Option.some.injEq] at hv
        subst hv
        simp
      · rw [if_neg hk] at hv
        exact getElem?_append_some (h k' v hv)
    · intro k' hk'
      simp only [emplaceCorner]
      rw [mapFind_mapEmplace]
      by_cases hk : k' = i
      · simp [hk]
      · rw [if_neg hk]; exact hk'
    · intro _
      simp only [emplaceCorner]
      rw [mapFind_mapEmplace]
      simp

theorem getElem?_set3 (l : List Int) (a : Nat) (x y z : Int) (h : a + 3 ≤ l.length) :
    (List.set (List.set (List.set l a x) (a + 1) y) (a + 2) z)[a + 0]? = some x
      ∧ (List.set (List.set (List.set l a x) (a + 1) y) (a + 2) z)[a + 1]? = some y
      ∧ (List.set (List.set (List.set l a x) (a + 1) y) (a + 2) z)[a + 2]? = some z := by
  have h0 : a < l.length := by omega
  have h1 : a + 1 < l.length := by omega
  have h2 : a + 2 < l.length := by omega
  refine ⟨?_, ?_, ?_⟩
  · simp [List.getElem?_set, h0]
  · simp [List.getElem?_set, h1]
  · simp [List.getElem?_set, h2]

theorem deref_some {m : List (FIndexTuple × Nat)} {i : FIndexTuple}
    (h : (mapFind m i).isSome) : ∃ v : Nat, mapFind m i = some v ∧ deref m i = (v : Int) := by
  obtain ⟨v, hv⟩ := Option.isSome_iff_exists.mp h
  exact ⟨v, hv, by simp [deref, hv]⟩

/-- The loop body for face `i`: the map stays sound, the vertices are only appended to, the
index buffer keeps its length and its entries below `i * 3`, and the three corners of triangle
`i` hold indices of vertices built for the face corners in reverse order. -/
theorem rebuildFace_spec (mesh : draco.Mesh F)
    (posAtt nrmAtt : draco.PointAttribute (FVector F))
    (clrAtt : draco.PointAttribute FColor) (st : RebuildState F) (i L : Nat)
    (h : MapOk posAtt nrmAtt clrAtt st) (hL : st.Indices.length = L) (hi : i * 3 + 3 ≤ L) :
    MapOk posAtt nrmAtt clrAtt (rebuildFace mesh posAtt nrmAtt clrAtt st i)
      ∧ (rebuildFace mesh posAtt nrmAtt clrAtt st i).Indices.length = L
      ∧ (∃ ext, (rebuildFace mesh posAtt nrmAtt clrAtt st i).Vertices = st.Vertices ++ ext)
      ∧ (∀ j < i * 3, (rebuildFace mesh posAtt nrmAtt clrAtt st i).Indices[j]?
          = st.Indices[j]?)
      ∧ (∀ c < 3, ∃ v : Nat,
          (rebuildFace mesh posAtt nrmAtt clrAtt st i).Indices[i * 3 + c]? = some (v : Int)
          ∧ (rebuildFace mesh posAtt nrmAtt clrAtt st i).Vertices[v]?
            = some (makeVertex posAtt nrmAtt clrAtt
                (cornerTuple mesh posAtt nrmAtt clrAtt i (2 - c)))) := by
  obtain ⟨a1, a2, ⟨e1, a3⟩, a4, a5⟩ := emplaceCorner_spec posAtt nrmAtt clrAtt
    (mapFind st.IndexMapping (cornerTuple mesh posAtt nrmAtt clrAtt i 0))
    (cornerTuple mesh posAtt nrmAtt clrAtt i 0) st h
  generalize hs1 : emplaceCorner posAtt nrmAtt clrAtt
    (mapFind st.IndexMapping (cornerTuple mesh posAtt nrmAtt clrAtt i 0))
    (cornerTuple mesh posAtt nrmAtt clrAtt i 0) st = st1 at a1 a2 a3 a4 a5
  obtain ⟨b1, b2, ⟨e2, b3⟩, b4, b5⟩ := emplaceCorner_spec posAtt nrmAtt clrAtt
    (mapFind st.IndexMapping (cornerTuple mesh posAtt nrmAtt clrAtt i 1))
    (cornerTuple mesh posAtt nrmAtt clrAtt i 1) st1 a1
  generalize hs2 : emplaceCorner posAtt nrmAtt clrAtt
    (mapFind st.IndexMapping (cornerTuple mesh posAtt nrmAtt clrAtt i 1))
    (cornerTuple mesh posAtt nrmAtt clrAtt i 1) st1 = st2 at b1 b2 b3 b4 b5
  obtain ⟨c1, c2, ⟨e3, c3⟩, c4, c5⟩ := emplaceCorner_spec posAtt nrmAtt clrAtt
    (mapFind st.IndexMapping (cornerTuple mesh posAtt nrmAtt clrAtt i 2))
    (cornerTuple mesh posAtt nrmAtt clrAtt i 2) st2 b1
  generalize hs3 : emplaceCorner posAtt nrmAtt clrAtt
    (mapFind st.IndexMapping (cornerTuple mesh posAtt nrmAtt clrAtt i 2))
    (cornerTuple mesh posAtt nrmAtt clrAtt i 2) st2 = st3 at c1 c2 c3 c4 c5
  have hI : st3.Indices = st.Indices := by rw [c2, b2, a2]
  have hr : rebuildFace mesh posAtt nrmAtt clrAtt st i
      = { st3 with Indices :=
          (List.set (List.set (List.set st3.Indices (i * 3)
            (deref st3.IndexMapping (cornerTuple mesh posAtt nrmAtt clrAtt i 2))) (i * 3 + 1)
            (deref st3.IndexMapping (cornerTuple mesh posAtt nrmAtt clrAtt i 1))) (i * 3 + 2)
            (deref st3.IndexMapping (cornerTuple mesh posAtt nrmAtt clrAtt i 0))) } := by
    simp only [rebuildFace, hs1, hs2, hs3]
  have k0 : (mapFind st3.IndexMapping (cornerTuple mesh posAtt nrmAtt clrAtt i 0)).isSome := by
    apply c4; apply b4
    cases hk : mapFind st.IndexMapping (cornerTuple mesh posAtt nrmAtt clrAtt i 0) with
    | none => exact a5 hk
    | some x => exact a4 _ (by simp [hk])
  have k1 : (mapFind st3.IndexMapping (cornerTuple mesh posAtt nrmAtt clrAtt i 1)).isSome := by
    apply c4
    cases hk : mapFind st.IndexMapping (cornerTuple mesh posAtt nrmAtt clrAtt i 1) with
    | none => exact b5 hk
    | some x => exact b4 _ (a4 _ (by simp [hk]))
  have k2 : (mapFind st3.IndexMapping (cornerTuple mesh posAtt nrmAtt clrAtt i 2)).isSome := by
    cases hk : mapFind st.IndexMapping (cornerTuple mesh posAtt nrmAtt clrAtt i 2) with
    | none => exact c5 hk
    | some x => exact c4 _ (b4 _ (a4 _ (by simp [hk])))
  obtain ⟨v0, f0, d0⟩ := deref_some k0
  obtain ⟨v1, f1, d1⟩ := deref_some k1
  obtain ⟨v2, f2, d2⟩ := deref_some k2
  rw [hr]
  refine ⟨c1, ?_, ⟨e1 ++ e2 ++ e3, ?_⟩, ?_, ?_⟩
  · simp only [List.length_set]
    rw [hI]; exact hL
  · show st3.Vertices = _
    rw [c3, b3, a3]; simp
  · intro j hj
    simp only
    rw [List.getElem?_set_ne (by omega), List.getElem?_set_ne (by omega),
      List.getElem?_set_ne (by omega), hI]
  · intro c hc
    have hlen : st3.Indices.length = L := by rw [hI]; exact hL
    simp only
    obtain ⟨g0, g1, g2⟩ := getElem?_set3 st3.Indices (i * 3)
      (deref st3.IndexMapping (cornerTuple mesh posAtt nrmAtt clrAtt i 2))
      (deref st3.IndexMapping (cornerTuple mesh posAtt nrmAtt clrAtt i 1))
      (deref st3.IndexMapping (cornerTuple mesh posAtt nrmAtt clrAtt i 0)) (by omega)
    interval_cases c
    · exact ⟨v2, by rw [g0, d2], c1 _ _ f2⟩
    · exact ⟨v1, by rw [g1, d1], c1 _ _ f1⟩
    · exact ⟨v0, by rw [g2, d0], c1 _ _ f0⟩

theorem rebuildLoop_succ (mesh : draco.Mesh F)
    (posAtt nrmAtt : draco.PointAttribute (FVector F))
    (clrAtt : draco.PointAttribute FColor) (st : RebuildState F) (n : Nat) :
    rebuildLoop mesh posAtt nrmAtt clrAtt st (n + 1)
      = rebuildFace mesh posAtt nrmAtt clrAtt (rebuildLoop mesh posAtt nrmAtt clrAtt st n) n := by
  simp [rebuildLoop, List.range_succ, List.foldl_append]

/-- The rebuild loop over `n` faces: the map is sound, the index buffer keeps its length, the
vertices are only appended to, and the corners of the first `n` triangles are in place. -/
theorem rebuildLoop_spec (mesh : draco.Mesh F)
    (posAtt nrmAtt : draco.PointAttribute (FVector F))
    (clrAtt : draco.PointAttribute FColor) (st0 : RebuildState F) (L : Nat)
    (h0 : MapOk posAtt nrmAtt clrAtt st0) (hL : st0.Indices.length = L) :
    ∀ n, n * 3 ≤ L →
      MapOk posAtt nrmAtt clrAtt (rebuildLoop mesh posAtt nrmAtt clrAtt st0 n)
      ∧ (rebuildLoop mesh posAtt nrmAtt clrAtt st0 n).Indices.length = L
      ∧ (∃ ext, (rebuildLoop mesh posAtt nrmAtt clrAtt st0 n).Vertices = st0.Vertices ++ ext)
      ∧ CornersOk mesh posAtt nrmAtt clrAtt n
          (rebuildLoop mesh posAtt nrmAtt clrAtt st0 n) := by
  intro n
  induction n with
  | zero =>
    intro _
    refine ⟨h0, hL, ⟨[], by simp [rebuildLoop]⟩, ?_⟩
    intro t ht
    omega
  | succ n ih =>
    intro hn
    obtain ⟨i1, i2, ⟨e, i3⟩, i4⟩ := ih (by omega)
    rw [rebuildLoop_succ]
    obtain ⟨r1, r2, ⟨e', r3⟩, r4, r5⟩ := rebuildFace_spec mesh posAtt nrmAtt clrAtt
      (rebuildLoop mesh posAtt nrmAtt clrAtt st0 n) n L i1 i2 (by omega)
    refine ⟨r1, r2, ⟨e ++ e', by rw [r3, i3]; simp⟩, ?_⟩
    intro t ht c hc
    by_cases htn : t = n
    · subst htn
      exact r5 c hc
    · obtain ⟨v, hv1, hv2⟩ := i4 t (by omega) c hc
      refine ⟨v, ?_, ?_⟩
      · rw [r4 (t * 3 + c) (by omega)]; exact hv1
      · rw [r3]; exact getElem?_append_some hv2

theorem SetNumZeroed_length (a : List Int) (n : Nat) : (SetNumZeroed a n).length = n := by
  simp [SetNumZeroed]
  omega

/-- `DecodeMeshSection` on a parsed mesh that has its three attributes: the result, with the
facts of `rebuildLoop_spec` about it. -/
theorem DecodeMeshSection_spec (mesh : draco.Mesh F)
    (posAtt nrmAtt : draco.PointAttribute (FVector F))
    (clrAtt : draco.PointAttribute FColor) (Section : FVoxelProcMeshSection F)
    (hp : mesh.POSITION = some posAtt) (hn : mesh.NORMAL = some nrmAtt)
    (hc : mesh.COLOR = some clrAtt) :
    ∃ st : RebuildState F,
      DecodeMeshSection (some mesh) Section
        = Except.ok { Section with ProcVertexBuffer := st.Vertices, ProcIndexBuffer := st.Indices }
      ∧ st.Indices.length = mesh.num_faces * 3
      ∧ (∃ ext, st.Vertices = Section.ProcVertexBuffer ++ ext)
      ∧ CornersOk mesh posAtt nrmAtt clrAtt mesh.num_faces st := by
  refine ⟨rebuildLoop mesh posAtt nrmAtt clrAtt
    ⟨Section.ProcVertexBuffer, SetNumZeroed Section.ProcIndexBuffer (mesh.num_faces * 3), []⟩
    mesh.num_faces, ?_, ?_⟩
  · simp only [DecodeMeshSection, hp, hn, hc]
    rfl
  · have h0 : MapOk posAtt nrmAtt clrAtt (⟨Section.ProcVertexBuffer,
        SetNumZeroed Section.ProcIndexBuffer (mesh.num_faces * 3), []⟩ : RebuildState F) := by
      intro k v hv
      simp [mapFind] at hv
    obtain ⟨_, r2, r3, r4⟩ := rebuildLoop_spec mesh posAtt nrmAtt clrAtt _
      (mesh.num_faces * 3) h0 (SetNumZeroed_length _ _) mesh.num_faces (le_refl _)
    exact ⟨r2, r3, r4⟩

theorem EncodeMesh_corner (S : FVoxelProcMeshSection F) (t c s : Nat)
    (posAtt nrmAtt : draco.PointAttribute (FVector F)) (clrAtt : draco.PointAttribute FColor)
    (hp : (EncodeMesh S).POSITION = some posAtt) (hn : (EncodeMesh S).NORMAL = some nrmAtt)
    (hcl : (EncodeMesh S).COLOR = some clrAtt)
    (ht : t < S.ProcIndexBuffer.length / 3) (hc : c < 3)
    (hs : S.ProcIndexBuffer[t * 3 + c]? = some (s : Int)) (hV : S.ProcVertexBuffer.length < 2 ^ 31)
    (x : FVoxelProcMeshVertex F) (hx : S.ProcVertexBuffer[s]? = some x) :
    makeVertex posAtt nrmAtt clrAtt (cornerTuple (EncodeMesh S) posAtt nrmAtt clrAtt t (2 - c))
      = x := by
  have hsl : s < S.ProcVertexBuffer.length := by
    by_contra hn
    rw [List.getElem?_eq_none (by omega)] at hx
    exact absurd hx (by simp)
  simp only [EncodeMesh, Option.some.injEq] at hp hn hcl
  subst hp hn hcl
  have hface : (EncodeMesh S).face t = ⟨t * 3 + 2, t * 3 + 1, t * 3 + 0⟩ := by
    simp [draco.Mesh.face, EncodeMesh, List.getD, ht]
  have hget : ((EncodeMesh S).face t).get (2 - c) = t * 3 + c := by
    rw [hface]
    interval_cases c <;> simp [draco.Face.get]
  have hmod : ((s : Int) % 4294967296).toNat = s := by
    have h31 : (2 : Nat) ^ 31 = 2147483648 := by norm_num
    omega
  simp only [cornerTuple, hget, draco.PointAttribute.mapped_index, makeVertex,
    draco.PointAttribute.GetValue]
  simp [List.getD, hs, hmod, hx]

end Codec

/-! ## Claims on the mesh codec -/

/-- C19: for every parsed mesh that has its three attributes and every output section, the
rebuild of `DecodeMeshSection` returns, the decoded index buffer has exactly `3 * num_faces`
entries, and every decoded index is at least zero and smaller than the decoded vertex count. -/
theorem C19_decode_indices_valid {F : Type} [Zero F] (mesh : draco.Mesh F)
    (posAtt nrmAtt : draco.PointAttribute (FVector F))
    (clrAtt : draco.PointAttribute FColor) (Section : FVoxelProcMeshSection F)
    (hp : mesh.POSITION = some posAtt) (hn : mesh.NORMAL = some nrmAtt)
    (hc : mesh.COLOR = some clrAtt) :
    ∃ Decoded : FVoxelProcMeshSection F,
      FVoxelMeshEncoder.DecodeMeshSection (some mesh) Section = Except.ok Decoded
      ∧ Decoded.ProcIndexBuffer.length = 3 * mesh.num_faces
      ∧ ∀ x ∈ Decoded.ProcIndexBuffer,
          0 ≤ x ∧ x < (Decoded.ProcVertexBuffer.length : Int) := by
  obtain ⟨st, h1, h2, _, h4⟩ := DecodeMeshSection_spec mesh posAtt nrmAtt clrAtt Section hp hn hc
  refine ⟨_, h1, by simp only; omega, ?_⟩
  intro x hx
  simp only at hx ⊢
  obtain ⟨j, hj⟩ := List.mem_iff_getElem?.mp hx
  have hjl : j < st.Indices.length := by
    by_contra hn
    rw [List.getElem?_eq_none (by omega)] at hj
    exact absurd hj (by simp)
  obtain ⟨v, hv1, hv2⟩ := h4 (j / 3) (by omega) (j % 3) (by omega)
  have hjj : j / 3 * 3 + j % 3 = j := by omega
  rw [hjj, hj] at hv1
  have hvl : v < st.Vertices.length := by
    by_contra hn
    rw [List.getElem?_eq_none (by omega)] at hv2
    exact absurd hv2 (by simp)
  simp only [Option.some.injEq] at hv1
  subst hv1
  omega

/-- C19 on the mesh built from the sample quad, decoded into a fresh section. -/
theorem C19_decode_indices_valid_witness :
    ∃ Decoded : FVoxelProcMeshSection Int,
      FVoxelMeshEncoder.DecodeMeshSection
          (some (FVoxelMeshEncoder.EncodeMesh sampleSection)) FVoxelProcMeshSection.new
        = Except.ok Decoded
      ∧ Decoded.ProcIndexBuffer.length
          = 3 * (FVoxelMeshEncoder.EncodeMesh sampleSection).num_faces
      ∧ ∀ x ∈ Decoded.ProcIndexBuffer,
          0 ≤ x ∧ x < (Decoded.ProcVertexBuffer.length : Int) :=
  C19_decode_indices_valid (FVoxelMeshEncoder.EncodeMesh sampleSection) _ _ _
    FVoxelProcMeshSection.new rfl rfl rfl

/-- C18: taking the compression stage as handing back the mesh it was given, for every
section whose index buffer has `3 * T` entries, all of them valid vertex indices, decoding the
encoded mesh gives `3 * T` indices, and corner `c` of decoded triangle `t` refers to the same
vertex as corner `c` of source triangle `t`. -/
theorem C18_winding_restored {F : Type} [Zero F] (S Out : FVoxelProcMeshSection F) (T : Nat)
    (hlen : S.ProcIndexBuffer.length = 3 * T)
    (hidx : ∀ x ∈ S.ProcIndexBuffer, 0 ≤ x ∧ x < (S.ProcVertexBuffer.length : Int))
    (hV : S.ProcVertexBuffer.length < 2 ^ 31) :
    ∃ Decoded : FVoxelProcMeshSection F,
      FVoxelMeshEncoder.DecodeMeshSection (some (FVoxelMeshEncoder.EncodeMesh S)) Out
        = Except.ok Decoded
      ∧ Decoded.ProcIndexBuffer.length = 3 * T
      ∧ ∀ t < T, ∀ c < 3, ∃ (d s : Nat) (x : FVoxelProcMeshVertex F),
          Decoded.ProcIndexBuffer[t * 3 + c]? = some (d : Int)
          ∧ S.ProcIndexBuffer[t * 3 + c]? = some (s : Int)
          ∧ Decoded.ProcVertexBuffer[d]? = some x
          ∧ S.ProcVertexBuffer[s]? = some x := by
  obtain ⟨st, h1, h2, _, h4⟩ := DecodeMeshSection_spec (FVoxelMeshEncoder.EncodeMesh S) _ _ _
    Out rfl rfl rfl
  have hT : (FVoxelMeshEncoder.EncodeMesh S).num_faces = T := by
    simp [draco.Mesh.num_faces, FVoxelMeshEncoder.EncodeMesh, hlen]
  rw [hT] at h2 h4
  refine ⟨_, h1, by simp only; omega, ?_⟩
  intro t ht c hc
  obtain ⟨d, hd1, hd2⟩ := h4 t ht c hc
  have hj : t * 3 + c < S.ProcIndexBuffer.length := by omega
  obtain ⟨y, hy⟩ : ∃ y, S.ProcIndexBuffer[t * 3 + c]? = some y :=
    ⟨_, List.getElem?_eq_getElem hj⟩
  obtain ⟨y0, y1⟩ := hidx y (List.getElem?_mem hy)
  obtain ⟨s, rfl⟩ : ∃ s : Nat, y = (s : Int) := ⟨y.toNat, by omega⟩
  have hsl : s < S.ProcVertexBuffer.length := by omega
  refine ⟨d, s, S.ProcVertexBuffer[s], hd1, hy, ?_, List.getElem?_eq_getElem hsl⟩
  rw [hd2]
  congr 1
  exact EncodeMesh_corner S t c s _ _ _ rfl rfl rfl (by omega) hc hy hV _
    (List.getElem?_eq_getElem hsl)

/-- C18 on the sample quad, decoded into a fresh section. -/
theorem C18_winding_restored_witness :
    ∃ Decoded : FVoxelProcMeshSection Int,
      FVoxelMeshEncoder.DecodeMeshSection
          (some (FVoxelMeshEncoder.EncodeMesh sampleSection)) FVoxelProcMeshSection.new
        = Except.ok Decoded
      ∧ Decoded.ProcIndexBuffer.length = 3 * 2
      ∧ ∀ t < 2, ∀ c < 3, ∃ (d s : Nat) (x : FVoxelProcMeshVertex Int),
          Decoded.ProcIndexBuffer[t * 3 + c]? = some (d : Int)
          ∧ sampleSection.ProcIndexBuffer[t * 3 + c]? = some (s : Int)
          ∧ Decoded.ProcVertexBuffer[d]? = some x
          ∧ sampleSection.ProcVertexBuffer[s]? = some x :=
  C18_winding_restored sampleSection FVoxelProcMeshSection.new 2 rfl (by decide) (by decide)

/-- C20 fails on a face that repeats a tuple not seen before: the three lookups of a face are
made before any of its insertions, so both corners emit a vertex. On `repeatedCornerMesh`,
whose only face has the corner tuples `(0,0,0)`, `(0,0,0)`, `(1,1,1)`, the rebuilt section has
three vertices for two distinct tuples, and the first vertex is referenced by no index. -/
theorem C20_repeated_corner_emits_two_vertices :
    ∃ Decoded : FVoxelProcMeshSection Int,
      FVoxelMeshEncoder.DecodeMeshSection (some repeatedCornerMesh) FVoxelProcMeshSection.new
        = Except.ok Decoded
      ∧ Decoded.ProcVertexBuffer.length = 3
      ∧ Decoded.ProcIndexBuffer = [2, 1, 1]
      ∧ (FVoxelMeshEncoder.cornerTuples repeatedCornerMesh
          ⟨[⟨0, 0, 0⟩, ⟨1, 0, 0⟩], [0, 1]⟩ ⟨[⟨0, 0, 1⟩, ⟨0, 0, 1⟩], [0, 1]⟩
          ⟨[⟨255, 255, 255, 255⟩, ⟨0, 0, 0, 255⟩], [0, 1]⟩) = [(0, 0, 0), (1, 1, 1)] :=
  ⟨_, rfl, rfl, rfl, by decide⟩

/-! ## Claims on the orchestrator -/

/-- C17 fails on the code: with a render mesh whose loaded LOD group maps only mesh id 9,
`HasLODSection 10` is false, and `ApplyMeshSection` for mesh id 10 passes its only check
(`check(RenderMesh)`) and dereferences the null pointer returned by `GetMappedSection`; no
assertion fails. -/
theorem C17_absent_slot_is_dereferenced :
    sampleRenderMesh.HasLODSection 10 = Except.ok false
      ∧ sampleRenderMesh.ApplyMeshSection 10 sampleSection = Except.error Err.nullDereference :=
  ⟨rfl, rfl⟩

/-! ## Facts about the mode flags -/

section Mode

open FVoxelRenderMode

/-- One step keeps the two flags exclusive and does not fail the check of `LoadOctree`. -/
theorem step_exclusive (s : FVoxelRenderMode) (st : Step) (h : Exclusive s) :
    (∀ s', step s st = Except.ok s' → Exclusive s')
      ∧ step s st ≠ Except.error CheckSite.LoadOctree := by
  obtain ⟨lod, ol, g, l, fv, dv⟩ := s
  unfold Exclusive at h
  simp only at h
  refine ⟨fun s' hs => ?_, fun hs => ?_⟩
  · cases st <;>
    simp only [step, FVoxelRenderMode.Tick, UpdateMeshGeneration, UpdateCachedMeshLoading,
      FVoxelRenderMode.LoadCachedMesh, RegisterCacheLOD, UnloadCacheBuilders,
      FVoxelRenderMode.Load, FVoxelRenderMode.Unload, FVoxelRenderMode.FetchCachedMesh,
      StartProgressiveLOD, LoadOctree, UnloadOctree, pure, Except.pure, throw, throwThe,
      MonadExceptOf.throw] at hs <;>
    split_ifs at hs <;>
    cases hs <;>
    simp_all [Exclusive]
  · cases st <;>
    simp only [step, FVoxelRenderMode.Tick, UpdateMeshGeneration, UpdateCachedMeshLoading,
      FVoxelRenderMode.LoadCachedMesh, RegisterCacheLOD, UnloadCacheBuilders,
      FVoxelRenderMode.Load, FVoxelRenderMode.Unload, FVoxelRenderMode.FetchCachedMesh,
      StartProgressiveLOD, LoadOctree, UnloadOctree, pure, Except.pure, throw, throwThe,
      MonadExceptOf.throw] at hs <;>
    split_ifs at hs <;>
    simp_all

/-- Every run from a state with exclusive flags keeps them exclusive and does not fail the check
of `LoadOctree`. -/
theorem run_exclusive : ∀ (steps : List Step) (s : FVoxelRenderMode), Exclusive s →
    (∀ s', run s steps = Except.ok s' → Exclusive s')
      ∧ run s steps ≠ Except.error CheckSite.LoadOctree := by
  intro steps
  induction steps with
  | nil =>
    intro s h
    refine ⟨fun s' hs => ?_, fun hs => ?_⟩
    · cases hs; exact h
    · cases hs
  | cons st sts ih =>
    intro s h
    obtain ⟨h1, h2⟩ := step_exclusive s st h
    rw [run]
    cases hs : step s st with
    | ok s1 =>
      exact ih s1 (h1 s1 hs)
    | error e =>
      refine ⟨fun s' hs' => ?_, fun hs' => ?_⟩
      · cases hs'
      · apply h2
        rw [hs]
        cases hs'
        rfl

end Mode

/-! ## Claims on the mode flags -/

/-- C15: in every state reached from the construction of the orchestrator by any sequence of
`Load`, `Unload`, `Tick`, `FetchCachedMesh` and `LoadCachedMesh` steps, whatever the world, the
cache worker and the thread slot answer, `bGenerateMesh` and `bLoadCachedMesh` are not both
true, and no such sequence ends in a failure of `check(! bLoadCachedMesh)` in `LoadOctree`. -/
theorem C15_mode_flags_exclusive (steps : List FVoxelRenderMode.Step) :
    (∀ s, FVoxelRenderMode.run FVoxelRenderMode.new steps = Except.ok s →
        ¬ (s.bGenerateMesh = true ∧ s.bLoadCachedMesh = true))
      ∧ FVoxelRenderMode.run FVoxelRenderMode.new steps
          ≠ Except.error CheckSite.LoadOctree :=
  run_exclusive steps FVoxelRenderMode.new (by simp [FVoxelRenderMode.Exclusive,
    FVoxelRenderMode.new])

/-- C15 on a load that starts a cache fetch, a tick that loads the fetched data, a tick that
finishes the last LOD, and a reload with the cache disabled. -/
theorem C15_mode_flags_exclusive_witness :
    (∀ s, FVoxelRenderMode.run FVoxelRenderMode.new
          [FVoxelRenderMode.Step.Load ⟨true, true, false, 2, 1, true, false, true, false⟩,
            FVoxelRenderMode.Step.Tick ⟨true, true, false, 2, 0, true, true, true, false⟩,
            FVoxelRenderMode.Step.Tick ⟨true, true, false, 2, 0, true, true, true, true⟩,
            FVoxelRenderMode.Step.Load ⟨false, true, false, 2, 1, true, false, true, false⟩]
          = Except.ok s →
        ¬ (s.bGenerateMesh = true ∧ s.bLoadCachedMesh = true))
      ∧ FVoxelRenderMode.run FVoxelRenderMode.new
          [FVoxelRenderMode.Step.Load ⟨true, true, false, 2, 1, true, false, true, false⟩,
            FVoxelRenderMode.Step.Tick ⟨true, true, false, 2, 0, true, true, true, false⟩,
            FVoxelRenderMode.Step.Tick ⟨true, true, false, 2, 0, true, true, true, true⟩,
            FVoxelRenderMode.Step.Load ⟨false, true, false, 2, 1, true, false, true, false⟩]
          ≠ Except.error CheckSite.LoadOctree :=
  C15_mode_flags_exclusive _

/-! ## Claims on a chunk's job -/

/-- C16: when `EnsureTaskCompletion(true)` runs on a chunk whose job has not been started, the
abandon flag is set before the job can run, so `DoWork` under the flag changes nothing (no
section is created, `OnMeshComplete` is not called), the cancellation leaves the log and the
chunk's entries in `ChunksToApplyMesh` as they were whether or not the pool takes the job back,
and a chunk with no entry in the queue gets no `ApplyMeshSection` from the apply loop. -/
theorem C16_cancelled_job_applies_nothing (s : ChunkJob) (t : FAsyncPolygonizerTask)
    (Retracted : Bool) (ht : s.MeshBuilderTask = some t) (hs : t.Started = false) :
    (∀ t' : FAsyncPolygonizerTask,
        ChunkJob.DoWork t' { s with bAbandonBuilder := true }
          = Except.ok { s with bAbandonBuilder := true })
      ∧ ChunkJob.EnsureTaskCompletion true Retracted s
          = Except.ok { s with bAbandonBuilder := true, MeshBuilderTask := none }
      ∧ (s.ChunksToApplyMesh = 0 →
          ChunkJob.applyAll { s with bAbandonBuilder := true, MeshBuilderTask := none }
            = Except.ok { s with bAbandonBuilder := true, MeshBuilderTask := none }) := by
  obtain ⟨ab, task, ol, q, log⟩ := s
  obtain ⟨p, st⟩ := t
  simp only at ht hs
  subst ht hs
  refine ⟨fun t' => ?_, ?_, fun hq => ?_⟩
  · simp [ChunkJob.DoWork, ChunkJob.CanCreateSection, pure, Except.pure]
  · cases Retracted <;>
    simp [ChunkJob.EnsureTaskCompletion, ChunkJob.runJob, ChunkJob.DoWork,
      ChunkJob.CanCreateSection, pure, Except.pure, bind, Except.bind]
  · simp only at hq
    subst hq
    rfl

/-- C16 on a chunk whose queued job the pool does not take back. -/
theorem C16_cancelled_job_applies_nothing_witness :
    (∀ t' : FAsyncPolygonizerTask,
        ChunkJob.DoWork t' { ChunkJob.sampleChunkJob with bAbandonBuilder := true }
          = Except.ok { ChunkJob.sampleChunkJob with bAbandonBuilder := true })
      ∧ ChunkJob.EnsureTaskCompletion true false ChunkJob.sampleChunkJob
          = Except.ok { ChunkJob.sampleChunkJob with
              bAbandonBuilder := true, MeshBuilderTask := none }
      ∧ (ChunkJob.sampleChunkJob.ChunksToApplyMesh = 0 →
          ChunkJob.applyAll { ChunkJob.sampleChunkJob with
              bAbandonBuilder := true, MeshBuilderTask := none }
            = Except.ok { ChunkJob.sampleChunkJob with
              bAbandonBuilder := true, MeshBuilderTask := none }) :=
  C16_cancelled_job_applies_nothing ChunkJob.sampleChunkJob ⟨true, false⟩ false rfl rfl

/-! ## Facts about the update queues -/

section Queue

open FVoxelRenderQueue

theorem filter_ne_of_not_mem {c : Nat} {l : List Nat} (h : c ∉ l) :
    l.filter (fun x => decide (x ≠ c)) = l := by
  rw [List.filter_eq_self]
  intro x hx
  simp only [ne_eq, decide_not, Bool.not_eq_true', decide_eq_false_iff_not]
  intro hxc
  exact h (hxc ▸ hx)

theorem filter_ne_cons_self {c : Nat} {rest : List Nat} (h : (c :: rest).Nodup) :
    (c :: rest).filter (fun x => decide (x ≠ c)) = rest := by
  have hc : c ∉ rest := (List.nodup_cons.mp h).1
  simp only [List.filter_cons, ne_eq, not_true_eq_false, decide_False, Bool.false_eq_true,
    if_false]
  exact filter_ne_of_not_mem hc

/-- The apply loop on a queue of finished chunks: every chunk is applied in turn and both
counters drop by the number of chunks. -/
theorem applyLoop_spec : ∀ (F : List Nat) (fuel : Nat) (s : FVoxelRenderQueue),
    F.length ≤ fuel → s.ChunksToApplyMesh = F → s.Finished = F → F.Nodup →
    (∀ c ∈ F, c ∉ s.Running) →
    (F.length : Int) ≤ s.ThreadSlot.RemainingTaskCount →
    s.ThreadSlot.RemainingTaskCount < 2 ^ 31 →
    (F.length : Int) ≤ s.ThreadSlot.CurrentActiveTask →
    s.ThreadSlot.CurrentActiveTask < 2 ^ 31 →
    applyLoop fuel s = Except.ok { s with
      ChunksToApplyMesh := []
      Finished := []
      Applied := s.Applied ++ F
      ThreadSlot := { s.ThreadSlot with
        CurrentActiveTask := s.ThreadSlot.CurrentActiveTask - F.length
        RemainingTaskCount := s.ThreadSlot.RemainingTaskCount - F.length } } := by
  intro F
  induction F with
  | nil =>
    intro fuel s _ hq hf _ _ _ _ _ _
    obtain ⟨pool, slot, ol, Q, S, AQ, V, R, Fi, A⟩ := s
    obtain ⟨id, a, r, m⟩ := slot
    simp only at hq hf
    subst hq hf
    cases fuel <;> simp [applyLoop, pure, Except.pure]
  | cons c rest ih =>
    intro fuel s hfuel hq hf hnd hR hr1 hr2 ha1 ha2
    obtain ⟨pool, slot, ol, Q, S, AQ, V, R, Fi, A⟩ := s
    obtain ⟨id, a, r, m⟩ := slot
    simp only at hq hf hR hr1 hr2 ha1 ha2
    subst hq hf
    cases fuel with
    | zero => simp at hfuel
    | succ fuel =>
      have hcR : c ∉ R := hR c (List.mem_cons_self _ _)
      have hlen : ((c :: rest).length : Int) = (rest.length : Int) + 1 := by simp
      rw [hlen] at hr1 ha1 ⊢
      have hr0 : (0 : Int) ≤ rest.length := Int.natCast_nonneg _
      have h31 : (2 : Int) ^ 31 = 2147483648 := by norm_num
      rw [h31] at hr2 ha2
      have hrpos : r > 0 := by omega
      have hw1 : wrapInt32 (a - 1) = a - 1 := by unfold wrapInt32; omega
      have hw2 : wrapInt32 (r - 1) = r - 1 := by unfold wrapInt32; omega
      have hstep : applyLoop (fuel + 1)
          ⟨pool, ⟨id, a, r, m⟩, ol, Q, S, c :: rest, V, R, c :: rest, A⟩
          = applyLoop fuel ⟨pool, ⟨id, a - 1, r - 1, m⟩, ol, Q, S, rest, V, R, rest, A ++ [c]⟩ := by
        simp only [applyLoop, ApplyMesh, EnsureTaskCompletion, List.mem_cons, true_or, or_true,
          if_true, hcR, if_false, filter_ne_of_not_mem hcR, filter_ne_cons_self hnd,
          FSlotData.DecrementActiveTask, check, hrpos, decide_True, bind, Except.bind, pure,
          Except.pure, hw1, hw2]
      rw [hstep]
      rw [ih fuel _ (by simpa using hfuel) rfl rfl (List.nodup_cons.mp hnd).2
        (fun x hx => hR x (List.mem_cons_of_mem _ hx)) (by simp only; omega)
        (by simp only; omega) (by simp only; omega) (by simp only; omega)]
      simp only [List.append_assoc, List.singleton_append]
      congr 3 <;> omega

/-- The dispatch loop on a queue of chunks that have no job: chunks are started in turn until
the queue is empty or the slot is full. -/
theorem dispatchLoop_spec (K : Int) (hK : K < 2 ^ 31) : ∀ (Q : List Nat) (s : FVoxelRenderQueue),
    s.ThreadPool.SlotTaskReserve = K → s.ChunksToUpdate = Q → Q.Nodup →
    (∀ c ∈ Q, c ∈ s.VoxelChunks ∧ c ∉ s.Running ∧ c ∉ s.Finished) →
    (Q.length : Int) ≤ s.ThreadSlot.RemainingTaskCount →
    0 ≤ s.ThreadSlot.CurrentActiveTask → s.ThreadSlot.CurrentActiveTask ≤ K →
    ∃ m : Nat, m ≤ Q.length
      ∧ dispatchLoop Q s = Except.ok { s with
          ChunksToUpdate := Q.drop m
          Running := s.Running ++ Q.take m
          ThreadSlot := { s.ThreadSlot with
            CurrentActiveTask := s.ThreadSlot.CurrentActiveTask + m } }
      ∧ s.ThreadSlot.CurrentActiveTask + m ≤ K
      ∧ (m = Q.length ∨ s.ThreadSlot.CurrentActiveTask + m = K) := by
  intro Q
  induction Q with
  | nil =>
    intro s _ hq _ _ _ _ hk
    obtain ⟨pool, slot, ol, Q, S, AQ, V, R, Fi, A⟩ := s
    obtain ⟨id, a, r, m⟩ := slot
    simp only at hq hk
    subst hq
    exact ⟨0, le_refl _, by simp [dispatchLoop, pure, Except.pure], by simpa using hk,
      Or.inl rfl⟩
  | cons c rest ih =>
    intro s hp hq hnd hc hr ha0 hak
    obtain ⟨pool, slot, ol, Q, S, AQ, V, R, Fi, A⟩ := s
    obtain ⟨id, a, r, m⟩ := slot
    simp only at hp hq hc hr ha0 hak
    subst hq
    have hlen : ((c :: rest).length : Int) = (rest.length : Int) + 1 := by simp
    rw [hlen] at hr
    have hr0 : (0 : Int) ≤ rest.length := Int.natCast_nonneg _
    have h31 : (2 : Int) ^ 31 = 2147483648 := by norm_num
    rw [h31] at hK
    obtain ⟨hcV, hcR, hcF⟩ := hc c (List.mem_cons_self _ _)
    by_cases hslot : a < K
    · have hrpos : r > 0 := by omega
      have hw : wrapInt32 (a + 1) = a + 1 := by unfold wrapInt32; omega
      have hstep : dispatchLoop (c :: rest)
          ⟨pool, ⟨id, a, r, m⟩, ol, c :: rest, S, AQ, V, R, Fi, A⟩
          = dispatchLoop rest ⟨pool, ⟨id, a + 1, r, m⟩, ol, rest, S, AQ, V, R ++ [c], Fi, A⟩ := by
        simp only [dispatchLoop, FSlotData.HasRemainingTaskSlot, hp, hslot, decide_True,
          if_true, hcV, Update, hcR, hcF, or_self, if_false, FSlotData.IncrementActiveTask,
          check, hrpos, bind, Except.bind, pure, Except.pure, hw]
      obtain ⟨m', hm', e, hle, hor⟩ := ih
        ⟨pool, ⟨id, a + 1, r, m⟩, ol, rest, S, AQ, V, R ++ [c], Fi, A⟩ hp rfl
        (List.nodup_cons.mp hnd).2
        (fun x hx => by
          obtain ⟨h1, h2, h3⟩ := hc x (List.mem_cons_of_mem _ hx)
          refine ⟨h1, ?_, h3⟩
          simp only [List.mem_append, List.mem_singleton, not_or]
          refine ⟨h2, ?_⟩
          rintro rfl
          exact (List.nodup_cons.mp hnd).1 hx)
        (by simp only; omega) (by simp only; omega) (by simp only; omega)
      refine ⟨m' + 1, by simp; omega, ?_, ?_, ?_⟩
      · rw [hstep, e]
        simp only [List.drop_succ_cons, List.take_succ_cons, List.append_assoc,
          List.singleton_append, Nat.cast_add, Nat.cast_one]
        congr 3
        omega
      · simp only at hle ⊢
        push_cast
        omega
      · simp only at hor ⊢
        rcases hor with h | h
        · left; simp [h]
        · right; push_cast; omega
    · refine ⟨0, by simp, ?_, by simpa using hak, Or.inr (by simp only; push_cast; omega)⟩
      simp [dispatchLoop, FSlotData.HasRemainingTaskSlot, hp, hslot, pure, Except.pure]

theorem parts_nodup {Q R F A chunks : List Nat}
    (h : (Q : Multiset Nat) + (R : Multiset Nat) + (F : Multiset Nat) + (A : Multiset Nat)
      = (chunks : Multiset Nat)) (hn : chunks.Nodup) :
    (Q ++ R ++ F ++ A).Nodup := by
  have e : ((Q ++ R ++ F ++ A : List Nat) : Multiset Nat) = (chunks : Multiset Nat) := by
    rw [← h]
    simp only [← Multiset.coe_add]
  exact (Multiset.coe_eq_coe.mp e).nodup_iff.mpr hn

theorem parts_length {Q R F A chunks : List Nat}
    (h : (Q : Multiset Nat) + (R : Multiset Nat) + (F : Multiset Nat) + (A : Multiset Nat)
      = (chunks : Multiset Nat)) :
    Q.length + R.length + F.length + A.length = chunks.length := by
  have := congrArg Multiset.card h
  simp at this
  omega

/-- A tick in generation mode on a state of the scenario: the finished chunks are applied, then
chunks are started until the queue is empty or the slot is full. -/
theorem tick_spec (chunks : List Nat) (K : Int) (hn : chunks.Nodup)
    (hl : chunks.length < 2 ^ 31) (hK : K < 2 ^ 31)
    (OnFinished : FVoxelRenderQueue → Except Err FVoxelRenderQueue) (s : FVoxelRenderQueue)
    (hi : QueueInv chunks K s) :
    ∃ s', UpdateMeshGeneration true OnFinished s = Except.ok s'
      ∧ QueueInv chunks K s' ∧ Settled K s' ∧ s'.Applied = s.Applied ++ s.Finished := by
  obtain ⟨pool, slot, ol, Q, S, F, V, R, Fi, A⟩ := s
  obtain ⟨id, a, r, m⟩ := slot
  obtain ⟨i1, i2, i3, i4, i5, i6, i7, i8, i9, i10⟩ := hi
  simp only at i1 i2 i3 i4 i5 i6 i7 i8 i9 i10
  subst i2 i3 i4 i7
  have hnd := parts_nodup i6 hn
  have hlen := parts_length i6
  have hl' : ((chunks.length : Nat) : Int) < 2147483648 := by
    have : ((chunks.length : Nat) : Int) < ((2 ^ 31 : Nat) : Int) := Int.ofNat_lt.mpr hl
    simpa using this
  have hlenZ : (Q.length : Int) + R.length + F.length + A.length = chunks.length := by
    exact_mod_cast hlen
  have h31 : (2 : Int) ^ 31 = 2147483648 := by norm_num
  obtain ⟨hQRF, hA, _⟩ := List.nodup_append.mp hnd
  obtain ⟨hQR, hF, hdF⟩ := List.nodup_append.mp hQRF
  obtain ⟨hQ, hR, hdQR⟩ := List.nodup_append.mp hQR
  have hFR : ∀ c ∈ F, c ∉ R := fun c hc hcr =>
    hdF (List.mem_append_right _ hcr) hc
  have hQnR : ∀ c ∈ Q, c ∉ R := fun c hc hcr => hdQR hc hcr
  -- the apply loop
  have hap := applyLoop_spec F (F.length + R.length)
    ⟨pool, ⟨id, a, r, r⟩, true, Q, [], F, V, R, F, A⟩ (by omega) rfl rfl hF hFR
    (by simp only; omega) (by simp only; rw [h31]; omega) (by simp only; omega)
    (by simp only; rw [h31]; omega)
  simp only at hap
  -- the dispatch loop
  obtain ⟨k, hk, hd, hle, hor⟩ := dispatchLoop_spec K hK Q
    ⟨pool, ⟨id, a - F.length, r - F.length, 0⟩, true, Q, [], [], V, R, [], A ++ F⟩ i1 rfl hQ
    (fun c hc => ⟨i5 c hc, hQnR c hc, by simp⟩) (by simp only; omega) (by simp only; omega)
    (by simp only; omega)
  simp only at hd hle hor
  refine ⟨⟨pool, ⟨id, a - F.length + k, r - F.length, 0⟩, true, Q.drop k, [], [], V,
    R ++ Q.take k, [], A ++ F⟩, ?_, ?_, ?_, rfl⟩
  · simp only [UpdateMeshGeneration, FSlotData.MarkTaskUpdate, hap, bind, Except.bind,
      FSlotData.UnmarkTaskUpdate, Bool.not_true, Bool.false_eq_true, if_false, pure,
      Except.pure, RegisterChunkUpdates, hd, syncLoop]
  · refine ⟨i1, rfl, rfl, rfl, ?_, ?_, rfl, ?_, ?_, ?_⟩
    · intro c hc
      exact i5 c (List.mem_of_mem_drop hc)
    · simp only
      rw [← i6]
      have e : (Q : Multiset Nat) = ((Q.take k : List Nat) : Multiset Nat)
          + ((Q.drop k : List Nat) : Multiset Nat) := by
        rw [Multiset.coe_add, List.take_append_drop]
      conv_rhs => rw [e]
      simp only [← Multiset.coe_add, Multiset.coe_nil, add_zero]
      abel
    · simp only [List.length_drop, List.length_append, List.length_take, List.length_nil]
      push_cast
      omega
    · simp only [List.length_append, List.length_take, List.length_nil]
      push_cast
      omega
    · simp only
      omega
  · refine ⟨rfl, ?_⟩
    simp only
    rcases hor with h | h
    · left; rw [h]; simp
    · right; exact h

theorem filter_ne_of_mem {c : Nat} {R : List Nat} (hR : R.Nodup) (hc : c ∈ R) :
    ((R.filter (fun x => decide (x ≠ c)) : List Nat) : Multiset Nat) + ({c} : Multiset Nat)
        = (R : Multiset Nat)
      ∧ (R.filter (fun x => decide (x ≠ c))).length + 1 = R.length := by
  have e : R.erase c = R.filter (fun x => decide (x ≠ c)) := by
    rw [hR.erase_eq_filter c]
    apply List.filter_congr
    intro x _
    by_cases hx : x = c <;> simp [hx]
  rw [← e]
  refine ⟨?_, ?_⟩
  · have hp : R.Perm (c :: R.erase c) := List.perm_cons_erase hc
    have h2 : (R : Multiset Nat) = ((c :: R.erase c : List Nat) : Multiset Nat) :=
      Multiset.coe_eq_coe.mpr hp
    rw [h2, ← Multiset.cons_coe, ← Multiset.singleton_add, add_comm]
  · rw [List.length_erase_of_mem hc]
    have : 0 < R.length := List.length_pos_of_mem hc
    omega

/-- The pool finishing a job keeps the invariant of the scenario. -/
theorem jobDone_inv (chunks : List Nat) (K : Int) (hn : chunks.Nodup) (c : Nat)
    (s : FVoxelRenderQueue) (hi : QueueInv chunks K s) :
    QueueInv chunks K (if c ∈ s.Running then DoWork c s else s) := by
  by_cases hc : c ∈ s.Running
  · rw [if_pos hc]
    obtain ⟨pool, slot, ol, Q, S, F, V, R, Fi, A⟩ := s
    obtain ⟨id, a, r, m⟩ := slot
    obtain ⟨i1, i2, i3, i4, i5, i6, i7, i8, i9, i10⟩ := hi
    simp only at i1 i2 i3 i4 i5 i6 i7 i8 i9 i10 hc
    subst i2 i3 i4 i7
    have hnd := parts_nodup i6 hn
    obtain ⟨hQRF, _, _⟩ := List.nodup_append.mp hnd
    obtain ⟨hQR, _, _⟩ := List.nodup_append.mp hQRF
    obtain ⟨_, hR, _⟩ := List.nodup_append.mp hQR
    obtain ⟨f1, f2⟩ := filter_ne_of_mem hR hc
    have f2' : ((R.filter (fun x => decide (x ≠ c))).length : Int) + 1 = R.length := by
      exact_mod_cast f2
    simp only [DoWork, if_true]
    refine ⟨i1, rfl, rfl, rfl, i5, ?_, rfl, ?_, ?_, ?_⟩
    · simp only
      rw [← i6, ← f1]
      simp only [← Multiset.coe_add, ← Multiset.coe_singleton]
      abel
    · simp only [List.length_append, List.length_singleton]
      push_cast
      omega
    · simp only [List.length_append, List.length_singleton]
      push_cast
      omega
    · simp only
      omega
  · rw [if_neg hc]
    exact hi

theorem run_append (OnFinished : FVoxelRenderQueue → Except Err FVoxelRenderQueue) :
    ∀ (xs ys : List Step) (s s1 : FVoxelRenderQueue),
    run OnFinished s xs = Except.ok s1 →
    run OnFinished s (xs ++ ys) = run OnFinished s1 ys := by
  intro xs
  induction xs with
  | nil =>
    intro ys s s1 h
    cases h
    rfl
  | cons x xs ih =>
    intro ys s s1 h
    rw [run] at h
    rw [List.cons_append, run]
    cases hx : step OnFinished s x with
    | error e => rw [hx] at h; cases h
    | ok s2 =>
      rw [hx] at h
      exact ih ys s2 s1 h

/-- Every run of ticks and finished jobs from a state of the scenario goes through and keeps
the invariant. -/
theorem run_inv (chunks : List Nat) (K : Int) (hn : chunks.Nodup)
    (hl : chunks.length < 2 ^ 31) (hK : K < 2 ^ 31)
    (OnFinished : FVoxelRenderQueue → Except Err FVoxelRenderQueue) :
    ∀ (steps : List Step) (s : FVoxelRenderQueue),
    (∀ st ∈ steps, st = Step.Tick true ∨ ∃ c, st = Step.JobDone c) →
    QueueInv chunks K s →
    ∃ s', run OnFinished s steps = Except.ok s' ∧ QueueInv chunks K s' := by
  intro steps
  induction steps with
  | nil => intro s _ hi; exact ⟨s, rfl, hi⟩
  | cons st sts ih =>
    intro s hs hi
    have hsts : ∀ x ∈ sts, x = Step.Tick true ∨ ∃ c, x = Step.JobDone c :=
      fun x hx => hs x (List.mem_cons_of_mem _ hx)
    rcases hs st (List.mem_cons_self _ _) with h | ⟨c, h⟩
    · subst h
      obtain ⟨s1, e1, i1, _, _⟩ := tick_spec chunks K hn hl hK OnFinished s hi
      obtain ⟨s', e', i'⟩ := ih s1 hsts i1
      refine ⟨s', ?_, i'⟩
      rw [run]
      show (step OnFinished s (Step.Tick true) >>= fun s => run OnFinished s sts) = _
      have : step OnFinished s (Step.Tick true) = Except.ok s1 := e1
      rw [this]
      exact e'
    · subst h
      obtain ⟨s', e', i'⟩ := ih _ hsts (jobDone_inv chunks K hn c s hi)
      exact ⟨s', e', i'⟩

/-- Requests to update chunks asynchronously, one after the other: the chunks join the queue
and the remaining count grows by their number. -/
theorem enqueue_spec (OnFinished : FVoxelRenderQueue → Except Err FVoxelRenderQueue) :
    ∀ (cs : List Nat) (s : FVoxelRenderQueue),
    s.ThreadSlot.MarkedRemainingTaskCount = 0 → 0 ≤ s.ThreadSlot.RemainingTaskCount →
    s.ThreadSlot.RemainingTaskCount + cs.length < 2 ^ 31 →
    run OnFinished s (cs.map (fun c => Step.UpdateChunk c true)) = Except.ok { s with
      ChunksToUpdate := s.ChunksToUpdate ++ cs
      ThreadSlot := { s.ThreadSlot with
        RemainingTaskCount := s.ThreadSlot.RemainingTaskCount + cs.length } } := by
  intro cs
  induction cs with
  | nil =>
    intro s _ _ _
    obtain ⟨pool, slot, ol, Q, S, F, V, R, Fi, A⟩ := s
    obtain ⟨id, a, r, m⟩ := slot
    simp [run, pure, Except.pure]
  | cons c cs ih =>
    intro s hm h0 hlt
    obtain ⟨pool, slot, ol, Q, S, F, V, R, Fi, A⟩ := s
    obtain ⟨id, a, r, m⟩ := slot
    simp only at hm h0 hlt
    subst hm
    have hlen : ((c :: cs).length : Int) = (cs.length : Int) + 1 := by simp
    rw [hlen] at hlt ⊢
    have hc0 : (0 : Int) ≤ cs.length := Int.natCast_nonneg _
    have h31 : (2 : Int) ^ 31 = 2147483648 := by norm_num
    rw [h31] at hlt
    have hw : wrapInt32 (r + 1) = r + 1 := by unfold wrapInt32; omega
    have hstep : step OnFinished ⟨pool, ⟨id, a, r, 0⟩, ol, Q, S, F, V, R, Fi, A⟩
        (Step.UpdateChunk c true)
        = Except.ok ⟨pool, ⟨id, a, r + 1, 0⟩, ol, Q ++ [c], S, F, V, R, Fi, A⟩ := by
      simp [step, UpdateChunk, FSlotData.IncrementTaskCount, check, bind, Except.bind, pure,
        Except.pure, hw]
    rw [List.map_cons, run]
    show (step OnFinished _ (Step.UpdateChunk c true) >>= fun s => run OnFinished s _) = _
    rw [hstep]
    show run OnFinished _ _ = _
    rw [ih _ rfl (by simp only; omega) (by simp only; rw [h31]; omega)]
    simp only [List.append_assoc, List.singleton_append]
    congr 3
    omega

end Queue

/-! ## Claims on the update queues -/

/-- C14: with a slot reserve of 2 and asynchronous update requests for 5 distinct loaded
chunks, every sequence of ticks and finished jobs goes through with at most 2 active tasks;
every tick, which ends with the dispatch loop, leaves the active count at the smaller of 2 and
the number of the 5 chunks not yet drained; and once all 5 have been drained, all 5 have been
applied and the active and the remaining count are both 0. -/
theorem C14_five_jobs_limit_two (pool : FVoxelThreadPool) (SlotID : Int)
    (leaves chunks : List Nat)
    (OnFinished : FVoxelRenderQueue → Except Err FVoxelRenderQueue)
    (steps : List FVoxelRenderQueue.Step)
    (hp : pool.SlotTaskReserve = 2) (hn : chunks.Nodup) (hl : chunks.length = 5)
    (hv : ∀ c ∈ chunks, c ∈ leaves)
    (hsteps : steps.all FVoxelRenderQueue.Step.inScenario = true) :
    ∃ s, FVoxelRenderQueue.run OnFinished (FVoxelRenderQueue.loaded pool SlotID leaves)
          (chunks.map (fun c => FVoxelRenderQueue.Step.UpdateChunk c true) ++ steps)
        = Except.ok s
      ∧ s.ThreadSlot.CurrentActiveTask ≤ 2
      ∧ (s.Applied.length = 5 →
          s.Applied.Perm chunks ∧ s.ThreadSlot.CurrentActiveTask = 0
            ∧ s.ThreadSlot.RemainingTaskCount = 0)
      ∧ ∃ s', FVoxelRenderQueue.UpdateMeshGeneration true OnFinished s = Except.ok s'
          ∧ s'.ThreadSlot.CurrentActiveTask = min 2 (5 - (s'.Applied.length : Int)) := by
  have hl31 : chunks.length < 2 ^ 31 := by rw [hl]; norm_num
  have hs : ∀ st ∈ steps, st = FVoxelRenderQueue.Step.Tick true
      ∨ ∃ c, st = FVoxelRenderQueue.Step.JobDone c := by
    intro st hst
    have := List.all_eq_true.mp hsteps st hst
    cases st with
    | UpdateChunk c b => simp [FVoxelRenderQueue.Step.inScenario] at this
    | Tick auto =>
      cases auto
      · simp [FVoxelRenderQueue.Step.inScenario] at this
      · exact Or.inl rfl
    | JobDone c => exact Or.inr ⟨c, rfl⟩
  have he := enqueue_spec OnFinished chunks (FVoxelRenderQueue.loaded pool SlotID leaves) rfl
    (by simp [FVoxelRenderQueue.loaded, FSlotData.new])
    (by simp [FVoxelRenderQueue.loaded, FSlotData.new, hl])
  have hi0 : FVoxelRenderQueue.QueueInv chunks 2
      { FVoxelRenderQueue.loaded pool SlotID leaves with
        ChunksToUpdate := (FVoxelRenderQueue.loaded pool SlotID leaves).ChunksToUpdate ++ chunks
        ThreadSlot := { (FVoxelRenderQueue.loaded pool SlotID leaves).ThreadSlot with
          RemainingTaskCount :=
            (FVoxelRenderQueue.loaded pool SlotID leaves).ThreadSlot.RemainingTaskCount
              + chunks.length } } := by
    refine ⟨hp, rfl, rfl, rfl, ?_, ?_, rfl, ?_, ?_, ?_⟩
    · intro c hc
      simp only [FVoxelRenderQueue.loaded, List.nil_append] at hc ⊢
      exact hv c hc
    · simp [FVoxelRenderQueue.loaded]
    · simp [FVoxelRenderQueue.loaded, FSlotData.new]
    · simp [FVoxelRenderQueue.loaded, FSlotData.new]
    · simp [FVoxelRenderQueue.loaded, FSlotData.new]
  obtain ⟨s, hrun, hi⟩ := run_inv chunks 2 hn hl31 (by norm_num) OnFinished steps _ hs hi0
  obtain ⟨s', ht, hi', hset, _⟩ := tick_spec chunks 2 hn hl31 (by norm_num) OnFinished s hi
  refine ⟨s, ?_, hi.2.2.2.2.2.2.2.2.2, ?_, s', ht, ?_⟩
  · rw [run_append OnFinished _ steps _ _ he]
    exact hrun
  · intro hA
    obtain ⟨_, _, _, _, _, i6, _, i8, i9, _⟩ := hi
    have hlen := parts_length i6
    have hQ : s.ChunksToUpdate = [] := List.length_eq_zero.mp (by omega)
    have hR : s.Running = [] := List.length_eq_zero.mp (by omega)
    have hF : s.Finished = [] := List.length_eq_zero.mp (by omega)
    rw [hQ, hR, hF] at i6 i8
    rw [hR, hF] at i9
    refine ⟨?_, by simpa using i9, by simpa using i8⟩
    apply Multiset.coe_eq_coe.mp
    simpa using i6
  · obtain ⟨_, _, _, _, _, i6, _, _, i9, i10⟩ := hi'
    obtain ⟨hF, hor⟩ := hset
    have hlen := parts_length i6
    rw [hF] at hlen i9
    simp only [List.length_nil, Nat.cast_zero, add_zero] at hlen i9
    rcases hor with hQ | hK
    · rw [hQ] at hlen
      simp only [List.length_nil, zero_add] at hlen
      omega
    · omega

/-- C14 on the chunks 10 to 14, with the jobs finishing out of order between four ticks. -/
theorem C14_five_jobs_limit_two_witness :
    ∃ s, FVoxelRenderQueue.run (fun s => pure s)
          (FVoxelRenderQueue.loaded samplePool 0 [10, 11, 12, 13, 14])
          ([10, 11, 12, 13, 14].map (fun c => FVoxelRenderQueue.Step.UpdateChunk c true)
            ++ [FVoxelRenderQueue.Step.Tick true, FVoxelRenderQueue.Step.JobDone 11,
              FVoxelRenderQueue.Step.Tick true, FVoxelRenderQueue.Step.JobDone 10,
              FVoxelRenderQueue.Step.JobDone 12, FVoxelRenderQueue.Step.Tick true,
              FVoxelRenderQueue.Step.JobDone 13, FVoxelRenderQueue.Step.JobDone 14,
              FVoxelRenderQueue.Step.Tick true])
        = Except.ok s
      ∧ s.ThreadSlot.CurrentActiveTask ≤ 2
      ∧ (s.Applied.length = 5 →
          s.Applied.Perm [10, 11, 12, 13, 14] ∧ s.ThreadSlot.CurrentActiveTask = 0
            ∧ s.ThreadSlot.RemainingTaskCount = 0)
      ∧ ∃ s', FVoxelRenderQueue.UpdateMeshGeneration true (fun s => pure s) s = Except.ok s'
          ∧ s'.ThreadSlot.CurrentActiveTask = min 2 (5 - (s'.Applied.length : Int)) :=
  C14_five_jobs_limit_two samplePool 0 [10, 11, 12, 13, 14] [10, 11, 12, 13, 14]
    (fun s => pure s) _ rfl (by decide) rfl (fun _ h => h) (by decide)

/-! ## Claims on decoding and merging sections -/

/-- C21 fails on the code: in `splitNormalMesh` the first face corner has the tuple `(0, 1, 0)`,
so its normal is the normal attribute's value at index 1; the vertex the rebuild emits for it
has the value at index 0, because the normal is read at the position index. Position and color
are the values at their own indices. -/
theorem C21_normal_read_at_position_index :
    FVoxelMeshEncoder.cornerTuple splitNormalMesh
        ⟨[⟨0, 0, 0⟩, ⟨1, 0, 0⟩, ⟨0, 1, 0⟩], [0, 1, 2]⟩
        ⟨[⟨0, 0, 1⟩, ⟨1, 0, 0⟩, ⟨0, 1, 0⟩], [1, 0, 0]⟩ ⟨[⟨255, 255, 255, 255⟩], [0, 0, 0]⟩ 0 0
      = (0, 1, 0)
    ∧ ∃ (Decoded : FVoxelProcMeshSection Int) (v : FVoxelProcMeshVertex Int),
        FVoxelMeshEncoder.DecodeMeshSection (some splitNormalMesh) FVoxelProcMeshSection.new
          = Except.ok Decoded
        ∧ Decoded.ProcIndexBuffer[2]? = some 0
        ∧ Decoded.ProcVertexBuffer[0]? = some v
        ∧ v.Position = (⟨0, 0, 0⟩ : FVector Int)
        ∧ v.Normal = (⟨0, 0, 1⟩ : FVector Int)
        ∧ v.Normal ≠ (draco.PointAttribute.GetValue
            (⟨[⟨0, 0, 1⟩, ⟨1, 0, 0⟩, ⟨0, 1, 0⟩], [1, 0, 0]⟩ : draco.PointAttribute (FVector Int))
            1) :=
  ⟨rfl, _, ⟨⟨0, 0, 0⟩, ⟨0, 0, 1⟩, ⟨255, 255, 255, 255⟩⟩, rfl, rfl, rfl, rfl, rfl, by decide⟩

/-- C22 fails as stated: a failed decode returns at once and leaves a section that held a mesh
as it was, not empty. -/
theorem C22_failed_decode_keeps_old_mesh :
    ∃ S : FVoxelProcMeshSection Int,
      FVoxelMeshEncoder.DecodeMeshSectionOf DracoParse.decodeError sampleSection = Except.ok S
      ∧ ¬ (S.ProcVertexBuffer = [] ∧ S.ProcIndexBuffer = []) :=
  ⟨sampleSection, rfl, by decide⟩

/-- C22 (amended): when decoding fails (the geometry type cannot be read, the type tag is not a
triangular mesh, or the mesh parse fails), `DecodeMeshSection` returns the target section
unchanged; its vertex buffer and index buffer are empty on return when they were empty on
entry. -/
theorem C22_failed_decode_leaves_section {F : Type} [Zero F] (p : DracoParse F)
    (Section : FVoxelProcMeshSection F) (hp : p.mesh? = none) :
    FVoxelMeshEncoder.DecodeMeshSectionOf p Section = Except.ok Section
      ∧ (Section.ProcVertexBuffer = [] → Section.ProcIndexBuffer = [] →
          ∃ S, FVoxelMeshEncoder.DecodeMeshSectionOf p Section = Except.ok S
            ∧ S.ProcVertexBuffer = [] ∧ S.ProcIndexBuffer = []) := by
  have h : FVoxelMeshEncoder.DecodeMeshSectionOf p Section = Except.ok Section := by
    unfold FVoxelMeshEncoder.DecodeMeshSectionOf
    rw [hp]
    rfl
  exact ⟨h, fun hv hi => ⟨Section, h, hv, hi⟩⟩

/-- C22 (amended) on a buffer whose type tag is not a triangular mesh, decoded into a fresh
section. -/
theorem C22_failed_decode_leaves_section_witness :
    FVoxelMeshEncoder.DecodeMeshSectionOf (DracoParse.notTriangularMesh : DracoParse Int)
        FVoxelProcMeshSection.new = Except.ok FVoxelProcMeshSection.new
      ∧ ((FVoxelProcMeshSection.new : FVoxelProcMeshSection Int).ProcVertexBuffer = [] →
          (FVoxelProcMeshSection.new : FVoxelProcMeshSection Int).ProcIndexBuffer = [] →
          ∃ S, FVoxelMeshEncoder.DecodeMeshSectionOf
                (DracoParse.notTriangularMesh : DracoParse Int) FVoxelProcMeshSection.new
              = Except.ok S
            ∧ S.ProcVertexBuffer = [] ∧ S.ProcIndexBuffer = []) :=
  C22_failed_decode_leaves_section DracoParse.notTriangularMesh FVoxelProcMeshSection.new rfl

/-- C27: for sections whose indices are `int32` values below their own vertex count, with
fewer than `2 ^ 31` vertices in all, `ApplySection` leaves the destination with the sum of the
vertex counts and the sum of the index counts, keeps its old indices, appends every source
index raised by the old destination vertex count, and every index is below the new vertex
count; a source without vertices and indices leaves the destination unchanged. -/
theorem C27_ApplySection_keeps_indices_valid {F : Type} [Min F] [Max F]
    (Src Dst : FVoxelProcMeshSection F)
    (hs : ∀ x ∈ Src.ProcIndexBuffer, isInt32 x ∧ x < (Src.ProcVertexBuffer.length : Int))
    (hd : ∀ x ∈ Dst.ProcIndexBuffer, x < (Dst.ProcVertexBuffer.length : Int))
    (hn : Dst.ProcVertexBuffer.length + Src.ProcVertexBuffer.length < 2 ^ 31) :
    (FVoxelMeshBuilder.ApplySection Src Dst).ProcVertexBuffer.length
        = Dst.ProcVertexBuffer.length + Src.ProcVertexBuffer.length
      ∧ (FVoxelMeshBuilder.ApplySection Src Dst).ProcIndexBuffer
        = Dst.ProcIndexBuffer
          ++ Src.ProcIndexBuffer.map (fun x => x + (Dst.ProcVertexBuffer.length : Int))
      ∧ (FVoxelMeshBuilder.ApplySection Src Dst).ProcIndexBuffer.length
        = Dst.ProcIndexBuffer.length + Src.ProcIndexBuffer.length
      ∧ (∀ x ∈ (FVoxelMeshBuilder.ApplySection Src Dst).ProcIndexBuffer,
          x < ((FVoxelMeshBuilder.ApplySection Src Dst).ProcVertexBuffer.length : Int))
      ∧ (Src.ProcVertexBuffer = [] → Src.ProcIndexBuffer = [] →
          FVoxelMeshBuilder.ApplySection Src Dst = Dst) := by
  have h31 : (2 : Nat) ^ 31 = 2147483648 := by norm_num
  rw [h31] at hn
  have hmap : Src.ProcIndexBuffer.map
        (fun x => wrapInt32 (x + (Dst.ProcVertexBuffer.length : Int)))
      = Src.ProcIndexBuffer.map (fun x => x + (Dst.ProcVertexBuffer.length : Int)) := by
    apply List.map_congr_left
    intro x hx
    obtain ⟨⟨h1, _⟩, h2⟩ := hs x hx
    have h1' : -2147483648 ≤ x := by
      have : (-2 : Int) ^ 31 = -2147483648 := by norm_num
      have e : -(2 : Int) ^ 31 = -2147483648 := by norm_num
      rw [e] at h1
      exact h1
    show wrapInt32 _ = _
    unfold wrapInt32
    omega
  by_cases he : Src.ProcVertexBuffer.length ≤ 0 ∧ Src.ProcIndexBuffer.length ≤ 0
  · have hv : Src.ProcVertexBuffer = [] := List.length_eq_zero.mp (by omega)
    have hi : Src.ProcIndexBuffer = [] := List.length_eq_zero.mp (by omega)
    have hr : FVoxelMeshBuilder.ApplySection Src Dst = Dst := by
      unfold FVoxelMeshBuilder.ApplySection
      rw [if_pos he]
    rw [hr, hv, hi]
    simp only [List.length_nil, add_zero, List.map_nil, List.append_nil, true_and]
    exact ⟨hd, fun _ _ => trivial⟩
  · have hr : FVoxelMeshBuilder.ApplySection Src Dst = { Dst with
        ProcVertexBuffer := Dst.ProcVertexBuffer ++ Src.ProcVertexBuffer
        ProcIndexBuffer := Dst.ProcIndexBuffer
          ++ Src.ProcIndexBuffer.map (fun x => x + (Dst.ProcVertexBuffer.length : Int))
        SectionLocalBox :=
          boxAdd { Dst.SectionLocalBox with IsValid := true } Src.SectionLocalBox } := by
      unfold FVoxelMeshBuilder.ApplySection
      rw [if_neg he]
      simp only [hmap]
    rw [hr]
    refine ⟨by simp, rfl, by simp, ?_, ?_⟩
    · intro x hx
      simp only [List.mem_append, List.mem_map] at hx
      simp only [List.length_append, Nat.cast_add]
      rcases hx with hx | ⟨y, hy, rfl⟩
      · have := hd x hx
        have h0 : (0 : Int) ≤ Src.ProcVertexBuffer.length := Int.natCast_nonneg _
        omega
      · have := (hs y hy).2
        omega
    · intro hv hi
      exfalso
      apply he
      rw [hv, hi]
      simp

/-- C27 on the sample quad merged into itself. -/
theorem C27_ApplySection_keeps_indices_valid_witness :
    (FVoxelMeshBuilder.ApplySection sampleSection sampleSection).ProcVertexBuffer.length
        = sampleSection.ProcVertexBuffer.length + sampleSection.ProcVertexBuffer.length
      ∧ (FVoxelMeshBuilder.ApplySection sampleSection sampleSection).ProcIndexBuffer
        = sampleSection.ProcIndexBuffer
          ++ sampleSection.ProcIndexBuffer.map
              (fun x => x + (sampleSection.ProcVertexBuffer.length : Int))
      ∧ (FVoxelMeshBuilder.ApplySection sampleSection sampleSection).ProcIndexBuffer.length
        = sampleSection.ProcIndexBuffer.length + sampleSection.ProcIndexBuffer.length
      ∧ (∀ x ∈ (FVoxelMeshBuilder.ApplySection sampleSection sampleSection).ProcIndexBuffer,
          x < ((FVoxelMeshBuilder.ApplySection sampleSection sampleSection).ProcVertexBuffer.length
            : Int))
      ∧ (sampleSection.ProcVertexBuffer = [] → sampleSection.ProcIndexBuffer = [] →
          FVoxelMeshBuilder.ApplySection sampleSection sampleSection = sampleSection) :=
  C27_ApplySection_keeps_indices_valid sampleSection sampleSection (by decide) (by decide)
    (by decide)

/-! ## Claims on the task count of the live generation -/

/-- C28 fails on the code: a synchronous `UpdateChunk` raises `RemainingTaskCount`, and the
tick that updates the chunk in `RegisterChunkUpdates` applies its mesh without lowering the
count, so with nothing queued and no job in flight the count stays at 1. The same holds after
an asynchronous request repeated for one leaf: both requests are counted and dispatched, one job
runs and is drained, and the count stays at 1. -/
theorem C28_synchronous_update_leaves_count :
    (∃ s : FVoxelRenderQueue,
      FVoxelRenderQueue.run pure (FVoxelRenderQueue.loaded samplePool 0 [7])
          [FVoxelRenderQueue.Step.UpdateChunk 7 false, FVoxelRenderQueue.Step.Tick true]
        = Except.ok s
      ∧ s.ChunksToUpdate = [] ∧ s.SynchronouslyUpdatingChunks = [] ∧ s.Running = []
      ∧ s.Finished = [] ∧ s.ChunksToApplyMesh = [] ∧ s.Applied = [7]
      ∧ s.ThreadSlot.RemainingTaskCount = 1)
    ∧ (∃ s : FVoxelRenderQueue,
      FVoxelRenderQueue.run pure (FVoxelRenderQueue.loaded samplePool 0 [7])
          [FVoxelRenderQueue.Step.UpdateChunk 7 true, FVoxelRenderQueue.Step.UpdateChunk 7 true,
            FVoxelRenderQueue.Step.Tick true, FVoxelRenderQueue.Step.JobDone 7,
            FVoxelRenderQueue.Step.Tick true]
        = Except.ok s
      ∧ s.ChunksToUpdate = [] ∧ s.SynchronouslyUpdatingChunks = [] ∧ s.Running = []
      ∧ s.Finished = [] ∧ s.ChunksToApplyMesh = [] ∧ s.Applied = [7]
      ∧ s.ThreadSlot.RemainingTaskCount = 1) :=
  ⟨⟨_, by rfl, by decide⟩, ⟨_, by rfl, by decide⟩⟩

/-! ## Facts about the cache worker -/

theorem resolveLoop_spec (q : List Nat) : ∀ s : FVoxelDBCacheWorker,
    (FVoxelDBCacheWorker.resolveLoop q s).Resolved
        = s.Resolved ++ q.map (fun p => (p, none))
      ∧ ((FVoxelDBCacheWorker.resolveLoop q s).FetchPromiseQueue = []
          ∨ (q = [] ∧ (FVoxelDBCacheWorker.resolveLoop q s).FetchPromiseQueue
              = s.FetchPromiseQueue))
      ∧ (FVoxelDBCacheWorker.resolveLoop q s).CommitTaskQueue = s.CommitTaskQueue
      ∧ (FVoxelDBCacheWorker.resolveLoop q s).CacheDataQueue = s.CacheDataQueue
      ∧ (FVoxelDBCacheWorker.resolveLoop q s).DB = s.DB := by
  induction q with
  | nil => intro s; simp [FVoxelDBCacheWorker.resolveLoop]
  | cons p rest ih =>
    intro s
    obtain ⟨h1, h2, h3, h4, h5⟩ := ih { s with
      FetchPromiseQueue := rest
      Resolved := s.Resolved ++ [(p, none)] }
    simp only [FVoxelDBCacheWorker.resolveLoop]
    refine ⟨?_, ?_, h3, h4, h5⟩
    · rw [h1]; simp
    · rcases h2 with h2 | ⟨hq, h2⟩
      · exact Or.inl h2
      · left; rw [h2]; exact hq

/-! ## Claims on the cache worker -/

/-- C24: when the connection closes (or none is open), `Shutdown` returns; every promise that
was pending has been set to a null pointer, in the order of the queue, the fetch queue, the
commit queue and the record queue are empty, and both cached flags are false. -/
theorem C24_Shutdown_resolves_every_promise (DBCloseRetVal : Int) (s : FVoxelDBCacheWorker)
    (hclose : s.DB = true → DBCloseRetVal = FVoxelDBCacheWorker.SQLITE_OK) :
    ∃ s', FVoxelDBCacheWorker.Shutdown DBCloseRetVal s = Except.ok s'
      ∧ s'.Resolved = s.Resolved ++ s.FetchPromiseQueue.map (fun p => (p, none))
      ∧ (∀ p ∈ s.FetchPromiseQueue, (p, none) ∈ s'.Resolved)
      ∧ s'.FetchPromiseQueue = [] ∧ s'.CommitTaskQueue = [] ∧ s'.CacheDataQueue = []
      ∧ s'.bCachedTransient = false ∧ s'.bCachedPersistent = false ∧ s'.DB = false := by
  obtain ⟨DB, T, P, C, Q, F, R, bt, bp⟩ := s
  obtain ⟨h1, h2, h3, h4, h5⟩ := resolveLoop_spec F ⟨false, T, P, [], [], F, R, bt, bp⟩
  have h2' : (FVoxelDBCacheWorker.resolveLoop F
      ⟨false, T, P, [], [], F, R, bt, bp⟩).FetchPromiseQueue = [] := by
    rcases h2 with h2 | ⟨hq, h2⟩
    · exact h2
    · rw [h2]; exact hq
  simp only [] at h1 h3 h4 h5
  have hS : FVoxelDBCacheWorker.Shutdown DBCloseRetVal ⟨DB, T, P, C, Q, F, R, bt, bp⟩
      = Except.ok { FVoxelDBCacheWorker.resolveLoop F ⟨false, T, P, [], [], F, R, bt, bp⟩ with
          bCachedTransient := false, bCachedPersistent := false } := by
    cases DB
    · simp [FVoxelDBCacheWorker.Shutdown, check, h2', h3, h4, bind, Except.bind, pure,
        Except.pure]
    · have hc := hclose rfl
      subst hc
      simp [FVoxelDBCacheWorker.Shutdown, check, h2', h3, h4, bind, Except.bind, pure,
        Except.pure]
  refine ⟨_, hS, h1, ?_, h2', h3, h4, rfl, rfl, h5⟩
  intro p hp
  show (p, none) ∈ (FVoxelDBCacheWorker.resolveLoop F ⟨false, T, P, [], [], F, R, bt, bp⟩).Resolved
  rw [h1]
  exact List.mem_append_right _ (List.mem_map.mpr ⟨p, hp, rfl⟩)

/-- C24 on a worker with an open connection, cached data, a queued record and two pending
promises. -/
theorem C24_Shutdown_resolves_every_promise_witness :
    ∃ s', FVoxelDBCacheWorker.Shutdown 0
        { FVoxelDBCacheWorker.opened with
          FetchPromiseQueue := [3, 4], bCachedTransient := true, CacheDataQueue := [groupless] }
        = Except.ok s'
      ∧ s'.Resolved = [] ++ [3, 4].map (fun p => (p, none))
      ∧ (∀ p ∈ [3, 4], (p, none) ∈ s'.Resolved)
      ∧ s'.FetchPromiseQueue = [] ∧ s'.CommitTaskQueue = [] ∧ s'.CacheDataQueue = []
      ∧ s'.bCachedTransient = false ∧ s'.bCachedPersistent = false ∧ s'.DB = false :=
  C24_Shutdown_resolves_every_promise 0
    { FVoxelDBCacheWorker.opened with
      FetchPromiseQueue := [3, 4], bCachedTransient := true, CacheDataQueue := [groupless] }
    (fun _ => rfl)

/-- C30 fails on the code: two calls of `CommitCacheData` before a tick queue two `MEMCOMMIT`
tasks, since neither call sees cached data; the first tick commits and sets `bCachedTransient`,
and the second tick dequeues the other task with cached data present, so the assertion of
`ExecuteCommitTask` fails. -/
theorem C30_second_queued_commit_fails_check :
    (∃ s, FVoxelDBCacheWorker.run sampleCacheEnv FVoxelDBCacheWorker.opened
          [FVoxelDBCacheWorker.Step.EnqueueCacheData sampleCacheData,
            FVoxelDBCacheWorker.Step.CommitCacheData, FVoxelDBCacheWorker.Step.CommitCacheData,
            FVoxelDBCacheWorker.Step.Tick] = Except.ok s
        ∧ s.CommitTaskQueue = [ECommitTask.MEMCOMMIT] ∧ s.HasCachedData = true)
    ∧ FVoxelDBCacheWorker.run sampleCacheEnv FVoxelDBCacheWorker.opened
        [FVoxelDBCacheWorker.Step.EnqueueCacheData sampleCacheData,
          FVoxelDBCacheWorker.Step.CommitCacheData, FVoxelDBCacheWorker.Step.CommitCacheData,
          FVoxelDBCacheWorker.Step.Tick, FVoxelDBCacheWorker.Step.Tick]
      = Except.error Err.checkFailed :=
  ⟨⟨_, by rfl, by decide⟩, by rfl⟩

/-- C23 fails on the code: a record whose mesh id is 0 is committed and read back, but the
grouping loop starts with `PrevMeshId = 0` and a null `CacheLODs`, takes the record for one of
the group it is in, and dereferences the null pointer; no promise is resolved. A record with
another mesh id comes back in its bucket. -/
theorem C23_mesh_id_zero_dereferences_null :
    (∃ s, FVoxelDBCacheWorker.run sampleCacheEnv FVoxelDBCacheWorker.opened
          [FVoxelDBCacheWorker.Step.EnqueueCacheData groupless,
            FVoxelDBCacheWorker.Step.CommitCacheData, FVoxelDBCacheWorker.Step.Tick,
            FVoxelDBCacheWorker.Step.FetchCacheData 5] = Except.ok s
        ∧ s.Table = some ⟨1, 1, groupless.write⟩ ∧ s.FetchPromiseQueue = [5])
    ∧ FVoxelDBCacheWorker.run sampleCacheEnv FVoxelDBCacheWorker.opened
        [FVoxelDBCacheWorker.Step.EnqueueCacheData groupless,
          FVoxelDBCacheWorker.Step.CommitCacheData, FVoxelDBCacheWorker.Step.Tick,
          FVoxelDBCacheWorker.Step.FetchCacheData 5, FVoxelDBCacheWorker.Step.Tick]
      = Except.error Err.nullDereference
    ∧ FVoxelDBCacheWorker.fetchMap sampleCacheEnv (some ⟨1, 2, sampleCacheData.write⟩)
      = Except.ok [(9, [[], [sampleCacheData]])] :=
  ⟨⟨_, by rfl, by decide, by decide⟩, by rfl, by rfl⟩

theorem except_ok_bind {ε α β : Type} (a : α) (f : α → Except ε β) :
    (Except.ok a >>= f) = f a := rfl

theorem toBytes_length (n : Nat) : ∀ x, (FArchive.toBytes n x).length = n := by
  induction n with
  | zero => intro x; rfl
  | succ n ih => intro x; simp [FArchive.toBytes, ih]

theorem ofBytes_toBytes (n : Nat) : ∀ x, FArchive.ofBytes (FArchive.toBytes n x) = x % 256 ^ n := by
  induction n with
  | zero => intro x; simp [FArchive.toBytes, FArchive.ofBytes, Nat.mod_one]
  | succ n ih =>
    intro x
    simp only [FArchive.toBytes, FArchive.ofBytes, ih]
    rw [pow_succ, Nat.mul_comm (256 ^ n) 256, Nat.mod_mul]

theorem read_append (l rest : List Nat) :
    FArchive.read l.length (l ++ rest) = Except.ok (l, rest) := by
  unfold FArchive.read
  rw [if_pos (by simp)]
  simp
  rfl

theorem read_toBytes (n x : Nat) (rest : List Nat) :
    FArchive.read n (FArchive.toBytes n x ++ rest) = Except.ok (FArchive.toBytes n x, rest) := by
  have h := read_append (FArchive.toBytes n x) rest
  rw [toBytes_length] at h
  exact h

theorem read_writeInt32 (x : Int) (rest : List Nat) :
    FArchive.read 4 (FArchive.writeInt32 x ++ rest)
      = Except.ok (FArchive.writeInt32 x, rest) :=
  read_toBytes 4 _ rest

theorem ofBytes_writeInt32 {x : Int} (h : isInt32 x) :
    wrapInt32 (FArchive.ofBytes (FArchive.writeInt32 x)) = x := by
  obtain ⟨h1, h2⟩ := h
  have e1 : -(2 : Int) ^ 31 = -2147483648 := by norm_num
  have e2 : (2 : Int) ^ 31 = 2147483648 := by norm_num
  rw [e1] at h1
  rw [e2] at h2
  unfold FArchive.writeInt32
  rw [ofBytes_toBytes]
  unfold wrapInt32
  have e3 : (2 : Int) ^ 32 = 4294967296 := by norm_num
  have e4 : (256 : Nat) ^ 4 = 4294967296 := by norm_num
  rw [e2, e3, e4]
  omega

/-- Reading what `write` has written gives the record back and leaves the rest of the stream. -/
theorem read_write (d : FVoxelDBCacheData) (hd : d.WellTyped) (rest : List Nat) :
    FVoxelDBCacheData.read (d.write ++ rest) = Except.ok (d, rest) := by
  obtain ⟨Depth, MeshId, ⟨X, Y, Z⟩, MeshData⟩ := d
  obtain ⟨h1, h2, ⟨hx, hy, hz⟩, _, h5⟩ := hd
  simp only [] at h1 h2 hx hy hz h5
  have hlen : isInt32 (MeshData.length : Int) := by
    have e2 : (2 : Nat) ^ 31 = 2147483648 := by norm_num
    rw [e2] at h5
    unfold isInt32
    constructor
    · have e1 : -(2 : Int) ^ 31 = -2147483648 := by norm_num
      rw [e1]; omega
    · have e3 : (2 : Int) ^ 31 = 2147483648 := by norm_num
      rw [e3]; omega
  have hD : Depth % 256 ^ 1 = Depth := Nat.mod_eq_of_lt (by simpa using h1)
  have hM : MeshId % 256 ^ 8 = MeshId := Nat.mod_eq_of_lt (by
    have : (256 : Nat) ^ 8 = 2 ^ 64 := by norm_num
    rw [this]; exact h2)
  unfold FVoxelDBCacheData.read FVoxelDBCacheData.write
  simp only [List.append_assoc]
  rw [read_toBytes, except_ok_bind]
  simp only []
  rw [read_toBytes, except_ok_bind]
  simp only []
  rw [read_writeInt32, except_ok_bind]
  simp only []
  rw [read_writeInt32, except_ok_bind]
  simp only []
  rw [read_writeInt32, except_ok_bind]
  simp only []
  rw [read_writeInt32, except_ok_bind]
  simp only []
  rw [ofBytes_writeInt32 hlen, if_neg (by omega)]
  simp only [Int.toNat_ofNat]
  rw [read_append, except_ok_bind]
  simp only [ofBytes_toBytes, ofBytes_writeInt32 hx, ofBytes_writeInt32 hy,
    ofBytes_writeInt32 hz, hD, hM]
  rfl
theorem memcommitLoop_spec (rs : List FVoxelDBCacheData) :
    ∀ (b : List Nat) (n : Nat) (l : Nat), n + rs.length < 2147483648 →
      FVoxelDBCacheWorker.memcommitLoop rs b (n : Int) l
        = (b ++ rs.flatMap FVoxelDBCacheData.write, ((n + rs.length : Nat) : Int),
            (rs.map (fun d => d.Depth)).foldl max l) := by
  induction rs with
  | nil => intro b n l _; simp [FVoxelDBCacheWorker.memcommitLoop]
  | cons d rest ih =>
    intro b n l h
    simp only [List.length_cons] at h
    simp only [FVoxelDBCacheWorker.memcommitLoop]
    have hw : wrapInt32 ((n : Int) + 1) = ((n + 1 : Nat) : Int) := by
      unfold wrapInt32
      have e2 : (2 : Int) ^ 31 = 2147483648 := by norm_num
      have e3 : (2 : Int) ^ 32 = 4294967296 := by norm_num
      rw [e2, e3]
      push_cast
      omega
    rw [hw, ih (b ++ d.write) (n + 1) (max l d.Depth) (by omega)]
    have e : n + 1 + rest.length = n + (rest.length + 1) := by omega
    rw [e]
    simp only [List.flatMap_cons, List.append_assoc, List.map_cons, List.foldl_cons,
      List.length_cons]

theorem foldl_max_le (ds : List Nat) : ∀ l, l ≤ ds.foldl max l ∧ ∀ d ∈ ds, d ≤ ds.foldl max l := by
  induction ds with
  | nil => intro l; simp
  | cons a rest ih =>
    intro l
    obtain ⟨h1, h2⟩ := ih (max l a)
    simp only [List.foldl_cons, List.mem_cons]
    refine ⟨le_trans (le_max_left _ _) h1, ?_⟩
    intro d hd
    rcases hd with rfl | hd
    · exact le_trans (le_max_right _ _) h1
    · exact h2 d hd

theorem foldl_max_lt (ds : List Nat) (B : Nat) : ∀ l, l < B → (∀ d ∈ ds, d < B) →
    ds.foldl max l < B := by
  induction ds with
  | nil => intro l hl _; simpa using hl
  | cons a rest ih =>
    intro l hl h
    simp only [List.foldl_cons]
    apply ih
    · exact max_lt hl (h a (List.mem_cons_self _ _))
    · intro d hd
      exact h d (List.mem_cons_of_mem _ hd)

theorem lookup_snoc (m : FVoxelDBCacheMap) (k k' : Nat) (v : List (List FVoxelDBCacheData)) :
    (m ++ [(k', v)]).lookup k
      = if (m.lookup k).isSome then m.lookup k else if k = k' then some v else none := by
  induction m with
  | nil =>
    by_cases h : k = k'
    · subst h; simp [List.lookup]
    · have : (k == k') = false := by simpa using h
      simp [List.lookup, this, h]
  | cons kv rest ih =>
    obtain ⟨a, w⟩ := kv
    by_cases h : k = a
    · subst h; simp [List.lookup]
    · have : (k == a) = false := by simpa using h
      simp only [List.cons_append, List.lookup, this]
      exact ih

theorem lookup_cons_eq (m : FVoxelDBCacheMap) (k : Nat) (v : List (List FVoxelDBCacheData)) :
    List.lookup k ((k, v) :: m) = some v := by
  simp [List.lookup]

theorem lookup_cons_ne (m : FVoxelDBCacheMap) {k k' : Nat} (h : k' ≠ k)
    (v : List (List FVoxelDBCacheData)) :
    List.lookup k' ((k, v) :: m) = List.lookup k' m := by
  have : (k' == k) = false := by simpa using h
  simp [List.lookup, this]

theorem lookup_update (m : FVoxelDBCacheMap) (k k' : Nat) (v : List (List FVoxelDBCacheData)) :
    (m.update k v).lookup k'
      = if k' = k then (if (m.lookup k).isSome then some v else none) else m.lookup k' := by
  induction m with
  | nil => simp [FVoxelDBCacheMap.update, List.lookup]
  | cons kv rest ih =>
    obtain ⟨a, w⟩ := kv
    have hu : FVoxelDBCacheMap.update ((a, w) :: rest) k v
        = (if a = k then (k, v) else (a, w)) :: FVoxelDBCacheMap.update rest k v := rfl
    rw [hu]
    by_cases ha : a = k
    · rw [if_pos ha]
      subst ha
      rw [lookup_cons_eq]
      by_cases hk : k' = a
      · subst hk
        rw [lookup_cons_eq]
        simp
      · rw [lookup_cons_ne _ hk, ih, if_neg hk, if_neg hk, lookup_cons_ne _ hk]
    · rw [if_neg ha]
      by_cases hk : k' = a
      · subst hk
        rw [lookup_cons_eq, if_neg ha, lookup_cons_eq]
      · rw [lookup_cons_ne _ hk, ih, lookup_cons_ne _ hk]
        have hka : k ≠ a := fun h => ha h.symm
        rw [lookup_cons_ne _ hka]

/-- Reading back a stream of written records: the records in their order, the rest of the
stream, and a map with an array of `LODCount` empty groups for each mesh id not yet in it. -/
theorem deserializeLoop_spec (LODCount : Nat) (rs : List FVoxelDBCacheData)
    (hw : ∀ r ∈ rs, r.WellTyped) (rest : List Nat) :
    ∀ (arr : List FVoxelDBCacheData) (m : FVoxelDBCacheMap),
      ∃ m', FVoxelDBCacheWorker.deserializeLoop LODCount rs.length
            (rs.flatMap FVoxelDBCacheData.write ++ rest) arr m
          = Except.ok (arr ++ rs, m', rest)
        ∧ ∀ k, m'.lookup k = if (m.lookup k).isSome then m.lookup k
            else if k ∈ rs.map (fun d => d.MeshId) then some (List.replicate LODCount [])
            else none := by
  induction rs with
  | nil =>
    intro arr m
    refine ⟨m, by simp [FVoxelDBCacheWorker.deserializeLoop]; rfl, ?_⟩
    intro k
    cases h : m.lookup k <;> simp
  | cons d ds ih =>
    intro arr m
    have hd := hw d (List.mem_cons_self _ _)
    have hds : ∀ r ∈ ds, r.WellTyped := fun r hr => hw r (List.mem_cons_of_mem _ hr)
    obtain ⟨m', e, hm'⟩ := ih hds (arr ++ [d])
      (if (m.lookup d.MeshId).isSome then m
        else m ++ [(d.MeshId, List.replicate LODCount [])])
    refine ⟨m', ?_, ?_⟩
    · simp only [List.length_cons, List.flatMap_cons, List.append_assoc,
        FVoxelDBCacheWorker.deserializeLoop]
      rw [read_write d hd, except_ok_bind]
      simp only []
      rw [e]
      simp
    · intro k
      rw [hm' k]
      simp only [List.map_cons, List.mem_cons]
      by_cases h1 : (m.lookup d.MeshId).isSome
      · simp only [h1, if_true]
        by_cases h2 : (m.lookup k).isSome
        · simp [h2]
        · simp only [h2]
          by_cases h3 : k = d.MeshId
          · subst h3; exact absurd h1 h2
          · simp [h3]
      · rw [if_neg h1, lookup_snoc]
        by_cases h2 : (m.lookup k).isSome
        · simp [h2]
        · simp only [h2]
          by_cases h3 : k = d.MeshId
          · simp [h3]
          · simp [h3]
theorem getD_set_self (lods : List (List FVoxelDBCacheData)) (i j : Nat)
    (x : List FVoxelDBCacheData) (hi : i < lods.length) :
    (lods.set i x).getD j [] = if j = i then x else lods.getD j [] := by
  simp only [List.getD_eq_getElem?_getD, List.getElem?_set]
  by_cases h : j = i
  · subst h; simp [hi]
  · have h' : ¬ i = j := fun e => h e.symm
    simp [h, h']

/-- One round of the grouping loop, when the pointer ends on the group of the record. -/
theorem groupLoop_step (d : FVoxelDBCacheData) (rest : List FVoxelDBCacheData) (prev : Nat)
    (ptr : Option Nat) (m : FVoxelDBCacheMap) (lods : List (List FVoxelDBCacheData))
    (hl : m.lookup d.MeshId = some lods) (hd : d.Depth < lods.length)
    (hp : prev ≠ d.MeshId ∨ ptr = some prev) :
    FVoxelDBCacheWorker.groupLoop (d :: rest) prev ptr m
      = FVoxelDBCacheWorker.groupLoop rest d.MeshId (some d.MeshId)
          (m.update d.MeshId (lods.set d.Depth (lods.getD d.Depth [] ++ [d]))) := by
  by_cases hne : prev = d.MeshId
  · have hptr : ptr = some d.MeshId := by
      rcases hp with hp | hp
      · exact absurd hne hp
      · rw [hp, hne]
    subst hptr
    subst hne
    simp only [FVoxelDBCacheWorker.groupLoop, ne_eq, not_true_eq_false, if_false]
    rw [show (pure (d.MeshId, some d.MeshId) : Except Err (Nat × Option Nat))
      = Except.ok (d.MeshId, some d.MeshId) from rfl, except_ok_bind]
    simp only [hl, if_pos hd]
  · simp only [FVoxelDBCacheWorker.groupLoop, ne_eq, hne, not_false_eq_true, if_true, hl]
    rw [show (pure (d.MeshId, some d.MeshId) : Except Err (Nat × Option Nat))
      = Except.ok (d.MeshId, some d.MeshId) from rfl, except_ok_bind]
    simp only [hl, if_pos hd]

/-- The grouping loop on records whose mesh ids are in the map and whose depths are below the
length of every array: either it ends with every record added to the bucket of its mesh id and
depth, or it started on a null pointer, some record has mesh id 0, and the null pointer is
dereferenced. -/
theorem groupLoop_spec (LC : Nat) (arr : List FVoxelDBCacheData) :
    ∀ (prev : Nat) (ptr : Option Nat) (m : FVoxelDBCacheMap),
      (∀ d ∈ arr, (m.lookup d.MeshId).isSome) →
      (∀ k lods, m.lookup k = some lods → lods.length = LC) →
      (∀ d ∈ arr, d.Depth < LC) →
      (ptr = some prev ∨ (ptr = none ∧ prev = 0)) →
      (∃ m', FVoxelDBCacheWorker.groupLoop arr prev ptr m = Except.ok m'
          ∧ (∀ k, (m'.lookup k).isSome = (m.lookup k).isSome)
          ∧ (∀ k lods, m'.lookup k = some lods → lods.length = LC)
          ∧ ∀ k j, m'.bucket k j
              = m.bucket k j ++ arr.filter (fun d => decide (d.MeshId = k ∧ d.Depth = j)))
      ∨ (ptr = none
          ∧ FVoxelDBCacheWorker.groupLoop arr prev ptr m = Except.error Err.nullDereference
          ∧ ∃ d ∈ arr, d.MeshId = 0) := by
  induction arr with
  | nil =>
    intro prev ptr m _ hlen _ _
    left
    exact ⟨m, rfl, fun _ => rfl, hlen, fun k j => by simp⟩
  | cons d rest ih =>
    intro prev ptr m hkeys hlen hdepth hptr
    by_cases hnull : ptr = none ∧ prev = d.MeshId
    · right
      obtain ⟨h1, h2⟩ := hnull
      have h0 : prev = 0 := by
        rcases hptr with h | h
        · rw [h1] at h; cases h
        · exact h.2
      refine ⟨h1, ?_, d, List.mem_cons_self _ _, by rw [← h2, h0]⟩
      subst h1
      subst h2
      simp only [FVoxelDBCacheWorker.groupLoop, ne_eq, not_true_eq_false, if_false]
      rfl
    · left
      have hd := hkeys d (List.mem_cons_self _ _)
      obtain ⟨lods, hl⟩ := Option.isSome_iff_exists.mp hd
      have hlods := hlen _ _ hl
      have hdl : d.Depth < lods.length := by
        rw [hlods]; exact hdepth d (List.mem_cons_self _ _)
      have hp : prev ≠ d.MeshId ∨ ptr = some prev := by
        rcases hptr with h | h
        · exact Or.inr h
        · left
          intro e
          exact hnull ⟨h.1, e⟩
      rw [groupLoop_step d rest prev ptr m lods hl hdl hp]
      have hsome : ∀ k, ((m.update d.MeshId
          (lods.set d.Depth (lods.getD d.Depth [] ++ [d]))).lookup k).isSome
            = (m.lookup k).isSome := by
        intro k
        rw [lookup_update]
        by_cases hk : k = d.MeshId
        · subst hk; simp [hl]
        · simp [hk]
      have hlen1 : ∀ k l, (m.update d.MeshId
          (lods.set d.Depth (lods.getD d.Depth [] ++ [d]))).lookup k = some l →
            l.length = LC := by
        intro k l h
        rw [lookup_update] at h
        by_cases hk : k = d.MeshId
        · subst hk
          simp [hl] at h
          rw [← h, List.length_set]
          exact hlods
        · rw [if_neg hk] at h
          exact hlen _ _ h
      have hb1 : ∀ k j, (m.update d.MeshId
          (lods.set d.Depth (lods.getD d.Depth [] ++ [d]))).bucket k j
            = m.bucket k j ++ (if d.MeshId = k ∧ d.Depth = j then [d] else []) := by
        intro k j
        unfold FVoxelDBCacheMap.bucket
        rw [lookup_update]
        by_cases hk : k = d.MeshId
        · subst hk
          simp only [hl, Option.isSome_some, if_true, Option.getD_some, true_and]
          rw [getD_set_self _ _ _ _ hdl]
          by_cases hj : j = d.Depth
          · subst hj; simp
          · have hj' : ¬ d.Depth = j := fun e => hj e.symm
            simp [hj, hj']
        · have hk' : ¬ d.MeshId = k := fun e => hk e.symm
          simp [hk, hk']
      rcases ih d.MeshId (some d.MeshId) _
          (fun r hr => by rw [hsome]; exact hkeys r (List.mem_cons_of_mem _ hr))
          hlen1 (fun r hr => hdepth r (List.mem_cons_of_mem _ hr)) (Or.inl rfl)
        with ⟨m', e, h1, h2, h3⟩ | ⟨hn, _⟩
      · refine ⟨m', e, fun k => by rw [h1, hsome], h2, ?_⟩
        intro k j
        rw [h3, hb1, List.filter_cons]
        by_cases hc : d.MeshId = k ∧ d.Depth = j
        · simp [hc]
        · simp [hc]
      · cases hn
/-- The `MEMCOMMIT` task on the records `rs`, and what the fetch makes of the row it wrote: the
row holds the number of records, the greatest depth plus one and the compressed stream; the
stream is read back into the same records, with an array of that many empty groups for each
mesh id, and the grouping loop runs on the sorted records. -/
theorem fetch_after_commit (env : CacheEnv) (hZ : env.Z.Lossless)
    (rs : List FVoxelDBCacheData) (hw : ∀ r ∈ rs, r.WellTyped) (hn : rs.length < 2147483648) :
    ∃ c CacheMap,
      FVoxelDBCacheWorker.ExecuteCommitTask env
          { FVoxelDBCacheWorker.opened with
            CacheDataQueue := rs, CommitTaskQueue := [ECommitTask.MEMCOMMIT] }
        = Except.ok { FVoxelDBCacheWorker.opened with
            Table := some ⟨(rs.length : Int),
              (((rs.map (fun d => d.Depth)).foldl max 0 : Nat) : Int) + 1, c⟩
            bCachedTransient := true }
      ∧ env.Z.DecompressData c = some (rs.flatMap FVoxelDBCacheData.write)
      ∧ FVoxelDBCacheWorker.deserializeLoop ((rs.map (fun d => d.Depth)).foldl max 0 + 1)
          rs.length (rs.flatMap FVoxelDBCacheData.write) [] [] = Except.ok (rs, CacheMap, [])
      ∧ (∀ k, CacheMap.lookup k = if k ∈ rs.map (fun d => d.MeshId)
          then some (List.replicate ((rs.map (fun d => d.Depth)).foldl max 0 + 1) [])
          else none)
      ∧ FVoxelDBCacheWorker.fetchMap env (some ⟨(rs.length : Int),
            (((rs.map (fun d => d.Depth)).foldl max 0 : Nat) : Int) + 1, c⟩)
          = FVoxelDBCacheWorker.groupLoop (env.SortByMeshId rs) 0 none CacheMap := by
  obtain ⟨c, hc, hdc⟩ := hZ (rs.flatMap FVoxelDBCacheData.write)
  obtain ⟨m, hm, hlook⟩ := deserializeLoop_spec
    ((rs.map (fun d => d.Depth)).foldl max 0 + 1) rs hw [] [] []
  simp only [List.append_nil, List.nil_append] at hm
  have hloop := memcommitLoop_spec rs [] 0 0 (by omega)
  simp only [Nat.cast_zero, zero_add, List.nil_append] at hloop
  refine ⟨c, m, ?_, hdc, hm, ?_, ?_⟩
  · simp only [FVoxelDBCacheWorker.ExecuteCommitTask, FVoxelDBCacheWorker.opened,
      FVoxelDBCacheWorker.HasCachedData, Bool.or_self, Bool.not_false, check, if_true]
    rw [show (pure () : Except Err Unit) = Except.ok () from rfl, except_ok_bind,
      except_ok_bind]
    simp only [hloop, hc]
    rfl
  · intro k
    rw [hlook k]
    simp [List.lookup]
  · have h1 : (0 : Int) ≤ (rs.length : Int) := Int.natCast_nonneg _
    have h2 : (0 : Int) ≤ (((rs.map (fun d => d.Depth)).foldl max 0 : Nat) : Int) + 1 := by
      have := Int.natCast_nonneg ((rs.map (fun d => d.Depth)).foldl max 0)
      omega
    have h3 : ((((rs.map (fun d => d.Depth)).foldl max 0 : Nat) : Int) + 1).toNat
        = (rs.map (fun d => d.Depth)).foldl max 0 + 1 := by omega
    simp only [FVoxelDBCacheWorker.fetchMap, hdc, check, h1, h2, decide_True, if_true, h3,
      Int.toNat_ofNat]
    rw [show (pure () : Except Err Unit) = Except.ok () from rfl, except_ok_bind,
      except_ok_bind, hm, except_ok_bind]
    simp only [decide_True, if_true]
    rfl

/-- The sample environment sorts. -/
theorem sampleCacheEnv_SortOk : sampleCacheEnv.SortOk := by
  intro l
  haveI : IsTotal FVoxelDBCacheData (fun v0 v1 => v0.MeshId ≤ v1.MeshId) :=
    ⟨fun a b => Nat.le_total a.MeshId b.MeshId⟩
  haveI : IsTrans FVoxelDBCacheData (fun v0 v1 => v0.MeshId ≤ v1.MeshId) :=
    ⟨fun a b c h1 h2 => Nat.le_trans h1 h2⟩
  refine ⟨List.perm_insertionSort _ l, ?_⟩
  have h := List.sorted_insertionSort (fun v0 v1 : FVoxelDBCacheData => v0.MeshId ≤ v1.MeshId) l
  exact List.Pairwise.imp (fun hab => Nat.not_lt.mpr hab) h

/-- The sample environment compresses without loss. -/
theorem sampleCacheEnv_Lossless : sampleCacheEnv.Z.Lossless := fun x => ⟨x, rfl, rfl⟩

/-- Records committed and fetched: either the fetch returns a map in which the bucket of a mesh
id and a depth holds the records of that mesh id and depth, in the order the sort left them, or
some record has the mesh id 0 and the grouping loop dereferences its null pointer. -/
theorem fetch_commit_result (env : CacheEnv) (hZ : env.Z.Lossless) (hS : env.SortOk)
    (rs : List FVoxelDBCacheData) (hw : ∀ r ∈ rs, r.WellTyped) (hn : rs.length < 2147483648) :
    ∃ c, FVoxelDBCacheWorker.ExecuteCommitTask env
          { FVoxelDBCacheWorker.opened with
            CacheDataQueue := rs, CommitTaskQueue := [ECommitTask.MEMCOMMIT] }
        = Except.ok { FVoxelDBCacheWorker.opened with
            Table := some ⟨(rs.length : Int),
              (((rs.map (fun d => d.Depth)).foldl max 0 : Nat) : Int) + 1, c⟩
            bCachedTransient := true }
      ∧ ((∃ m', FVoxelDBCacheWorker.fetchMap env (some ⟨(rs.length : Int),
              (((rs.map (fun d => d.Depth)).foldl max 0 : Nat) : Int) + 1, c⟩) = Except.ok m'
          ∧ (∀ k j, m'.bucket k j
              = (env.SortByMeshId rs).filter (fun d => decide (d.MeshId = k ∧ d.Depth = j)))
          ∧ (∀ k j, (m'.bucket k j).Perm
              (rs.filter (fun d => decide (d.MeshId = k ∧ d.Depth = j))))
          ∧ ∀ r ∈ rs, r ∈ m'.bucket r.MeshId r.Depth)
        ∨ (FVoxelDBCacheWorker.fetchMap env (some ⟨(rs.length : Int),
              (((rs.map (fun d => d.Depth)).foldl max 0 : Nat) : Int) + 1, c⟩)
            = Except.error Err.nullDereference
          ∧ ∃ r ∈ rs, r.MeshId = 0)) := by
  obtain ⟨c, m, hcommit, _, _, hlook, hfetch⟩ := fetch_after_commit env hZ rs hw hn
  have hperm := (hS rs).1
  have hmb : ∀ k j, m.bucket k j = [] := by
    intro k j
    unfold FVoxelDBCacheMap.bucket
    rw [hlook k]
    by_cases hk : k ∈ rs.map (fun d => d.MeshId)
    · rw [if_pos hk]
      simp only [Option.getD_some, List.getD_eq_getElem?_getD]
      cases h : (List.replicate ((rs.map (fun d => d.Depth)).foldl max 0 + 1)
          ([] : List FVoxelDBCacheData))[j]? with
      | none => rfl
      | some x =>
        have := List.getElem?_mem h
        rw [List.mem_replicate] at this
        simp [this.2]
    · rw [if_neg hk]
      rfl
  refine ⟨c, hcommit, ?_⟩
  rcases groupLoop_spec ((rs.map (fun d => d.Depth)).foldl max 0 + 1) (env.SortByMeshId rs)
      0 none m
      (fun d hd => by
        rw [hlook, if_pos (List.mem_map.mpr ⟨d, hperm.mem_iff.mp hd, rfl⟩)]; rfl)
      (fun k lods h => by
        rw [hlook] at h
        by_cases hk : k ∈ rs.map (fun d => d.MeshId)
        · rw [if_pos hk] at h
          injection h with h
          rw [← h, List.length_replicate]
        · rw [if_neg hk] at h; cases h)
      (fun d hd => by
        have := (foldl_max_le (rs.map (fun d => d.Depth)) 0).2 d.Depth
          (List.mem_map.mpr ⟨d, hperm.mem_iff.mp hd, rfl⟩)
        omega)
      (Or.inr ⟨rfl, rfl⟩)
    with ⟨m', e, _, _, hb⟩ | ⟨_, e, d, hd, hz⟩
  · have hb' : ∀ k j, m'.bucket k j
        = (env.SortByMeshId rs).filter (fun d => decide (d.MeshId = k ∧ d.Depth = j)) := by
      intro k j
      rw [hb, hmb, List.nil_append]
    left
    refine ⟨m', by rw [hfetch, e], hb', ?_, ?_⟩
    · intro k j
      rw [hb']
      exact hperm.filter _
    · intro r hr
      rw [hb', List.mem_filter]
      exact ⟨hperm.mem_iff.mpr hr, by simp⟩
  · right
    exact ⟨by rw [hfetch, e], d, hperm.mem_iff.mp hd, hz⟩

/-! ## Claims on the stored LOD count -/

/-- C29: for records that hold values of their types, the `MEMCOMMIT` task stores the greatest
record depth plus one as `LODCount`, so every record depth is below it; the fetch reads the
records back, gives the group of every record an array of `LODCount` buckets, so the depth of
the record is below the length of the array, and the fetch never indexes past the end of an
array. -/
theorem C29_depth_index_in_bounds (env : CacheEnv) (hZ : env.Z.Lossless) (hS : env.SortOk)
    (rs : List FVoxelDBCacheData) (hw : ∀ r ∈ rs, r.WellTyped) (hn : rs.length < 2 ^ 31) :
    ∃ s row, FVoxelDBCacheWorker.ExecuteCommitTask env
          { FVoxelDBCacheWorker.opened with
            CacheDataQueue := rs, CommitTaskQueue := [ECommitTask.MEMCOMMIT] } = Except.ok s
      ∧ s.Table = some row
      ∧ row.LODCount = (((rs.map (fun d => d.Depth)).foldl max 0 : Nat) : Int) + 1
      ∧ (∀ r ∈ rs, (r.Depth : Int) < row.LODCount)
      ∧ (∃ ByteArray CacheMap, env.Z.DecompressData row.Data = some ByteArray
          ∧ FVoxelDBCacheWorker.deserializeLoop row.LODCount.toNat row.ChunkCount.toNat
              ByteArray [] [] = Except.ok (rs, CacheMap, [])
          ∧ ∀ r ∈ rs, ∃ lods, CacheMap.lookup r.MeshId = some lods
              ∧ (lods.length : Int) = row.LODCount ∧ r.Depth < lods.length)
      ∧ FVoxelDBCacheWorker.fetchMap env (some row) ≠ Except.error Err.indexOutOfRange := by
  have hn' : rs.length < 2147483648 := by
    have e : (2 : Nat) ^ 31 = 2147483648 := by norm_num
    rw [e] at hn
    exact hn
  obtain ⟨c, m, hcommit, hdc, hm, hlook, hfetch⟩ := fetch_after_commit env hZ rs hw hn'
  have hperm := (hS rs).1
  have hdepth : ∀ r ∈ rs, r.Depth ≤ (rs.map (fun d => d.Depth)).foldl max 0 := fun r hr =>
    (foldl_max_le (rs.map (fun d => d.Depth)) 0).2 r.Depth (List.mem_map.mpr ⟨r, hr, rfl⟩)
  have h3 : ((((rs.map (fun d => d.Depth)).foldl max 0 : Nat) : Int) + 1).toNat
      = (rs.map (fun d => d.Depth)).foldl max 0 + 1 := by omega
  refine ⟨_, ⟨(rs.length : Int), (((rs.map (fun d => d.Depth)).foldl max 0 : Nat) : Int) + 1,
    c⟩, hcommit, rfl, rfl, ?_, ⟨_, m, hdc, ?_, ?_⟩, ?_⟩
  · intro r hr
    have := hdepth r hr
    show (r.Depth : Int) < (((rs.map (fun d => d.Depth)).foldl max 0 : Nat) : Int) + 1
    omega
  · show FVoxelDBCacheWorker.deserializeLoop
      ((((rs.map (fun d => d.Depth)).foldl max 0 : Nat) : Int) + 1).toNat
      ((rs.length : Int)).toNat _ [] [] = _
    rw [h3, Int.toNat_ofNat]
    exact hm
  · intro r hr
    refine ⟨List.replicate ((rs.map (fun d => d.Depth)).foldl max 0 + 1) [], ?_, ?_, ?_⟩
    · rw [hlook, if_pos (List.mem_map.mpr ⟨r, hr, rfl⟩)]
    · rw [List.length_replicate]
      show _ = (((rs.map (fun d => d.Depth)).foldl max 0 : Nat) : Int) + 1
      push_cast
      rfl
    · rw [List.length_replicate]
      have := hdepth r hr
      omega
  · rw [hfetch]
    rcases groupLoop_spec ((rs.map (fun d => d.Depth)).foldl max 0 + 1) (env.SortByMeshId rs)
        0 none m
        (fun d hd => by
          rw [hlook, if_pos (List.mem_map.mpr ⟨d, hperm.mem_iff.mp hd, rfl⟩)]; rfl)
        (fun k lods h => by
          rw [hlook] at h
          by_cases hk : k ∈ rs.map (fun d => d.MeshId)
          · rw [if_pos hk] at h
            injection h with h
            rw [← h, List.length_replicate]
          · rw [if_neg hk] at h; cases h)
        (fun d hd => by
          have := hdepth d (hperm.mem_iff.mp hd)
          omega)
        (Or.inr ⟨rfl, rfl⟩)
      with ⟨m', e, _⟩ | ⟨_, e, _⟩
    · rw [e]; intro h; cases h
    · rw [e]; intro h; cases h

/-- C29 on three records of two mesh groups and the depths 0, 1 and 2. -/
theorem C29_depth_index_in_bounds_witness :
    ∃ s row, FVoxelDBCacheWorker.ExecuteCommitTask sampleCacheEnv
          { FVoxelDBCacheWorker.opened with
            CacheDataQueue := [sampleCacheData, ⟨0, 9, ⟨0, 0, 0⟩, []⟩, ⟨2, 18, ⟨0, 0, 0⟩, [4]⟩]
            CommitTaskQueue := [ECommitTask.MEMCOMMIT] } = Except.ok s
      ∧ s.Table = some row
      ∧ row.LODCount = ((([sampleCacheData, ⟨0, 9, ⟨0, 0, 0⟩, []⟩,
          ⟨2, 18, ⟨0, 0, 0⟩, [4]⟩].map (fun d => d.Depth)).foldl max 0 : Nat) : Int) + 1
      ∧ (∀ r ∈ [sampleCacheData, ⟨0, 9, ⟨0, 0, 0⟩, []⟩, ⟨2, 18, ⟨0, 0, 0⟩, [4]⟩],
          (r.Depth : Int) < row.LODCount)
      ∧ (∃ ByteArray CacheMap, sampleCacheEnv.Z.DecompressData row.Data = some ByteArray
          ∧ FVoxelDBCacheWorker.deserializeLoop row.LODCount.toNat row.ChunkCount.toNat
              ByteArray [] []
            = Except.ok ([sampleCacheData, ⟨0, 9, ⟨0, 0, 0⟩, []⟩, ⟨2, 18, ⟨0, 0, 0⟩, [4]⟩],
                CacheMap, [])
          ∧ ∀ r ∈ [sampleCacheData, ⟨0, 9, ⟨0, 0, 0⟩, []⟩, ⟨2, 18, ⟨0, 0, 0⟩, [4]⟩],
              ∃ lods, CacheMap.lookup r.MeshId = some lods
                ∧ (lods.length : Int) = row.LODCount ∧ r.Depth < lods.length)
      ∧ FVoxelDBCacheWorker.fetchMap sampleCacheEnv (some row)
          ≠ Except.error Err.indexOutOfRange :=
  C29_depth_index_in_bounds sampleCacheEnv sampleCacheEnv_Lossless sampleCacheEnv_SortOk
    [sampleCacheData, ⟨0, 9, ⟨0, 0, 0⟩, []⟩, ⟨2, 18, ⟨0, 0, 0⟩, [4]⟩] (by decide) (by decide)

section Shape

open FChunkOctree

/-! ## The shape `UpdateLOD` leaves -/

/-- What one `UpdateLOD` does on a well-formed node: above the target LOD the node ends as an
internal node over its updated children (its own, or the eight that `CreateChilds` builds);
otherwise a node with a chunk stays as it is and any other ends as a loaded leaf. -/
theorem UpdateLOD_step (R : FVoxelRender) (fuel : Nat) {P : FIntVector} {D I M : Nat}
    {hc hk : Bool} {cs : List FChunkOctree} {V : Option FVoxelChunkNode}
    (hwf : WellFormed (FChunkOctree.mk P D I hc cs hk M V)) :
    (D ≠ 0 → R.LOD < (D : Int) → ∀ cs',
        (if hc then cs
          else (List.range 8).map (freshChild (P, D, I) (AssignMeshId R I M))).mapM
            (UpdateLOD R fuel) = Except.ok cs' →
        UpdateLOD R (fuel + 1) (FChunkOctree.mk P D I hc cs hk M V)
          = Except.ok (FChunkOctree.mk P D I true cs' false
              (if hc then M else AssignMeshId R I M) none))
    ∧ (¬ (D ≠ 0 ∧ R.LOD < (D : Int)) →
        UpdateLOD R (fuel + 1) (FChunkOctree.mk P D I hc cs hk M V)
          = Except.ok (if hk then FChunkOctree.mk P D I hc cs hk M V
              else loadedNode R P D I M)) := by
  cases hwf with
  | mk _ _ _ _ _ _ _ _ hDepth hPos hExcl hChunk hChilds hNone hRec =>
    have hdead : ¬ (R.LOD < (D : Int) ∧ (D : Int) < R.LOD) := by omega
    have hdead' : R.LOD < (D : Int) → ¬ ((D : Int) < R.LOD) := by omega
    cases hc with
    | true =>
      have hk0 : hk = false := by
        cases hk with
        | false => rfl
        | true => exact absurd ⟨rfl, rfl⟩ hExcl
      subst hk0
      have hV : V = none := by
        cases V with
        | none => rfl
        | some v => simp at hChunk
      subst hV
      obtain ⟨h0, hkeys⟩ := hChilds rfl
      have hl := length_of_keys hkeys
      constructor
      · intro _ hL cs' hm
        have hm' : List.mapM.loop (UpdateLOD R fuel) cs [] = Except.ok cs' := hm
        have hn := hdead' hL
        simp [UpdateLOD, check, bind, Except.bind, pure, Except.pure, FChunkOctree.bHasChunk,
          FChunkOctree.bHasChilds, FChunkOctree.VoxelChunk, FChunkOctree.Childs,
          FChunkOctree.Depth, FChunkOctree.Position, FChunkOctree.Id, FChunkOctree.MeshId,
          hl, h0, hL, hn, hm', setChilds]
      · intro hno
        have hL : ¬ R.LOD < (D : Int) := fun h => hno ⟨h0, h⟩
        have hd := DestroyChilds_eq
          (WellFormed.mk P D I true cs false M none hDepth hPos hExcl hChunk hChilds hNone hRec)
        simp [UpdateLOD, check, bind, Except.bind, pure, Except.pure, FChunkOctree.bHasChunk,
          FChunkOctree.bHasChilds, FChunkOctree.VoxelChunk, FChunkOctree.Childs,
          FChunkOctree.Depth, hl, h0, hL, hdead, hd, Load_eq]
    | false =>
      have hcs := hNone rfl
      subst hcs
      cases hk with
      | true =>
        cases V with
        | none => simp at hChunk
        | some v =>
          constructor
          · intro h0 hL cs' hm
            have hm' : List.mapM.loop (UpdateLOD R fuel)
                ((List.range 8).map (freshChild (P, D, I) (AssignMeshId R I M))) []
                = Except.ok cs' := hm
            have hn := hdead' hL
            simp [UpdateLOD, check, bind, Except.bind, pure, Except.pure,
              FChunkOctree.bHasChunk, FChunkOctree.bHasChilds, FChunkOctree.VoxelChunk,
              FChunkOctree.Childs, FChunkOctree.Depth, FChunkOctree.Position,
              FChunkOctree.Id, FChunkOctree.MeshId, h0, hL, hdead, Unload_eq,
              CreateChilds_eq R h0 hDepth, hm', hn, setChilds]
          · intro hno
            by_cases h0 : D = 0
            · simp [UpdateLOD, check, bind, Except.bind, pure, Except.pure,
                FChunkOctree.bHasChunk, FChunkOctree.bHasChilds, FChunkOctree.VoxelChunk,
                FChunkOctree.Childs, FChunkOctree.Depth, h0]
            · have hL : ¬ R.LOD < (D : Int) := fun h => hno ⟨h0, h⟩
              simp [UpdateLOD, check, bind, Except.bind, pure, Except.pure,
                FChunkOctree.bHasChunk, FChunkOctree.bHasChilds, FChunkOctree.VoxelChunk,
                FChunkOctree.Childs, FChunkOctree.Depth, h0, hL, hdead]
      | false =>
        cases V with
        | some v => simp at hChunk
        | none =>
          constructor
          · intro h0 hL cs' hm
            have hm' : List.mapM.loop (UpdateLOD R fuel)
                ((List.range 8).map (freshChild (P, D, I) (AssignMeshId R I M))) []
                = Except.ok cs' := hm
            have hn := hdead' hL
            simp [UpdateLOD, check, bind, Except.bind, pure, Except.pure,
              FChunkOctree.bHasChunk, FChunkOctree.bHasChilds, FChunkOctree.VoxelChunk,
              FChunkOctree.Childs, FChunkOctree.Depth, FChunkOctree.Position,
              FChunkOctree.Id, FChunkOctree.MeshId, h0, hL, hdead,
              CreateChilds_eq R h0 hDepth, hm', hn, setChilds]
          · intro hno
            by_cases h0 : D = 0
            · simp [UpdateLOD, check, bind, Except.bind, pure, Except.pure,
                FChunkOctree.bHasChunk, FChunkOctree.bHasChilds, FChunkOctree.VoxelChunk,
                FChunkOctree.Childs, FChunkOctree.Depth, h0, Load_eq]
            · have hL : ¬ R.LOD < (D : Int) := fun h => hno ⟨h0, h⟩
              simp [UpdateLOD, check, bind, Except.bind, pure, Except.pure,
                FChunkOctree.bHasChunk, FChunkOctree.bHasChilds, FChunkOctree.VoxelChunk,
                FChunkOctree.Childs, FChunkOctree.Depth, h0, hL, hdead, Load_eq]

theorem wf_children {P : FIntVector} {D I M : Nat} {hc hk : Bool} {cs : List FChunkOctree}
    {V : Option FVoxelChunkNode} (R : FVoxelRender)
    (hwf : WellFormed (FChunkOctree.mk P D I hc cs hk M V)) :
    ∀ c ∈ (if hc then cs
        else (List.range 8).map (freshChild (P, D, I) (AssignMeshId R I M))),
      WellFormed c ∧ c.Depth = D - 1 := by
  cases hwf with
  | mk _ _ _ _ _ _ _ _ hDepth hPos hExcl hChunk hChilds hNone hRec =>
    intro c hc'
    cases hc with
    | true =>
      simp only [if_true] at hc'
      exact ⟨hRec c hc', depth_of_mem_childs (hChilds rfl).2 hc'⟩
    | false =>
      simp only [Bool.false_eq_true, if_false] at hc'
      rw [List.mem_map] at hc'
      obtain ⟨k, _, rfl⟩ := hc'
      exact ⟨wf_freshChild _ k hDepth, rfl⟩

theorem wf_children_length {P : FIntVector} {D I M : Nat} {hc hk : Bool}
    {cs : List FChunkOctree} {V : Option FVoxelChunkNode} (R : FVoxelRender)
    (hwf : WellFormed (FChunkOctree.mk P D I hc cs hk M V)) :
    (if hc then cs
      else (List.range 8).map (freshChild (P, D, I) (AssignMeshId R I M))).length = 8 := by
  cases hwf with
  | mk _ _ _ _ _ _ _ _ hDepth hPos hExcl hChunk hChilds hNone hRec =>
    cases hc with
    | true => simpa using length_of_keys (hChilds rfl).2
    | false => simp

/-- One `UpdateLOD` with a target LOD between 0 and the depth of a well-formed tree leaves the
shape of that LOD, with `8 ^ (Depth - LOD)` leaves. -/
theorem UpdateLOD_shaped (R : FVoxelRender) (hR : 0 ≤ R.LOD) :
    ∀ (fuel : Nat) (t : FChunkOctree), WellFormed t → t.Depth < fuel →
      R.LOD ≤ (t.Depth : Int) →
      ∃ t', UpdateLOD R fuel t = Except.ok t' ∧ ShapedAt R.LOD t'
        ∧ leafCount t' = 8 ^ (t.Depth - R.LOD.toNat) := by
  intro fuel
  induction fuel with
  | zero => intro t _ h; exact absurd h (Nat.not_lt_zero _)
  | succ fuel ih =>
    intro t hwf hfuel hle
    obtain ⟨P, D, I, hc, cs, hk, M, V⟩ := t
    simp only [FChunkOctree.Depth] at hfuel hle
    obtain ⟨hup, hstay⟩ := UpdateLOD_step R fuel hwf
    by_cases hL : R.LOD < (D : Int)
    · have h0 : D ≠ 0 := by omega
      obtain ⟨cs', hm, hq⟩ := mapM_ok (f := UpdateLOD R fuel)
        (Q := fun _ c' => ShapedAt R.LOD c' ∧ leafCount c' = 8 ^ (D - 1 - R.LOD.toNat))
        (if hc then cs
          else (List.range 8).map (freshChild (P, D, I) (AssignMeshId R I M)))
        (fun c hc' => by
          obtain ⟨hw, hd⟩ := wf_children R hwf c hc'
          obtain ⟨c', e, hs, hn⟩ := ih c hw (by rw [hd]; omega) (by rw [hd]; omega)
          rw [hd] at hn
          exact ⟨c', e, hs, hn⟩)
      obtain ⟨hlen, hall⟩ := forall₂_right hq
      rw [wf_children_length R hwf] at hlen
      refine ⟨_, hup h0 hL cs' hm, ?_, ?_⟩
      · intro n hn
        rw [mem_nodes_iff] at hn
        rcases hn with rfl | ⟨c, hc1, hc2⟩
        · refine ⟨hle, fun _ => ⟨rfl, hlen, rfl, rfl⟩, fun h => ?_⟩
          simp only [FChunkOctree.Depth] at h
          omega
        · exact (hall c hc1).1 n hc2
      · rw [leafCount_mk, sum_map_const leafCount _ cs' (fun c hc' => (hall c hc').2), hlen]
        have e : D - R.LOD.toNat = (D - 1 - R.LOD.toNat) + 1 := by omega
        simp only [FChunkOctree.Depth, e, pow_succ, Bool.false_eq_true, if_false, zero_add]
        ring
    · have hDL : (D : Int) = R.LOD := by omega
      have hsub : D - R.LOD.toNat = 0 := by omega
      have hres := hstay (fun h => hL h.2)
      cases hk with
      | true =>
        simp only [if_true] at hres
        cases hwf with
        | mk _ _ _ _ _ _ _ _ hDepth hPos hExcl hChunk hChilds hNone hRec =>
          have hc0 : hc = false := by
            cases hc with
            | false => rfl
            | true => exact absurd ⟨rfl, rfl⟩ hExcl
          subst hc0
          have hcs := hNone rfl
          subst hcs
          refine ⟨_, hres, ?_, ?_⟩
          · intro n hn
            rw [mem_nodes_iff] at hn
            rcases hn with rfl | ⟨c, hc1, _⟩
            · refine ⟨hle, fun h => ?_, fun _ => ⟨rfl, rfl, rfl, hChunk.symm⟩⟩
              simp only [FChunkOctree.Depth] at h
              omega
            · simp [FChunkOctree.Childs] at hc1
          · simp [leafCount_mk, FChunkOctree.Depth, hsub]
      | false =>
        simp only [Bool.false_eq_true, if_false] at hres
        refine ⟨_, hres, ?_, ?_⟩
        · intro n hn
          rw [mem_nodes_iff] at hn
          rcases hn with rfl | ⟨c, hc1, _⟩
          · refine ⟨hle, fun h => ?_, fun _ => ⟨rfl, rfl, rfl, rfl⟩⟩
            simp only [loadedNode, FChunkOctree.Depth] at h
            omega
          · simp [loadedNode, FChunkOctree.Childs] at hc1
        · simp [loadedNode, leafCount_mk, FChunkOctree.Depth, hsub]

end Shape

/-- C25: on a tree of the shape the constructor and the transitions build, whose root has depth
`D`, one `UpdateLOD` with a target LOD `L`, `0 ≤ L ≤ D`, returns a tree of that shape with the
same root in which every node of depth greater than `L` is internal with 8 children and no
chunk, every node of depth `L` is a leaf with a loaded chunk and no children, and no node has a
depth below `L`; it has `8 ^ (D - L)` leaves, all at depth `L`. -/
theorem C25_UpdateLOD_shape_fixed_by_LOD (R : FVoxelRender) (t : FChunkOctree) (fuel : Nat)
    (hwf : FChunkOctree.WellFormed t) (h0 : 0 ≤ R.LOD) (hL : R.LOD ≤ (t.Depth : Int))
    (hfuel : t.Depth < fuel) :
    ∃ t', FChunkOctree.UpdateLOD R fuel t = Except.ok t'
      ∧ FChunkOctree.WellFormed t' ∧ FChunkOctree.key t' = FChunkOctree.key t
      ∧ (∀ n ∈ t'.nodes, R.LOD < (n.Depth : Int) →
          n.bHasChilds = true ∧ n.Childs.length = 8 ∧ n.bHasChunk = false ∧ n.VoxelChunk = none)
      ∧ (∀ n ∈ t'.nodes, (n.Depth : Int) = R.LOD →
          n.bHasChilds = false ∧ n.Childs = [] ∧ n.bHasChunk = true
            ∧ n.VoxelChunk.isSome = true)
      ∧ (∀ n ∈ t'.nodes, R.LOD ≤ (n.Depth : Int))
      ∧ t'.leafCount = 8 ^ (t.Depth - R.LOD.toNat)
      ∧ (∀ n ∈ t'.nodes, n.bHasChunk = true → (n.Depth : Int) = R.LOD) := by
  obtain ⟨t', e, hs, hn⟩ := UpdateLOD_shaped R h0 fuel t hwf hfuel hL
  obtain ⟨t'', e', hw, hk, _⟩ := UpdateLOD_wf R fuel t hwf hfuel
  have ht : t'' = t' := by
    rw [e] at e'
    injection e' with e'
    exact e'.symm
  subst ht
  refine ⟨t'', e, hw, hk, fun n h => (hs n h).2.1, fun n h => (hs n h).2.2,
    fun n h => (hs n h).1, hn, ?_⟩
  intro n h hb
  obtain ⟨h1, h2, _⟩ := hs n h
  by_contra hne
  have hlt : R.LOD < (n.Depth : Int) := lt_of_le_of_ne h1 (fun e => hne e.symm)
  rw [(h2 hlt).2.2.1] at hb
  cases hb

/-- C25 on the example tree, a depth-1 root over eight loaded leaves, with the target LOD 1:
the children go and the root ends as the one leaf. -/
theorem C25_UpdateLOD_shape_fixed_by_LOD_witness :
    ∃ t', FChunkOctree.UpdateLOD ⟨1, fun _ => false⟩ 2 FChunkOctree.sampleTree = Except.ok t'
      ∧ FChunkOctree.WellFormed t' ∧ FChunkOctree.key t' = FChunkOctree.key FChunkOctree.sampleTree
      ∧ (∀ n ∈ t'.nodes, (1 : Int) < (n.Depth : Int) →
          n.bHasChilds = true ∧ n.Childs.length = 8 ∧ n.bHasChunk = false ∧ n.VoxelChunk = none)
      ∧ (∀ n ∈ t'.nodes, (n.Depth : Int) = 1 →
          n.bHasChilds = false ∧ n.Childs = [] ∧ n.bHasChunk = true
            ∧ n.VoxelChunk.isSome = true)
      ∧ (∀ n ∈ t'.nodes, (1 : Int) ≤ (n.Depth : Int))
      ∧ t'.leafCount = 8 ^ (FChunkOctree.sampleTree.Depth - (1 : Int).toNat)
      ∧ (∀ n ∈ t'.nodes, n.bHasChunk = true → (n.Depth : Int) = 1) :=
  C25_UpdateLOD_shape_fixed_by_LOD ⟨1, fun _ => false⟩ FChunkOctree.sampleTree 2 sampleTree_wf
    (by decide) (by decide) (by decide)

section MeshIds

open FChunkOctree

/-- The ids one level below those listed at depth `E + 1` are listed at depth `E`. -/
theorem ids_child_mem (D : Nat) : ∀ (ID E x k : Nat), E + 1 ≤ D → k < 8 →
    x ∈ ids ID D (E + 1) → childId x E k ∈ ids ID D E := by
  induction D with
  | zero => intro ID E x k h; omega
  | succ L ih =>
    intro ID E x k h hk hx
    by_cases hE : E = L
    · subst hE
      rw [ids_of_le (le_refl _)] at hx
      rw [ids_succ (le_refl _), List.mem_flatMap]
      refine ⟨k, List.mem_range.mpr hk, ?_⟩
      rw [ids_of_le (le_refl _)]
      simp only [List.mem_singleton] at hx ⊢
      rw [hx]
    · have hE' : E + 1 ≤ L := by omega
      rw [ids_succ hE', List.mem_flatMap] at hx
      obtain ⟨k', hk', hx'⟩ := hx
      rw [ids_succ (by omega : E ≤ L), List.mem_flatMap]
      exact ⟨k', hk', ih _ E x k hE' hk hx'⟩

theorem nodes_trans {t a n : FChunkOctree} (ha : a ∈ nodes t) (hn : n ∈ nodes a) :
    n ∈ nodes t := by
  induction t using FChunkOctree.rec
    (motive_2 := fun cs => ∀ c ∈ cs, a ∈ nodes c → n ∈ nodes c) with
  | mk P D I hc cs hk M V ih =>
    rw [mem_nodes_iff] at ha
    rcases ha with rfl | ⟨c, hc1, hc2⟩
    · exact hn
    · rw [mem_nodes_iff]
      right
      exact ⟨c, hc1, ih c hc1 hc2⟩
  | nil =>
    rename_i c' hc' ha'
    cases hc'
  | cons c cs ihc ihcs =>
    rename_i c' hc' ha'
    rcases List.mem_cons.mp hc' with rfl | h
    · exact ihc ha'
    · exact ihcs c' h ha'

/-- In a well-formed tree every node but the root lies below the depth of the root. -/
theorem wf_nodes_depth {t : FChunkOctree} (hw : WellFormed t) :
    ∀ n ∈ nodes t, n = t ∨ n.Depth < t.Depth := by
  induction hw with
  | mk P D I hc cs hk M V hDepth hPos hExcl hChunk hChilds hNone hRec ih =>
    intro n hn
    rw [mem_nodes_iff] at hn
    rcases hn with rfl | ⟨c, hc1, hc2⟩
    · exact Or.inl rfl
    · right
      have hcT : hc = true := by
        cases hc with
        | true => rfl
        | false =>
          have := hNone rfl
          simp only [FChunkOctree.Childs] at hc1
          rw [this] at hc1
          cases hc1
      obtain ⟨h0, hkeys⟩ := hChilds hcT
      simp only [FChunkOctree.Childs] at hc1
      have hd := depth_of_mem_childs hkeys hc1
      show n.Depth < D
      rcases ih c hc1 n hc2 with rfl | hlt
      · omega
      · omega

theorem AssignMeshId_of_ne (R : FVoxelRender) (I : Nat) {A : Nat} (hA : A ≠ 0) :
    AssignMeshId R I A = A := by
  unfold AssignMeshId
  rw [if_neg hA]

/-- One `UpdateLOD` on a node without chunk and children whose mesh id is, or is assigned to
be, the non-zero `A`: every node of the result has the mesh id `A`, and so has every chunk. -/
theorem UpdateLOD_below (R : FVoxelRender) {A : Nat} (hA : A ≠ 0) :
    ∀ (fuel : Nat) (P : FIntVector) (d I M : Nat), P.isInt32 → d ≤ 19 → d < fuel →
      AssignMeshId R I M = A →
      ∃ t', UpdateLOD R fuel (FChunkOctree.mk P d I false [] false M none) = Except.ok t'
        ∧ ∀ n ∈ nodes t', n.MeshId = A ∧ ∀ v, n.VoxelChunk = some v → v.MeshId = A := by
  intro fuel
  induction fuel with
  | zero => intro P d I M _ _ h; exact absurd h (Nat.not_lt_zero _)
  | succ fuel ih =>
    intro P d I M hP hd hfuel hAM
    have hwf : WellFormed (FChunkOctree.mk P d I false [] false M none) :=
      wf_leaf_or_empty hd hP rfl
    obtain ⟨hup, hstay⟩ := UpdateLOD_step R fuel hwf
    by_cases hc : d ≠ 0 ∧ R.LOD < (d : Int)
    · obtain ⟨h0, hL⟩ := hc
      obtain ⟨cs', hm, hq⟩ := mapM_ok (f := UpdateLOD R fuel)
        (Q := fun _ c' => ∀ n ∈ nodes c',
          n.MeshId = A ∧ ∀ v, n.VoxelChunk = some v → v.MeshId = A)
        ((List.range 8).map (freshChild (P, d, I) (AssignMeshId R I M)))
        (fun c hc' => by
          rw [List.mem_map] at hc'
          obtain ⟨k, _, rfl⟩ := hc'
          rw [hAM]
          exact ih _ (d - 1) _ A (add_isInt32 _ _) (by omega) (by omega)
            (AssignMeshId_of_ne R _ hA))
      obtain ⟨_, hall⟩ := forall₂_right hq
      refine ⟨_, hup h0 hL cs' hm, ?_⟩
      intro n hn
      rw [mem_nodes_iff] at hn
      rcases hn with rfl | ⟨c, hc1, hc2⟩
      · refine ⟨hAM, fun v hv => ?_⟩
        cases hv
      · exact hall c hc1 n hc2
    · refine ⟨_, hstay hc, ?_⟩
      intro n hn
      simp only [Bool.false_eq_true, if_false] at hn
      rw [mem_nodes_iff] at hn
      rcases hn with rfl | ⟨c, hc1, _⟩
      · refine ⟨hAM, fun v hv => ?_⟩
        simp only [loadedNode, FChunkOctree.VoxelChunk] at hv
        injection hv with hv
        rw [← hv]
        exact hAM
      · simp [loadedNode, FChunkOctree.Childs] at hc1

end MeshIds

section MeshIdsMain

open FChunkOctree

theorem afterLoad_HasMesh {L : Int} {D Md x : Nat} (hD : D ≤ 19) :
    (FVoxelRender.afterLoad L D Md).HasMesh x = true ↔ x ∈ ids (9 ^ D) D Md := by
  unfold FVoxelRender.afterLoad ids
  rw [GetTopIdFromDepth_eq hD]
  simp

theorem mapped_ne_zero {D Md x : Nat} (hD : D ≤ 19) (hM : Md ≤ D)
    (hx : x ∈ ids (9 ^ D) D Md) : x ≠ 0 := by
  have h1 := (ids_bounds D (9 ^ D) Md hM hD (top_id_room hD) x hx).1
  have h2 := nine_pow_pos D
  omega

/-- The children that `UpdateLOD` updates under a well-formed node carry child ids of the
node. -/
theorem wf_children_id {P : FIntVector} {D I M : Nat} {hc hk : Bool} {cs : List FChunkOctree}
    {V : Option FVoxelChunkNode} (R : FVoxelRender)
    (hwf : WellFormed (FChunkOctree.mk P D I hc cs hk M V)) :
    ∀ c ∈ (if hc then cs
        else (List.range 8).map (freshChild (P, D, I) (AssignMeshId R I M))),
      ∃ k, k < 8 ∧ c.Id = childId I (D - 1) k := by
  cases hwf with
  | mk _ _ _ _ _ _ _ _ hDepth hPos hExcl hChunk hChilds hNone hRec =>
    intro c hc'
    cases hc with
    | true =>
      simp only [if_true] at hc'
      have hm : key c ∈ cs.map key := List.mem_map_of_mem key hc'
      rw [(hChilds rfl).2, List.mem_map] at hm
      obtain ⟨k, hk', hkey⟩ := hm
      exact ⟨k, List.mem_range.mp hk', (congrArg (fun K => K.2.2) hkey).symm⟩
    | false =>
      simp only [Bool.false_eq_true, if_false] at hc'
      rw [List.mem_map] at hc'
      obtain ⟨k, hk', rfl⟩ := hc'
      exact ⟨k, List.mem_range.mp hk', rfl⟩

/-- A well-formed tree rooted at mesh depth on a mapped id, all of whose nodes carry that id. -/
theorem meshIdsAt_of_same (R : FVoxelRender) (Md : Nat) {t : FChunkOctree} (hw : WellFormed t)
    (hd : t.Depth = Md) (hH : R.HasMesh t.Id = true)
    (hall : ∀ n ∈ nodes t, n.MeshId = t.Id ∧ ∀ v, n.VoxelChunk = some v → v.MeshId = t.Id) :
    MeshIdsAt R Md t := by
  intro n hn
  have hnd : n.Depth ≤ Md := by
    rcases wf_nodes_depth hw n hn with rfl | h
    · omega
    · omega
  refine ⟨fun h => absurd h (by omega), fun _ => ⟨⟨t, self_mem_nodes t, hd, hn, hH⟩, ?_⟩⟩
  intro a ha had _
  have hat : a = t := by
    rcases wf_nodes_depth hw a ha with rfl | h
    · rfl
    · omega
  rw [hat]
  exact hall n hn

/-- A single node above the mesh depth with mesh id 0. -/
theorem meshIdsAt_single (R : FVoxelRender) (Md : Nat) {P : FIntVector} {D I : Nat} {hk : Bool}
    {V : Option FVoxelChunkNode} (h : Md < D) :
    MeshIdsAt R Md (FChunkOctree.mk P D I false [] hk 0 V) := by
  intro n hn
  rw [mem_nodes_iff] at hn
  rcases hn with rfl | ⟨c, hc1, _⟩
  · refine ⟨fun _ => rfl, fun h' => ?_⟩
    simp only [FChunkOctree.Depth] at h'
    omega
  · simp [FChunkOctree.Childs] at hc1

/-- One `UpdateLOD`, under the mapping of `Load`, on a tree in which no mesh id is assigned and
nothing is built at or below the mesh depth: the mesh ids of the result are those the mapping
fixes. -/
theorem UpdateLOD_meshIds (D Md : Nat) (L : Int) (hD : D ≤ 19) (hM : Md ≤ D) :
    ∀ (fuel : Nat) (t : FChunkOctree), WellFormed t → t.Depth < fuel → Md ≤ t.Depth →
      t.Depth ≤ D → t.Id ∈ ids (9 ^ D) D t.Depth → Unassigned Md t →
      ∃ t', UpdateLOD (FVoxelRender.afterLoad L D Md) fuel t = Except.ok t'
        ∧ MeshIdsAt (FVoxelRender.afterLoad L D Md) Md t' := by
  intro fuel
  induction fuel with
  | zero => intro t _ h; exact absurd h (Nat.not_lt_zero _)
  | succ fuel ih =>
    intro t hwf hfuel hMd hdD hid hpre
    obtain ⟨P, d, I, hc, cs, hk, M, V⟩ := t
    simp only [FChunkOctree.Depth, FChunkOctree.Id] at hfuel hMd hdD hid
    have hM0 : M = 0 := (hpre _ (self_mem_nodes _)).1
    subst hM0
    by_cases hdM : d = Md
    · subst hdM
      obtain ⟨hk0, hc0⟩ := (hpre _ (self_mem_nodes _)).2 (le_refl _)
      simp only [FChunkOctree.bHasChunk, FChunkOctree.bHasChilds] at hk0 hc0
      subst hk0
      subst hc0
      have hH : (FVoxelRender.afterLoad L D d).HasMesh I = true :=
        (afterLoad_HasMesh hD).mpr hid
      have hI : I ≠ 0 := mapped_ne_zero hD hM hid
      have hA : AssignMeshId (FVoxelRender.afterLoad L D d) I 0 = I := by
        unfold AssignMeshId
        rw [if_pos rfl, if_pos hH]
      cases hwf with
      | mk _ _ _ _ _ _ _ _ hDepth hPos hExcl hChunk hChilds hNone hRec =>
        have hcs := hNone rfl
        subst hcs
        have hV : V = none := by
          cases V with
          | none => rfl
          | some v => simp at hChunk
        subst hV
        obtain ⟨t', e, hall⟩ := UpdateLOD_below (FVoxelRender.afterLoad L D d) hI (fuel + 1)
          P d I 0 hPos hDepth hfuel hA
        obtain ⟨t'', e', hw', hk', _⟩ := UpdateLOD_wf (FVoxelRender.afterLoad L D d) (fuel + 1)
          (FChunkOctree.mk P d I false [] false 0 none) (wf_leaf_or_empty hDepth hPos rfl)
          hfuel
        have ht : t'' = t' := by
          rw [e] at e'
          injection e' with e'
          exact e'.symm
        subst ht
        have hd' : t''.Depth = d := congrArg (fun K => K.2.1) hk'
        have hi' : t''.Id = I := congrArg (fun K => K.2.2) hk'
        refine ⟨t'', e, meshIdsAt_of_same _ d hw' hd' (by rw [hi']; exact hH) ?_⟩
        rw [hi']
        exact hall
    · have hlt : Md < d := by omega
      have hnot : (FVoxelRender.afterLoad L D Md).HasMesh I = false := by
        cases h : (FVoxelRender.afterLoad L D Md).HasMesh I with
        | false => rfl
        | true =>
          exact (ids_depths_disjoint hD hM hdD hlt ((afterLoad_HasMesh hD).mp h) hid).elim
      have hA : AssignMeshId (FVoxelRender.afterLoad L D Md) I 0 = 0 := by
        unfold AssignMeshId
        rw [if_pos rfl, hnot]
        rfl
      obtain ⟨hup, hstay⟩ := UpdateLOD_step (FVoxelRender.afterLoad L D Md) fuel hwf
      by_cases hcase : d ≠ 0 ∧ (FVoxelRender.afterLoad L D Md).LOD < (d : Int)
      · obtain ⟨h0, hL⟩ := hcase
        obtain ⟨cs', hm, hq⟩ := mapM_ok (f := UpdateLOD (FVoxelRender.afterLoad L D Md) fuel)
          (Q := fun _ c' => MeshIdsAt (FVoxelRender.afterLoad L D Md) Md c')
          (if hc then cs
            else (List.range 8).map
              (freshChild (P, d, I) (AssignMeshId (FVoxelRender.afterLoad L D Md) I 0)))
          (fun c hc' => by
            obtain ⟨hw, hd⟩ := wf_children _ hwf c hc'
            obtain ⟨k, hk8, hidc⟩ := wf_children_id _ hwf c hc'
            have hidm : c.Id ∈ ids (9 ^ D) D c.Depth := by
              rw [hd, hidc]
              have hx : I ∈ ids (9 ^ D) D (d - 1 + 1) := by
                rw [Nat.sub_add_cancel (by omega)]
                exact hid
              exact ids_child_mem D _ (d - 1) I k (by omega) hk8 hx
            have hprec : Unassigned Md c := by
              cases hc with
              | true =>
                simp only [if_true] at hc'
                intro n hn
                exact hpre n (mem_nodes_iff.mpr (Or.inr ⟨c, hc', hn⟩))
              | false =>
                simp only [Bool.false_eq_true, if_false] at hc'
                rw [List.mem_map] at hc'
                obtain ⟨k', _, rfl⟩ := hc'
                intro n hn
                rw [mem_nodes_iff] at hn
                rcases hn with rfl | ⟨c2, hc2, _⟩
                · exact ⟨hA, fun _ => ⟨rfl, rfl⟩⟩
                · simp [freshChild, FChunkOctree.Childs] at hc2
            exact ih c hw (by rw [hd]; omega) (by rw [hd]; omega) (by rw [hd]; omega) hidm
              hprec)
        obtain ⟨_, hall⟩ := forall₂_right hq
        refine ⟨_, hup h0 hL cs' hm, ?_⟩
        have hroot : (if hc = true then 0
            else AssignMeshId (FVoxelRender.afterLoad L D Md) I 0) = 0 := by
          cases hc with
          | true => rfl
          | false => simpa using hA
        rw [hroot]
        intro n hn
        rw [mem_nodes_iff] at hn
        rcases hn with rfl | ⟨c, hc1, hc2⟩
        · refine ⟨fun _ => rfl, fun h' => ?_⟩
          simp only [FChunkOctree.Depth] at h'
          omega
        · obtain ⟨h1, h2⟩ := hall c hc1 n hc2
          refine ⟨h1, fun hle => ?_⟩
          obtain ⟨⟨a, ha, had, hna, hHa⟩, _⟩ := h2 hle
          refine ⟨⟨a, mem_nodes_iff.mpr (Or.inr ⟨c, hc1, ha⟩), had, hna, hHa⟩, ?_⟩
          intro a' ha' had' hna'
          rw [mem_nodes_iff] at ha'
          rcases ha' with rfl | ⟨c', hc1', hc2'⟩
          · simp only [FChunkOctree.Depth] at had'
            omega
          · have hn' : n ∈ nodes c' := nodes_trans hc2' hna'
            exact ((hall c' hc1' n hn').2 hle).2 a' hc2' had' hna'
      · refine ⟨_, hstay hcase, ?_⟩
        cases hk with
        | true =>
          simp only [if_true]
          cases hwf with
          | mk _ _ _ _ _ _ _ _ hDepth hPos hExcl hChunk hChilds hNone hRec =>
            have hc0 : hc = false := by
              cases hc with
              | false => rfl
              | true => exact absurd ⟨rfl, rfl⟩ hExcl
            subst hc0
            have hcs := hNone rfl
            subst hcs
            exact meshIdsAt_single _ Md hlt
        | false =>
          simp only [Bool.false_eq_true, if_false, loadedNode, hA]
          exact meshIdsAt_single _ Md hlt

end MeshIdsMain

/-- C26 fails as stated: in the example tree (depth-1 root with id 9 over eight loaded leaves)
every node has mesh id 0; with the sections mapped for world depth 1 and mesh depth 1, so that
the root id 9 is mapped, one `UpdateLOD` with target LOD 0 leaves the tree as it is, and each
leaf keeps the mesh id 0, not the id 9 of its ancestor at depth 1. -/
theorem C26_loaded_leaves_keep_mesh_id_zero :
    (∀ n ∈ FChunkOctree.sampleTree.nodes, n.MeshId = 0)
    ∧ (∃ t', FChunkOctree.UpdateLOD (FVoxelRender.afterLoad 0 1 1) 2 FChunkOctree.sampleTree
          = Except.ok t'
        ∧ (FVoxelRender.afterLoad 0 1 1).HasMesh 9 = true
        ∧ ∃ leaf ∈ t'.nodes, leaf.bHasChunk = true
          ∧ ∃ a ∈ t'.nodes, a.Depth = 1 ∧ leaf ∈ a.nodes ∧ a.Id = 9 ∧ leaf.MeshId ≠ a.Id) := by
  have hleaf : FChunkOctree.sampleChild 0 ∈ FChunkOctree.sampleTree.nodes :=
    mem_nodes_iff.mpr (Or.inr ⟨FChunkOctree.sampleChild 0, by
      simp [FChunkOctree.sampleTree, FChunkOctree.Childs, List.range, List.range.loop],
      self_mem_nodes _⟩)
  refine ⟨?_, FChunkOctree.sampleTree, by rfl, by decide, FChunkOctree.sampleChild 0, hleaf,
    rfl, FChunkOctree.sampleTree, self_mem_nodes _, rfl, hleaf, rfl, by decide⟩
  intro n hn
  rw [mem_nodes_iff] at hn
  rcases hn with rfl | ⟨c, hc1, hc2⟩
  · rfl
  · simp only [FChunkOctree.sampleTree, FChunkOctree.Childs, List.mem_map] at hc1
    obtain ⟨k, _, rfl⟩ := hc1
    rw [mem_nodes_iff] at hc2
    rcases hc2 with rfl | ⟨c', hc', _⟩
    · rfl
    · simp [FChunkOctree.sampleChild, FChunkOctree.loadedNode, FChunkOctree.Childs] at hc'

/-- C26 (amended): with the sections mapped from `GetIDsAt(TopID, D, Md)` for world depth `D`
and mesh depth `Md ≤ D`, and a tree under the top id whose nodes all have mesh id 0 and whose
nodes at or below depth `Md` have neither chunk nor children (as the root that the constructor
builds), after `UpdateLOD` with a target `0 ≤ L ≤ Md` every leaf lies under a node of depth
`Md` whose id is mapped, the leaf's mesh id and the one its chunk records are that id, and every
node of depth `Md` above the leaf has that id; every node of depth greater than `Md` has mesh
id 0. -/
theorem C26_mesh_ids_after_UpdateLOD (D Md : Nat) (L : Int) (t : FChunkOctree) (fuel : Nat)
    (hD : D ≤ 19) (hM : Md ≤ D) (h0 : 0 ≤ L) (hL : L ≤ (Md : Int))
    (hwf : FChunkOctree.WellFormed t) (hdep : t.Depth = D)
    (hid : t.Id = FOctree.GetTopIdFromDepth D) (hpre : FChunkOctree.Unassigned Md t)
    (hfuel : D < fuel) :
    ∃ t', FChunkOctree.UpdateLOD (FVoxelRender.afterLoad L D Md) fuel t = Except.ok t'
      ∧ (∀ n ∈ t'.nodes, n.bHasChunk = true →
          ∃ a ∈ t'.nodes, a.Depth = Md ∧ n ∈ a.nodes ∧ n.MeshId = a.Id
            ∧ (∀ v, n.VoxelChunk = some v → v.MeshId = a.Id)
            ∧ a.Id ∈ FOctree.GetIDsAt (FOctree.GetTopIdFromDepth D) D Md []
            ∧ ∀ a' ∈ t'.nodes, a'.Depth = Md → n ∈ a'.nodes → a'.Id = a.Id)
      ∧ (∀ n ∈ t'.nodes, Md < n.Depth → n.MeshId = 0) := by
  have hidm : t.Id ∈ ids (9 ^ D) D t.Depth := by
    rw [hid, hdep, GetTopIdFromDepth_eq hD, ids_of_le (le_refl D)]
    exact List.mem_singleton.mpr rfl
  obtain ⟨t', e, hmesh⟩ := UpdateLOD_meshIds D Md L hD hM fuel t hwf (by omega) (by omega)
    (by omega) hidm hpre
  obtain ⟨t'', e', hshape, _⟩ := UpdateLOD_shaped (FVoxelRender.afterLoad L D Md) h0 fuel t hwf
    (by omega) (by
      show L ≤ (t.Depth : Int)
      rw [hdep]
      have : (Md : Int) ≤ (D : Int) := by exact_mod_cast hM
      omega)
  have ht : t'' = t' := by
    rw [e] at e'
    injection e' with e'
    exact e'.symm
  subst ht
  refine ⟨t'', e, ?_, fun n hn h => (hmesh n hn).1 h⟩
  intro n hn hb
  obtain ⟨h1, h2, _⟩ := hshape n hn
  have hnd : n.Depth ≤ Md := by
    by_contra hgt
    have hlt : (FVoxelRender.afterLoad L D Md).LOD < (n.Depth : Int) := by
      show L < (n.Depth : Int)
      omega
    rw [(h2 hlt).2.2.1] at hb
    cases hb
  obtain ⟨⟨a, ha, had, hna, hHa⟩, hu⟩ := (hmesh n hn).2 hnd
  obtain ⟨hm1, hm2⟩ := hu a ha had hna
  refine ⟨a, ha, had, hna, hm1, hm2, of_decide_eq_true hHa, ?_⟩
  intro a' ha' had' hna'
  rw [← (hu a' ha' had' hna').1, hm1]

/-- C26 (amended) on the root the constructor builds for world depth 2, with mesh depth 1 and
target LOD 0. -/
theorem C26_mesh_ids_after_UpdateLOD_witness :
    ∃ t', FChunkOctree.UpdateLOD (FVoxelRender.afterLoad 0 2 1) 3
          (FChunkOctree.mk ⟨0, 0, 0⟩ 2 81 false [] false 0 none) = Except.ok t'
      ∧ (∀ n ∈ t'.nodes, n.bHasChunk = true →
          ∃ a ∈ t'.nodes, a.Depth = 1 ∧ n ∈ a.nodes ∧ n.MeshId = a.Id
            ∧ (∀ v, n.VoxelChunk = some v → v.MeshId = a.Id)
            ∧ a.Id ∈ FOctree.GetIDsAt (FOctree.GetTopIdFromDepth 2) 2 1 []
            ∧ ∀ a' ∈ t'.nodes, a'.Depth = 1 → n ∈ a'.nodes → a'.Id = a.Id)
      ∧ (∀ n ∈ t'.nodes, 1 < n.Depth → n.MeshId = 0) :=
  C26_mesh_ids_after_UpdateLOD 2 1 0 (FChunkOctree.mk ⟨0, 0, 0⟩ 2 81 false [] false 0 none) 3
    (by decide) (by decide) (by decide) (by decide)
    (wf_leaf_or_empty (by decide) (by decide) rfl) rfl (by decide)
    (fun n hn => by
      rw [mem_nodes_iff] at hn
      rcases hn with rfl | ⟨c, hc, _⟩
      · exact ⟨rfl, fun _ => ⟨rfl, rfl⟩⟩
      · simp [FChunkOctree.Childs] at hc)
    (by decide)

end Voxel
